import Mathlib

/-!
# Godot asset documents: escape decoder, resource tables and section headers

A shallow embedding of the parser core of `alfish.godot-files-0.0.9/dist/extension.js`
(`GDAsset`, `sectionSymbol`, `GDAssetProvider.unescapeString`, `escCode`).

JavaScript strings are sequences of UTF-16 code units; they are embedded as lists of
natural numbers (`JSString`), one number per code unit.  Every regular expression of the
source is embedded as a dedicated matcher whose doc comment quotes the expression and
explains, alternative by alternative, how its backtracking search resolves.
-/

namespace GodotFiles

/-! ## Strings and character classes -/

/-- A JavaScript string: its UTF-16 code units in order, each a natural number. -/
abbrev JSString := List Nat

/-- UTF-16 code units of one Unicode scalar value. -/
def utf16 (c : Char) : JSString :=
  if c.toNat < 65536 then [c.toNat]
  else [55296 + (c.toNat - 65536) / 1024, 56320 + (c.toNat - 65536) % 1024]

/-- The JavaScript string written by a literal. -/
def js (s : String) : JSString := s.toList.flatMap utf16

/-- Backslash, U+005C. -/
abbrev BACKSLASH : Nat := 92

/-- Double quote, U+0022. -/
abbrev QUOTE : Nat := 34

/-- Class `\d`: `[0-9]`. -/
def isDigit (c : Nat) : Bool := decide (48 ≤ c) && decide (c ≤ 57)

/-- Class `\w` (no `i` flag): `[A-Za-z0-9_]`. -/
def isWord (c : Nat) : Bool :=
  (decide (65 ≤ c) && decide (c ≤ 90)) || (decide (97 ≤ c) && decide (c ≤ 122)) ||
    isDigit c || c == 95

/-- Class `[0-9A-Fa-f]`. -/
def isHex (c : Nat) : Bool :=
  isDigit c || (decide (65 ≤ c) && decide (c ≤ 70)) || (decide (97 ≤ c) && decide (c ≤ 102))

/-- Line terminators of ECMAScript: LF, CR, U+2028, U+2029.  The regular expression atom `.`
(without the `s` flag) matches every code unit except these, and `$` under the `m` flag
matches before each of them. -/
def isLineTerminator (c : Nat) : Bool := c == 10 || c == 13 || c == 8232 || c == 8233

/-- Class `\s`: the ECMAScript white space and line terminator code units. -/
def isSpace (c : Nat) : Bool :=
  c == 9 || c == 10 || c == 11 || c == 12 || c == 13 || c == 32 || c == 160 || c == 5760 ||
    (decide (8192 ≤ c) && decide (c ≤ 8202)) || c == 8232 || c == 8233 || c == 8239 ||
    c == 8287 || c == 12288 || c == 65279

/-- Class `[^"\\]`. -/
def isPlainChar (c : Nat) : Bool := c != QUOTE && c != BACKSLASH

/-- A leading (high) surrogate code unit. -/
def isHighSurrogate (c : Nat) : Bool := decide (55296 ≤ c) && decide (c ≤ 56319)

/-- A trailing (low) surrogate code unit. -/
def isLowSurrogate (c : Nat) : Bool := decide (56320 ≤ c) && decide (c ≤ 57343)

/-- Value of one hexadecimal digit (0 for any other code unit). -/
def hexDigitValue (c : Nat) : Nat :=
  if isDigit c then c - 48
  else if decide (65 ≤ c) && decide (c ≤ 70) then c - 55
  else if decide (97 ≤ c) && decide (c ≤ 102) then c - 87
  else 0

/-- The source's `parseInt(digits, 16)` on a string of hexadecimal digits. -/
def parseHex (digits : JSString) : Nat :=
  digits.foldl (fun acc d => 16 * acc + hexDigitValue d) 0

/-- The source's `String.fromCharCode(n)`: the single code unit `n` modulo `2^16`. -/
def fromCharCode (n : Nat) : JSString := [n % 65536]

/-! ## Escape decoder -/

/-- One match of the decoder's expression: the length of `m[0]` in code units and the two
capture groups `m[1]`, `m[2]` (`none` for `undefined`). -/
structure EscapeMatch where
  len : Nat
  g1 : Option JSString
  g2 : Option JSString
deriving DecidableEq, Repr

/-- The atom `[^]` under the `u` flag: one code point at the head of the text, which is a
surrogate pair when a high surrogate is followed by a low one and one code unit otherwise. -/
def codePointAt : JSString → JSString
  | [] => []
  | c :: t =>
    match t with
    | d :: _ => if isHighSurrogate c && isLowSurrogate d then [c, d] else [c]
    | [] => [c]

/-- The match of
`/\\(["bfnrt\\]|u[0-9A-Fa-f]{4}|U[0-9A-Fa-f]{6})|\\$|\\?([^])/gmu`
that starts at the head of the text (`none` at the end of the text; everywhere else one of the
alternatives matches, so the matches of `matchAll` tile the text from left to right).
* alternative 1, `\\(...)`: a backslash and a simple escape letter, or `u` with four
  hexadecimal digits, or `U` with six; group 1 is what follows the backslash;
* alternative 2, `\\$`: a backslash at the end of the text or, by the `m` flag, before a line
  terminator; no group is set;
* alternative 3, `\\?([^])`: an optional backslash and one code point, which is group 2. -/
def unescapeMatchAt : JSString → Option EscapeMatch
  | [] => none
  | c :: t =>
    if c = BACKSLASH then
      match t with
      | [] => some ⟨1, none, none⟩
      | e :: t1 =>
        if e = QUOTE ∨ e = 98 ∨ e = 102 ∨ e = 110 ∨ e = 114 ∨ e = 116 ∨ e = BACKSLASH then
          some ⟨2, some [e], none⟩
        else if e = 117 ∧ 4 ≤ t1.length ∧ (t1.take 4).all isHex then
          some ⟨6, some (e :: t1.take 4), none⟩
        else if e = 85 ∧ 6 ≤ t1.length ∧ (t1.take 6).all isHex then
          some ⟨8, some (e :: t1.take 6), none⟩
        else if isLineTerminator e then
          some ⟨1, none, none⟩
        else
          some ⟨1 + (codePointAt t).length, none, some (codePointAt t)⟩
    else
      some ⟨(codePointAt (c :: t)).length, none, some (codePointAt (c :: t))⟩

/-- The body of the decoder's loop, `switch (m[1])`: the text appended for one match. -/
def unescapeCase (m : EscapeMatch) : JSString :=
  match m.g1 with
  | none => m.g2.getD []
  | some g =>
    if g = [BACKSLASH] ∨ g = [QUOTE] then g
    else if g = [110] then [10]
    else if g = [116] then [9]
    else if g = [114] then [13]
    else if g = [98] then [8]
    else if g = [102] then [12]
    else if g = [] then m.g2.getD []
    else fromCharCode (parseHex (g.drop 1))

/-- The loop `for (const m of text.matchAll(...))` of the decoder: `skip` counts the code
units of the current match that are still to be passed over; at `skip = 0` the next match
starts at the head of the remaining text. -/
def unescapeLoop : Nat → JSString → JSString
  | _, [] => []
  | skip + 1, _ :: t => unescapeLoop skip t
  | 0, c :: t =>
    match unescapeMatchAt (c :: t) with
    | some m => unescapeCase m ++ unescapeLoop (m.len - 1) t
    | none => []

/-- The source's `GDAssetProvider.unescapeString(partInsideQuotes)`. -/
def unescapeString (partInsideQuotes : JSString) : JSString :=
  unescapeLoop 0 partInsideQuotes

/-- The source's `escCode(s)`, `s.replace(/("|\\)/g, '\\$1')`: a backslash is put before every
double quote and every backslash. -/
def escCode : JSString → JSString
  | [] => []
  | c :: t => if c = QUOTE ∨ c = BACKSLASH then BACKSLASH :: c :: escCode t else c :: escCode t

/-! ## Positions, ranges and symbols (the `vscode` types the source builds) -/

/-- A `vscode.Position`. -/
structure Position where
  line : Nat
  character : Nat
deriving DecidableEq, Repr

/-- A `vscode.Range`; `end_` is its `end`. -/
structure Range where
  start : Position
  end_ : Position
deriving DecidableEq, Repr

/-- The members of `vscode.SymbolKind` the source uses. -/
inductive SymbolKind where
  | File | Namespace | Property | Variable | Object | Array | Boolean | Event
deriving DecidableEq, Repr

/-- A `vscode.DocumentSymbol`; `new DocumentSymbol(name, detail, kind, range, selectionRange)`
starts with no children. -/
structure DocumentSymbol where
  name : JSString
  detail : JSString
  kind : SymbolKind
  range : Range
  selectionRange : Range
  children : List DocumentSymbol
deriving Repr

/-! ## Resource descriptors and the two resource tables -/

/-- The source's `GDResource`.  Its `symbol` field is a reference to the section symbol that
declared the resource; a symbol's `selectionRange` is never reassigned after construction, so
the reference is embedded as that range. -/
structure GDResource where
  path : JSString
  type : JSString
  symbol : Range
deriving DecidableEq, Repr

/-- What reading a property of a resource table can yield.  The tables are plain object
literals (`ExtResource: {}`), so a read that finds no own property continues along the
prototype chain. -/
inductive TableValue where
  /-- The value `undefined`: the property is found nowhere. -/
  | undefined
  /-- A resource descriptor. -/
  | resource (r : GDResource)
  /-- A string. -/
  | text (s : JSString)
  /-- A `DocumentSymbol` object, named by its selection range. -/
  | symbolRef (selectionRange : Range)
  /-- The object `Object.prototype`. -/
  | objectPrototype
  /-- The function stored in `Object.prototype` under the given name. -/
  | builtin (name : JSString)
deriving DecidableEq, Repr

/-- Names of the function-valued properties of `Object.prototype` (ECMAScript, with Annex B). -/
def objectPrototypeMethods : List JSString :=
  [js "constructor", js "hasOwnProperty", js "isPrototypeOf", js "propertyIsEnumerable",
   js "toLocaleString", js "toString", js "valueOf", js "__defineGetter__",
   js "__defineSetter__", js "__lookupGetter__", js "__lookupSetter__"]

/-- Reading `Object.prototype[id]` for an `id` other than `__proto__`. -/
def objectPrototypeGet (id : JSString) : TableValue :=
  if id ∈ objectPrototypeMethods then .builtin id else .undefined

/-- One of the objects `refs.ExtResource`, `refs.SubResource`: its own properties, newest
first, and the descriptor that an assignment to `__proto__` has installed as its prototype
(`none` while the prototype is still `Object.prototype`). -/
structure ResourceTable where
  own : List (JSString × GDResource)
  proto : Option GDResource
deriving DecidableEq, Repr

/-- The object literal `{}`. -/
def ResourceTable.empty : ResourceTable := ⟨[], none⟩

/-- The read `table[id]`.  The name `__proto__` never becomes an own property (an assignment
to it runs the inherited setter), so its read runs the accessor inherited from
`Object.prototype`, which returns the table's prototype.  Every other name is looked up among
the own properties, then among the properties of an installed prototype descriptor, then in
`Object.prototype`. -/
def ResourceTable.get (table : ResourceTable) (id : JSString) : TableValue :=
  if id = js "__proto__" then
    match table.proto with
    | some r => .resource r
    | none => .objectPrototype
  else
    match table.own.lookup id with
    | some r => .resource r
    | none =>
      match table.proto with
      | some r =>
        if id = js "path" then .text r.path
        else if id = js "type" then .text r.type
        else if id = js "symbol" then .symbolRef r.symbol
        else objectPrototypeGet id
      | none => objectPrototypeGet id

/-- The assignment `table[id] = r` of a descriptor object: for `__proto__` the inherited setter
replaces the table's prototype, every other name becomes (or overwrites) an own property. -/
def ResourceTable.set (table : ResourceTable) (id : JSString) (r : GDResource) : ResourceTable :=
  if id = js "__proto__" then { table with proto := some r }
  else { table with own := (id, r) :: table.own }

/-- The source's `refs` object of a `GDAsset`. -/
structure Refs where
  ExtResource : ResourceTable
  SubResource : ResourceTable
deriving DecidableEq, Repr

/-- The read `refs[keyword]` for a keyword matched by `(?:Ext|Sub)Resource`. -/
def Refs.table (refs : Refs) (keyword : JSString) : ResourceTable :=
  if keyword = js "ExtResource" then refs.ExtResource else refs.SubResource

/-- An entry of `GDAsset.strings` or `GDAsset.comments`. -/
structure Token where
  range : Range
  value : JSString
deriving DecidableEq, Repr

/-- The source's class `GDAsset`: the state kept for one document. -/
structure GDAsset where
  rootNode : Option JSString
  resource : Option GDResource
  refs : Refs
  strings : List Token
  comments : List Token
deriving DecidableEq, Repr

/-- The state made by `new GDAsset()`. -/
def GDAsset.new : GDAsset :=
  { rootNode := none, resource := none,
    refs := { ExtResource := ResourceTable.empty, SubResource := ResourceTable.empty },
    strings := [], comments := [] }

/-- The groups of a match of the resource call expression: `match[1]`, `match[2]`,
`match[3]`. -/
structure ResCallMatch where
  g1 : JSString
  g2 : Option JSString
  g3 : Option JSString
deriving DecidableEq, Repr

/-- The tail `\s*\)$` of the resource call expression: white space, the closing parenthesis
and the end of the text (no `m` flag). -/
def resCallCloses (r : JSString) : Bool := r.dropWhile isSpace == [41]

/-- The match `code.match(/^((?:Ext|Sub)Resource)\s*\(\s*(?:(\d+)|"([^"\\]*)")\s*\)$/)`.
Each greedy run (`\s*`, `\d+`, `[^"\\]*`) is followed by a code unit outside its class, so
only the longest run can lead to a match and the search is deterministic. -/
def resCallMatch (code : JSString) : Option ResCallMatch :=
  let keyword := code.take 11
  if keyword = js "ExtResource" ∨ keyword = js "SubResource" then
    match (code.drop 11).dropWhile isSpace with
    | 40 :: r2 =>
      match r2.dropWhile isSpace with
      | [] => none
      | c :: r4 =>
        if isDigit c then
          if resCallCloses ((c :: r4).dropWhile isDigit) then
            some ⟨keyword, some ((c :: r4).takeWhile isDigit), none⟩
          else none
        else if c = QUOTE then
          match r4.dropWhile isPlainChar with
          | 34 :: r5 =>
            if resCallCloses r5 then
              some ⟨keyword, none, some (r4.takeWhile isPlainChar)⟩
            else none
          | _ => none
        else none
    | _ => none
  else none

/-- The object `{ keyword, id, resource }` returned by `resCall`. -/
structure ResCall where
  keyword : JSString
  id : JSString
  resource : TableValue
deriving DecidableEq, Repr

/-- The source's `GDAsset.resCall(code)`; `none` is `null`. -/
def GDAsset.resCall (gdasset : GDAsset) (code : JSString) : Option ResCall :=
  match resCallMatch code with
  | none => none
  | some m =>
    let keyword := m.g1
    let id := match m.g2 with
      | some digits => digits
      | none => unescapeString (m.g3.getD [])
    let resource := (gdasset.refs.table keyword).get id
    some { keyword := keyword, id := id, resource := resource }

/-! ## Node paths and file names -/

/-- The tail `(?:[A-Za-z_]\w*\/)*[A-Za-z_]\w*$` of the node code expression; `inSegment` tells
whether the head of the text continues a segment that has begun. -/
def nodeSegments : Bool → JSString → Bool
  | inSegment, [] => inSegment
  | false, c :: t => (isWord c && !isDigit c) && nodeSegments true t
  | true, c :: t => if c = 47 then nodeSegments false t else isWord c && nodeSegments true t

/-- The test `/^\/?(?:[A-Za-z_]\w*\/)*[A-Za-z_]\w*$/.test(path)`: an optional leading slash,
then segments that begin with a letter or underscore, separated by single slashes. -/
def nodeCodeTest (path : JSString) : Bool :=
  match path with
  | 47 :: t => nodeSegments false t
  | _ => nodeSegments false path

/-- The source's `GDAsset.nodeCode(path, percent = false)`. -/
def GDAsset.nodeCode (path : JSString) (percent : Bool := false) : JSString :=
  (if percent then js "%" else js "$") ++
    (if nodeCodeTest path then path else js "\"" ++ path ++ js "\"")

/-- JavaScript truthiness of a value that is `undefined` or a string. -/
def truthy : Option JSString → Bool
  | some (_ :: _) => true
  | _ => false

/-- The source's `GDAsset.nodePath(n)`. -/
def GDAsset.nodePath (gdasset : GDAsset) (n : JSString) : JSString :=
  if !truthy gdasset.rootNode || !truthy (some n) then n
  else if n = js "." then GDAsset.nodeCode (js "/root/" ++ gdasset.rootNode.getD [])
  else if n.take 2 = js "./" then GDAsset.nodeCode (n.drop 2)
  else GDAsset.nodeCode n

/-- The part of a text after its last slash (U+002F); the whole text when it has none. -/
def afterLastSlash (s : JSString) : JSString := (s.reverse.takeWhile (fun c => c != 47)).reverse

/-- Groups 1 and 2 of `(.*?)(\.\w*)?$` on a text without line terminators: the lazy group 1
is the shortest prefix after which a dot and word characters run to the end, else everything. -/
def splitExtension : JSString → JSString × Option JSString
  | [] => ([], none)
  | c :: t =>
    if c = 46 ∧ t.all isWord then ([], some (c :: t))
    else ((c :: (splitExtension t).1), (splitExtension t).2)

/-- Groups 1 and 2 (`fileTitle`, `ext`) of `/^\/(?:.*\/)*(.*?)(\.\w*)?$/.exec(docUriPath)`, or
`none` when there is no match.  A match needs a leading slash and, since `$` is the end of the
text and no atom matches a line terminator, a text free of line terminators; the greedy
`(?:.*\/)*` then stops after the last slash, where the remaining pattern always matches. -/
def sceneFileName (docUriPath : JSString) : Option (JSString × Option JSString) :=
  match docUriPath with
  | 47 :: body =>
    if body.any isLineTerminator then none else some (splitExtension (afterLastSlash body))
  | _ => none

/-- The source's `document.uri.path.replace(/^\/(.*\/)*/, '')`: without a leading slash nothing
is replaced; otherwise the greedy group removes everything up to the last slash that no line
terminator precedes. -/
def resourceFileName (docUriPath : JSString) : JSString :=
  match docUriPath with
  | 47 :: body =>
    let line := body.takeWhile (fun c => !isLineTerminator c)
    body.drop (line.length - (afterLastSlash line).length)
  | _ => docUriPath

/-- The tail `(::.*)?$` of the file name expression. -/
def subPathMatches (r : JSString) : Bool :=
  r == [] || (r.take 2 == [58, 58] && !(r.drop 2).any isLineTerminator)

/-- The tail `[^./\\<>]*(::.*)?$` of the file name expression. -/
def extensionTailMatches : JSString → Bool
  | [] => true
  | c :: t =>
    subPathMatches (c :: t) ||
      ((c != 46 && c != 47 && c != 92 && c != 60 && c != 62) && extensionTailMatches t)

/-- The tail `(\.[^./\\<>]*)?(::.*)?$` of the file name expression. -/
def extensionSubPathMatches (r : JSString) : Bool :=
  (match r with
    | 46 :: e => extensionTailMatches e
    | _ => false) || subPathMatches r

/-- Group 1 of `([^/\\]*?)(\.[^./\\<>]*)?(::.*)?$` at the head of the text: the lazy group takes
the shortest run of characters other than slash and backslash after which the tail matches. -/
def fileTitleAt : JSString → Option JSString
  | [] => some []
  | c :: t =>
    if extensionSubPathMatches (c :: t) then some []
    else if c = 47 ∨ c = 92 then none
    else (fileTitleAt t).map (fun title => c :: title)

/-- The `title` (group 1) of the source's `GDAsset.filename(resPath)`,
`/^(?:.*[/\\])?([^/\\]*?)(\.[^./\\<>]*)?(::.*)?$/.exec(resPath)`, or `none` when there is no
match.  The greedy optional prefix `.*[/\\]` is tried at every slash or backslash that no line
terminator precedes, the last one first, and then left out. -/
def GDAsset.filenameTitle (resPath : JSString) : Option JSString :=
  let line := resPath.takeWhile (fun c => !isLineTerminator c)
  let slashes := ((List.range line.length).filter
    (fun i => line.get? i == some 47 || line.get? i == some 92)).reverse
  match slashes.findSome? (fun i => fileTitleAt (resPath.drop (i + 1))) with
  | some title => some title
  | none => fileTitleAt resPath

/-! ## Section headers -/

/-- One match of the attribute expression: the length of `assignment[0]` and the groups
`assignment[1]` to `assignment[4]`. -/
structure AttributeMatch where
  len : Nat
  g1 : JSString
  g2 : Option JSString
  g3 : Option JSString
  g4 : Option JSString
deriving DecidableEq, Repr

/-- The assertion `\b` between two neighbouring code units (`none` beyond either end). -/
def wordBoundary (before after : Option Nat) : Bool :=
  (before.map isWord).getD false != (after.map isWord).getD false

/-- Class `[\w-]`. -/
def isKeyChar (c : Nat) : Bool := isWord c || c == 45

/-- The value part `(?:(\d+)|"([^"\\]*)"|((?:Ext|Sub)Resource\s*\(.*?\)))` at the head of the
text: its length and groups 2, 3 and 4.  The three alternatives begin with different code
units; the lazy `.*?` stops at the first closing parenthesis of the line. -/
def attributeValueAt (s : JSString) :
    Option (Nat × Option JSString × Option JSString × Option JSString) :=
  match s with
  | [] => none
  | c :: t =>
    if isDigit c then
      some ((s.takeWhile isDigit).length, some (s.takeWhile isDigit), none, none)
    else if c = QUOTE then
      match t.dropWhile isPlainChar with
      | 34 :: _ => some ((t.takeWhile isPlainChar).length + 2, none,
          some (t.takeWhile isPlainChar), none)
      | _ => none
    else if s.take 11 = js "ExtResource" ∨ s.take 11 = js "SubResource" then
      match (s.drop 11).dropWhile isSpace with
      | 40 :: r =>
        match r.dropWhile (fun u => u != 41 && !isLineTerminator u) with
        | 41 :: _ =>
          let n := 11 + ((s.drop 11).takeWhile isSpace).length + 1 +
            (r.takeWhile (fun u => u != 41 && !isLineTerminator u)).length + 1
          some (n, none, none, some (s.take n))
        | _ => none
      | _ => none
    else none

/-- The match of
`/\b([\w-]+)\b\s*=\s*(?:(\d+)|"([^"\\]*)"|((?:Ext|Sub)Resource\s*\(.*?\)))/g`
that starts at the head of `s`, where `before` is the code unit in front of it.  A key shorter
than the longest run of `[\w-]` is followed by another key character, which neither `\s*` nor
`=` matches, so only the longest run can be the key, and the second `\b` then asks for its
last code unit to be a word character. -/
def attributeMatchAt (before : Option Nat) (s : JSString) : Option AttributeMatch :=
  let key := s.takeWhile isKeyChar
  if wordBoundary before s.head? && (key.getLast?.map isWord).getD false then
    match (s.dropWhile isKeyChar).dropWhile isSpace with
    | 61 :: r =>
      match attributeValueAt (r.dropWhile isSpace) with
      | some (n, g2, g3, g4) =>
        some ⟨key.length + ((s.dropWhile isKeyChar).takeWhile isSpace).length + 1 +
          (r.takeWhile isSpace).length + n, key, g2, g3, g4⟩
      | none => none
    | _ => none
  else none

/-- The matches of `rest.matchAll(...)` for the attribute expression, left to right: `skip`
counts the code units of the current match still to be passed over, `before` is the code unit
in front of the head of the text. -/
def attributeMatches : Nat → Option Nat → JSString → List AttributeMatch
  | _, _, [] => []
  | skip + 1, _, c :: t => attributeMatches skip (some c) t
  | 0, before, c :: t =>
    match attributeMatchAt before (c :: t) with
    | some m => m :: attributeMatches (m.len - 1) (some c) t
    | none => attributeMatches 0 (some c) t

/-- The code unit in front of the text that follows `xs`, where `before` is the one in front
of `xs`. -/
def lastBefore : Option Nat → JSString → Option Nat
  | before, [] => before
  | _, c :: t => lastBefore (some c) t

/-- The object `attributes` of `sectionSymbol`: its own properties, newest first. -/
abbrev Attributes := List (JSString × JSString)

/-- The read `attributes.key` (`none` for `undefined`); none of the names the source reads is
a property of `Object.prototype`. -/
def Attributes.get (attributes : Attributes) (key : String) : Option JSString :=
  attributes.lookup (js key)

/-- The assignment `attributes[key] = value` of a string: the inherited `__proto__` setter
ignores a string, every other name becomes an own property. -/
def Attributes.set (attributes : Attributes) (key value : JSString) : Attributes :=
  if key = js "__proto__" then attributes else (key, value) :: attributes

/-- The attribute loop of `sectionSymbol`: the final `attributes` object and `id` variable. -/
def sectionAttributes (rest : JSString) : Attributes × Option JSString :=
  (attributeMatches 0 none rest).foldl
    (fun acc assignment =>
      let value := match assignment.g2, assignment.g4 with
        | some digits, _ => digits
        | none, some call => call
        | none, none => unescapeString (assignment.g3.getD [])
      (acc.1.set assignment.g1 value, if assignment.g1 = js "id" then some value else acc.2))
    ([], none)

/-- The text of a template literal slot `${value}`. -/
def templateText (value : Option JSString) : JSString := value.getD (js "undefined")

/-- The `path` read by `gdasset.resCall(...)?.resource?.path`. -/
def resCallPath (call : Option ResCall) : Option JSString :=
  match call with
  | some { resource := .resource r, .. } => some r.path
  | _ => none

/-- The source's `sectionSymbol(document, match, range, gdasset)`: `docUriPath` is
`document.uri.path`, `tag` and `rest` are `match[2]` and `match[3]`.  Returns the symbol and
the state of `gdasset` after the call. -/
def sectionSymbol (docUriPath tag rest : JSString) (range : Range) (gdasset : GDAsset) :
    DocumentSymbol × GDAsset :=
  let attributes := (sectionAttributes rest).1
  let id := (sectionAttributes rest).2
  let symbol : DocumentSymbol :=
    { name := tag, detail := rest, kind := .Namespace, range := range, selectionRange := range,
      children := [] }
  if tag = js "gd_scene" then
    let fileTitle := ((sceneFileName docUriPath).getD (docUriPath, none)).1
    let ext := ((sceneFileName docUriPath).getD (docUriPath, none)).2
    ({ symbol with name := fileTitle, detail := js "PackedScene", kind := .File },
     { gdasset with
        resource := some { path := fileTitle ++ ext.getD [], type := js "PackedScene",
                           symbol := range } })
  else if tag = js "gd_resource" then
    let fileName := resourceFileName docUriPath
    let type := (attributes.get "type").getD []
    ({ symbol with name := fileName, detail := type, kind := .File },
     { gdasset with resource := some { path := fileName, type := type, symbol := range } })
  else if tag = js "ext_resource" then
    let type := (attributes.get "type").getD []
    ({ symbol with name := (attributes.get "path").getD tag, detail := type, kind := .Variable },
     if truthy id then
       { gdasset with
          refs := { gdasset.refs with
            ExtResource := gdasset.refs.ExtResource.set (id.getD [])
              { path := (attributes.get "path").getD (js "?"), type := type, symbol := range } } }
     else gdasset)
  else if tag = js "sub_resource" then
    let type := (attributes.get "type").getD []
    if truthy id then
      let subPath := js "::" ++ id.getD []
      ({ symbol with name := subPath, detail := type, kind := .Object },
       { gdasset with
          refs := { gdasset.refs with
            SubResource := gdasset.refs.SubResource.set (id.getD [])
              { path := (gdasset.resource.map (fun r => r.path)).getD [] ++ subPath,
                type := type, symbol := range } } })
    else ({ symbol with detail := type, kind := .Object }, gdasset)
  else if tag = js "node" then
    let named : JSString × GDAsset :=
      match attributes.get "parent" with
      | none =>
        if truthy (attributes.get "name") then
          (GDAsset.nodeCode (js "/root/" ++ (attributes.get "name").getD []),
           { gdasset with rootNode := attributes.get "name" })
        else (tag, gdasset)
      | some parent =>
        (gdasset.nodePath (parent ++ js "/" ++ templateText (attributes.get "name")), gdasset)
    let detail : JSString :=
      if truthy (attributes.get "type") then (attributes.get "type").getD []
      else if truthy (attributes.get "index") then js "@" ++ (attributes.get "index").getD []
      else if truthy (attributes.get "instance_placeholder") then
        let path := (attributes.get "instance_placeholder").getD []
        js "InstancePlaceholder # " ++ (GDAsset.filenameTitle path).getD path
      else if truthy (attributes.get "instance") then
        let path := (resCallPath
          (named.2.resCall ((attributes.get "instance").getD []))).getD (js "?")
        js "# " ++ (GDAsset.filenameTitle path).getD path
      else []
    ({ symbol with name := named.1, detail := detail, kind := .Object }, named.2)
  else if tag = js "connection" then
    if truthy (attributes.get "signal") && truthy (attributes.get "from") &&
        truthy (attributes.get "to") && truthy (attributes.get "method") then
      ({ symbol with
          name := gdasset.nodePath ((attributes.get "from").getD []) ++ js "." ++
            (attributes.get "signal").getD [] ++ js ".connect(" ++
            gdasset.nodePath ((attributes.get "to").getD []) ++ js "." ++
            (attributes.get "method").getD [] ++ js ")",
          detail := [], kind := .Event }, gdasset)
    else ({ symbol with kind := .Event }, gdasset)
  else if tag = js "editable" then
    ({ symbol with
        name := js "is_editable_instance(" ++
          gdasset.nodePath ((attributes.get "path").getD []) ++ js ")",
        detail := [], kind := .Boolean }, gdasset)
  else (symbol, gdasset)

/-! ## The node path grammar in the words of the specification, and header sequences -/

/-- An identifier: a letter or an underscore, followed by letters, digits and underscores
(ASCII). -/
def isIdentifier : JSString → Bool
  | [] => false
  | c :: t => (isWord c && !isDigit c) && t.all isWord

/-- The segments of a text between its slashes (U+002F); a text without a slash is one
segment. -/
def slashSegments : JSString → List JSString
  | [] => [[]]
  | c :: t =>
    if c = 47 then [] :: slashSegments t
    else
      match slashSegments t with
      | seg :: segs => (c :: seg) :: segs
      | [] => [[c]]

/-- The identifier-segment grammar: an optional leading slash, then one or more
slash-separated segments, each of them an identifier. -/
def isIdentifierPath (path : JSString) : Bool :=
  match path with
  | 47 :: t => (slashSegments t).all isIdentifier
  | _ => (slashSegments path).all isIdentifier

/-- A section header as `sectionSymbol` receives it: `match[2]`, `match[3]` and the range of
its line. -/
structure Header where
  tag : JSString
  rest : JSString
  range : Range
deriving DecidableEq, Repr

/-- The state of `gdasset` after `sectionSymbol` has processed the headers in order. -/
def afterHeaders (docUriPath : JSString) (headers : List Header) (gdasset : GDAsset) : GDAsset :=
  headers.foldl (fun g h => (sectionSymbol docUriPath h.tag h.rest h.range g).2) gdasset

/-- A header that declares the root node: a `node` header without a `parent` attribute and
with a non-empty `name`. -/
def declaresRoot (h : Header) : Bool :=
  h.tag == js "node" && ((sectionAttributes h.rest).1.get "parent").isNone &&
    truthy ((sectionAttributes h.rest).1.get "name")

/-! ## Positions and ranges of the `vscode` API -/

/-- The method `a.isBefore(b)` of `vscode.Position`. -/
def Position.isBefore (a b : Position) : Bool :=
  decide (a.line < b.line) || (a.line == b.line && decide (a.character < b.character))

/-- The method `a.isBeforeOrEqual(b)` of `vscode.Position`. -/
def Position.isBeforeOrEqual (a b : Position) : Bool := !(b.isBefore a)

/-- The constructor `new vscode.Range(start, end)`: it keeps the two positions in order, putting
the earlier one first. -/
def Range.new (a b : Position) : Range :=
  if a.isBefore b then ⟨a, b⟩ else ⟨b, a⟩

/-- The method `range.contains(position)` of `vscode.Range`: the position is inside or equal
to either end of the range. -/
def Range.contains (r : Range) (p : Position) : Bool :=
  !(p.isBefore r.start) && !(r.end_.isBefore p)

/-- The source's `GDAsset.isInString(place)` for a position. -/
def GDAsset.isInString (gdasset : GDAsset) (place : Position) : Bool :=
  gdasset.strings.any (fun token => token.range.contains place)

/-- The source's `GDAsset.isInComment(place)` for a position. -/
def GDAsset.isInComment (gdasset : GDAsset) (place : Position) : Bool :=
  gdasset.comments.any (fun token => token.range.contains place)

/-- The source's `GDAsset.isNonCode(place)`. -/
def GDAsset.isNonCode (gdasset : GDAsset) (place : Position) : Bool :=
  gdasset.isInString place || gdasset.isInComment place

/-! ## Code points (expressions with the `u` flag match code points, not code units) -/

/-- The code point of a surrogate pair. -/
def pairValue (high low : Nat) : Nat := 65536 + (high - 55296) * 1024 + (low - 56320)

/-- The code points of a string: a high surrogate followed by a low one is one code point,
every other code unit is a code point of its own. -/
def codePoints : JSString → List Nat
  | [] => []
  | [c] => [c]
  | c :: d :: t =>
    if isHighSurrogate c && isLowSurrogate d then pairValue c d :: codePoints t
    else c :: codePoints (d :: t)

/-- The code units of one code point. -/
def unitsOfCodePoint (cp : Nat) : JSString :=
  if cp < 65536 then [cp] else [55296 + (cp - 65536) / 1024, 56320 + (cp - 65536) % 1024]

/-- The code units of a sequence of code points. -/
def unitsOf (cps : List Nat) : JSString := cps.flatMap unitsOfCodePoint

/-- Class `[\p{L}\w-]` on code points.  The ASCII letters are in `\w`; for the other code
points `letter` is the table of the Unicode General_Category L, which the source takes from
the JavaScript engine (no white space character is a letter). -/
def isTagChar (letter : Nat → Bool) (cp : Nat) : Bool :=
  isWord cp || cp == 45 || (decide (128 ≤ cp) && !isSpace cp && letter cp)

/-- The letters of General_Category L between U+0080 and U+00FF; as a table for `isTagChar` it
is exact on texts below U+0100. -/
def latin1Letter (cp : Nat) : Bool :=
  cp == 170 || cp == 181 || cp == 186 || (decide (192 ≤ cp) && decide (cp ≤ 214)) ||
    (decide (216 ≤ cp) && decide (cp ≤ 246)) || (decide (248 ≤ cp) && decide (cp ≤ 255))

/-! ## The section header expression -/

/-- The tail `\s*([;#].*)?$` of the header expression (flag `u`, no flag `m`): white space,
then the end of the text or a comment free of line terminators up to the end. -/
def headerTail (s : List Nat) : Bool :=
  match s.dropWhile isSpace with
  | [] => true
  | c :: t => (c == 59 || c == 35) && t.all (fun x => !isLineTerminator x)

/-- Class `[\]{[(=]`. -/
def isCloser (c : Nat) : Bool := c == 93 || c == 123 || c == 91 || c == 40 || c == 61

/-- The part `\s*([\]{[(=])\s*([;#].*)?$` of the header expression at the head of the text. -/
def headerCloses (s : List Nat) : Bool :=
  match s.dropWhile isSpace with
  | [] => false
  | c :: t => isCloser c && headerTail t

/-- Group 3 of `([^;#]*?)\s*([\]{[(=])\s*([;#].*)?$` at the head of the text: the lazy group
grows one code point at a time, up to the first `;` or `#`, until the remainder matches. -/
def headerRest : List Nat → Option (List Nat)
  | [] => none
  | c :: t =>
    if headerCloses (c :: t) then some []
    else if c = 59 ∨ c = 35 then none
    else (headerRest t).map (fun rest => c :: rest)

/-- Group 3 of the part `\s*([^;#]*?)\s*([\]{[(=])\s*([;#].*)?$` that follows the tag.  The
greedy `\s*` in front keeps all the white space: giving some of it back to the lazy group
opens no new way to match. -/
def headerAfterTag (s : List Nat) : Option (List Nat) := headerRest (s.dropWhile isSpace)

/-- The states of the scan of the first tag alternative. -/
inductive TagState where
  | word | space | quote | closed
deriving DecidableEq, Repr

/-- The first tag alternative `[\p{L}\w-]+(?:\s+[\p{L}\w-]+|\s+"[^"\\]*")*` without its
lookahead, scanned greedily from inside the first word: `pos` is the number of code points
passed, `lastEnd` the number passed at the end of the last complete word or quoted string; the
result is the `lastEnd` reached when no further item can be read.  Words, white space and
quoted strings are each followed by a code point outside their class, so only their longest
runs can be continued. -/
def tagScan (letter : Nat → Bool) : TagState → Nat → Nat → List Nat → Nat
  | _, _, lastEnd, [] => lastEnd
  | .word, pos, lastEnd, c :: t =>
    if isTagChar letter c then tagScan letter .word (pos + 1) (pos + 1) t
    else if isSpace c then tagScan letter .space (pos + 1) lastEnd t
    else lastEnd
  | .space, pos, lastEnd, c :: t =>
    if isSpace c then tagScan letter .space (pos + 1) lastEnd t
    else if isTagChar letter c then tagScan letter .word (pos + 1) (pos + 1) t
    else if c = QUOTE then tagScan letter .quote (pos + 1) lastEnd t
    else lastEnd
  | .quote, pos, lastEnd, c :: t =>
    if c = QUOTE then tagScan letter .closed (pos + 1) (pos + 1) t
    else if c = BACKSLASH then lastEnd
    else tagScan letter .quote (pos + 1) lastEnd t
  | .closed, pos, lastEnd, c :: t =>
    if isSpace c then tagScan letter .space (pos + 1) lastEnd t else lastEnd

/-- The first tag alternative with its lookahead `(?=\s*\])`: the number of code points of the
tag, when the longest sequence of items is followed by white space and `]`.  A shorter sequence
is followed by white space and a further item, never by `]`, so it cannot pass the
lookahead. -/
def headerTagWords (letter : Nat → Bool) (s : List Nat) : Option Nat :=
  match s with
  | [] => none
  | c :: t =>
    if isTagChar letter c then
      let n := tagScan letter .word 1 1 t
      match (s.drop n).dropWhile isSpace with
      | 93 :: _ => some n
      | _ => none
    else none

/-- The second tag alternative `[^[\]\s]+` followed by the remainder of the header expression:
the number of code points of the tag and group 3.  The greedy run is tried at its longest
first and then one code point shorter at a time. -/
def headerTagRun : List Nat → Option (Nat × List Nat)
  | [] => none
  | c :: t =>
    if c != 91 && c != 93 && !isSpace c then
      match headerTagRun t with
      | some (n, rest) => some (n + 1, rest)
      | none => (headerAfterTag t).map (fun rest => (1, rest))
    else none

/-- Groups 2 and 3 (`tag`, `rest`) of the match of the header expression
`/^\s*(\[\s*([\p{L}\w-]+(?:\s+[\p{L}\w-]+|\s+"[^"\\]*")*(?=\s*\])|[^[\]\s]+)\s*([^;#]*?)\s*([\]{[(=]))\s*([;#].*)?$/u`
on the code points of a text, or `none` when it does not match.  The leading `\s*` and the one
after `[` are followed by a code point that is not white space, so they take all of it; the
first tag alternative is tried before the second. -/
def headerMatchCodePoints (letter : Nat → Bool) (text : List Nat) :
    Option (List Nat × List Nat) :=
  match text.dropWhile isSpace with
  | 91 :: afterBracket =>
    let s := afterBracket.dropWhile isSpace
    let words : Option (List Nat × List Nat) :=
      match headerTagWords letter s with
      | some n => (headerAfterTag (s.drop n)).map (fun rest => (s.take n, rest))
      | none => none
    match words with
    | some m => some m
    | none => (headerTagRun s).map (fun m => (s.take m.1, m.2))
  | _ => none

/-- The match of the header expression on a line: `match[2]` and `match[3]` as strings. -/
def headerMatch (letter : Nat → Bool) (text : JSString) : Option (JSString × JSString) :=
  (headerMatchCodePoints letter (codePoints text)).map (fun m => (unitsOf m.1, unitsOf m.2))

/-! ## The property expression -/

/-- The match of the property expression: the length of `match[0]` in code units and the
groups `prop`, `key`, `index`. -/
structure PropertyMatch where
  len : Nat
  prop : JSString
  key : JSString
  index : Option JSString
deriving DecidableEq, Repr

/-- The key `(?:[\p{L}\w-]+[./])*[\p{L}\w-]+` as a scan over the longest run of tag characters,
dots and slashes: `inWord` tells whether the code point before was a tag character.  The run
is a key when it is made of words separated by single dots or slashes. -/
def isKeyRun (letter : Nat → Bool) : Bool → List Nat → Bool
  | inWord, [] => inWord
  | inWord, c :: t =>
    if isTagChar letter c then isKeyRun letter true t
    else if c = 46 ∨ c = 47 then inWord && isKeyRun letter false t
    else false

/-- Class `[\w\\/.:!@$%+-]` of the index. -/
def isIndexChar (c : Nat) : Bool :=
  isWord c || c == 92 || c == 47 || c == 46 || c == 58 || c == 33 || c == 64 || c == 36 ||
    c == 37 || c == 43 || c == 45

/-- The match of
`/^\s*(((?:[\p{L}\w-]+[./])*[\p{L}\w-]+)(?:\s*\[([\w\\/.:!@$%+-]+)\])?)\s*=/u`
on the code points of a text.  What follows the key begins with white space, `[` or `=`, so the
key is the whole run of tag characters, dots and slashes; when a bracketed index follows the
key it must be taken, because `=` cannot match its `[`. -/
def propertyMatchCodePoints (letter : Nat → Bool) (text : List Nat) :
    Option (Nat × List Nat × List Nat × Option (List Nat)) :=
  let lead := text.takeWhile isSpace
  let s := text.dropWhile isSpace
  let isRun := fun c => isTagChar letter c || c == 46 || c == 47
  let key := s.takeWhile isRun
  let afterKey := s.dropWhile isRun
  if isKeyRun letter false key then
    let space1 := afterKey.takeWhile isSpace
    match afterKey.dropWhile isSpace with
    | 61 :: _ => some (lead.length + key.length + space1.length + 1, key, key, none)
    | 91 :: r =>
      let index := r.takeWhile isIndexChar
      match r.dropWhile isIndexChar with
      | 93 :: r2 =>
        if index ≠ [] then
          match r2.dropWhile isSpace with
          | 61 :: _ =>
            some (lead.length + key.length + space1.length + 1 + index.length + 1 +
                (r2.takeWhile isSpace).length + 1,
              key ++ space1 ++ 91 :: index ++ [93], key, some index)
          | _ => none
        else none
      | _ => none
    | _ => none
  else none

/-- The number of code units that the first `k` code points of a text take. -/
def unitLength : Nat → JSString → Nat
  | 0, _ => 0
  | _ + 1, [] => 0
  | _ + 1, [_] => 1
  | k + 1, c :: d :: t =>
    if isHighSurrogate c && isLowSurrogate d then 2 + unitLength k t
    else 1 + unitLength k (d :: t)

/-- The match of the property expression on a text: `match[0].length` is counted in code
units. -/
def propertyMatch (letter : Nat → Bool) (text : JSString) : Option PropertyMatch :=
  (propertyMatchCodePoints letter (codePoints text)).map (fun m =>
    { len := unitLength m.1 text, prop := unitsOf m.2.1,
      key := unitsOf m.2.2.1, index := m.2.2.2.map unitsOf })

/-! ## Comments, white space, bare tokens and quoted strings -/

/-- The match `text.match(/^(\s*)([;#].*)?$/)` (no flags): the length of `match[1]` and
`match[2]`. -/
def commentMatch (text : JSString) : Option (Nat × Option JSString) :=
  match text.dropWhile isSpace with
  | [] => some ((text.takeWhile isSpace).length, none)
  | c :: t =>
    if (c == 59 || c == 35) && t.all (fun x => !isLineTerminator x) then
      some ((text.takeWhile isSpace).length, some (c :: t))
    else none

/-- One repetition of the group `(?:\\(?:["bfnrt\\]|u[0-9A-Fa-f]{4}|U[0-9A-Fa-f]{6}|$)|\\?[^"\r\n])`
of the string expression at the head of the text: the number of code units it takes, 0 when
it does not match (at the end of the text, at a double quote, at CR or LF). -/
def stringPieceLen : JSString → Nat
  | [] => 0
  | c :: t =>
    if c = BACKSLASH then
      match t with
      | [] => 1
      | e :: t1 =>
        if e = QUOTE ∨ e = 98 ∨ e = 102 ∨ e = 110 ∨ e = 114 ∨ e = 116 ∨ e = BACKSLASH then 2
        else if e = 117 ∧ 4 ≤ t1.length ∧ (t1.take 4).all isHex then 6
        else if e = 85 ∧ 6 ≤ t1.length ∧ (t1.take 6).all isHex then 8
        else if isLineTerminator e then 1
        else 1 + (codePointAt t).length
    else if c = QUOTE ∨ c = 13 ∨ c = 10 then 0
    else (codePointAt (c :: t)).length

/-- The length in code units of the longest run `(?:...)+` of such repetitions at the head of
the text; `skip` counts the code units of the current repetition still to be passed. -/
def stringChunkLen : Nat → JSString → Nat
  | _, [] => 0
  | skip + 1, _ :: t => 1 + stringChunkLen skip t
  | 0, c :: t =>
    if stringPieceLen (c :: t) = 0 then 0
    else 1 + stringChunkLen (stringPieceLen (c :: t) - 1) t

/-- The result of the inner loop of the string branch on the text of one line. -/
structure StringLine where
  closed : Bool
  advance : Nat
  value : JSString
deriving DecidableEq, Repr

/-- The inner loop
`for (const [sub] of s.matchAll(/"|(?:...)+/gmu)) { j += sub.length; if (sub == '"') break lines; str += unescapeString(sub) }`
on the text `s` of one line: whether the closing quote was met, the amount added to `j`, and
the text added to `str`.  A match is one double quote or a longest run of repetitions; a CR or
LF, which nothing matches, is passed over without being counted.  `skip` counts the code units
of the current match still to be passed. -/
def scanStringLine : Nat → JSString → StringLine
  | _, [] => ⟨false, 0, []⟩
  | skip + 1, _ :: t => scanStringLine skip t
  | 0, c :: t =>
    if c = QUOTE then ⟨true, 1, []⟩
    else if stringChunkLen 0 (c :: t) = 0 then scanStringLine 0 t
    else
      let n := stringChunkLen 0 (c :: t)
      let later := scanStringLine (n - 1) t
      ⟨later.closed, n + later.advance, unescapeString ((c :: t).take n) ++ later.value⟩

/-- The result of the loop `lines:` of the string branch. -/
structure StringScan where
  lines : Nat
  advance : Nat
  value : JSString
deriving DecidableEq, Repr

/-- The loop `lines: while (true)` of the string branch: `first` is the text after the opening
quote, `later` the lines that follow.  The result tells on which line after the first the
string closes (`lines`), the value of `j` relative to the start of the text scanned on that
line, and the decoded string; `none` when the document ends before the closing quote. -/
def scanString (first : JSString) (later : List JSString) : Option StringScan :=
  if (scanStringLine 0 first).closed then
    some ⟨0, (scanStringLine 0 first).advance, (scanStringLine 0 first).value⟩
  else
    match later with
    | [] => none
    | l :: ls =>
      (scanString l ls).map (fun r =>
        ⟨r.lines + 1, r.advance, (scanStringLine 0 first).value ++ [10] ++ r.value⟩)

/-! ## The document and the scanner state -/

/-- The `vscode.TextDocument` as far as the source reads it: `languageId`, the key
`uri.toString(true)`, `uri.path` and the text of the lines (without their line breaks). -/
structure TextDocument where
  languageId : JSString
  uri : JSString
  uriPath : JSString
  lines : List JSString
deriving DecidableEq, Repr

/-- The text `document.lineAt(i).text`. -/
def TextDocument.lineAt (document : TextDocument) (i : Nat) : JSString :=
  document.lines.getD i []

/-- The range `document.validateRange(new vscode.Range(i, j, i, Infinity))` on a line `i` of
the document: both columns are cut to the length of the line. -/
def TextDocument.restOfLine (document : TextDocument) (i j : Nat) : Range :=
  ⟨⟨i, min j (document.lineAt i).length⟩, ⟨i, (document.lineAt i).length⟩⟩

/-- Where the symbol held by `currentProperty` sits in the list `s` it was pushed to (the
children of the current section, or the root symbols when there is no section): it is the last
element of that list, or the last child of the array symbol at the given index of that
list. -/
inductive PropertyRef where
  | direct
  | inGroup (index : Nat)
deriving DecidableEq, Repr

/-- The variables of `provideDocumentSymbols`.  In the source `currentSection` is also the last
element of `symbols`; here `symbols` holds the root symbols pushed before the current section
and `currentSection` holds the section itself, so the array of the source is `symbols`
followed by `currentSection`. -/
structure ScanState where
  i : Nat
  j : Nat
  gdasset : Option GDAsset
  previousEnd : Option Position
  currentSection : Option DocumentSymbol
  currentProperty : Option PropertyRef
  symbols : List DocumentSymbol
deriving Repr

/-- What one pass through the body of the main loop leads to: the next pass, the `break` of
the unterminated string, or a thrown exception. -/
inductive StepResult where
  | next (state : ScanState)
  | stop (state : ScanState)
  | thrown
deriving Repr

/-- What `provideDocumentSymbols` leaves behind: the returned `symbols` and the `GDAsset` stored
in `defs` (`none` for a `config-definition` document). -/
structure ParseResult where
  symbols : List DocumentSymbol
  gdasset : Option GDAsset
deriving Repr

/-- How a call of `provideDocumentSymbols` ends; `unfinished` stands for a loop that has not
ended within the passes allowed. -/
inductive Outcome where
  | returned (result : ParseResult)
  | thrown
  | unfinished
deriving Repr

/-- Applies `f` to the last element of a list. -/
def modifyLast {α : Type} (f : α → α) : List α → List α
  | [] => []
  | [a] => [f a]
  | a :: b :: t => a :: modifyLast f (b :: t)

/-- Applies `f` to the element at an index of a list. -/
def modifyAt {α : Type} (f : α → α) : Nat → List α → List α
  | _, [] => []
  | 0, a :: t => f a :: t
  | n + 1, a :: t => a :: modifyAt f n t

/-- The index of the first symbol with the given name: `s.find(value => value.name == p)`. -/
def findSymbol (name : JSString) : List DocumentSymbol → Option Nat
  | [] => none
  | s :: t => if s.name = name then some 0 else (findSymbol name t).map (fun k => k + 1)

/-- The list `s = currentSection?.children ?? symbols`. -/
def ScanState.container (state : ScanState) : List DocumentSymbol :=
  match state.currentSection with
  | some section_ => section_.children
  | none => state.symbols

/-- The state with the list `s` replaced. -/
def ScanState.setContainer (state : ScanState) (s : List DocumentSymbol) : ScanState :=
  match state.currentSection with
  | some section_ => { state with currentSection := some { section_ with children := s } }
  | none => { state with symbols := s }

/-- The symbol a property reference points to. -/
def propertyAt (s : List DocumentSymbol) : PropertyRef → Option DocumentSymbol
  | .direct => s.getLast?
  | .inGroup k => (s.get? k).bind (fun group => group.children.getLast?)

/-- The list `s` after `f` has been applied to the symbol a property reference points to. -/
def modifyProperty (f : DocumentSymbol → DocumentSymbol) (s : List DocumentSymbol) :
    PropertyRef → List DocumentSymbol
  | .direct => modifyLast f s
  | .inGroup k => modifyAt (fun group => { group with children := modifyLast f group.children }) k s

/-- The check `DocumentSymbol.validate` run by `new vscode.DocumentSymbol(name, detail, kind,
range, selectionRange)`: the constructor throws when the name is empty or the range does not
contain the selection range. -/
def validSymbol (name : JSString) (range selectionRange : Range) : Bool :=
  name != [] && range.contains selectionRange.start && range.contains selectionRange.end_

/-- The statement `currentSection.range = new vscode.Range(currentSection.range.start,
previousEnd)` under its guard `if (currentSection && previousEnd)`, and the root symbols with
the section closed in this way at their end. -/
def ScanState.closedRoots (state : ScanState) : List DocumentSymbol :=
  match state.currentSection, state.previousEnd with
  | some section_, some previousEnd =>
    state.symbols ++ [{ section_ with range := Range.new section_.range.start previousEnd }]
  | some section_, none => state.symbols ++ [section_]
  | none, _ => state.symbols

/-! ## The branches of the main loop -/

/-- The section branch (source lines 314 to 327) for a header with the groups `tag` and
`rest` on line `i`. -/
def sectionBranch (document : TextDocument) (state : ScanState) (tag rest : JSString) :
    StepResult :=
  let range := document.restOfLine state.i state.j
  if validSymbol tag range range then
    let made : DocumentSymbol × Option GDAsset :=
      match state.gdasset with
      | some gdasset =>
        ((sectionSymbol document.uriPath tag rest range gdasset).1,
          some (sectionSymbol document.uriPath tag rest range gdasset).2)
      | none =>
        ({ name := tag, detail := rest,
           kind := if rest ≠ [] then SymbolKind.Object else SymbolKind.Namespace,
           range := range, selectionRange := range, children := [] }, none)
    .next { state with
      i := state.i + 1
      gdasset := made.2
      previousEnd := some range.end_
      currentSection := some made.1
      currentProperty := none
      symbols := state.closedRoots }
  else .thrown

/-- The statement `currentSection.range = new vscode.Range(currentSection.range.start,
range.end)` of the property branch, under its guard `if (currentSection)`. -/
def ScanState.extendSection (state : ScanState) (lineEnd : Position) : ScanState :=
  match state.currentSection with
  | some section_ =>
    { state with
      currentSection :=
        some { section_ with range := Range.new section_.range.start lineEnd } }
  | none => state

/-- The end of the property branch: `j = match[0].length; previousEnd = new vscode.Position(i,
j)`, with `currentProperty` pointing at the symbol just pushed. -/
def ScanState.afterKey (state : ScanState) (len : Nat) (property : PropertyRef) : ScanState :=
  { state with j := len, previousEnd := some ⟨state.i, len⟩, currentProperty := some property }

/-- The property branch (source lines 330 to 346) for a match of the property expression. -/
def propertyBranch (document : TextDocument) (state : ScanState) (m : PropertyMatch) :
    StepResult :=
  let range := document.restOfLine state.i state.j
  let property : DocumentSymbol :=
    { name := m.prop, detail := [], kind := .Property, range := range, selectionRange := range,
      children := [] }
  if validSymbol m.prop range range then
    match m.index with
    | some (_ :: _) =>
      let p := m.key ++ js "[]"
      match findSymbol p state.container with
      | some k =>
        let s := modifyAt (fun parentProp =>
          { parentProp with
              range := Range.new parentProp.range.start range.end_
              children := parentProp.children ++ [property] }) k state.container
        .next (((state.setContainer s).extendSection range.end_).afterKey m.len (.inGroup k))
      | none =>
        if validSymbol p range range then
          let parentProp : DocumentSymbol :=
            { name := p, detail := [], kind := .Array,
              range := Range.new range.start range.end_, selectionRange := range,
              children := [property] }
          .next (((state.setContainer (state.container ++ [parentProp])).extendSection
            range.end_).afterKey m.len (.inGroup state.container.length))
        else .thrown
    | _ =>
      .next (((state.setContainer (state.container ++ [property])).extendSection
        range.end_).afterKey m.len .direct)
  else .thrown

/-- The branch of blank lines and comments (source lines 349 to 356) for a match of the comment
expression. -/
def commentBranch (document : TextDocument) (state : ScanState) (spaces : Nat)
    (comment : Option JSString) : StepResult :=
  let range := document.restOfLine state.i state.j
  let gdasset : Option GDAsset :=
    match state.gdasset, comment with
    | some gdasset, some (c :: text) =>
      some { gdasset with comments := gdasset.comments ++
        [{ range := Range.new ⟨state.i, state.j + spaces⟩ ⟨state.i, range.end_.character⟩,
           value := c :: text }] }
    | other, _ => other
  .next { state with i := state.i + 1, j := 0, gdasset := gdasset,
                     previousEnd := some range.end_ }

/-- The statement `currentProperty.range = new vscode.Range(start.line, start.character, i,
endChar)`, where `start` is `currentProperty.range.start`. -/
def DocumentSymbol.stretchTo (property : DocumentSymbol) (endPosition : Position) :
    DocumentSymbol :=
  { property with range := Range.new property.range.start endPosition }

/-- The end of a pass that has consumed a fragment of a value (source lines 389 to 394): with
the cursor now at line `i`, column `j`, the range of the current property is stretched and
`previousEnd` is set. -/
def afterFragment (document : TextDocument) (state : ScanState) (i j : Nat)
    (gdasset : Option GDAsset) : ScanState :=
  let range := document.restOfLine state.i state.j
  let endChar := if i > range.end_.line then j else range.end_.character
  let stretch : DocumentSymbol → DocumentSymbol := fun property =>
    property.stretchTo ⟨i, endChar⟩
  let stretched : ScanState :=
    match state.currentProperty with
    | some ref => state.setContainer (modifyProperty stretch state.container ref)
    | none => state
  { stretched with i := i, j := j, gdasset := gdasset, previousEnd := some ⟨i, j⟩ }

/-- The string branch (source lines 358 to 380) for a text that starts with a double quote. -/
def stringBranch (document : TextDocument) (state : ScanState) (text : JSString) : StepResult :=
  let range := document.restOfLine state.i state.j
  match scanString (text.drop 1) (document.lines.drop (state.i + 1)) with
  | none => .stop state
  | some found =>
    let i := state.i + found.lines
    let j := if found.lines = 0 then state.j + 1 + found.advance else found.advance
    let gdasset : Option GDAsset :=
      match state.gdasset with
      | some gdasset =>
        some { gdasset with strings := gdasset.strings ++
          [{ range := Range.new range.start ⟨i, j⟩, value := found.value }] }
      | none => none
    .next (afterFragment document state i j gdasset)

/-- The body of the main loop (source lines 310 to 394) for a state with `i < n`. -/
def scanStep (letter : Nat → Bool) (document : TextDocument) (state : ScanState) : StepResult :=
  let text := (document.lineAt state.i).drop state.j
  let header := if state.j = 0 then headerMatch letter text else none
  let property := if state.j = 0 then propertyMatch letter text else none
  match header with
  | some (tag, rest) => sectionBranch document state tag rest
  | none =>
    match property with
    | some m => propertyBranch document state m
    | none =>
      match commentMatch text with
      | some (spaces, comment) => commentBranch document state spaces comment
      | none =>
        if text.head? = some QUOTE then stringBranch document state text
        else if (text.takeWhile isSpace).length ≠ 0 then
          .next (afterFragment document state state.i
            (state.j + (text.takeWhile isSpace).length) state.gdasset)
        else if (text.takeWhile (fun c => c != QUOTE && !isSpace c)).length ≠ 0 then
          .next (afterFragment document state state.i
            (state.j + (text.takeWhile (fun c => c != QUOTE && !isSpace c)).length)
            state.gdasset)
        else .thrown

/-- The main loop `for (let i = 0, j = 0; i < n;)` followed by the closing of the last section
and `return symbols`, with at most `passes` passes through the body. -/
def scanLoop (letter : Nat → Bool) (document : TextDocument) : Nat → ScanState → Outcome
  | 0, _ => .unfinished
  | passes + 1, state =>
    if state.i < document.lines.length then
      match scanStep letter document state with
      | .next state' => scanLoop letter document passes state'
      | .stop state' => .returned ⟨state'.closedRoots, state'.gdasset⟩
      | .thrown => .thrown
    else .returned ⟨state.closedRoots, state.gdasset⟩

/-- The state at the start of `provideDocumentSymbols`. -/
def ScanState.initial (document : TextDocument) : ScanState :=
  { i := 0, j := 0,
    gdasset := if document.languageId = js "config-definition" then none else some GDAsset.new,
    previousEnd := none, currentSection := none, currentProperty := none, symbols := [] }

/-- A number of passes that the main loop never exceeds: every pass moves the cursor forward
within the text, whose lines have this many columns and line ends in total. -/
def TextDocument.passes (document : TextDocument) : Nat :=
  (document.lines.map (fun line => line.length + 1)).sum + 1

/-- The source's `GDAssetProvider.provideDocumentSymbols(document, _token)`; `letter` is the
engine's table of the Unicode letters. -/
def provideDocumentSymbols (letter : Nat → Bool) (document : TextDocument) : Outcome :=
  scanLoop letter document document.passes (ScanState.initial document)

mutual
/-- The rows of the outline of a symbol: depth, name, detail, kind, range, selection range, for
the symbol and then for its children. -/
def DocumentSymbol.rows (depth : Nat) :
    DocumentSymbol → List (Nat × JSString × JSString × SymbolKind × Range × Range)
  | ⟨name, detail, kind, range, selectionRange, children⟩ =>
    (depth, name, detail, kind, range, selectionRange) ::
      DocumentSymbol.rowsOfList (depth + 1) children
/-- The rows of the outline of a list of symbols. -/
def DocumentSymbol.rowsOfList (depth : Nat) :
    List DocumentSymbol → List (Nat × JSString × JSString × SymbolKind × Range × Range)
  | [] => []
  | s :: t => DocumentSymbol.rows depth s ++ DocumentSymbol.rowsOfList depth t
end

/-! ## Passes of the loop, well-formed documents, and the words of the specification -/

/-- The state after `k` further passes through the body of the main loop; `none` when the loop
has ended, stopped or thrown before. -/
def passes (letter : Nat → Bool) (document : TextDocument) : Nat → ScanState → Option ScanState
  | 0, state => some state
  | k + 1, state =>
    if state.i < document.lines.length then
      match scanStep letter document state with
      | .next state' => passes letter document k state'
      | _ => none
    else none

/-- The state of `provideDocumentSymbols` on a document after `k` passes. -/
def reached (letter : Nat → Bool) (document : TextDocument) (k : Nat) : Option ScanState :=
  passes letter document k (ScanState.initial document)

/-- The symbol that `currentProperty` holds. -/
def ScanState.openProperty (state : ScanState) : Option DocumentSymbol :=
  state.currentProperty.bind (propertyAt state.container)

/-- CR and LF end the lines of a document, so the text of a line holds neither. -/
def TextDocument.wellFormed (document : TextDocument) : Bool :=
  document.lines.all (fun line => line.all (fun c => c != 10 && c != 13))

/-- In the words of the specification: the index of the first double quote of a text that is
not escaped, a backslash escaping the code unit after it. -/
def closingQuoteIndex : JSString → Option Nat
  | [] => none
  | c :: t =>
    if c = QUOTE then some 0
    else if c = BACKSLASH then
      match t with
      | [] => none
      | _ :: t1 => (closingQuoteIndex t1).map (fun k => k + 2)
    else (closingQuoteIndex t).map (fun k => k + 1)

/-- The first unescaped double quote of a text that continues on the lines `later`: the number
of lines below the first and the index in the line it is on. -/
def closingQuoteBelow (first : JSString) : List JSString → Option (Nat × Nat)
  | [] => (closingQuoteIndex first).map (fun c => (0, c))
  | l :: ls =>
    match closingQuoteIndex first with
    | some c => some (0, c)
    | none => (closingQuoteBelow l ls).map (fun r => (r.1 + 1, r.2))

/-- The position of the double quote that closes the string opened by the double quote at the
given position, or `none` for a string that is not closed. -/
def TextDocument.closingQuote (document : TextDocument) (line character : Nat) :
    Option Position :=
  (closingQuoteBelow ((document.lineAt line).drop (character + 1))
      (document.lines.drop (line + 1))).map
    (fun r => if r.1 = 0 then ⟨line, character + 1 + r.2⟩ else ⟨line + r.1, r.2⟩)

mutual
/-- Whether the range of a symbol and the ranges of all the symbols below it satisfy `p`. -/
def DocumentSymbol.allRanges (p : Range → Bool) : DocumentSymbol → Bool
  | ⟨_, _, _, range, _, children⟩ => p range && DocumentSymbol.allRangesOfList p children
/-- Whether the ranges of all the symbols of a list, at every level, satisfy `p`. -/
def DocumentSymbol.allRangesOfList (p : Range → Bool) : List DocumentSymbol → Bool
  | [] => true
  | s :: t => DocumentSymbol.allRanges p s && DocumentSymbol.allRangesOfList p t
end

/-- A range whose start is at or before its end. -/
def Range.ordered (r : Range) : Bool := r.start.isBeforeOrEqual r.end_

/-- The number of columns and line ends between a cursor and the end of the text. -/
def TextDocument.remaining (document : TextDocument) (i j : Nat) : Nat :=
  ((document.lines.drop i).map (fun line => line.length + 1)).sum - j

/-- The cursor `(i, j)` of the main loop as a position. -/
def ScanState.cursor (state : ScanState) : Position := ⟨state.i, state.j⟩

/-- The outline of the symbols that a call returns. -/
def Outcome.rows :
    Outcome → Option (List (Nat × JSString × JSString × SymbolKind × Range × Range))
  | .returned result => some (DocumentSymbol.rowsOfList 0 result.symbols)
  | _ => none

/-- The asset that a call leaves in `defs`. -/
def Outcome.gdasset : Outcome → Option GDAsset
  | .returned result => result.gdasset
  | _ => none

/-- The tags that `sectionSymbol` has a case for. -/
def knownTags : List JSString :=
  [js "gd_scene", js "gd_resource", js "ext_resource", js "sub_resource", js "node",
    js "connection", js "editable"]

/-- The tokens recorded so far lie behind the cursor and apart from each other: every string
and comment token has its start at or before its end and its end at or before the cursor, each
string token ends at or before the start of every string token recorded after it, and a string
token and a comment token never overlap. -/
def ScanState.tokensBehind (state : ScanState) : Prop :=
  ∀ g, state.gdasset = some g →
    (∀ t ∈ g.strings ++ g.comments,
      t.range.ordered = true ∧ t.range.end_.isBeforeOrEqual state.cursor = true) ∧
    g.strings.Pairwise (fun a b => a.range.end_.isBeforeOrEqual b.range.start = true) ∧
    ∀ s ∈ g.strings, ∀ c ∈ g.comments,
      s.range.end_.isBeforeOrEqual c.range.start = true ∨
        c.range.end_.isBeforeOrEqual s.range.start = true

/-- Every symbol built so far, at every level, has a range whose start is at or before its
end. -/
def ScanState.rangesOrdered (state : ScanState) : Prop :=
  DocumentSymbol.allRangesOfList Range.ordered state.symbols = true ∧
    ∀ s, state.currentSection = some s → DocumentSymbol.allRanges Range.ordered s = true

/-- The symbol that `currentProperty` holds is in its place, it starts at or before the
cursor, and it ends at or before the end of the line of the cursor. -/
def ScanState.openPropertyOk (document : TextDocument) (state : ScanState) : Prop :=
  ∀ ref, state.currentProperty = some ref →
    ∃ p, propertyAt state.container ref = some p ∧
      p.range.start.isBeforeOrEqual state.cursor = true ∧
      p.range.end_.isBeforeOrEqual ⟨state.i, (document.lineAt state.i).length⟩ = true

/-- The list that holds the properties is `before` followed by one array symbol with the given
name and range, whose children are property symbols without children that have the given
names, in that order. -/
def ScanState.holdsGroup (state : ScanState) (before : List DocumentSymbol) (name : JSString)
    (range : Range) (names : List JSString) : Prop :=
  ∃ group : DocumentSymbol, state.container = before ++ [group] ∧ group.name = name ∧
    group.kind = .Array ∧ group.range = range ∧
    group.children.map (fun child => child.name) = names ∧
    ∀ child ∈ group.children, child.kind = .Property ∧ child.children = []

/-- In the words of the specification: the raw pieces of a string that starts on a line with
the text `first` after its opening quote and goes on over the lines `later`: the whole rest
of each line on which the string does not close, and the text before the first unescaped
double quote on the line on which it closes; `none` for a string that is not closed. -/
def rawPieces (first : JSString) : List JSString → Option (List JSString)
  | [] => (closingQuoteIndex first).map (fun c => [first.take c])
  | l :: ls =>
    match closingQuoteIndex first with
    | some c => some [first.take c]
    | none => (rawPieces l ls).map (fun pieces => first :: pieces)

/-- The raw pieces of the string opened by the double quote at the given position. -/
def TextDocument.rawPieces (document : TextDocument) (line character : Nat) :
    Option (List JSString) :=
  GodotFiles.rawPieces ((document.lineAt line).drop (character + 1))
    (document.lines.drop (line + 1))

/-- Pieces of text joined with one LF between each two. -/
def joinLines : List JSString → JSString
  | [] => []
  | [p] => p
  | p :: q :: t => p ++ [10] ++ joinLines (q :: t)

/-! ## The provider's table of states: `defs` and `parsedGDAsset` -/

/-- The provider's field `defs = {}`, read and written only under the keys
`document.uri.toString(true)`; such a key holds the `:` after the scheme of the URI, so it names
no member of `Object.prototype`, and a lookup finds what was stored under the key or
`undefined`. -/
abbrev Defs := List (JSString × GDAsset)

/-- The value `defs[key]`. -/
def Defs.get (defs : Defs) (key : JSString) : Option GDAsset :=
  (defs.find? (fun entry => entry.1 == key)).map (fun entry => entry.2)

/-- The table after `defs[key] = gdasset`. -/
def Defs.set (defs : Defs) (key : JSString) (gdasset : GDAsset) : Defs :=
  (key, gdasset) :: defs.filter (fun entry => !(entry.1 == key))

/-- The source's `GDAssetProvider`, as far as its methods below read it. -/
structure GDAssetProvider where
  defs : Defs

/-- The provider after a call `this.provideDocumentSymbols(document, _token)`: for a document
that is not a `config-definition` the state that the scan fills is stored under the document's
URI (line 303); for a `config-definition` nothing is stored.  The scan of every document returns
(`provideDocumentSymbols_invariant`), so the other outcomes need no entry here. -/
def GDAssetProvider.provideDocumentSymbols (provider : GDAssetProvider) (letter : Nat → Bool)
    (document : TextDocument) : GDAssetProvider :=
  match (GodotFiles.provideDocumentSymbols letter document).gdasset with
  | some gdasset => { provider with defs := provider.defs.set document.uri gdasset }
  | none => provider

/-- The source's `parsedGDAsset(document, _token)`: the provider after the call and the value
returned, `none` for `undefined`. -/
def GDAssetProvider.parsedGDAsset (provider : GDAssetProvider) (letter : Nat → Bool)
    (document : TextDocument) : GDAssetProvider × Option GDAsset :=
  if document.languageId = js "config-definition" then (provider, none)
  else
    match provider.defs.get document.uri with
    | some gdasset => (provider, some gdasset)
    | none =>
      let provider' := provider.provideDocumentSymbols letter document
      (provider', provider'.defs.get document.uri)

/-! ## The Arduino extension: boards and their configuration (`arduino/board.js`,
`arduino/package.js`) -/

/-- The source's enum `BoardConfigResult`, the return values of `loadConfig` and
`updateConfig`. -/
inductive BoardConfigResult where
  | Success
  | SuccessNoChange
  | InvalidConfigID
  | InvalidOptionID
  | InvalidFormat
deriving DecidableEq, Repr

/-- An entry of `options` of a config item: `{ id, displayName }`. -/
structure ConfigOption where
  id : JSString
  displayName : JSString
deriving DecidableEq, Repr

/-- An entry of `_configItems`: `{ displayName, id, selectedOption, options }`; the display name
is `undefined` when the menu map has no entry for the id. -/
structure ConfigItem where
  displayName : Option JSString
  id : JSString
  selectedOption : JSString
  options : List ConfigOption
deriving DecidableEq, Repr

/-- The platform of a board as far as `getPackageName` and `key` read it: `packageName`
(`none` for `undefined`), `architecture` and `package.name`. -/
structure Platform where
  packageName : Option JSString
  architecture : JSString
  packageNameOfPackage : JSString
deriving DecidableEq, Repr

/-- The source's class `Board`: the fields `_board`, `_platform`, `_menuMap` (a `Map`, here the
list of its entries) and `_configItems`. -/
structure Board where
  _board : JSString
  _platform : Platform
  _menuMap : List (JSString × JSString)
  _configItems : List ConfigItem
deriving DecidableEq, Repr

/-- The source's `new Board(_board, _platform, _menuMap)`. -/
def Board.new (_board : JSString) (_platform : Platform) (_menuMap : List (JSString × JSString)) :
    Board :=
  { _board := _board, _platform := _platform, _menuMap := _menuMap, _configItems := [] }

/-- The code unit of `.`. -/
def DOT : Nat := 46

/-- A match of `MENU_REGEX = /menu\.([^.]+)\.([^.]+)(\.?(\S+)?)/` that starts at the head of the
text: the groups 1 and 2.  After `menu.` each `[^.]+` takes the whole run of units other than
`.`, which must not be empty, and the first run must be followed by a `.`; the last group
matches the empty text as well. -/
def menuMatchHere (text : JSString) : Option (JSString × JSString) :=
  if (js "menu.").isPrefixOf text then
    let first := (text.drop 5).takeWhile (fun c => c != DOT)
    match (text.drop 5).dropWhile (fun c => c != DOT) with
    | [] => none
    | _ :: rest =>
      let second := rest.takeWhile (fun c => c != DOT)
      if first = [] ∨ second = [] then none else some (first, second)
  else none

/-- The groups 1 and 2 of `key.match(MENU_REGEX)`: the match at the leftmost start. -/
def menuMatch : JSString → Option (JSString × JSString)
  | [] => none
  | c :: rest =>
    match menuMatchHere (c :: rest) with
    | some groups => some groups
    | none => menuMatch rest

/-- The index of the last `=` of a word that has a unit before it and a unit after it. -/
def lastInnerEquals (word : JSString) : Option Nat :=
  ((List.range word.length).reverse).find?
    (fun q => decide (0 < q) && decide (q + 1 < word.length) && word.getD q 0 == 61)

/-- A match of `keyValueRegex = /(\S+)=(\S+)/` that starts at the head of a text whose head is
not white space: group 1 runs up to the last `=` of the first word that leaves a unit of the
word for group 2, group 2 is the rest of the word. -/
def keyValueHere (text : JSString) : Option (JSString × JSString) :=
  let word := text.takeWhile (fun c => !isSpace c)
  (lastInnerEquals word).map (fun q => (word.take q, word.drop (q + 1)))

/-- The groups 1 and 2 of `section.match(keyValueRegex)`: the match at the leftmost start. -/
def keyValueMatch : JSString → Option (JSString × JSString)
  | [] => none
  | c :: rest =>
    match keyValueHere (c :: rest) with
    | some groups => some groups
    | none => keyValueMatch rest

/-- The pieces of `configString.split(",")`. -/
def splitComma : JSString → List JSString
  | [] => [[]]
  | c :: rest =>
    if c = 44 then [] :: splitComma rest
    else
      match splitComma rest with
      | [] => [[c]]
      | piece :: pieces => (c :: piece) :: pieces

/-- The value `this._menuMap.get(id)`. -/
def Board.menuName (board : Board) (id : JSString) : Option JSString :=
  (board._menuMap.find? (fun entry => entry.1 == id)).map (fun entry => entry.2)

/-- The body of `addParameter` on the item found by `find((item) => item.id === match[1])`: an
empty `selectedOption` is set to `match[2]`, and the option `match[2]` is pushed unless an option
of that id is there. -/
def ConfigItem.addOption (item : ConfigItem) (optionId value : JSString) : ConfigItem :=
  let selected := if item.selectedOption = [] then optionId else item.selectedOption
  match item.options.find? (fun opt => opt.id == optionId) with
  | some _ => { item with selectedOption := selected }
  | none =>
    { item with
      selectedOption := selected,
      options := item.options ++ [{ id := optionId, displayName := value }] }

/-- The config items after `addParameter` with the groups `configId`, `optionId` of the match:
the first item of the id `configId` takes the option, or a new item is pushed. -/
def addToItems (displayName : Option JSString) (configId optionId value : JSString) :
    List ConfigItem → List ConfigItem
  | [] =>
    [{ displayName := displayName, id := configId, selectedOption := optionId,
       options := [{ id := optionId, displayName := value }] }]
  | item :: rest =>
    if item.id = configId then item.addOption optionId value :: rest
    else item :: addToItems displayName configId optionId value rest

/-- The source's `Board.addParameter(key, value)`. -/
def Board.addParameter (board : Board) (key value : JSString) : Board :=
  match menuMatch key with
  | some (configId, optionId) =>
    { board with
      _configItems :=
        addToItems (board.menuName configId) configId optionId value board._configItems }
  | none => board

/-- The source's `getPackageName()`: `platform.packageName` when it is truthy, else
`platform.package.name`. -/
def Board.getPackageName (board : Board) : JSString :=
  match board._platform.packageName with
  | some name => if name = [] then board._platform.packageNameOfPackage else name
  | none => board._platform.packageNameOfPackage

/-- The source's getter `key`: `packageName:arch:boardName`. -/
def Board.key (board : Board) : JSString :=
  board.getPackageName ++ js ":" ++ board._platform.architecture ++ js ":" ++ board._board

/-- The loop of `updateConfig` over the options of the target item: at the first option of the
id `optionId` the item is selected to it (`Success`) unless it is selected already
(`SuccessNoChange`); with no such option the result is `InvalidOptionID`. -/
def ConfigItem.select (target : ConfigItem) (optionId : JSString) :
    List ConfigOption → ConfigItem × BoardConfigResult
  | [] => (target, .InvalidOptionID)
  | o :: rest =>
    if o.id = optionId then
      if target.selectedOption ≠ optionId then
        ({ target with selectedOption := optionId }, .Success)
      else (target, .SuccessNoChange)
    else target.select optionId rest

/-- The config items after `updateConfig` and its result: the target is the first item of the id
`configId`. -/
def updateItems (configId optionId : JSString) :
    List ConfigItem → List ConfigItem × BoardConfigResult
  | [] => ([], .InvalidConfigID)
  | config :: rest =>
    if config.id = configId then
      ((config.select optionId config.options).1 :: rest,
        (config.select optionId config.options).2)
    else
      (config :: (updateItems configId optionId rest).1,
        (updateItems configId optionId rest).2)

/-- The source's `Board.updateConfig(configId, optionId)`: the board after the call and the value
returned. -/
def Board.updateConfig (board : Board) (configId optionId : JSString) :
    Board × BoardConfigResult :=
  ({ board with _configItems := (updateItems configId optionId board._configItems).1 },
    (updateItems configId optionId board._configItems).2)

/-- The loop of `resetConfig`: `c.selectedOption = c.options[0].id` for each item; `none` when
an item has no option, where the source throws a `TypeError`. -/
def resetItems : List ConfigItem → Option (List ConfigItem)
  | [] => some []
  | c :: rest =>
    match c.options with
    | [] => none
    | o :: _ => (resetItems rest).map (fun items => { c with selectedOption := o.id } :: items)

/-- The source's `Board.resetConfig()`; `none` when it throws. -/
def Board.resetConfig (board : Board) : Option Board :=
  (resetItems board._configItems).map (fun items => { board with _configItems := items })

/-- The loop of `loadConfig` over the sections of the config string, from the result so far. -/
def Board.loadSections (board : Board) (result : BoardConfigResult) :
    List JSString → Board × BoardConfigResult
  | [] => (board, result)
  | sect :: rest =>
    match keyValueMatch sect with
    | none => (board, .InvalidFormat)
    | some (configId, optionId) =>
      match (board.updateConfig configId optionId).2 with
      | .SuccessNoChange =>
        (board.updateConfig configId optionId).1.loadSections .SuccessNoChange rest
      | .Success => (board.updateConfig configId optionId).1.loadSections result rest
      | r => ((board.updateConfig configId optionId).1, r)

/-- The source's `Board.loadConfig(configString)`, `none` for an `undefined` config string: the
board after the call and the value returned; `none` when the call throws. -/
def Board.loadConfig (board : Board) (configString : Option JSString) :
    Option (Board × BoardConfigResult) :=
  match configString with
  | none => board.resetConfig.map (fun reset => (reset, .Success))
  | some text =>
    if text = [] then board.resetConfig.map (fun reset => (reset, .Success))
    else some (board.loadSections .Success (splitComma text))

/-- The source's `boardEqual(a, b)` on boards that may be `undefined`. -/
def boardEqual (a b : Option Board) : Bool :=
  match a, b with
  | some a, some b => a.key == b.key
  | none, none => true
  | _, _ => false

/-- A call of one of the methods of a board that change its configuration. -/
inductive BoardCall where
  | addParameter (key value : JSString)
  | updateConfig (configId optionId : JSString)
  | loadConfig (configString : Option JSString)
  | resetConfig
deriving Repr

/-- The board after a call; `none` when the call throws. -/
def Board.call (board : Board) : BoardCall → Option Board
  | .addParameter key value => some (board.addParameter key value)
  | .updateConfig configId optionId => some (board.updateConfig configId optionId).1
  | .loadConfig configString => (board.loadConfig configString).map (fun r => r.1)
  | .resetConfig => board.resetConfig

/-- The board after a sequence of calls; `none` when one of them throws. -/
def Board.run (board : Board) : List BoardCall → Option Board
  | [] => some board
  | call :: calls =>
    match board.call call with
    | some next => next.run calls
    | none => none

/-- The options of a config item are in order: there is one, no two have the same id, and the
selected option is the id of one of them. -/
def ConfigItem.valid (item : ConfigItem) : Prop :=
  item.options ≠ [] ∧ (item.options.map (fun o => o.id)).Nodup ∧
    item.selectedOption ∈ item.options.map (fun o => o.id)

/-- Every config item of the board is in order. -/
def Board.valid (board : Board) : Prop :=
  ∀ item ∈ board._configItems, item.valid

/-- The root node name that a pass of the scanner declares from a state: the pass starts at
column 0 of a line that the header expression accepts as a header that declares the root, a
`node` header without a `parent` attribute and with a non-empty `name`. -/
def ScanState.declaredRoot (state : ScanState) (letter : Nat → Bool) (document : TextDocument) :
    Option JSString :=
  if state.j = 0 then
    match headerMatch letter (document.lineAt state.i) with
    | some (tag, rest) =>
      if declaresRoot ⟨tag, rest, document.restOfLine state.i state.j⟩ = true then
        (sectionAttributes rest).1.get "name"
      else none
    | none => none
  else none

/-- A call `this.provideDocumentSymbols(document, _token)` on a provider: the provider after the
call, with the state that the call has stored, and how the call ends. -/
def GDAssetProvider.parse (provider : GDAssetProvider) (letter : Nat → Bool)
    (document : TextDocument) : GDAssetProvider × Outcome :=
  (provider.provideDocumentSymbols letter document,
    GodotFiles.provideDocumentSymbols letter document)

/-! ## Sample documents for the evaluated instances -/

/-- Attribute text of the header `[ext_resource type="Texture2D" path="res://a.png" id=""]`. -/
def sampleEmptyIdHeader : JSString := js "type=\"Texture2D\" path=\"res://a.png\" id=\"\""

/-- State of `/proj/main.tscn` after the header
`[ext_resource type="Texture2D" path="res://a.png" id="1"]` on line 1. -/
def sampleAfterExt : GDAsset :=
  (sectionSymbol (js "/proj/main.tscn") (js "ext_resource")
    (js "type=\"" ++ js "Texture2D" ++ js "\" path=\"" ++ js "res://a.png" ++ js "\" id=\"" ++
      js "1" ++ js "\"")
    ⟨⟨1, 0⟩, ⟨1, 61⟩⟩ GDAsset.new).2

/-- State of `/proj/theme.tres` after the header `[gd_resource type="Theme" format=3]` on
line 0. -/
def sampleAfterRoot : GDAsset :=
  (sectionSymbol (js "/proj/theme.tres") (js "gd_resource") (js "type=\"Theme\" format=3")
    ⟨⟨0, 0⟩, ⟨0, 35⟩⟩ GDAsset.new).2

/-- A resource document with one header of an unknown tag that carries attribute text. -/
def sampleUnknownTag : TextDocument :=
  ⟨js "godot-resource", js "file:///proj/a.tres", js "/proj/a.tres", [js "[foo bar=1]"]⟩

/-- A scene document with the one line `[node name="Root"]`. -/
def sampleOneHeader : TextDocument :=
  ⟨js "godot-scene", js "file:///proj/main.tscn", js "/proj/main.tscn",
    [js "[node name=\"Root\"]"]⟩

/-- The state of the scanner on `sampleOneHeader` after its first pass. -/
def sampleAfterOneHeader : ScanState :=
  { i := 1, j := 0,
    gdasset := some { GDAsset.new with rootNode := some (js "Root") },
    previousEnd := some ⟨0, 18⟩,
    currentSection := some
      { name := js "$/root/Root", detail := [], kind := .Object, range := ⟨⟨0, 0⟩, ⟨0, 18⟩⟩,
        selectionRange := ⟨⟨0, 0⟩, ⟨0, 18⟩⟩, children := [] },
    currentProperty := none, symbols := [] }

/-- A resource document with a property whose value has two strings and a comment:
`a = ["x", "y"] ; note`. -/
def sampleTwoStrings : TextDocument :=
  ⟨js "godot-resource", js "file:///proj/a.tres", js "/proj/a.tres",
    [js "a = [\"x\", \"y\"] ; note"]⟩

/-- A resource document with one property whose value is a string on one line:
`a = "x"`. -/
def sampleQuoted : TextDocument :=
  ⟨js "godot-resource", js "file:///proj/a.tres", js "/proj/a.tres", [js "a = \"x\""]⟩

/-- A resource document with one property whose value is a string that closes on the second
line, followed by a comment. -/
def sampleMultiLine : TextDocument :=
  ⟨js "godot-resource", js "file:///proj/a.tres", js "/proj/a.tres",
    [js "a = \"x", js "y\" ; c"]⟩

/-- A scene document in which a string is opened on the second line and never closed. -/
def sampleUnterminated : TextDocument :=
  ⟨js "godot-scene", js "file:///proj/main.tscn", js "/proj/main.tscn",
    [js "[node name=\"Root\"]", js "k = \"open", js "[resource]", js "n = 1"]⟩

/-- The state of the scanner on `sampleMultiLine` after two passes, at the opening quote. -/
def sampleAtQuote : ScanState :=
  { i := 0, j := 4, gdasset := some GDAsset.new, previousEnd := some ⟨0, 4⟩,
    currentSection := none, currentProperty := some .direct,
    symbols :=
      [{ name := js "a", detail := [], kind := .Property, range := ⟨⟨0, 0⟩, ⟨0, 6⟩⟩,
         selectionRange := ⟨⟨0, 0⟩, ⟨0, 6⟩⟩, children := [] }] }

/-- The state of the scanner on `sampleUnterminated` after three passes, at the opening
quote. -/
def sampleAtOpenQuote : ScanState :=
  { i := 1, j := 4,
    gdasset := some { GDAsset.new with rootNode := some (js "Root") },
    previousEnd := some ⟨1, 4⟩,
    currentSection := some
      { name := js "$/root/Root", detail := [], kind := .Object, range := ⟨⟨0, 0⟩, ⟨1, 9⟩⟩,
        selectionRange := ⟨⟨0, 0⟩, ⟨0, 18⟩⟩,
        children :=
          [{ name := js "k", detail := [], kind := .Property, range := ⟨⟨1, 0⟩, ⟨1, 9⟩⟩,
             selectionRange := ⟨⟨1, 0⟩, ⟨1, 9⟩⟩, children := [] }] },
    currentProperty := some .direct, symbols := [] }

/-- The state of the scanner on `sampleMultiLine` after three passes, just after the closing
quote. -/
def sampleAfterString : ScanState :=
  { i := 1, j := 2,
    gdasset := some { GDAsset.new with strings := [⟨⟨⟨0, 4⟩, ⟨1, 2⟩⟩, [120, 10, 121]⟩] },
    previousEnd := some ⟨1, 2⟩,
    currentSection := none, currentProperty := some .direct,
    symbols :=
      [{ name := js "a", detail := [], kind := .Property, range := ⟨⟨0, 0⟩, ⟨1, 2⟩⟩,
         selectionRange := ⟨⟨0, 0⟩, ⟨0, 6⟩⟩, children := [] }] }

/-- A resource document with two indexed properties of the same key: `tags[0] = "a"` /
`tags[1] = "b"`. -/
def sampleIndexed : TextDocument :=
  ⟨js "godot-resource", js "file:///proj/a.tres", js "/proj/a.tres",
    [js "tags[0] = \"a\"", js "tags[1] = \"b\""]⟩

/-- The state of the scanner on `sampleIndexed` at the start of its second line, after four
passes. -/
def sampleIndexedSecondLine : ScanState :=
  { i := 1, j := 0,
    gdasset := some { GDAsset.new with strings := [⟨⟨⟨0, 10⟩, ⟨0, 13⟩⟩, js "a"⟩] },
    previousEnd := some ⟨0, 13⟩,
    currentSection := none, currentProperty := some (.inGroup 0),
    symbols :=
      [{ name := js "tags[]", detail := [], kind := .Array, range := ⟨⟨0, 0⟩, ⟨0, 13⟩⟩,
         selectionRange := ⟨⟨0, 0⟩, ⟨0, 13⟩⟩,
         children :=
           [{ name := js "tags[0]", detail := [], kind := .Property,
              range := ⟨⟨0, 0⟩, ⟨0, 13⟩⟩, selectionRange := ⟨⟨0, 0⟩, ⟨0, 13⟩⟩,
              children := [] }] }] }

/-- The state of the scanner on `sampleIndexed` at the end of the document, after eight
passes. -/
def sampleIndexedEnd : ScanState :=
  { i := 2, j := 0,
    gdasset := some { GDAsset.new with
      strings := [⟨⟨⟨0, 10⟩, ⟨0, 13⟩⟩, js "a"⟩, ⟨⟨⟨1, 10⟩, ⟨1, 13⟩⟩, js "b"⟩] },
    previousEnd := some ⟨1, 13⟩,
    currentSection := none, currentProperty := some (.inGroup 0),
    symbols :=
      [{ name := js "tags[]", detail := [], kind := .Array, range := ⟨⟨0, 0⟩, ⟨1, 13⟩⟩,
         selectionRange := ⟨⟨0, 0⟩, ⟨0, 13⟩⟩,
         children :=
           [{ name := js "tags[0]", detail := [], kind := .Property,
              range := ⟨⟨0, 0⟩, ⟨0, 13⟩⟩, selectionRange := ⟨⟨0, 0⟩, ⟨0, 13⟩⟩,
              children := [] },
            { name := js "tags[1]", detail := [], kind := .Property,
              range := ⟨⟨1, 0⟩, ⟨1, 13⟩⟩, selectionRange := ⟨⟨1, 0⟩, ⟨1, 13⟩⟩,
              children := [] }] }] }

/-- A scene document all of whose lines are section headers, with quoted attribute values and
trailing comments. -/
def sampleHeaders : TextDocument :=
  ⟨js "godot-scene", js "file:///proj/main.tscn", js "/proj/main.tscn",
    [js "[gd_scene format=3]", js "[node name=\"Root\" type=\"Node2D\"] ; trailing",
      js "[sub_resource type=\"X\" id=1] # note"]⟩

/-- A resource document with a string that holds an escaped quote and closes on the second
line: `a = "x\"y` / `z"`. -/
def sampleEscaped : TextDocument :=
  ⟨js "godot-resource", js "file:///proj/a.tres", js "/proj/a.tres",
    [js "a = \"x\\\"y", js "z\""]⟩

/-- The state of the scanner on `sampleEscaped` after two passes, at the opening quote. -/
def sampleEscapedAtQuote : ScanState :=
  { i := 0, j := 4, gdasset := some GDAsset.new, previousEnd := some ⟨0, 4⟩,
    currentSection := none, currentProperty := some .direct,
    symbols :=
      [{ name := js "a", detail := [], kind := .Property, range := ⟨⟨0, 0⟩, ⟨0, 9⟩⟩,
         selectionRange := ⟨⟨0, 0⟩, ⟨0, 9⟩⟩, children := [] }] }

/-- A resource document with an indexed property whose value is a string that closes on the
second line: `tags[0] = "a` / `b"`. -/
def sampleIndexedMultiLine : TextDocument :=
  ⟨js "godot-resource", js "file:///proj/a.tres", js "/proj/a.tres",
    [js "tags[0] = \"a", js "b\""]⟩

/-- The document `sampleUnknownTag` opened in the language mode `config-definition`: the same
URI and the same line. -/
def sampleUnknownTagAsConfig : TextDocument :=
  ⟨js "config-definition", js "file:///proj/a.tres", js "/proj/a.tres", [js "[foo bar=1]"]⟩

/-- The document `sampleQuoted` opened in the language mode `godot-scene`. -/
def sampleQuotedAsScene : TextDocument :=
  { sampleQuoted with languageId := js "godot-scene" }

/-- The document `sampleQuoted` after an edit: the same URI, the line `a = "xyz"`. -/
def sampleQuotedEdited : TextDocument :=
  { sampleQuoted with lines := [js "a = \"xyz\""] }

/-- A provider that has answered one query on `sampleQuoted`. -/
def sampleProvider : GDAssetProvider :=
  ((GDAssetProvider.mk []).parsedGDAsset latin1Letter sampleQuoted).1

/-- The config item `cpu` with the options `atmega328` and `atmega168`, the first selected. -/
def sampleCpu : ConfigItem :=
  { displayName := some (js "Processor"), id := js "cpu", selectedOption := js "atmega328",
    options := [⟨js "atmega328", js "ATmega328P"⟩, ⟨js "atmega168", js "ATmega168"⟩] }

/-- The board `nano` after `addParameter("menu.cpu.atmega328", "ATmega328P")`,
`addParameter("menu.cpu.atmega328.upload.speed", "115200")` and
`addParameter("menu.cpu.atmega168", "ATmega168")`. -/
def sampleBoard : Board :=
  (((Board.new (js "nano") ⟨none, js "avr", js "arduino"⟩ [(js "cpu", js "Processor")]).addParameter
    (js "menu.cpu.atmega328") (js "ATmega328P")).addParameter
    (js "menu.cpu.atmega328.upload.speed") (js "115200")).addParameter
    (js "menu.cpu.atmega168") (js "ATmega168")

/-- A scene document with the two lines `[node name="A"]` and `[node name="B"]`. -/
def sampleTwoRoots : TextDocument :=
  ⟨js "godot-scene", js "file:///proj/main.tscn", js "/proj/main.tscn",
    [js "[node name=\"A\"]", js "[node name=\"B\"]"]⟩

/-- The state of the scanner on `sampleTwoRoots` after its first pass. -/
def sampleAfterFirstRoot : ScanState :=
  { i := 1, j := 0,
    gdasset := some { GDAsset.new with rootNode := some (js "A") },
    previousEnd := some ⟨0, 15⟩,
    currentSection := some
      { name := js "$/root/A", detail := [], kind := SymbolKind.Object,
        range := ⟨⟨0, 0⟩, ⟨0, 15⟩⟩, selectionRange := ⟨⟨0, 0⟩, ⟨0, 15⟩⟩, children := [] },
    currentProperty := none, symbols := [] }

/-- A scene document with the one header line `[node name="A#"]`, whose quoted name holds a
`#`. -/
def sampleHashHeader : TextDocument :=
  ⟨js "godot-scene", js "file:///proj/main.tscn", js "/proj/main.tscn",
    [js "[node name=\"A#\"]"]⟩

/-- A scene document with the one header line `[node name="A_"]`. -/
def samplePlainHeader : TextDocument :=
  ⟨js "godot-scene", js "file:///proj/main.tscn", js "/proj/main.tscn",
    [js "[node name=\"A_\"]"]⟩

/-- A scene document with the one header line `[foo "a#b"]`, a tag with a quoted word. -/
def sampleQuotedTag : TextDocument :=
  ⟨js "godot-scene", js "file:///proj/main.tscn", js "/proj/main.tscn", [js "[foo \"a#b\"]"]⟩

/-- A scene document with the two lines `[node name="A"]` and `[node name="B#"]`. -/
def sampleHashRoot : TextDocument :=
  ⟨js "godot-scene", js "file:///proj/main.tscn", js "/proj/main.tscn",
    [js "[node name=\"A\"]", js "[node name=\"B#\"]"]⟩

/-- A resource document with the line `a = "x#y"`. -/
def sampleHashValue : TextDocument :=
  ⟨js "godot-resource", js "file:///proj/a.tres", js "/proj/a.tres", [js "a = \"x#y\""]⟩

/-! ## Theorems -/

theorem unescapeLoop_drop (k : Nat) (s : JSString) (h : k ≤ s.length) :
    unescapeLoop k s = unescapeLoop 0 (s.drop k) := by
  induction k generalizing s with
  | zero => simp
  | succ k ih =>
    cases s with
    | nil => simp at h
    | cons c t =>
      simp only [List.length_cons, Nat.add_le_add_iff_right] at h
      simp [unescapeLoop, ih t h]

theorem unescapeString_step (c : Nat) (t : JSString) (m : EscapeMatch)
    (hm : unescapeMatchAt (c :: t) = some m) (hlen : m.len - 1 ≤ t.length) :
    unescapeString (c :: t) = unescapeCase m ++ unescapeString (t.drop (m.len - 1)) := by
  simp only [unescapeString, unescapeLoop, hm]
  rw [unescapeLoop_drop _ _ hlen]

theorem isLowSurrogate_not_high (d : Nat) (h : isLowSurrogate d = true) :
    isHighSurrogate d = false := by
  simp only [isLowSurrogate, isHighSurrogate, Bool.and_eq_true, decide_eq_true_eq,
    Bool.and_eq_false_iff, decide_eq_false_iff_not] at *
  omega

theorem isLowSurrogate_ne_backslash (d : Nat) (h : isLowSurrogate d = true) :
    d ≠ BACKSLASH := by
  simp only [isLowSurrogate, Bool.and_eq_true, decide_eq_true_eq] at h
  simp only [BACKSLASH]; omega

theorem unescapeString_nil : unescapeString [] = [] := rfl

/-- A code unit other than the backslash is copied. -/
theorem unescapeString_cons_plain (c : Nat) (t : JSString) (hc : c ≠ BACKSLASH) :
    unescapeString (c :: t) = c :: unescapeString t := by
  have single : ∀ (x : Nat) (r : JSString), x ≠ BACKSLASH → codePointAt (x :: r) = [x] →
      unescapeString (x :: r) = x :: unescapeString r := by
    intro x r hx hcp
    rw [unescapeString_step x r ⟨1, none, some [x]⟩ (by simp [unescapeMatchAt, hx, hcp])
      (by simp)]
    simp [unescapeCase]
  cases t with
  | nil => exact single c [] hc rfl
  | cons d t' =>
    by_cases hp : (isHighSurrogate c && isLowSurrogate d) = true
    · have hcp : codePointAt (c :: d :: t') = [c, d] := by simp [codePointAt, hp]
      rw [unescapeString_step c (d :: t') ⟨2, none, some [c, d]⟩
        (by simp [unescapeMatchAt, hc, hcp]) (by simp)]
      simp only [Bool.and_eq_true] at hp
      have hd : codePointAt (d :: t') = [d] := by
        cases t' with
        | nil => rfl
        | cons e t'' => simp [codePointAt, isLowSurrogate_not_high d hp.2]
      rw [single d t' (isLowSurrogate_ne_backslash d hp.2) hd]
      simp [unescapeCase]
    · exact single c (d :: t') hc (by simp [codePointAt, hp])

/-- Text without a backslash is copied up to the first backslash. -/
theorem unescapeString_append_plain (p r : JSString) (hp : BACKSLASH ∉ p) :
    unescapeString (p ++ r) = p ++ unescapeString r := by
  induction p with
  | nil => rfl
  | cons c t ih =>
    simp only [List.mem_cons, not_or] at hp
    rw [List.cons_append, unescapeString_cons_plain c _ (Ne.symm hp.1), ih hp.2, List.cons_append]

/-- A backslash before one of the seven simple escape letters. -/
theorem unescapeString_simple (e : Nat) (r : JSString)
    (he : e = QUOTE ∨ e = 98 ∨ e = 102 ∨ e = 110 ∨ e = 114 ∨ e = 116 ∨ e = BACKSLASH) :
    unescapeString (BACKSLASH :: e :: r) =
      unescapeCase ⟨2, some [e], none⟩ ++ unescapeString r := by
  rw [unescapeString_step BACKSLASH (e :: r) ⟨2, some [e], none⟩
    (by simp [unescapeMatchAt, he]) (by simp)]
  simp

theorem hexDigitValue_lt (h : Nat) : hexDigitValue h < 16 := by
  simp only [hexDigitValue, isDigit, Bool.and_eq_true, decide_eq_true_eq]
  split_ifs <;> omega

/-- A backslash, the letter u and four hexadecimal digits. -/
theorem unescapeString_u4 (h1 h2 h3 h4 : Nat) (r : JSString)
    (hh : isHex h1 = true ∧ isHex h2 = true ∧ isHex h3 = true ∧ isHex h4 = true) :
    unescapeString (BACKSLASH :: 117 :: h1 :: h2 :: h3 :: h4 :: r) =
      (4096 * hexDigitValue h1 + 256 * hexDigitValue h2 + 16 * hexDigitValue h3 +
        hexDigitValue h4) :: unescapeString r := by
  obtain ⟨a1, a2, a3, a4⟩ := hh
  rw [unescapeString_step BACKSLASH (117 :: h1 :: h2 :: h3 :: h4 :: r)
    ⟨6, some [117, h1, h2, h3, h4], none⟩
    (by simp [unescapeMatchAt, a1, a2, a3, a4]) (by simp)]
  have b1 := hexDigitValue_lt h1
  have b2 := hexDigitValue_lt h2
  have b3 := hexDigitValue_lt h3
  have b4 := hexDigitValue_lt h4
  simp only [unescapeCase, fromCharCode, parseHex, List.drop, List.foldl]
  simp
  omega

/-- The backslash of an unrecognised escape is dropped and what follows is decoded as usual. -/
theorem unescapeString_other (e : Nat) (r : JSString)
    (h1 : ¬ (e = QUOTE ∨ e = 98 ∨ e = 102 ∨ e = 110 ∨ e = 114 ∨ e = 116 ∨ e = BACKSLASH))
    (h2 : ¬ (e = 117 ∧ 4 ≤ r.length ∧ (r.take 4).all isHex = true))
    (h3 : ¬ (e = 85 ∧ 6 ≤ r.length ∧ (r.take 6).all isHex = true)) :
    unescapeString (BACKSLASH :: e :: r) = e :: unescapeString r := by
  have hne : e ≠ BACKSLASH := fun h => h1 (by simp [h])
  by_cases hl : isLineTerminator e = true
  · rw [unescapeString_step BACKSLASH (e :: r) ⟨1, none, none⟩
      (by simp only [unescapeMatchAt, ↓reduceIte, if_neg h1, if_neg h2, if_neg h3, if_pos hl])
      (by simp)]
    simp [unescapeCase, unescapeString_cons_plain e r hne]
  · rw [← unescapeString_cons_plain e r hne]
    have hm : unescapeMatchAt (BACKSLASH :: e :: r) =
        some ⟨1 + (codePointAt (e :: r)).length, none, some (codePointAt (e :: r))⟩ := by
      simp only [unescapeMatchAt, ↓reduceIte, if_neg h1, if_neg h2, if_neg h3, if_neg hl]
    have hm2 : unescapeMatchAt (e :: r) =
        some ⟨(codePointAt (e :: r)).length, none, some (codePointAt (e :: r))⟩ := by
      simp [unescapeMatchAt, hne]
    have hlen : (codePointAt (e :: r)).length - 1 ≤ r.length := by
      cases r with
      | nil => simp [codePointAt]
      | cons d t => simp only [codePointAt]; split_ifs <;> simp
    have hpos : 1 ≤ (codePointAt (e :: r)).length := by
      cases r with
      | nil => simp [codePointAt]
      | cons d t => simp only [codePointAt]; split_ifs <;> simp
    rw [unescapeString_step BACKSLASH (e :: r) _ hm (by simp; omega),
      unescapeString_step e r _ hm2 hlen]
    simp only [unescapeCase, Option.getD_some]
    have hd : (e :: r).drop (1 + (codePointAt (e :: r)).length - 1) =
        r.drop ((codePointAt (e :: r)).length - 1) := by
      have : 1 + (codePointAt (e :: r)).length - 1 = ((codePointAt (e :: r)).length - 1) + 1 := by
        omega
      rw [this, List.drop_succ_cons]
    rw [hd]

/-- Text without a backslash decodes to itself. -/
theorem unescapeString_plain (s : JSString) (hs : BACKSLASH ∉ s) : unescapeString s = s := by
  have h := unescapeString_append_plain s [] hs
  simpa [unescapeString_nil] using h

/-- A backslash that ends the text yields nothing. -/
theorem unescapeString_dangling : unescapeString [BACKSLASH] = [] := by decide

theorem unescapeString_escCode_aux (s : JSString) : unescapeString (escCode s) = s := by
  induction s with
  | nil => rfl
  | cons c t ih =>
    by_cases hc : c = QUOTE ∨ c = BACKSLASH
    · have hm : c = QUOTE ∨ c = 98 ∨ c = 102 ∨ c = 110 ∨ c = 114 ∨ c = 116 ∨ c = BACKSLASH := by
        rcases hc with h | h <;> simp [h]
      simp only [escCode, if_pos hc]
      rw [unescapeString_simple c _ hm, ih]
      rcases hc with h | h <;> subst h <;> simp [unescapeCase]
    · simp only [escCode, if_neg hc]
      rw [unescapeString_cons_plain c _ (fun h => hc (Or.inr h)), ih]

/-! ### Lemmas on the matchers -/

theorem takeWhile_append_stop (p : Nat → Bool) (xs : List Nat) (y : Nat) (r : List Nat)
    (hx : ∀ x ∈ xs, p x = true) (hy : p y = false) :
    (xs ++ y :: r).takeWhile p = xs := by
  induction xs with
  | nil => simp [List.takeWhile, hy]
  | cons a t ih =>
    have ha : p a = true := hx a (by simp)
    rw [List.cons_append, List.takeWhile_cons, ha]
    simp [ih (fun x hxt => hx x (by simp [hxt]))]

theorem dropWhile_append_stop (p : Nat → Bool) (xs : List Nat) (y : Nat) (r : List Nat)
    (hx : ∀ x ∈ xs, p x = true) (hy : p y = false) :
    (xs ++ y :: r).dropWhile p = y :: r := by
  induction xs with
  | nil => simp [List.dropWhile, hy]
  | cons a t ih =>
    have ha : p a = true := hx a (by simp)
    rw [List.cons_append, List.dropWhile_cons, ha]
    simp [ih (fun x hxt => hx x (by simp [hxt]))]

theorem takeWhile_all (p : Nat → Bool) (xs : List Nat) (hx : ∀ x ∈ xs, p x = true) :
    xs.takeWhile p = xs := by
  induction xs with
  | nil => rfl
  | cons a t ih =>
    have ha : p a = true := hx a (by simp)
    rw [List.takeWhile_cons, ha]
    simp [ih (fun x hxt => hx x (by simp [hxt]))]

theorem dropWhile_all (p : Nat → Bool) (xs : List Nat) (hx : ∀ x ∈ xs, p x = true) :
    xs.dropWhile p = [] := by
  induction xs with
  | nil => rfl
  | cons a t ih =>
    have ha : p a = true := hx a (by simp)
    rw [List.dropWhile_cons, ha]
    simp [ih (fun x hxt => hx x (by simp [hxt]))]

theorem isPlainChar_of_not_mem (v : JSString) (h : QUOTE ∉ v ∧ BACKSLASH ∉ v) :
    ∀ x ∈ v, isPlainChar x = true := by
  intro x hx
  have h1 : x ≠ QUOTE := fun e => h.1 (e ▸ hx)
  have h2 : x ≠ BACKSLASH := fun e => h.2 (e ▸ hx)
  simp [isPlainChar, h1, h2]

theorem attributeMatches_skip (xs : JSString) (before : Option Nat) (tail : JSString) :
    attributeMatches xs.length before (xs ++ tail) =
      attributeMatches 0 (lastBefore before xs) tail := by
  induction xs generalizing before with
  | nil => simp [lastBefore]
  | cons c t ih =>
    rw [List.cons_append, List.length_cons]
    simp only [attributeMatches, lastBefore]
    rw [ih (some c)]

theorem lastBefore_concat (before : Option Nat) (xs : JSString) (a : Nat) :
    lastBefore before (xs ++ [a]) = some a := by
  induction xs generalizing before with
  | nil => rfl
  | cons c t ih => exact ih (some c)

theorem attributeMatches_step (before : Option Nat) (c : Nat) (xs tail : JSString)
    (m : AttributeMatch) (hm : attributeMatchAt before (c :: (xs ++ tail)) = some m)
    (hlen : m.len - 1 = xs.length) :
    attributeMatches 0 before (c :: (xs ++ tail)) =
      m :: attributeMatches 0 (lastBefore (some c) xs) tail := by
  simp only [attributeMatches, hm, hlen]
  rw [attributeMatches_skip]

/-- A code unit that is not a key character starts no attribute. -/
theorem attributeMatches_gap (before : Option Nat) (c : Nat) (tail : JSString)
    (hc : isKeyChar c = false) :
    attributeMatches 0 before (c :: tail) = attributeMatches 0 (some c) tail := by
  have : attributeMatchAt before (c :: tail) = none := by
    simp [attributeMatchAt, List.takeWhile, hc]
  simp only [attributeMatches, this]

theorem dropWhile_cons_stop (p : Nat → Bool) (y : Nat) (r : List Nat) (hy : p y = false) :
    (y :: r).dropWhile p = y :: r := by
  simp [List.dropWhile_cons, hy]

theorem takeWhile_cons_stop (p : Nat → Bool) (y : Nat) (r : List Nat) (hy : p y = false) :
    (y :: r).takeWhile p = [] := by
  simp [List.takeWhile_cons, hy]

/-- The value `"value"` with a plain value. -/
theorem attributeValueAt_quoted (value tail : JSString)
    (hv : ∀ x ∈ value, isPlainChar x = true) :
    attributeValueAt (34 :: (value ++ 34 :: tail)) =
      some (value.length + 2, none, some value, none) := by
  have e3 : (value ++ 34 :: tail).dropWhile isPlainChar = 34 :: tail :=
    dropWhile_append_stop isPlainChar value 34 tail hv (by decide)
  have e4 : (value ++ 34 :: tail).takeWhile isPlainChar = value :=
    takeWhile_append_stop isPlainChar value 34 tail hv (by decide)
  have e7 : isDigit 34 = false := by decide
  simp only [attributeValueAt, e7, e3, e4]
  simp

/-- The attribute `key="value"` with a plain value, found where a word boundary allows it. -/
theorem attributeMatches_quoted (before : Option Nat) (k : Nat) (key value tail : JSString)
    (hb : wordBoundary before (some k) = true)
    (hkey : ∀ x ∈ k :: key, isKeyChar x = true)
    (hlast : (((k :: key).getLast?).map isWord).getD false = true)
    (hv : ∀ x ∈ value, isPlainChar x = true) :
    attributeMatches 0 before (k :: key ++ 61 :: 34 :: (value ++ 34 :: tail)) =
      ⟨(k :: key).length + 3 + value.length, k :: key, none, some value, none⟩ ::
        attributeMatches 0 (some 34) tail := by
  have hs : k :: key ++ 61 :: 34 :: (value ++ 34 :: tail) =
      k :: (((key ++ 61 :: 34 :: value) ++ [34]) ++ tail) := by simp
  have hm : attributeMatchAt before (k :: (((key ++ 61 :: 34 :: value) ++ [34]) ++ tail)) =
      some ⟨(k :: key).length + 3 + value.length, k :: key, none, some value, none⟩ := by
    rw [← hs]
    have e1 : (k :: key ++ 61 :: 34 :: (value ++ 34 :: tail)).takeWhile isKeyChar = k :: key :=
      takeWhile_append_stop isKeyChar (k :: key) 61 _ hkey (by decide)
    have e2 : (k :: key ++ 61 :: 34 :: (value ++ 34 :: tail)).dropWhile isKeyChar =
        61 :: 34 :: (value ++ 34 :: tail) :=
      dropWhile_append_stop isKeyChar (k :: key) 61 _ hkey (by decide)
    have e5 : (61 :: 34 :: (value ++ 34 :: tail)).dropWhile isSpace =
        61 :: 34 :: (value ++ 34 :: tail) := dropWhile_cons_stop isSpace 61 _ (by decide)
    have e6 : (61 :: 34 :: (value ++ 34 :: tail)).takeWhile isSpace = [] :=
      takeWhile_cons_stop isSpace 61 _ (by decide)
    have e7 : (34 :: (value ++ 34 :: tail)).dropWhile isSpace = 34 :: (value ++ 34 :: tail) :=
      dropWhile_cons_stop isSpace 34 _ (by decide)
    have e8 : (34 :: (value ++ 34 :: tail)).takeWhile isSpace = [] :=
      takeWhile_cons_stop isSpace 34 _ (by decide)
    have e9 : (k :: key ++ 61 :: 34 :: (value ++ 34 :: tail)).head? = some k := rfl
    simp only [attributeMatchAt, e1, e2, e5, e6, e7, e8, e9, hlast, hb,
      attributeValueAt_quoted value tail hv]
    simp only [Bool.and_self, ↓reduceIte, List.length_nil, List.length_cons, Option.some.injEq,
      AttributeMatch.mk.injEq, and_true]
    omega
  rw [hs, attributeMatches_step before k _ tail _ hm (by simp; omega), lastBefore_concat]

theorem backslash_not_mem_of_plain (v : JSString) (hv : ∀ x ∈ v, isPlainChar x = true) :
    BACKSLASH ∉ v := by
  intro h
  have := hv BACKSLASH h
  simp [isPlainChar] at this

/-- The attribute loop on a header of the shape `type="T" path="P" id="I"`. -/
theorem sectionAttributes_type_path_id (T P I : JSString)
    (hT : ∀ x ∈ T, isPlainChar x = true) (hP : ∀ x ∈ P, isPlainChar x = true)
    (hI : ∀ x ∈ I, isPlainChar x = true) :
    sectionAttributes (js "type=\"" ++ T ++ js "\" path=\"" ++ P ++ js "\" id=\"" ++ I ++ js "\"") =
      ([(js "id", I), (js "path", P), (js "type", T)], some I) := by
  have hs : js "type=\"" ++ T ++ js "\" path=\"" ++ P ++ js "\" id=\"" ++ I ++ js "\"" =
      116 :: [121, 112, 101] ++ 61 :: 34 :: (T ++ 34 :: (32 ::
        (112 :: [97, 116, 104] ++ 61 :: 34 :: (P ++ 34 :: (32 ::
          (105 :: [100] ++ 61 :: 34 :: (I ++ 34 :: []))))))) := by
    rw [show js "type=\"" = [116, 121, 112, 101, 61, 34] from by decide,
      show js "\" path=\"" = [34, 32, 112, 97, 116, 104, 61, 34] from by decide,
      show js "\" id=\"" = [34, 32, 105, 100, 61, 34] from by decide,
      show js "\"" = [34] from by decide]
    simp
  have hm : attributeMatches 0 none
      (js "type=\"" ++ T ++ js "\" path=\"" ++ P ++ js "\" id=\"" ++ I ++ js "\"") =
      [⟨4 + 3 + T.length, js "type", none, some T, none⟩,
       ⟨4 + 3 + P.length, js "path", none, some P, none⟩,
       ⟨2 + 3 + I.length, js "id", none, some I, none⟩] := by
    rw [hs, attributeMatches_quoted none 116 [121, 112, 101] T _ (by decide) (by decide)
        (by decide) hT,
      attributeMatches_gap (some 34) 32 _ (by decide),
      attributeMatches_quoted (some 32) 112 [97, 116, 104] P _ (by decide) (by decide)
        (by decide) hP,
      attributeMatches_gap (some 34) 32 _ (by decide),
      attributeMatches_quoted (some 32) 105 [100] I _ (by decide) (by decide) (by decide) hI]
    rfl
  have n1 : js "type" ≠ js "__proto__" := by decide
  have n2 : js "path" ≠ js "__proto__" := by decide
  have n3 : js "id" ≠ js "__proto__" := by decide
  have n4 : js "type" ≠ js "id" := by decide
  have n5 : js "path" ≠ js "id" := by decide
  simp only [sectionAttributes, hm, List.foldl, Attributes.set, Option.getD_some,
    unescapeString_plain T (backslash_not_mem_of_plain T hT),
    unescapeString_plain P (backslash_not_mem_of_plain P hP),
    unescapeString_plain I (backslash_not_mem_of_plain I hI), if_neg n1, if_neg n2, if_neg n3,
    if_neg n4, if_neg n5, if_true]

/-- The attribute loop on a header of the shape `type="T" id="I"`. -/
theorem sectionAttributes_type_id (T I : JSString)
    (hT : ∀ x ∈ T, isPlainChar x = true) (hI : ∀ x ∈ I, isPlainChar x = true) :
    sectionAttributes (js "type=\"" ++ T ++ js "\" id=\"" ++ I ++ js "\"") =
      ([(js "id", I), (js "type", T)], some I) := by
  have hs : js "type=\"" ++ T ++ js "\" id=\"" ++ I ++ js "\"" =
      116 :: [121, 112, 101] ++ 61 :: 34 :: (T ++ 34 :: (32 ::
          (105 :: [100] ++ 61 :: 34 :: (I ++ 34 :: [])))) := by
    rw [show js "type=\"" = [116, 121, 112, 101, 61, 34] from by decide,
      show js "\" id=\"" = [34, 32, 105, 100, 61, 34] from by decide,
      show js "\"" = [34] from by decide]
    simp
  have hm : attributeMatches 0 none (js "type=\"" ++ T ++ js "\" id=\"" ++ I ++ js "\"") =
      [⟨4 + 3 + T.length, js "type", none, some T, none⟩,
       ⟨2 + 3 + I.length, js "id", none, some I, none⟩] := by
    rw [hs, attributeMatches_quoted none 116 [121, 112, 101] T _ (by decide) (by decide)
        (by decide) hT,
      attributeMatches_gap (some 34) 32 _ (by decide),
      attributeMatches_quoted (some 32) 105 [100] I _ (by decide) (by decide) (by decide) hI]
    rfl
  have n1 : js "type" ≠ js "__proto__" := by decide
  have n3 : js "id" ≠ js "__proto__" := by decide
  have n4 : js "type" ≠ js "id" := by decide
  simp only [sectionAttributes, hm, List.foldl, Attributes.set, Option.getD_some,
    unescapeString_plain T (backslash_not_mem_of_plain T hT),
    unescapeString_plain I (backslash_not_mem_of_plain I hI), if_neg n1, if_neg n3,
    if_neg n4, if_true]

/-- What `sectionSymbol` does for the tag `ext_resource`. -/
theorem sectionSymbol_ext_resource (docUriPath rest : JSString) (range : Range)
    (gdasset : GDAsset) :
    sectionSymbol docUriPath (js "ext_resource") rest range gdasset =
      ({ name := ((sectionAttributes rest).1.get "path").getD (js "ext_resource"),
         detail := ((sectionAttributes rest).1.get "type").getD [],
         kind := .Variable, range := range, selectionRange := range, children := [] },
       if truthy (sectionAttributes rest).2 then
         { gdasset with
            refs := { gdasset.refs with
              ExtResource := gdasset.refs.ExtResource.set ((sectionAttributes rest).2.getD [])
                { path := ((sectionAttributes rest).1.get "path").getD (js "?"),
                  type := ((sectionAttributes rest).1.get "type").getD [],
                  symbol := range } } }
       else gdasset) := by
  have t1 : js "ext_resource" ≠ js "gd_scene" := by decide
  have t2 : js "ext_resource" ≠ js "gd_resource" := by decide
  simp only [sectionSymbol, if_neg t1, if_neg t2, if_true]

/-- What `sectionSymbol` does for the tag `sub_resource`. -/
theorem sectionSymbol_sub_resource (docUriPath rest : JSString) (range : Range)
    (gdasset : GDAsset) :
    sectionSymbol docUriPath (js "sub_resource") rest range gdasset =
      if truthy (sectionAttributes rest).2 then
        ({ name := js "::" ++ (sectionAttributes rest).2.getD [],
           detail := ((sectionAttributes rest).1.get "type").getD [],
           kind := .Object, range := range, selectionRange := range, children := [] },
         { gdasset with
            refs := { gdasset.refs with
              SubResource := gdasset.refs.SubResource.set ((sectionAttributes rest).2.getD [])
                { path := (gdasset.resource.map (fun r => r.path)).getD [] ++
                    (js "::" ++ (sectionAttributes rest).2.getD []),
                  type := ((sectionAttributes rest).1.get "type").getD [],
                  symbol := range } } })
      else
        ({ name := js "sub_resource", detail := ((sectionAttributes rest).1.get "type").getD [],
           kind := .Object, range := range, selectionRange := range, children := [] },
         gdasset) := by
  have t1 : js "sub_resource" ≠ js "gd_scene" := by decide
  have t2 : js "sub_resource" ≠ js "gd_resource" := by decide
  have t3 : js "sub_resource" ≠ js "ext_resource" := by decide
  simp only [sectionSymbol, if_neg t1, if_neg t2, if_neg t3, if_true]

/-- Reading back the name just assigned gives the assigned descriptor. -/
theorem ResourceTable.get_set_same (table : ResourceTable) (id : JSString) (r : GDResource) :
    (table.set id r).get id = .resource r := by
  by_cases h : id = js "__proto__"
  · simp [ResourceTable.set, ResourceTable.get, h]
  · simp [ResourceTable.set, ResourceTable.get, h, List.lookup]

/-- The resource call expression on `keyword("id")` with a plain id. -/
theorem resCallMatch_quoted (keyword id : JSString)
    (hk : keyword = js "ExtResource" ∨ keyword = js "SubResource")
    (hid : ∀ x ∈ id, isPlainChar x = true) :
    resCallMatch (keyword ++ 40 :: 34 :: (id ++ [34, 41])) = some ⟨keyword, none, some id⟩ := by
  have hlen : keyword.length = 11 := by rcases hk with h | h <;> subst h <;> decide
  have e1 : (keyword ++ 40 :: 34 :: (id ++ [34, 41])).take 11 = keyword :=
    List.take_left' hlen
  have e2 : (keyword ++ 40 :: 34 :: (id ++ [34, 41])).drop 11 = 40 :: 34 :: (id ++ [34, 41]) :=
    List.drop_left' hlen
  have e3 : (40 :: 34 :: (id ++ [34, 41])).dropWhile isSpace = 40 :: 34 :: (id ++ [34, 41]) :=
    dropWhile_cons_stop isSpace 40 _ (by decide)
  have e4 : (34 :: (id ++ [34, 41])).dropWhile isSpace = 34 :: (id ++ [34, 41]) :=
    dropWhile_cons_stop isSpace 34 _ (by decide)
  have e5 : (id ++ [34, 41]).dropWhile isPlainChar = [34, 41] :=
    dropWhile_append_stop isPlainChar id 34 [41] hid (by decide)
  have e6 : (id ++ [34, 41]).takeWhile isPlainChar = id :=
    takeWhile_append_stop isPlainChar id 34 [41] hid (by decide)
  have e7 : isDigit 34 = false := by decide
  have e8 : resCallCloses [41] = true := by decide
  simp only [resCallMatch, e1, e2, e3, e4, e5, e6, e7, e8, hk, if_true]
  simp

/-- The source's `resCall` on `keyword("id")` with a plain id reads `refs[keyword][id]`. -/
theorem resCall_quoted (gdasset : GDAsset) (keyword id : JSString)
    (hk : keyword = js "ExtResource" ∨ keyword = js "SubResource")
    (hid : ∀ x ∈ id, isPlainChar x = true) :
    gdasset.resCall (keyword ++ 40 :: 34 :: (id ++ [34, 41])) =
      some ⟨keyword, id, (gdasset.refs.table keyword).get id⟩ := by
  simp only [GDAsset.resCall, resCallMatch_quoted keyword id hk hid, Option.getD_some,
    unescapeString_plain id (backslash_not_mem_of_plain id hid)]

theorem truthy_some (v : JSString) (hv : v ≠ []) : truthy (some v) = true := by
  cases v with
  | nil => exact absurd rfl hv
  | cons c t => rfl

theorem resCall_text (keyword id : JSString) :
    keyword ++ js "(\"" ++ id ++ js "\")" = keyword ++ 40 :: 34 :: (id ++ [34, 41]) := by
  rw [show js "(\"" = [40, 34] from by decide, show js "\")" = [34, 41] from by decide]
  simp

theorem attributes_get_path3 (T P I : JSString) :
    Attributes.get [(js "id", I), (js "path", P), (js "type", T)] "path" = some P := rfl

theorem attributes_get_type3 (T P I : JSString) :
    Attributes.get [(js "id", I), (js "path", P), (js "type", T)] "type" = some T := rfl

theorem attributes_get_type2 (T I : JSString) :
    Attributes.get [(js "id", I), (js "type", T)] "type" = some T := rfl

/-- The attribute `key=digits` that ends the text. -/
theorem attributeMatches_number_end (before : Option Nat) (k d : Nat) (key digits : JSString)
    (hb : wordBoundary before (some k) = true)
    (hkey : ∀ x ∈ k :: key, isKeyChar x = true)
    (hlast : (((k :: key).getLast?).map isWord).getD false = true)
    (hd : ∀ x ∈ d :: digits, isDigit x = true) :
    attributeMatches 0 before (k :: key ++ 61 :: d :: digits) =
      [⟨(k :: key).length + 1 + (d :: digits).length, k :: key, some (d :: digits), none,
        none⟩] := by
  have hd0 : isDigit d = true := hd d (by simp)
  have hsp : isSpace d = false := by
    simp only [isDigit, Bool.and_eq_true, decide_eq_true_eq] at hd0
    have h1 : d ≠ 9 := by omega
    have h2 : d ≠ 10 := by omega
    have h3 : d ≠ 11 := by omega
    have h4 : d ≠ 12 := by omega
    have h5 : d ≠ 13 := by omega
    have h6 : d ≠ 32 := by omega
    have h7 : d ≠ 160 := by omega
    have h8 : d ≠ 5760 := by omega
    have h9 : ¬ (8192 ≤ d) := by omega
    have h10 : d ≠ 8232 := by omega
    have h11 : d ≠ 8233 := by omega
    have h12 : d ≠ 8239 := by omega
    have h13 : d ≠ 8287 := by omega
    have h14 : d ≠ 12288 := by omega
    have h15 : d ≠ 65279 := by omega
    simp [isSpace, h1, h2, h3, h4, h5, h6, h7, h8, h9, h10, h11, h12, h13, h14, h15]
  have hs : k :: key ++ 61 :: d :: digits = k :: ((key ++ 61 :: d :: digits) ++ []) := by simp
  have hm : attributeMatchAt before (k :: ((key ++ 61 :: d :: digits) ++ [])) =
      some ⟨(k :: key).length + 1 + (d :: digits).length, k :: key, some (d :: digits), none,
        none⟩ := by
    rw [← hs]
    have e1 : (k :: key ++ 61 :: d :: digits).takeWhile isKeyChar = k :: key :=
      takeWhile_append_stop isKeyChar (k :: key) 61 _ hkey (by decide)
    have e2 : (k :: key ++ 61 :: d :: digits).dropWhile isKeyChar = 61 :: d :: digits :=
      dropWhile_append_stop isKeyChar (k :: key) 61 _ hkey (by decide)
    have e5 : (61 :: d :: digits).dropWhile isSpace = 61 :: d :: digits :=
      dropWhile_cons_stop isSpace 61 _ (by decide)
    have e6 : (61 :: d :: digits).takeWhile isSpace = [] :=
      takeWhile_cons_stop isSpace 61 _ (by decide)
    have e7 : (d :: digits).dropWhile isSpace = d :: digits := dropWhile_cons_stop isSpace d _ hsp
    have e8 : (d :: digits).takeWhile isSpace = [] := takeWhile_cons_stop isSpace d _ hsp
    have e9 : (k :: key ++ 61 :: d :: digits).head? = some k := rfl
    have e10 : attributeValueAt (d :: digits) =
        some ((d :: digits).length, some (d :: digits), none, none) := by
      simp only [attributeValueAt, hd0, if_true, takeWhile_all isDigit (d :: digits) hd]
    simp only [attributeMatchAt, e1, e2, e5, e6, e7, e8, e9, e10, hlast, hb]
    simp only [Bool.and_self, ↓reduceIte, List.length_nil, List.length_cons, Option.some.injEq,
      AttributeMatch.mk.injEq, and_true]
  rw [hs, attributeMatches_step before k _ [] _ hm (by simp; omega)]
  cases lastBefore (some k) (key ++ 61 :: d :: digits) <;> rfl

/-- The attribute loop on a header of the shape `type="T" path="P" id=N`, `N` an unsigned
integer. -/
theorem sectionAttributes_type_path_number (T P : JSString) (d : Nat) (digits : JSString)
    (hT : ∀ x ∈ T, isPlainChar x = true) (hP : ∀ x ∈ P, isPlainChar x = true)
    (hd : ∀ x ∈ d :: digits, isDigit x = true) :
    sectionAttributes (js "type=\"" ++ T ++ js "\" path=\"" ++ P ++ js "\" id=" ++ d :: digits) =
      ([(js "id", d :: digits), (js "path", P), (js "type", T)], some (d :: digits)) := by
  have hs : js "type=\"" ++ T ++ js "\" path=\"" ++ P ++ js "\" id=" ++ d :: digits =
      116 :: [121, 112, 101] ++ 61 :: 34 :: (T ++ 34 :: (32 ::
        (112 :: [97, 116, 104] ++ 61 :: 34 :: (P ++ 34 :: (32 ::
          (105 :: [100] ++ 61 :: d :: digits)))))) := by
    rw [show js "type=\"" = [116, 121, 112, 101, 61, 34] from by decide,
      show js "\" path=\"" = [34, 32, 112, 97, 116, 104, 61, 34] from by decide,
      show js "\" id=" = [34, 32, 105, 100, 61] from by decide]
    simp
  have hm : attributeMatches 0 none
      (js "type=\"" ++ T ++ js "\" path=\"" ++ P ++ js "\" id=" ++ d :: digits) =
      [⟨4 + 3 + T.length, js "type", none, some T, none⟩,
       ⟨4 + 3 + P.length, js "path", none, some P, none⟩,
       ⟨2 + 1 + (d :: digits).length, js "id", some (d :: digits), none, none⟩] := by
    rw [hs, attributeMatches_quoted none 116 [121, 112, 101] T _ (by decide) (by decide)
        (by decide) hT,
      attributeMatches_gap (some 34) 32 _ (by decide),
      attributeMatches_quoted (some 32) 112 [97, 116, 104] P _ (by decide) (by decide)
        (by decide) hP,
      attributeMatches_gap (some 34) 32 _ (by decide),
      attributeMatches_number_end (some 32) 105 d [100] digits (by decide) (by decide)
        (by decide) hd]
    rfl
  have n1 : js "type" ≠ js "__proto__" := by decide
  have n2 : js "path" ≠ js "__proto__" := by decide
  have n3 : js "id" ≠ js "__proto__" := by decide
  have n4 : js "type" ≠ js "id" := by decide
  have n5 : js "path" ≠ js "id" := by decide
  simp only [sectionAttributes, hm, List.foldl, Attributes.set, Option.getD_some,
    unescapeString_plain T (backslash_not_mem_of_plain T hT),
    unescapeString_plain P (backslash_not_mem_of_plain P hP), if_neg n1, if_neg n2, if_neg n3,
    if_neg n4, if_neg n5, if_true]

/-! ### Claims C1 to C10: the escape decoder, the resource tables, section headers -/

/-- C1: for every string `s`, decoding the escaped form of `s` gives `s` back:
`unescapeString(escCode(s)) = s`, where `escCode` puts a backslash before every double quote
and every backslash. -/
theorem unescapeString_escCode (s : JSString) : unescapeString (escCode s) = s :=
  unescapeString_escCode_aux s

/-- C2: for all strings `T`, `P`, `I` without double quote and backslash, `I` non-empty, after
`sectionSymbol` has processed the header `[ext_resource type="T" path="P" id="I"]` (tag
`ext_resource`, attribute text `type="T" path="P" id="I"`) on a fresh `GDAsset`, `resCall` on
the text `ExtResource("I")` returns keyword `ExtResource`, id `I` and the resource with path
`P` and type `T` (owned by the header's symbol). -/
theorem resCall_after_ext_resource (docUriPath T P I : JSString) (range : Range)
    (hT : QUOTE ∉ T ∧ BACKSLASH ∉ T) (hP : QUOTE ∉ P ∧ BACKSLASH ∉ P)
    (hI : QUOTE ∉ I ∧ BACKSLASH ∉ I) (hne : I ≠ []) :
    (sectionSymbol docUriPath (js "ext_resource")
        (js "type=\"" ++ T ++ js "\" path=\"" ++ P ++ js "\" id=\"" ++ I ++ js "\"")
        range GDAsset.new).2.resCall (js "ExtResource" ++ js "(\"" ++ I ++ js "\")") =
      some { keyword := js "ExtResource", id := I,
             resource := .resource { path := P, type := T, symbol := range } } := by
  have pT := isPlainChar_of_not_mem T hT
  have pP := isPlainChar_of_not_mem P hP
  have pI := isPlainChar_of_not_mem I hI
  rw [resCall_text, resCall_quoted _ _ _ (Or.inl rfl) pI, sectionSymbol_ext_resource,
    sectionAttributes_type_path_id T P I pT pP pI]
  simp only [truthy_some I hne, if_true, Option.getD_some, Refs.table]
  rw [ResourceTable.get_set_same]
  rfl

/-- Witness for C2: `T` = `Texture2D`, `P` = `res://a.png`, `I` = `1`. -/
theorem resCall_after_ext_resource_witness :
    (sectionSymbol (js "/proj/main.tscn") (js "ext_resource")
        (js "type=\"" ++ js "Texture2D" ++ js "\" path=\"" ++ js "res://a.png" ++ js "\" id=\"" ++
          js "1" ++ js "\"")
        ⟨⟨1, 0⟩, ⟨1, 61⟩⟩ GDAsset.new).2.resCall
        (js "ExtResource" ++ js "(\"" ++ js "1" ++ js "\")") =
      some { keyword := js "ExtResource", id := js "1",
             resource := .resource { path := js "res://a.png", type := js "Texture2D",
                                     symbol := ⟨⟨1, 0⟩, ⟨1, 61⟩⟩ } } :=
  resCall_after_ext_resource (js "/proj/main.tscn") (js "Texture2D") (js "res://a.png") (js "1")
    ⟨⟨1, 0⟩, ⟨1, 61⟩⟩ (by decide) (by decide) (by decide) (by decide)

/-- C3 at the failing input: on a fresh `GDAsset`, where no header has registered anything,
`resCall` on `ExtResource("constructor")` and on `SubResource("toString")` returns a resource
that is not absent: the function inherited from `Object.prototype` under that name; and on
`ExtResource("__proto__")` it returns `Object.prototype`.  For the unregistered id `2` the
resource is absent. -/
theorem resCall_unregistered_builtin_name :
    GDAsset.new.resCall (js "ExtResource(\"constructor\")") =
      some { keyword := js "ExtResource", id := js "constructor",
             resource := .builtin (js "constructor") } ∧
    GDAsset.new.resCall (js "SubResource(\"toString\")") =
      some { keyword := js "SubResource", id := js "toString",
             resource := .builtin (js "toString") } ∧
    GDAsset.new.resCall (js "ExtResource(\"__proto__\")") =
      some { keyword := js "ExtResource", id := js "__proto__",
             resource := .objectPrototype } ∧
    GDAsset.new.resCall (js "ExtResource(\"2\")") =
      some { keyword := js "ExtResource", id := js "2", resource := .undefined } := by
  decide

/-- C4: the two resource tables are independent.  On an `ext_resource` header `sectionSymbol`
leaves `refs.SubResource` (and every other field but `refs.ExtResource`) as it was; on a
`sub_resource` header it leaves `refs.ExtResource` (and every other field but
`refs.SubResource`) as it was; and after headers of both kinds have registered the same id
`I`, in either order, `resCall` on `ExtResource("I")` returns the external descriptor and
`resCall` on `SubResource("I")` the local one. -/
theorem resource_tables_independent :
    (∀ (docUriPath rest : JSString) (range : Range) (gdasset : GDAsset),
      (sectionSymbol docUriPath (js "ext_resource") rest range gdasset).2.refs.SubResource =
          gdasset.refs.SubResource ∧
        (sectionSymbol docUriPath (js "ext_resource") rest range gdasset).2 =
          { gdasset with refs := { gdasset.refs with
              ExtResource :=
                (sectionSymbol docUriPath (js "ext_resource") rest range gdasset).2.refs.ExtResource } }) ∧
    (∀ (docUriPath rest : JSString) (range : Range) (gdasset : GDAsset),
      (sectionSymbol docUriPath (js "sub_resource") rest range gdasset).2.refs.ExtResource =
          gdasset.refs.ExtResource ∧
        (sectionSymbol docUriPath (js "sub_resource") rest range gdasset).2 =
          { gdasset with refs := { gdasset.refs with
              SubResource :=
                (sectionSymbol docUriPath (js "sub_resource") rest range gdasset).2.refs.SubResource } }) ∧
    (∀ (docUriPath T1 P T2 I : JSString) (range1 range2 : Range) (gdasset : GDAsset),
      (QUOTE ∉ T1 ∧ BACKSLASH ∉ T1) → (QUOTE ∉ P ∧ BACKSLASH ∉ P) →
      (QUOTE ∉ T2 ∧ BACKSLASH ∉ T2) → (QUOTE ∉ I ∧ BACKSLASH ∉ I) → I ≠ [] →
      let extHeader := js "type=\"" ++ T1 ++ js "\" path=\"" ++ P ++ js "\" id=\"" ++ I ++ js "\""
      let subHeader := js "type=\"" ++ T2 ++ js "\" id=\"" ++ I ++ js "\""
      let external : GDResource := { path := P, type := T1, symbol := range1 }
      let local_ : GDResource :=
        { path := (gdasset.resource.map (fun r => r.path)).getD [] ++ js "::" ++ I, type := T2,
          symbol := range2 }
      let extThenSub := (sectionSymbol docUriPath (js "sub_resource") subHeader range2
        (sectionSymbol docUriPath (js "ext_resource") extHeader range1 gdasset).2).2
      let subThenExt := (sectionSymbol docUriPath (js "ext_resource") extHeader range1
        (sectionSymbol docUriPath (js "sub_resource") subHeader range2 gdasset).2).2
      extThenSub.resCall (js "ExtResource" ++ js "(\"" ++ I ++ js "\")") =
          some { keyword := js "ExtResource", id := I, resource := .resource external } ∧
        extThenSub.resCall (js "SubResource" ++ js "(\"" ++ I ++ js "\")") =
          some { keyword := js "SubResource", id := I, resource := .resource local_ } ∧
        subThenExt.resCall (js "ExtResource" ++ js "(\"" ++ I ++ js "\")") =
          some { keyword := js "ExtResource", id := I, resource := .resource external } ∧
        subThenExt.resCall (js "SubResource" ++ js "(\"" ++ I ++ js "\")") =
          some { keyword := js "SubResource", id := I, resource := .resource local_ }) := by
  refine ⟨?_, ?_, ?_⟩
  · intro docUriPath rest range gdasset
    rw [sectionSymbol_ext_resource]
    by_cases h : truthy (sectionAttributes rest).2 = true
    · simp [h]
    · simp [h]
  · intro docUriPath rest range gdasset
    rw [sectionSymbol_sub_resource]
    by_cases h : truthy (sectionAttributes rest).2 = true
    · simp [h]
    · simp [h]
  · intro docUriPath T1 P T2 I range1 range2 gdasset hT1 hP hT2 hI hne
    have pT1 := isPlainChar_of_not_mem T1 hT1
    have pP := isPlainChar_of_not_mem P hP
    have pT2 := isPlainChar_of_not_mem T2 hT2
    have pI := isPlainChar_of_not_mem I hI
    have k : js "SubResource" ≠ js "ExtResource" := by decide
    simp only [resCall_text]
    rw [resCall_quoted _ _ _ (Or.inl rfl) pI, resCall_quoted _ _ _ (Or.inr rfl) pI,
      resCall_quoted _ _ _ (Or.inl rfl) pI, resCall_quoted _ _ _ (Or.inr rfl) pI]
    simp only [sectionSymbol_ext_resource, sectionSymbol_sub_resource,
      sectionAttributes_type_path_id T1 P I pT1 pP pI, sectionAttributes_type_id T2 I pT2 pI,
      truthy_some I hne, if_true, Option.getD_some, Refs.table, if_neg k,
      ResourceTable.get_set_same, attributes_get_path3, attributes_get_type3,
      attributes_get_type2]
    simp only [List.append_assoc, and_self]

/-- Witness for C4: the id `1` registered by `[ext_resource type="Texture2D"
path="res://a.png" id="1"]` and by `[sub_resource type="StyleBoxFlat" id="1"]`. -/
theorem resource_tables_independent_witness :
    (sectionSymbol (js "/proj/main.tscn") (js "sub_resource")
        (js "type=\"" ++ js "StyleBoxFlat" ++ js "\" id=\"" ++ js "1" ++ js "\"")
        ⟨⟨2, 0⟩, ⟨2, 40⟩⟩ sampleAfterExt).2.resCall
        (js "ExtResource" ++ js "(\"" ++ js "1" ++ js "\")") =
        some { keyword := js "ExtResource", id := js "1",
               resource := .resource { path := js "res://a.png", type := js "Texture2D",
                                       symbol := ⟨⟨1, 0⟩, ⟨1, 61⟩⟩ } } ∧
      (sectionSymbol (js "/proj/main.tscn") (js "sub_resource")
        (js "type=\"" ++ js "StyleBoxFlat" ++ js "\" id=\"" ++ js "1" ++ js "\"")
        ⟨⟨2, 0⟩, ⟨2, 40⟩⟩ sampleAfterExt).2.resCall
        (js "SubResource" ++ js "(\"" ++ js "1" ++ js "\")") =
        some { keyword := js "SubResource", id := js "1",
               resource := .resource { path := js "::1", type := js "StyleBoxFlat",
                                       symbol := ⟨⟨2, 0⟩, ⟨2, 40⟩⟩ } } :=
  have h := resource_tables_independent.2.2 (js "/proj/main.tscn") (js "Texture2D")
    (js "res://a.png") (js "StyleBoxFlat") (js "1") ⟨⟨1, 0⟩, ⟨1, 61⟩⟩ ⟨⟨2, 0⟩, ⟨2, 40⟩⟩ GDAsset.new
    (by decide) (by decide) (by decide) (by decide) (by decide)
  ⟨h.1, h.2.1⟩

/-- C5, as stated, fails for the empty quoted id: the header
`[ext_resource type="Texture2D" path="res://a.png" id=""]` carries the attributes `id` (the
empty string), `path` and `type`, yet after `sectionSymbol` on a fresh `GDAsset` the external
table is still empty and has no entry under the id. -/
theorem ext_resource_empty_id_not_registered :
    (sectionAttributes sampleEmptyIdHeader).2 = some [] ∧
      (sectionAttributes sampleEmptyIdHeader).1.get "path" = some (js "res://a.png") ∧
      (sectionAttributes sampleEmptyIdHeader).1.get "type" = some (js "Texture2D") ∧
      (sectionSymbol (js "/proj/main.tscn") (js "ext_resource") sampleEmptyIdHeader
        ⟨⟨1, 0⟩, ⟨1, 60⟩⟩ GDAsset.new).2.refs.ExtResource = ResourceTable.empty ∧
      (sectionSymbol (js "/proj/main.tscn") (js "ext_resource") sampleEmptyIdHeader
        ⟨⟨1, 0⟩, ⟨1, 60⟩⟩ GDAsset.new).2.refs.ExtResource.get [] = .undefined := by
  decide

/-- C5, amended: for every `ext_resource` header whose attribute loop finds a non-empty `id`
`I` together with a `path` attribute `P` and a `type` attribute `T`, after `sectionSymbol` the
external table has under `I` the descriptor with path `P` and type `T` (owned by the header's
symbol), and the produced symbol is named `P`.  This holds in particular for the headers
`[ext_resource type="T" path="P" id="I"]` with a non-empty quoted id and
`[ext_resource type="T" path="P" id=N]` with an unsigned integer `N`, for all `T`, `P`, `I`
without double quote and backslash. -/
theorem ext_resource_registers (docUriPath : JSString) (range : Range) (gdasset : GDAsset) :
    (∀ rest I P T : JSString, (sectionAttributes rest).2 = some I → I ≠ [] →
      (sectionAttributes rest).1.get "path" = some P →
      (sectionAttributes rest).1.get "type" = some T →
      (sectionSymbol docUriPath (js "ext_resource") rest range gdasset).2.refs.ExtResource.get
          I = .resource { path := P, type := T, symbol := range } ∧
        (sectionSymbol docUriPath (js "ext_resource") rest range gdasset).1.name = P) ∧
    (∀ T P I : JSString, (QUOTE ∉ T ∧ BACKSLASH ∉ T) → (QUOTE ∉ P ∧ BACKSLASH ∉ P) →
      (QUOTE ∉ I ∧ BACKSLASH ∉ I) → I ≠ [] →
      (sectionSymbol docUriPath (js "ext_resource")
          (js "type=\"" ++ T ++ js "\" path=\"" ++ P ++ js "\" id=\"" ++ I ++ js "\"")
          range gdasset).2.refs.ExtResource.get I =
          .resource { path := P, type := T, symbol := range } ∧
        (sectionSymbol docUriPath (js "ext_resource")
          (js "type=\"" ++ T ++ js "\" path=\"" ++ P ++ js "\" id=\"" ++ I ++ js "\"")
          range gdasset).1.name = P) ∧
    (∀ (T P : JSString) (d : Nat) (digits : JSString), (QUOTE ∉ T ∧ BACKSLASH ∉ T) →
      (QUOTE ∉ P ∧ BACKSLASH ∉ P) → (∀ x ∈ d :: digits, isDigit x = true) →
      (sectionSymbol docUriPath (js "ext_resource")
          (js "type=\"" ++ T ++ js "\" path=\"" ++ P ++ js "\" id=" ++ d :: digits)
          range gdasset).2.refs.ExtResource.get (d :: digits) =
          .resource { path := P, type := T, symbol := range } ∧
        (sectionSymbol docUriPath (js "ext_resource")
          (js "type=\"" ++ T ++ js "\" path=\"" ++ P ++ js "\" id=" ++ d :: digits)
          range gdasset).1.name = P) := by
  have general : ∀ rest I P T : JSString, (sectionAttributes rest).2 = some I → I ≠ [] →
      (sectionAttributes rest).1.get "path" = some P →
      (sectionAttributes rest).1.get "type" = some T →
      (sectionSymbol docUriPath (js "ext_resource") rest range gdasset).2.refs.ExtResource.get
          I = .resource { path := P, type := T, symbol := range } ∧
        (sectionSymbol docUriPath (js "ext_resource") rest range gdasset).1.name = P := by
    intro rest I P T hid hne hpath htype
    rw [sectionSymbol_ext_resource]
    simp only [hid, hpath, htype, truthy_some I hne, if_true, Option.getD_some,
      ResourceTable.get_set_same, and_self]
  refine ⟨general, ?_, ?_⟩
  · intro T P I hT hP hI hne
    have h := sectionAttributes_type_path_id T P I (isPlainChar_of_not_mem T hT)
      (isPlainChar_of_not_mem P hP) (isPlainChar_of_not_mem I hI)
    exact general _ I P T (by rw [h]) hne (by rw [h]; rfl) (by rw [h]; rfl)
  · intro T P d digits hT hP hd
    have h := sectionAttributes_type_path_number T P d digits (isPlainChar_of_not_mem T hT)
      (isPlainChar_of_not_mem P hP) hd
    exact general _ (d :: digits) P T (by rw [h]) (by simp) (by rw [h]; rfl) (by rw [h]; rfl)

/-- Witness for C5, amended: the header `[ext_resource path="res://a.png" type="Texture2D"
id=7]` on a fresh `GDAsset`. -/
theorem ext_resource_registers_witness :
    (sectionSymbol (js "/proj/main.tscn") (js "ext_resource")
        (js "path=\"res://a.png\" type=\"Texture2D\" id=7") ⟨⟨1, 0⟩, ⟨1, 57⟩⟩
        GDAsset.new).2.refs.ExtResource.get (js "7") =
        .resource { path := js "res://a.png", type := js "Texture2D",
                    symbol := ⟨⟨1, 0⟩, ⟨1, 57⟩⟩ } ∧
      (sectionSymbol (js "/proj/main.tscn") (js "ext_resource")
        (js "path=\"res://a.png\" type=\"Texture2D\" id=7") ⟨⟨1, 0⟩, ⟨1, 57⟩⟩
        GDAsset.new).1.name = js "res://a.png" :=
  (ext_resource_registers (js "/proj/main.tscn") ⟨⟨1, 0⟩, ⟨1, 57⟩⟩ GDAsset.new).1
    (js "path=\"res://a.png\" type=\"Texture2D\" id=7") (js "7") (js "res://a.png")
    (js "Texture2D") (by decide) (by decide) (by decide) (by decide)

/-- C6: for every `sub_resource` header whose attribute loop finds a non-empty `id` `I` and a
`type` attribute `T`, after `sectionSymbol` the local table has under `I` the descriptor of
type `T` with path `D + "::" + I`, where `D` is the path of the document's own descriptor
`gdasset.resource` (set only by a `gd_scene` or `gd_resource` header) and the empty string when
there is none, and the produced symbol is named `"::" + I`.  This holds in particular for the
header `[sub_resource type="T" id="I"]`, for all `T` and non-empty `I` without double quote
and backslash. -/
theorem sub_resource_registers (docUriPath : JSString) (range : Range) (gdasset : GDAsset) :
    (∀ rest I T : JSString, (sectionAttributes rest).2 = some I → I ≠ [] →
      (sectionAttributes rest).1.get "type" = some T →
      (sectionSymbol docUriPath (js "sub_resource") rest range gdasset).2.refs.SubResource.get
          I = .resource
            { path := (match gdasset.resource with
                | some own => own.path
                | none => []) ++ js "::" ++ I,
              type := T, symbol := range } ∧
        (sectionSymbol docUriPath (js "sub_resource") rest range gdasset).1.name =
          js "::" ++ I) ∧
    (∀ T I : JSString, (QUOTE ∉ T ∧ BACKSLASH ∉ T) → (QUOTE ∉ I ∧ BACKSLASH ∉ I) → I ≠ [] →
      (sectionSymbol docUriPath (js "sub_resource")
          (js "type=\"" ++ T ++ js "\" id=\"" ++ I ++ js "\"") range
          gdasset).2.refs.SubResource.get I = .resource
            { path := (match gdasset.resource with
                | some own => own.path
                | none => []) ++ js "::" ++ I,
              type := T, symbol := range } ∧
        (sectionSymbol docUriPath (js "sub_resource")
          (js "type=\"" ++ T ++ js "\" id=\"" ++ I ++ js "\"") range gdasset).1.name =
          js "::" ++ I) := by
  have general : ∀ rest I T : JSString, (sectionAttributes rest).2 = some I → I ≠ [] →
      (sectionAttributes rest).1.get "type" = some T →
      (sectionSymbol docUriPath (js "sub_resource") rest range gdasset).2.refs.SubResource.get
          I = .resource
            { path := (match gdasset.resource with
                | some own => own.path
                | none => []) ++ js "::" ++ I,
              type := T, symbol := range } ∧
        (sectionSymbol docUriPath (js "sub_resource") rest range gdasset).1.name =
          js "::" ++ I := by
    intro rest I T hid hne htype
    rw [sectionSymbol_sub_resource]
    simp only [hid, htype, truthy_some I hne, if_true, Option.getD_some,
      ResourceTable.get_set_same, List.append_assoc, and_true]
    cases gdasset.resource <;> rfl
  refine ⟨general, ?_⟩
  intro T I hT hI hne
  have h := sectionAttributes_type_id T I (isPlainChar_of_not_mem T hT)
    (isPlainChar_of_not_mem I hI)
  exact general _ I T (by rw [h]) hne (by rw [h]; rfl)

/-- Witness for C6: the document `/proj/theme.tres` with the headers `[gd_resource
type="Theme" format=3]` and `[sub_resource type="StyleBoxFlat" id="StyleBoxFlat_1"]`; the
registered path is `theme.tres::StyleBoxFlat_1`. -/
theorem sub_resource_registers_witness :
    sampleAfterRoot.resource =
        some { path := js "theme.tres", type := js "Theme", symbol := ⟨⟨0, 0⟩, ⟨0, 35⟩⟩ } ∧
      (sectionSymbol (js "/proj/theme.tres") (js "sub_resource")
          (js "type=\"StyleBoxFlat\" id=\"StyleBoxFlat_1\"") ⟨⟨2, 0⟩, ⟨2, 52⟩⟩
          sampleAfterRoot).2.refs.SubResource.get (js "StyleBoxFlat_1") =
        .resource { path := js "theme.tres::StyleBoxFlat_1", type := js "StyleBoxFlat",
                    symbol := ⟨⟨2, 0⟩, ⟨2, 52⟩⟩ } ∧
      (sectionSymbol (js "/proj/theme.tres") (js "sub_resource")
          (js "type=\"StyleBoxFlat\" id=\"StyleBoxFlat_1\"") ⟨⟨2, 0⟩, ⟨2, 52⟩⟩
          sampleAfterRoot).1.name = js "::StyleBoxFlat_1" :=
  ⟨by decide,
    (sub_resource_registers (js "/proj/theme.tres") ⟨⟨2, 0⟩, ⟨2, 52⟩⟩ sampleAfterRoot).1
      (js "type=\"StyleBoxFlat\" id=\"StyleBoxFlat_1\"") (js "StyleBoxFlat_1")
      (js "StyleBoxFlat") (by decide) (by decide) (by decide)⟩

/-- C7: between backslash-free texts `p` and `q`, each recognised escape decodes to its
character: backslash-quote to a double quote, backslash-backslash to one backslash,
backslash-n to LF, backslash-t to TAB, backslash-r to CR, backslash-b to U+0008, backslash-f
to U+000C, and backslash-u with four hexadecimal digits to the one code unit they denote. -/
theorem unescapeString_recognised (p q : JSString) (hp : BACKSLASH ∉ p) (hq : BACKSLASH ∉ q) :
    unescapeString (p ++ js "\\\"" ++ q) = p ++ js "\"" ++ q ∧
    unescapeString (p ++ js "\\\\" ++ q) = p ++ js "\\" ++ q ∧
    unescapeString (p ++ js "\\n" ++ q) = p ++ [10] ++ q ∧
    unescapeString (p ++ js "\\t" ++ q) = p ++ [9] ++ q ∧
    unescapeString (p ++ js "\\r" ++ q) = p ++ [13] ++ q ∧
    unescapeString (p ++ js "\\b" ++ q) = p ++ [8] ++ q ∧
    unescapeString (p ++ js "\\f" ++ q) = p ++ [12] ++ q ∧
    ∀ h1 h2 h3 h4 : Nat, isHex h1 = true → isHex h2 = true → isHex h3 = true →
      isHex h4 = true →
      unescapeString (p ++ (js "\\u" ++ [h1, h2, h3, h4]) ++ q) =
        p ++ [4096 * hexDigitValue h1 + 256 * hexDigitValue h2 + 16 * hexDigitValue h3 +
          hexDigitValue h4] ++ q := by
  have simple : ∀ e : Nat,
      (e = QUOTE ∨ e = 98 ∨ e = 102 ∨ e = 110 ∨ e = 114 ∨ e = 116 ∨ e = BACKSLASH) →
      unescapeString (p ++ [BACKSLASH, e] ++ q) =
        p ++ unescapeCase ⟨2, some [e], none⟩ ++ q := by
    intro e he
    rw [List.append_assoc, unescapeString_append_plain p _ hp]
    simp only [List.cons_append, List.nil_append]
    rw [unescapeString_simple e q he, unescapeString_plain q hq, List.append_assoc]
  refine ⟨simple QUOTE (by simp), simple BACKSLASH (by simp), simple 110 (by simp),
    simple 116 (by simp), simple 114 (by simp), simple 98 (by simp), simple 102 (by simp), ?_⟩
  intro h1 h2 h3 h4 a1 a2 a3 a4
  rw [List.append_assoc, unescapeString_append_plain p _ hp]
  have e : js "\\u" ++ [h1, h2, h3, h4] ++ q = BACKSLASH :: 117 :: h1 :: h2 :: h3 :: h4 :: q := rfl
  rw [e, unescapeString_u4 h1 h2 h3 h4 q ⟨a1, a2, a3, a4⟩, unescapeString_plain q hq]
  simp

/-- Witness for C7: `p` is `a=`, `q` is `;b`. -/
theorem unescapeString_recognised_witness :
    unescapeString (js "a=" ++ js "\\n" ++ js ";b") = js "a=" ++ [10] ++ js ";b" :=
  (unescapeString_recognised (js "a=") (js ";b") (by decide) (by decide)).2.2.1

/-- C8, as stated, fails: a backslash that ends the text is not kept.  For `p` the
backslash-free text `ab`, decoding `ab` followed by one backslash gives `ab`, which differs
from `ab` followed by a backslash. -/
theorem unescapeString_dangling_not_literal :
    BACKSLASH ∉ js "ab" ∧
    unescapeString (js "ab" ++ [BACKSLASH]) = js "ab" ∧
    unescapeString (js "ab" ++ [BACKSLASH]) ≠ js "ab" ++ [BACKSLASH] := by decide

/-- C8, amended: a dangling backslash at the end of the input is dropped: for every
backslash-free string `p`, `unescapeString(p + one backslash) = p`. -/
theorem unescapeString_dangling_dropped (p : JSString) (hp : BACKSLASH ∉ p) :
    unescapeString (p ++ [BACKSLASH]) = p := by
  rw [unescapeString_append_plain p _ hp, unescapeString_dangling, List.append_nil]

/-- Witness for C8, amended: `p` is `res://a`. -/
theorem unescapeString_dangling_dropped_witness :
    unescapeString (js "res://a" ++ [BACKSLASH]) = js "res://a" :=
  unescapeString_dangling_dropped (js "res://a") (by decide)

/-- C9: for a code unit `c` that is none of double quote, backslash, `b`, `f`, `n`, `r`, `t`,
`u`, `U`, a backslash before `c` is dropped and `c` is kept, alone and in front of any further
text `r`; the same holds for a character made of a surrogate pair; and backslash-`u` or
backslash-`U` that is not followed by four, respectively six, hexadecimal digits decodes to
the letter followed by the decoding of the remaining text. -/
theorem unescapeString_unrecognised (c : Nat) (r : JSString)
    (hc : c ≠ QUOTE ∧ c ≠ BACKSLASH ∧ c ≠ 98 ∧ c ≠ 102 ∧ c ≠ 110 ∧ c ≠ 114 ∧ c ≠ 116 ∧
      c ≠ 117 ∧ c ≠ 85) :
    unescapeString [BACKSLASH, c] = [c] ∧
    unescapeString (BACKSLASH :: c :: r) = c :: unescapeString r ∧
    (∀ high low : Nat, isHighSurrogate high = true → isLowSurrogate low = true →
      unescapeString [BACKSLASH, high, low] = [high, low]) ∧
    (¬ (4 ≤ r.length ∧ (r.take 4).all isHex = true) →
      unescapeString (js "\\u" ++ r) = js "u" ++ unescapeString r) ∧
    (¬ (6 ≤ r.length ∧ (r.take 6).all isHex = true) →
      unescapeString (js "\\U" ++ r) = js "U" ++ unescapeString r) := by
  obtain ⟨c1, c2, c3, c4, c5, c6, c7, c8, c9⟩ := hc
  have key : ∀ t : JSString, unescapeString (BACKSLASH :: c :: t) = c :: unescapeString t := by
    intro t
    apply unescapeString_other
    · simp only [not_or]; exact ⟨c1, c3, c4, c5, c6, c7, c2⟩
    · exact fun h => c8 h.1
    · exact fun h => c9 h.1
  refine ⟨by rw [key []]; rfl, key r, ?_, ?_, ?_⟩
  · intro high low hh hl
    simp only [isHighSurrogate, Bool.and_eq_true, decide_eq_true_eq] at hh
    have hlow : low ≠ BACKSLASH := isLowSurrogate_ne_backslash low hl
    rw [unescapeString_other high [low]
      (by simp only [QUOTE, BACKSLASH]; omega) (fun h => by omega) (fun h => by omega),
      unescapeString_cons_plain low [] hlow]
    rfl
  · intro h
    exact unescapeString_other 117 r (by decide) (fun h' => h h'.2) (by simp)
  · intro h
    exact unescapeString_other 85 r (by decide) (by simp) (fun h' => h h'.2)

/-- Witness for C9: the character `x` before the text `y`. -/
theorem unescapeString_unrecognised_witness :
    unescapeString (js "\\x") = js "x" ∧
    unescapeString (js "\\xy") = js "x" ++ unescapeString (js "y") :=
  have h := unescapeString_unrecognised 120 (js "y") (by decide)
  ⟨h.1, h.2.1⟩

/-- C10: a string without a backslash decodes to itself, so decoding it twice is the same as
decoding it once. -/
theorem unescapeString_idempotent_plain (s : JSString) (hs : BACKSLASH ∉ s) :
    unescapeString s = s ∧ unescapeString (unescapeString s) = unescapeString s := by
  have h := unescapeString_plain s hs
  exact ⟨h, by rw [h, h]⟩

/-- Witness for C10: the text `res://a.png`. -/
theorem unescapeString_idempotent_plain_witness :
    unescapeString (js "res://a.png") = js "res://a.png" ∧
    unescapeString (unescapeString (js "res://a.png")) = unescapeString (js "res://a.png") :=
  unescapeString_idempotent_plain (js "res://a.png") (by decide)

/-! ### Lemmas on node paths and node headers -/

theorem slashSegments_ne_nil (s : JSString) : slashSegments s ≠ [] := by
  cases s with
  | nil => simp [slashSegments]
  | cons c t =>
    simp only [slashSegments]
    split_ifs
    · simp
    · split <;> simp

/-- The state machine of the node code expression and the segment grammar agree. -/
theorem nodeSegments_eq (s : JSString) :
    nodeSegments false s = (slashSegments s).all isIdentifier ∧
    nodeSegments true s =
      (match slashSegments s with
        | seg :: segs => seg.all isWord && segs.all isIdentifier
        | [] => false) := by
  induction s with
  | nil => simp [nodeSegments, slashSegments, isIdentifier]
  | cons c t ih =>
    obtain ⟨ih1, ih2⟩ := ih
    by_cases hc : c = 47
    · subst hc
      have hw : isWord 47 = false := by decide
      simp [nodeSegments, slashSegments, isIdentifier, hw, ih1]
    · cases hseg : slashSegments t with
      | nil => exact absurd hseg (slashSegments_ne_nil t)
      | cons seg segs =>
        rw [hseg] at ih2
        simp only [nodeSegments, slashSegments, if_neg hc, hseg, ih2, List.all_cons,
          isIdentifier]
        constructor
        · simp only [Bool.and_assoc]
        · simp only [Bool.and_assoc]

/-- The test of `nodeCode` accepts exactly the identifier paths. -/
theorem nodeCodeTest_eq (path : JSString) : nodeCodeTest path = isIdentifierPath path := by
  unfold nodeCodeTest isIdentifierPath
  split
  · exact (nodeSegments_eq _).1
  · exact (nodeSegments_eq _).1

theorem slashSegments_of_no_slash (s : JSString) (h : ∀ c ∈ s, c ≠ 47) :
    slashSegments s = [s] := by
  induction s with
  | nil => rfl
  | cons c t ih =>
    have hc : c ≠ 47 := h c (by simp)
    simp only [slashSegments, if_neg hc, ih (fun x hx => h x (by simp [hx]))]

theorem isWord_ne_slash (c : Nat) (h : isWord c = true) : c ≠ 47 := by
  intro e
  subst e
  exact absurd h (by decide)

theorem isWord_plain (c : Nat) (h : isWord c = true) : isPlainChar c = true := by
  have h1 : c ≠ QUOTE := by
    intro e; subst e; exact absurd h (by decide)
  have h2 : c ≠ BACKSLASH := by
    intro e; subst e; exact absurd h (by decide)
  simp [isPlainChar, h1, h2]

theorem isIdentifier_words (s : JSString) (h : isIdentifier s = true) :
    s ≠ [] ∧ ∀ c ∈ s, isWord c = true := by
  cases s with
  | nil => simp [isIdentifier] at h
  | cons c t =>
    simp only [isIdentifier, Bool.and_eq_true, List.all_eq_true] at h
    refine ⟨by simp, ?_⟩
    intro x hx
    rcases List.mem_cons.mp hx with e | e
    · rw [e]; exact h.1.1
    · exact h.2 x e

/-- An identifier is rendered unquoted. -/
theorem nodeCode_identifier (s : JSString) (h : isIdentifier s = true) :
    GDAsset.nodeCode s = js "$" ++ s := by
  have hw := (isIdentifier_words s h).2
  have ht : nodeCodeTest s = true := by
    rw [nodeCodeTest_eq]
    have hs : slashSegments s = [s] :=
      slashSegments_of_no_slash s (fun c hc => isWord_ne_slash c (hw c hc))
    cases s with
    | nil => simp [isIdentifier] at h
    | cons c t =>
      have hc : c ≠ 47 := isWord_ne_slash c (hw c (by simp))
      unfold isIdentifierPath
      split
      · rename_i heq
        exact absurd (List.cons.inj heq).1 hc
      · rw [hs]; simp [h]
  simp [GDAsset.nodeCode, ht]

/-- The absolute path of a root node named by an identifier is rendered unquoted. -/
theorem nodeCode_root_identifier (s : JSString) (h : isIdentifier s = true) :
    GDAsset.nodeCode (js "/root/" ++ s) = js "$/root/" ++ s := by
  have hw := (isIdentifier_words s h).2
  have hs : slashSegments s = [s] :=
    slashSegments_of_no_slash s (fun c hc => isWord_ne_slash c (hw c hc))
  have e : js "/root/" ++ s = 47 :: 114 :: 111 :: 111 :: 116 :: 47 :: s := by
    rw [show js "/root/" = [47, 114, 111, 111, 116, 47] from by decide]; rfl
  have ht : nodeCodeTest (js "/root/" ++ s) = true := by
    have hr : isIdentifier [114, 111, 111, 116] = true := by decide
    have hseg : slashSegments (114 :: 111 :: 111 :: 116 :: 47 :: s) =
        [[114, 111, 111, 116], s] := by
      simp [slashSegments, hs]
    rw [nodeCodeTest_eq, e]
    simp only [isIdentifierPath, hseg, List.all_cons, hr, h, List.all_nil, Bool.and_self]
  have e2 : js "$/root/" ++ s = js "$" ++ (js "/root/" ++ s) := by
    rw [show js "$/root/" = js "$" ++ js "/root/" from by decide, List.append_assoc]
  simp only [GDAsset.nodeCode, ht, if_true, e2]
  rfl

/-- The attribute loop on a header of the shape `name="N"`. -/
theorem sectionAttributes_name (N : JSString) (hN : ∀ x ∈ N, isPlainChar x = true) :
    sectionAttributes (js "name=\"" ++ N ++ js "\"") = ([(js "name", N)], none) := by
  have hs : js "name=\"" ++ N ++ js "\"" =
      110 :: [97, 109, 101] ++ 61 :: 34 :: (N ++ 34 :: []) := by
    rw [show js "name=\"" = [110, 97, 109, 101, 61, 34] from by decide,
      show js "\"" = [34] from by decide]
    simp
  have hm : attributeMatches 0 none (js "name=\"" ++ N ++ js "\"") =
      [⟨4 + 3 + N.length, js "name", none, some N, none⟩] := by
    rw [hs, attributeMatches_quoted none 110 [97, 109, 101] N _ (by decide) (by decide)
        (by decide) hN]
    rfl
  have n1 : js "name" ≠ js "__proto__" := by decide
  have n4 : js "name" ≠ js "id" := by decide
  simp only [sectionAttributes, hm, List.foldl, Attributes.set, Option.getD_some,
    unescapeString_plain N (backslash_not_mem_of_plain N hN), if_neg n1, if_neg n4]

/-- The attribute loop on a header of the shape `name="N" parent="Q"`. -/
theorem sectionAttributes_name_parent (N Q : JSString)
    (hN : ∀ x ∈ N, isPlainChar x = true) (hQ : ∀ x ∈ Q, isPlainChar x = true) :
    sectionAttributes (js "name=\"" ++ N ++ js "\" parent=\"" ++ Q ++ js "\"") =
      ([(js "parent", Q), (js "name", N)], none) := by
  have hs : js "name=\"" ++ N ++ js "\" parent=\"" ++ Q ++ js "\"" =
      110 :: [97, 109, 101] ++ 61 :: 34 :: (N ++ 34 :: (32 ::
          (112 :: [97, 114, 101, 110, 116] ++ 61 :: 34 :: (Q ++ 34 :: [])))) := by
    rw [show js "name=\"" = [110, 97, 109, 101, 61, 34] from by decide,
      show js "\" parent=\"" = [34, 32, 112, 97, 114, 101, 110, 116, 61, 34] from by decide,
      show js "\"" = [34] from by decide]
    simp
  have hm : attributeMatches 0 none
      (js "name=\"" ++ N ++ js "\" parent=\"" ++ Q ++ js "\"") =
      [⟨4 + 3 + N.length, js "name", none, some N, none⟩,
       ⟨6 + 3 + Q.length, js "parent", none, some Q, none⟩] := by
    rw [hs, attributeMatches_quoted none 110 [97, 109, 101] N _ (by decide) (by decide)
        (by decide) hN,
      attributeMatches_gap (some 34) 32 _ (by decide),
      attributeMatches_quoted (some 32) 112 [97, 114, 101, 110, 116] Q _ (by decide)
        (by decide) (by decide) hQ]
    rfl
  have n1 : js "name" ≠ js "__proto__" := by decide
  have n2 : js "parent" ≠ js "__proto__" := by decide
  have n4 : js "name" ≠ js "id" := by decide
  have n5 : js "parent" ≠ js "id" := by decide
  simp only [sectionAttributes, hm, List.foldl, Attributes.set, Option.getD_some,
    unescapeString_plain N (backslash_not_mem_of_plain N hN),
    unescapeString_plain Q (backslash_not_mem_of_plain Q hQ), if_neg n1, if_neg n2,
    if_neg n4, if_neg n5]

/-- The name and the state that `sectionSymbol` produces for the tag `node`. -/
theorem sectionSymbol_node (docUriPath rest : JSString) (range : Range) (gdasset : GDAsset) :
    (sectionSymbol docUriPath (js "node") rest range gdasset).1.name =
      (match (sectionAttributes rest).1.get "parent" with
        | none =>
          if truthy ((sectionAttributes rest).1.get "name") then
            GDAsset.nodeCode (js "/root/" ++ ((sectionAttributes rest).1.get "name").getD [])
          else js "node"
        | some parent =>
          gdasset.nodePath
            (parent ++ js "/" ++ templateText ((sectionAttributes rest).1.get "name"))) ∧
    (sectionSymbol docUriPath (js "node") rest range gdasset).2 =
      (match (sectionAttributes rest).1.get "parent" with
        | none =>
          if truthy ((sectionAttributes rest).1.get "name") then
            { gdasset with rootNode := (sectionAttributes rest).1.get "name" }
          else gdasset
        | some _ => gdasset) := by
  have t1 : js "node" ≠ js "gd_scene" := by decide
  have t2 : js "node" ≠ js "gd_resource" := by decide
  have t3 : js "node" ≠ js "ext_resource" := by decide
  have t4 : js "node" ≠ js "sub_resource" := by decide
  simp only [sectionSymbol, if_neg t1, if_neg t2, if_neg t3, if_neg t4, if_true]
  cases (sectionAttributes rest).1.get "parent" with
  | none =>
    by_cases h : truthy ((sectionAttributes rest).1.get "name") = true
    · simp [h]
    · simp [h]
  | some parent => simp

/-- What `sectionSymbol` does for the tag `connection`. -/
theorem sectionSymbol_connection (docUriPath rest : JSString) (range : Range)
    (gdasset : GDAsset) :
    sectionSymbol docUriPath (js "connection") rest range gdasset =
      if (truthy ((sectionAttributes rest).1.get "signal") &&
          truthy ((sectionAttributes rest).1.get "from") &&
          truthy ((sectionAttributes rest).1.get "to") &&
          truthy ((sectionAttributes rest).1.get "method")) = true then
        ({ name := gdasset.nodePath (((sectionAttributes rest).1.get "from").getD []) ++ js "." ++
              ((sectionAttributes rest).1.get "signal").getD [] ++ js ".connect(" ++
              gdasset.nodePath (((sectionAttributes rest).1.get "to").getD []) ++ js "." ++
              ((sectionAttributes rest).1.get "method").getD [] ++ js ")",
           detail := [], kind := .Event, range := range, selectionRange := range,
           children := [] }, gdasset)
      else
        ({ name := js "connection", detail := rest, kind := .Event, range := range,
           selectionRange := range, children := [] }, gdasset) := by
  have t1 : js "connection" ≠ js "gd_scene" := by decide
  have t2 : js "connection" ≠ js "gd_resource" := by decide
  have t3 : js "connection" ≠ js "ext_resource" := by decide
  have t4 : js "connection" ≠ js "sub_resource" := by decide
  have t5 : js "connection" ≠ js "node" := by decide
  simp only [sectionSymbol, if_neg t1, if_neg t2, if_neg t3, if_neg t4, if_neg t5, if_true]

/-- The root node name after `sectionSymbol`, for every tag. -/
theorem sectionSymbol_rootNode (docUriPath : JSString) (h : Header) (gdasset : GDAsset) :
    (sectionSymbol docUriPath h.tag h.rest h.range gdasset).2.rootNode =
      if declaresRoot h = true then (sectionAttributes h.rest).1.get "name"
      else gdasset.rootNode := by
  by_cases hn : h.tag = js "node"
  · rw [hn, (sectionSymbol_node docUriPath h.rest h.range gdasset).2]
    simp only [declaresRoot, hn, beq_self_eq_true, Bool.true_and, Bool.and_eq_true,
      Option.isNone_iff_eq_none]
    cases hp : (sectionAttributes h.rest).1.get "parent" with
    | none =>
      by_cases ht : truthy ((sectionAttributes h.rest).1.get "name") = true
      · simp [ht]
      · simp [ht]
    | some parent => simp
  · have hd : declaresRoot h = false := by
      simp [declaresRoot, hn]
    rw [hd]
    simp only [Bool.false_eq_true, if_false]
    unfold sectionSymbol
    simp only [if_neg hn]
    split_ifs <;> rfl

theorem truthy_iff (v : Option JSString) : truthy v = true ↔ ∃ s, v = some s ∧ s ≠ [] := by
  cases v with
  | none => simp [truthy]
  | some s =>
    cases s with
    | nil => simp [truthy]
    | cons c t => simp [truthy]

theorem afterHeaders_cons (docUriPath : JSString) (h : Header) (t : List Header)
    (gdasset : GDAsset) :
    afterHeaders docUriPath (h :: t) gdasset =
      afterHeaders docUriPath t (sectionSymbol docUriPath h.tag h.rest h.range gdasset).2 := rfl

/-- A root node name, once non-empty, stays non-empty whatever headers follow. -/
theorem afterHeaders_rootNode_truthy (docUriPath : JSString) (headers : List Header)
    (gdasset : GDAsset) (h : truthy gdasset.rootNode = true) :
    truthy (afterHeaders docUriPath headers gdasset).rootNode = true := by
  induction headers generalizing gdasset with
  | nil => exact h
  | cons hd t ih =>
    rw [afterHeaders_cons]
    apply ih
    rw [sectionSymbol_rootNode]
    by_cases hr : declaresRoot hd = true
    · simp only [hr, if_true]
      simp only [declaresRoot, Bool.and_eq_true] at hr
      exact hr.2
    · simp only [hr, if_false]
      exact h

/-- The root node name after a sequence of headers: the name declared by the last header that
declares a root, else the name from before. -/
theorem afterHeaders_rootNode (docUriPath : JSString) (headers : List Header)
    (gdasset : GDAsset) :
    (afterHeaders docUriPath headers gdasset).rootNode =
      match (headers.filter declaresRoot).getLast? with
      | some h => (sectionAttributes h.rest).1.get "name"
      | none => gdasset.rootNode := by
  induction headers generalizing gdasset with
  | nil => rfl
  | cons hd t ih =>
    rw [afterHeaders_cons, ih, sectionSymbol_rootNode]
    by_cases hr : declaresRoot hd = true
    · simp only [hr, if_true, List.filter_cons_of_pos]
      cases hf : List.filter declaresRoot t with
      | nil => simp
      | cons a l =>
        have hl : (a :: l).getLast? = some ((a :: l).getLast (by simp)) :=
          List.getLast?_eq_getLast _ _
        simp only [List.getLast?_cons_cons, hl]
    · simp only [hr, if_false, Bool.false_eq_true]
      rw [List.filter_cons_of_neg hr]

/-! ### Claims C11 to C17: six-digit escapes, node paths, node and connection headers -/

/-- C11 at the failing input: the six hexadecimal digits `01F600` name the scalar value
U+1F600, whose UTF-16 form is the surrogate pair D83D DE00, but `unescapeString` of
backslash-`U01F600` is the single code unit F600: `String.fromCharCode` keeps the value modulo
2^16.  For a value below 2^16, such as `0000E9`, the result is the code point. -/
theorem unescapeString_U6_truncated :
    unescapeString (js "\\U01F600") = [0xF600] ∧
    utf16 (Char.ofNat 0x1F600) = [0xD83D, 0xDE00] ∧
    unescapeString (js "\\U01F600") ≠ utf16 (Char.ofNat 0x1F600) ∧
    unescapeString (js "\\U0000E9") = utf16 (Char.ofNat 0xE9) := by
  decide

/-- C12, as stated, fails: the path `2D` is one segment made only of letters and digits, yet
`nodeCode` renders it quoted, as `$"2D"` and not as `$2D`. -/
theorem nodeCode_digit_segment_quoted :
    (js "2D").all isWord = true ∧
    GDAsset.nodeCode (js "2D") false = js "$\"2D\"" ∧
    GDAsset.nodeCode (js "2D") false ≠ js "$" ++ js "2D" := by
  decide

/-- C12, amended: for every path `p` and flag `percent`, `nodeCode(p, percent)` is the prefix
followed by `p` when `p` is an optional leading slash followed by one or more slash-separated
segments, each an identifier (a letter or underscore, then letters, digits and underscores),
and the prefix followed by `p` in double quotes otherwise; the prefix is `%` when `percent`
is true and `$` when it is false. -/
theorem nodeCode_spec (path : JSString) (percent : Bool) :
    GDAsset.nodeCode path percent =
      (if percent then js "%" else js "$") ++
        (if isIdentifierPath path then path else js "\"" ++ path ++ js "\"") := by
  simp only [GDAsset.nodeCode, nodeCodeTest_eq]

/-- C13: for a `GDAsset` whose `rootNode` is a non-empty name `R`, `nodePath('.')` is
`nodeCode('/root/' + R)`, which is `$/root/R` when `R` is an identifier, and for every string
`x`, `nodePath('./' + x)` is `nodeCode(x)`. -/
theorem nodePath_dot (gdasset : GDAsset) (R x : JSString) (hroot : gdasset.rootNode = some R)
    (hR : R ≠ []) :
    gdasset.nodePath (js ".") = GDAsset.nodeCode (js "/root/" ++ R) ∧
    (isIdentifier R = true → gdasset.nodePath (js ".") = js "$/root/" ++ R) ∧
    gdasset.nodePath (js "./" ++ x) = GDAsset.nodeCode x := by
  have ht : truthy gdasset.rootNode = true := by rw [hroot]; exact truthy_some R hR
  have h1 : gdasset.nodePath (js ".") = GDAsset.nodeCode (js "/root/" ++ R) := by
    have hd : truthy (some (js ".")) = true := by decide
    simp only [GDAsset.nodePath, ht, hd, Bool.not_true, Bool.or_self, Bool.false_eq_true,
      if_false, if_true]
    rw [hroot]; rfl
  refine ⟨h1, fun hid => by rw [h1, nodeCode_root_identifier R hid], ?_⟩
  have e : js "./" ++ x = 46 :: 47 :: x := by
    rw [show js "./" = [46, 47] from by decide]; rfl
  have hn : (46 :: 47 :: x : JSString) ≠ js "." := by
    rw [show js "." = [46] from by decide]; simp
  have ht2 : truthy (some (46 :: 47 :: x)) = true := rfl
  have hk : (46 :: 47 :: x).take 2 = js "./" := by
    rw [show js "./" = [46, 47] from by decide]; rfl
  rw [e]
  simp only [GDAsset.nodePath, ht, ht2, Bool.not_true, Bool.or_self, Bool.false_eq_true,
    if_false, if_neg hn, hk, if_true]
  rfl

/-- Witness for C13: the root node `Root` and the path `./Child`. -/
theorem nodePath_dot_witness :
    ({ GDAsset.new with rootNode := some (js "Root") } : GDAsset).nodePath (js ".") =
        GDAsset.nodeCode (js "/root/" ++ js "Root") ∧
    (isIdentifier (js "Root") = true →
      ({ GDAsset.new with rootNode := some (js "Root") } : GDAsset).nodePath (js ".") =
        js "$/root/" ++ js "Root") ∧
    ({ GDAsset.new with rootNode := some (js "Root") } : GDAsset).nodePath
        (js "./" ++ js "Child") = GDAsset.nodeCode (js "Child") :=
  nodePath_dot { GDAsset.new with rootNode := some (js "Root") } (js "Root") (js "Child") rfl
    (by decide)

/-- C14: when `sectionSymbol` has processed a header `[node name="R"]` (no parent attribute)
and, after any further headers, processes `[node name="C" parent="."]`, with `R` and `C`
identifiers, the symbol produced for the second header is named `$` followed by `C`.  The
headers before the first node header and between the two are arbitrary. -/
theorem node_child_of_root (docUriPath R C : JSString) (rangeR rangeC : Range)
    (before between : List Header) (hR : isIdentifier R = true) (hC : isIdentifier C = true) :
    (sectionSymbol docUriPath (js "node")
        (js "name=\"" ++ C ++ js "\" parent=\"" ++ js "." ++ js "\"") rangeC
        (afterHeaders docUriPath between
          (sectionSymbol docUriPath (js "node") (js "name=\"" ++ R ++ js "\"") rangeR
            (afterHeaders docUriPath before GDAsset.new)).2)).1.name = js "$" ++ C := by
  have pR : ∀ x ∈ R, isPlainChar x = true :=
    fun x hx => isWord_plain x ((isIdentifier_words R hR).2 x hx)
  have pC : ∀ x ∈ C, isPlainChar x = true :=
    fun x hx => isWord_plain x ((isIdentifier_words C hC).2 x hx)
  have hRne : R ≠ [] := (isIdentifier_words R hR).1
  have hCne : C ≠ [] := (isIdentifier_words C hC).1
  have hroot : truthy (sectionSymbol docUriPath (js "node") (js "name=\"" ++ R ++ js "\"")
      rangeR (afterHeaders docUriPath before GDAsset.new)).2.rootNode = true := by
    rw [(sectionSymbol_node _ _ _ _).2, sectionAttributes_name R pR]
    have hp : Attributes.get [(js "name", R)] "parent" = none := rfl
    have hn : Attributes.get [(js "name", R)] "name" = some R := rfl
    simp only [hp, hn, truthy_some R hRne, if_true]
  have hlater := afterHeaders_rootNode_truthy docUriPath between _ hroot
  rw [(sectionSymbol_node _ _ _ _).1, sectionAttributes_name_parent C (js ".") pC (by decide)]
  have hp : Attributes.get [(js "parent", js "."), (js "name", C)] "parent" = some (js ".") :=
    rfl
  have hn : Attributes.get [(js "parent", js "."), (js "name", C)] "name" = some C := rfl
  simp only [hp, hn, templateText, Option.getD_some]
  have e : js "." ++ js "/" ++ C = 46 :: 47 :: C := by
    rw [show js "." = [46] from by decide, show js "/" = [47] from by decide]; rfl
  have hne : (46 :: 47 :: C : JSString) ≠ js "." := by
    rw [show js "." = [46] from by decide]; simp
  have ht2 : truthy (some (46 :: 47 :: C)) = true := rfl
  have hk : (46 :: 47 :: C).take 2 = js "./" := by
    rw [show js "./" = [46, 47] from by decide]; rfl
  rw [e]
  simp only [GDAsset.nodePath, hlater, ht2, Bool.not_true, Bool.or_self, Bool.false_eq_true,
    if_false, if_neg hne, hk, if_true]
  exact nodeCode_identifier C hC

/-- Witness for C14: `R` = `Root`, `C` = `Child`, with an `ext_resource` header before the root
and another node between the two; the second header's symbol is named `$Child`. -/
theorem node_child_of_root_witness :
    (sectionSymbol (js "/proj/main.tscn") (js "node")
        (js "name=\"" ++ js "Child" ++ js "\" parent=\"" ++ js "." ++ js "\"") ⟨⟨4, 0⟩, ⟨4, 32⟩⟩
        (afterHeaders (js "/proj/main.tscn")
          [⟨js "node", js "name=\"Other\" parent=\".\"", ⟨⟨3, 0⟩, ⟨3, 32⟩⟩⟩]
          (sectionSymbol (js "/proj/main.tscn") (js "node")
            (js "name=\"" ++ js "Root" ++ js "\"") ⟨⟨2, 0⟩, ⟨2, 18⟩⟩
            (afterHeaders (js "/proj/main.tscn")
              [⟨js "ext_resource", js "type=\"Texture2D\" path=\"res://a.png\" id=\"1\"",
                ⟨⟨1, 0⟩, ⟨1, 61⟩⟩⟩]
              GDAsset.new)).2)).1.name = js "$" ++ js "Child" :=
  node_child_of_root (js "/proj/main.tscn") (js "Root") (js "Child") ⟨⟨2, 0⟩, ⟨2, 18⟩⟩
    ⟨⟨4, 0⟩, ⟨4, 32⟩⟩
    [⟨js "ext_resource", js "type=\"Texture2D\" path=\"res://a.png\" id=\"1\"",
      ⟨⟨1, 0⟩, ⟨1, 61⟩⟩⟩]
    [⟨js "node", js "name=\"Other\" parent=\".\"", ⟨⟨3, 0⟩, ⟨3, 32⟩⟩⟩] (by decide) (by decide)

/-- C15, as stated, fails: for the header `[node name="Root"]` the produced symbol is named
`$/root/Root`, not `$Root`. -/
theorem node_root_name_not_bare :
    (sectionSymbol (js "/proj/main.tscn") (js "node") (js "name=\"Root\"") ⟨⟨2, 0⟩, ⟨2, 18⟩⟩
        GDAsset.new).1.name = js "$/root/Root" ∧
    (sectionSymbol (js "/proj/main.tscn") (js "node") (js "name=\"Root\"") ⟨⟨2, 0⟩, ⟨2, 18⟩⟩
        GDAsset.new).1.name ≠ js "$Root" := by
  decide

/-- C15, amended: for an identifier `R` the parent-less header `[node name="R"]` yields the
symbol name `$/root/` followed by `R`, the absolute node path of the root; for `Root` it is
`$/root/Root`. -/
theorem node_root_name (docUriPath R : JSString) (range : Range) (gdasset : GDAsset)
    (hR : isIdentifier R = true) :
    (sectionSymbol docUriPath (js "node") (js "name=\"" ++ R ++ js "\"") range gdasset).1.name =
      js "$/root/" ++ R := by
  have pR : ∀ x ∈ R, isPlainChar x = true :=
    fun x hx => isWord_plain x ((isIdentifier_words R hR).2 x hx)
  rw [(sectionSymbol_node _ _ _ _).1, sectionAttributes_name R pR]
  have hp : Attributes.get [(js "name", R)] "parent" = none := rfl
  have hn : Attributes.get [(js "name", R)] "name" = some R := rfl
  simp only [hp, hn, truthy_some R (isIdentifier_words R hR).1, if_true, Option.getD_some]
  exact nodeCode_root_identifier R hR

/-- Witness for C15, amended: `R` = `Root`. -/
theorem node_root_name_witness :
    (sectionSymbol (js "/proj/main.tscn") (js "node") (js "name=\"" ++ js "Root" ++ js "\"")
        ⟨⟨2, 0⟩, ⟨2, 18⟩⟩ GDAsset.new).1.name = js "$/root/" ++ js "Root" :=
  node_root_name (js "/proj/main.tscn") (js "Root") ⟨⟨2, 0⟩, ⟨2, 18⟩⟩ GDAsset.new (by decide)

/-- C16, as stated, fails: after the headers `[node name="A"]` and `[node name="B"]`, both
without a parent attribute and with a non-empty name, `rootNode` is `B`, the name of the later
header, not `A`. -/
theorem rootNode_not_first :
    declaresRoot ⟨js "node", js "name=\"A\"", ⟨⟨0, 0⟩, ⟨0, 15⟩⟩⟩ = true ∧
    declaresRoot ⟨js "node", js "name=\"B\"", ⟨⟨1, 0⟩, ⟨1, 15⟩⟩⟩ = true ∧
    (afterHeaders (js "/proj/main.tscn")
      [⟨js "node", js "name=\"A\"", ⟨⟨0, 0⟩, ⟨0, 15⟩⟩⟩,
       ⟨js "node", js "name=\"B\"", ⟨⟨1, 0⟩, ⟨1, 15⟩⟩⟩] GDAsset.new).rootNode = some (js "B") ∧
    (afterHeaders (js "/proj/main.tscn")
      [⟨js "node", js "name=\"A\"", ⟨⟨0, 0⟩, ⟨0, 15⟩⟩⟩,
       ⟨js "node", js "name=\"B\"", ⟨⟨1, 0⟩, ⟨1, 15⟩⟩⟩] GDAsset.new).rootNode ≠ some (js "A") := by
  decide

/-- The fold of `sectionSymbol` over a sequence of headers that contains one or more node
headers without a parent attribute and with a non-empty name: `rootNode` is the declared name
of the last such header (each of them assigns it). -/
theorem rootNode_last (docUriPath : JSString) (headers : List Header) (gdasset : GDAsset)
    (last : Header) (hlast : (headers.filter declaresRoot).getLast? = some last) :
    (afterHeaders docUriPath headers gdasset).rootNode =
        (sectionAttributes last.rest).1.get "name" ∧
      truthy (afterHeaders docUriPath headers gdasset).rootNode = true := by
  have h := afterHeaders_rootNode docUriPath headers gdasset
  rw [hlast] at h
  refine ⟨h, ?_⟩
  rw [h]
  have hm : last ∈ headers.filter declaresRoot := List.mem_of_getLast?_eq_some hlast
  have hd : declaresRoot last = true := (List.mem_filter.mp hm).2
  simp only [declaresRoot, Bool.and_eq_true] at hd
  exact hd.2

/-- The fold at an instance: the headers `[gd_scene format=3]`, `[node name="A"]`,
`[node name="X" parent="."]`, `[node name="B"]`. -/
theorem rootNode_last_witness :
    (afterHeaders (js "/proj/main.tscn")
      [⟨js "gd_scene", js "format=3", ⟨⟨0, 0⟩, ⟨0, 19⟩⟩⟩,
       ⟨js "node", js "name=\"A\"", ⟨⟨1, 0⟩, ⟨1, 15⟩⟩⟩,
       ⟨js "node", js "name=\"X\" parent=\".\"", ⟨⟨2, 0⟩, ⟨2, 26⟩⟩⟩,
       ⟨js "node", js "name=\"B\"", ⟨⟨3, 0⟩, ⟨3, 15⟩⟩⟩] GDAsset.new).rootNode =
        (sectionAttributes (js "name=\"B\"")).1.get "name" ∧
      truthy (afterHeaders (js "/proj/main.tscn")
      [⟨js "gd_scene", js "format=3", ⟨⟨0, 0⟩, ⟨0, 19⟩⟩⟩,
       ⟨js "node", js "name=\"A\"", ⟨⟨1, 0⟩, ⟨1, 15⟩⟩⟩,
       ⟨js "node", js "name=\"X\" parent=\".\"", ⟨⟨2, 0⟩, ⟨2, 26⟩⟩⟩,
       ⟨js "node", js "name=\"B\"", ⟨⟨3, 0⟩, ⟨3, 15⟩⟩⟩] GDAsset.new).rootNode = true :=
  rootNode_last (js "/proj/main.tscn")
    [⟨js "gd_scene", js "format=3", ⟨⟨0, 0⟩, ⟨0, 19⟩⟩⟩,
     ⟨js "node", js "name=\"A\"", ⟨⟨1, 0⟩, ⟨1, 15⟩⟩⟩,
     ⟨js "node", js "name=\"X\" parent=\".\"", ⟨⟨2, 0⟩, ⟨2, 26⟩⟩⟩,
     ⟨js "node", js "name=\"B\"", ⟨⟨3, 0⟩, ⟨3, 15⟩⟩⟩] GDAsset.new
    ⟨js "node", js "name=\"B\"", ⟨⟨3, 0⟩, ⟨3, 15⟩⟩⟩ (by decide)

/-- C17: for every connection header the produced symbol has kind Event and the state of the
document is unchanged; with `X` the text `nodePath(from) + '.' + signal + '.connect(' +
nodePath(to) + '.' + method + ')'`, the symbol is named `X` (with empty detail) when the
attributes `signal`, `from`, `to` and `method` are all present and non-empty, and otherwise it
is named by the tag `connection` with the raw attribute text as detail; so the name is `X` if
and only if all four are present and non-empty. -/
theorem connection_symbol (docUriPath rest : JSString) (range : Range) (gdasset : GDAsset) :
    (sectionSymbol docUriPath (js "connection") rest range gdasset).1.kind = .Event ∧
    (sectionSymbol docUriPath (js "connection") rest range gdasset).2 = gdasset ∧
    ((truthy ((sectionAttributes rest).1.get "signal") = true ∧
        truthy ((sectionAttributes rest).1.get "from") = true ∧
        truthy ((sectionAttributes rest).1.get "to") = true ∧
        truthy ((sectionAttributes rest).1.get "method") = true) →
      (sectionSymbol docUriPath (js "connection") rest range gdasset).1.detail = []) ∧
    (¬ (truthy ((sectionAttributes rest).1.get "signal") = true ∧
        truthy ((sectionAttributes rest).1.get "from") = true ∧
        truthy ((sectionAttributes rest).1.get "to") = true ∧
        truthy ((sectionAttributes rest).1.get "method") = true) →
      (sectionSymbol docUriPath (js "connection") rest range gdasset).1.name =
          js "connection" ∧
        (sectionSymbol docUriPath (js "connection") rest range gdasset).1.detail = rest) ∧
    ((sectionSymbol docUriPath (js "connection") rest range gdasset).1.name =
        gdasset.nodePath (((sectionAttributes rest).1.get "from").getD []) ++ js "." ++
          ((sectionAttributes rest).1.get "signal").getD [] ++ js ".connect(" ++
          gdasset.nodePath (((sectionAttributes rest).1.get "to").getD []) ++ js "." ++
          ((sectionAttributes rest).1.get "method").getD [] ++ js ")" ↔
      (truthy ((sectionAttributes rest).1.get "signal") = true ∧
        truthy ((sectionAttributes rest).1.get "from") = true ∧
        truthy ((sectionAttributes rest).1.get "to") = true ∧
        truthy ((sectionAttributes rest).1.get "method") = true)) := by
  rw [sectionSymbol_connection]
  by_cases h : (truthy ((sectionAttributes rest).1.get "signal") &&
      truthy ((sectionAttributes rest).1.get "from") &&
      truthy ((sectionAttributes rest).1.get "to") &&
      truthy ((sectionAttributes rest).1.get "method")) = true
  · have h4 : truthy ((sectionAttributes rest).1.get "signal") = true ∧
        truthy ((sectionAttributes rest).1.get "from") = true ∧
        truthy ((sectionAttributes rest).1.get "to") = true ∧
        truthy ((sectionAttributes rest).1.get "method") = true := by
      simp only [Bool.and_eq_true] at h
      exact ⟨h.1.1.1, h.1.1.2, h.1.2, h.2⟩
    rw [if_pos h]
    exact ⟨rfl, rfl, fun _ => rfl, fun hn => absurd h4 hn, fun _ => h4, fun _ => rfl⟩
  · have h4 : ¬ (truthy ((sectionAttributes rest).1.get "signal") = true ∧
        truthy ((sectionAttributes rest).1.get "from") = true ∧
        truthy ((sectionAttributes rest).1.get "to") = true ∧
        truthy ((sectionAttributes rest).1.get "method") = true) := by
      intro h'
      apply h
      simp only [Bool.and_eq_true]
      exact ⟨⟨⟨h'.1, h'.2.1⟩, h'.2.2.1⟩, h'.2.2.2⟩
    rw [if_neg h]
    refine ⟨rfl, rfl, fun hp => absurd hp h4, fun _ => ⟨rfl, rfl⟩, fun e => ?_,
      fun hp => absurd hp h4⟩
    exfalso
    have hl := congrArg List.getLast? e
    rw [show js ")" = [41] from by decide] at hl
    have h41 : ∀ xs : JSString, (xs ++ [41]).getLast? = some 41 := fun xs => by simp
    rw [h41] at hl
    have hc : (js "connection").getLast? ≠ some 41 := by decide
    exact hc hl

/-- Witness for C17: a connection header with all four attributes, in a document whose root
node is `Root`; the symbol is named `$Button.pressed.connect($/root/Root._on_pressed)`. -/
theorem connection_symbol_witness :
    (sectionSymbol (js "/proj/main.tscn") (js "connection")
        (js "signal=\"pressed\" from=\"Button\" to=\".\" method=\"_on_pressed\"")
        ⟨⟨9, 0⟩, ⟨9, 70⟩⟩ ({ GDAsset.new with rootNode := some (js "Root") } : GDAsset)).1.name =
      js "$Button.pressed.connect($/root/Root._on_pressed)" ∧
    (sectionSymbol (js "/proj/main.tscn") (js "connection")
        (js "signal=\"pressed\" from=\"Button\" to=\".\" method=\"_on_pressed\"")
        ⟨⟨9, 0⟩, ⟨9, 70⟩⟩ ({ GDAsset.new with rootNode := some (js "Root") } : GDAsset)).1.detail =
      [] :=
  ⟨by decide,
    (connection_symbol (js "/proj/main.tscn")
      (js "signal=\"pressed\" from=\"Button\" to=\".\" method=\"_on_pressed\"")
      ⟨⟨9, 0⟩, ⟨9, 70⟩⟩ ({ GDAsset.new with rootNode := some (js "Root") } : GDAsset)).2.2.1
      (by decide)⟩

/-! ### Lemmas on positions, ranges and the matchers of the scanner -/

theorem Position.isBefore_iff (a b : Position) :
    a.isBefore b = true ↔
      a.line < b.line ∨ (a.line = b.line ∧ a.character < b.character) := by
  simp [Position.isBefore]

theorem Position.isBeforeOrEqual_iff (a b : Position) :
    a.isBeforeOrEqual b = true ↔
      a.line < b.line ∨ (a.line = b.line ∧ a.character ≤ b.character) := by
  simp only [Position.isBeforeOrEqual, Bool.not_eq_true', ← Bool.not_eq_true,
    Position.isBefore_iff]
  omega

theorem Position.eq_of_le_of_not_lt (a b : Position) (h : a.isBeforeOrEqual b = true)
    (h2 : a.isBefore b = false) : a = b := by
  rw [Position.isBeforeOrEqual_iff] at h
  rw [← Bool.not_eq_true, Position.isBefore_iff] at h2
  cases a; cases b
  simp only [Position.mk.injEq] at *
  omega

theorem Range.new_of_le (a b : Position) (h : a.isBeforeOrEqual b = true) :
    Range.new a b = ⟨a, b⟩ := by
  unfold Range.new
  by_cases h2 : a.isBefore b = true
  · rw [if_pos h2]
  · rw [if_neg h2]
    have := Position.eq_of_le_of_not_lt a b h (by simpa using h2)
    rw [this]

theorem Range.new_ordered (a b : Position) : (Range.new a b).ordered = true := by
  unfold Range.new Range.ordered
  by_cases h2 : a.isBefore b = true
  · rw [if_pos h2]
    rw [Position.isBefore_iff] at h2
    rw [Position.isBeforeOrEqual_iff]
    show a.line < b.line ∨ (a.line = b.line ∧ a.character ≤ b.character)
    omega
  · rw [if_neg h2]
    rw [Position.isBefore_iff] at h2
    rw [Position.isBeforeOrEqual_iff]
    show b.line < a.line ∨ (b.line = a.line ∧ b.character ≤ a.character)
    omega

theorem Range.new_start_le (a b : Position) :
    (Range.new a b).start.isBeforeOrEqual a = true ∧
      (Range.new a b).start.isBeforeOrEqual b = true := by
  unfold Range.new
  by_cases h2 : a.isBefore b = true
  · rw [if_pos h2]
    rw [Position.isBefore_iff] at h2
    simp only [Position.isBeforeOrEqual_iff]
    constructor <;> first | omega | simp
  · rw [if_neg h2]
    rw [Position.isBefore_iff] at h2
    simp only [Position.isBeforeOrEqual_iff]
    constructor <;> first | omega | simp

theorem Range.new_le_end (a b : Position) :
    a.isBeforeOrEqual (Range.new a b).end_ = true ∧
      b.isBeforeOrEqual (Range.new a b).end_ = true := by
  unfold Range.new
  by_cases h2 : a.isBefore b = true
  · rw [if_pos h2]
    rw [Position.isBefore_iff] at h2
    simp only [Position.isBeforeOrEqual_iff]
    constructor <;> first | omega | simp
  · rw [if_neg h2]
    rw [Position.isBefore_iff] at h2
    simp only [Position.isBeforeOrEqual_iff]
    constructor <;> first | omega | simp

theorem Range.contains_iff (r : Range) (p : Position) :
    r.contains p = true ↔ r.start.isBeforeOrEqual p = true ∧ p.isBeforeOrEqual r.end_ = true := by
  simp [Range.contains, Position.isBeforeOrEqual]

theorem restOfLine_ordered (document : TextDocument) (i j : Nat) :
    (document.restOfLine i j).ordered = true := by
  simp only [Range.ordered, TextDocument.restOfLine, Position.isBeforeOrEqual_iff]
  simp only [lt_self_iff_false, true_and, false_or]
  omega

theorem restOfLine_of_le (document : TextDocument) (i j : Nat)
    (h : j ≤ (document.lineAt i).length) :
    document.restOfLine i j = ⟨⟨i, j⟩, ⟨i, (document.lineAt i).length⟩⟩ := by
  simp only [TextDocument.restOfLine, Nat.min_eq_left h]

theorem validSymbol_restOfLine (document : TextDocument) (i j : Nat) (name : JSString)
    (h : name ≠ []) :
    validSymbol name (document.restOfLine i j) (document.restOfLine i j) = true := by
  have ho := restOfLine_ordered document i j
  simp only [Range.ordered] at ho
  simp only [validSymbol, Bool.and_eq_true, bne_iff_ne, ne_eq, Range.contains_iff]
  refine ⟨⟨h, ?_, ho⟩, ho, ?_⟩ <;> simp [Position.isBeforeOrEqual_iff]

theorem unitsOfCodePoint_ne_nil (cp : Nat) : unitsOfCodePoint cp ≠ [] := by
  unfold unitsOfCodePoint
  split <;> simp

theorem unitsOf_ne_nil (cps : List Nat) (h : cps ≠ []) : unitsOf cps ≠ [] := by
  cases cps with
  | nil => exact absurd rfl h
  | cons c t =>
    have := unitsOfCodePoint_ne_nil c
    simp [unitsOf, List.flatMap_cons, this]

theorem tagScan_ge (letter : Nat → Bool) (cps : List Nat) :
    ∀ (state : TagState) (pos lastEnd : Nat), lastEnd ≤ pos →
      lastEnd ≤ tagScan letter state pos lastEnd cps := by
  induction cps with
  | nil => intro state pos lastEnd _; cases state <;> simp [tagScan]
  | cons c t ih =>
    intro state pos lastEnd h
    cases state <;> simp only [tagScan]
    · split
      · exact le_trans (by omega) (ih .word (pos + 1) (pos + 1) (le_refl _))
      · split
        · exact ih .space (pos + 1) lastEnd (by omega)
        · exact le_refl _
    · split
      · exact ih .space (pos + 1) lastEnd (by omega)
      · split
        · exact le_trans (by omega) (ih .word (pos + 1) (pos + 1) (le_refl _))
        · split
          · exact ih .quote (pos + 1) lastEnd (by omega)
          · exact le_refl _
    · split
      · exact le_trans (by omega) (ih .closed (pos + 1) (pos + 1) (le_refl _))
      · split
        · exact le_refl _
        · exact ih .quote (pos + 1) lastEnd (by omega)
    · split
      · exact ih .space (pos + 1) lastEnd (by omega)
      · exact le_refl _

theorem headerTagWords_pos (letter : Nat → Bool) (s : List Nat) (n : Nat)
    (h : headerTagWords letter s = some n) : s.take n ≠ [] := by
  cases s with
  | nil => simp [headerTagWords] at h
  | cons c t =>
    simp only [headerTagWords] at h
    split at h
    · split at h
      · simp only [Option.some.injEq] at h
        have := tagScan_ge letter t .word 1 1 (le_refl _)
        rw [h] at this
        obtain ⟨k, rfl⟩ : ∃ k, n = k + 1 := ⟨n - 1, by omega⟩
        simp
      · exact absurd h (by simp)
    · exact absurd h (by simp)

theorem headerTagRun_pos (s : List Nat) :
    ∀ (n : Nat) (rest : List Nat), headerTagRun s = some (n, rest) → s.take n ≠ [] := by
  induction s with
  | nil => intro n rest h; simp [headerTagRun] at h
  | cons c t ih =>
    intro n rest h
    simp only [headerTagRun] at h
    split at h
    · split at h
      · simp only [Option.some.injEq, Prod.mk.injEq] at h
        rw [← h.1]; simp
      · simp only [Option.map_eq_some'] at h
        obtain ⟨r, _, hr⟩ := h
        simp only [Prod.mk.injEq] at hr
        rw [← hr.1]; simp
    · exact absurd h (by simp)

theorem headerMatchCodePoints_tag (letter : Nat → Bool) (text tag rest : List Nat)
    (h : headerMatchCodePoints letter text = some (tag, rest)) : tag ≠ [] := by
  unfold headerMatchCodePoints at h
  split at h
  · rename_i afterBracket _
    dsimp only at h
    split at h
    · rename_i m hm
      simp only [Option.some.injEq] at h
      split at hm
      · rename_i n hn
        simp only [Option.map_eq_some'] at hm
        obtain ⟨r, _, hr⟩ := hm
        rw [← hr] at h
        simp only [Prod.mk.injEq] at h
        rw [← h.1]
        exact headerTagWords_pos letter _ n hn
      · exact absurd hm (by simp)
    · simp only [Option.map_eq_some'] at h
      obtain ⟨m, hm, hr⟩ := h
      simp only [Prod.mk.injEq] at hr
      rw [← hr.1]
      exact headerTagRun_pos _ m.1 m.2 hm
  · exact absurd h (by simp)

theorem headerMatch_tag (letter : Nat → Bool) (text tag rest : JSString)
    (h : headerMatch letter text = some (tag, rest)) : tag ≠ [] := by
  simp only [headerMatch, Option.map_eq_some'] at h
  obtain ⟨m, hm, hr⟩ := h
  simp only [Prod.mk.injEq] at hr
  rw [← hr.1]
  exact unitsOf_ne_nil _ (headerMatchCodePoints_tag letter _ m.1 m.2 hm)

theorem unitLength_le (k : Nat) (s : JSString) : unitLength k s ≤ s.length := by
  induction s using codePoints.induct generalizing k with
  | case1 => cases k <;> simp [unitLength]
  | case2 c => cases k <;> simp [unitLength]
  | case3 c d t hp ih =>
    cases k with
    | zero => simp [unitLength]
    | succ k =>
      simp only [unitLength, hp, if_true, List.length_cons]
      have := ih k
      omega
  | case4 c d t hp ih =>
    cases k with
    | zero => simp [unitLength]
    | succ k =>
      simp only [unitLength, hp, List.length_cons]
      have := ih k
      simp only [List.length_cons] at this
      simp only [Bool.false_eq_true, if_false]
      omega

theorem unitLength_pos (k : Nat) (s : JSString) (hk : 1 ≤ k) (hs : s ≠ []) :
    1 ≤ unitLength k s := by
  obtain ⟨k, rfl⟩ : ∃ n, k = n + 1 := ⟨k - 1, by omega⟩
  match s, hs with
  | [c], _ => simp [unitLength]
  | c :: d :: t, _ =>
    simp only [unitLength]
    split <;> omega

theorem codePoints_eq_nil (s : JSString) (h : codePoints s = []) : s = [] := by
  match s with
  | [] => rfl
  | [c] => simp [codePoints] at h
  | c :: d :: t =>
    simp only [codePoints] at h
    split at h <;> simp at h

theorem isKeyRun_ne_nil (letter : Nat → Bool) (key : List Nat)
    (h : isKeyRun letter false key = true) : key ≠ [] := by
  intro hk
  rw [hk] at h
  simp [isKeyRun] at h

theorem propertyMatchCodePoints_facts (letter : Nat → Bool) (text : List Nat)
    (m : Nat × List Nat × List Nat × Option (List Nat))
    (h : propertyMatchCodePoints letter text = some m) :
    1 ≤ m.1 ∧ m.2.1 ≠ [] ∧ text ≠ [] := by
  unfold propertyMatchCodePoints at h
  dsimp only at h
  split at h
  · rename_i hkey
    have hk := isKeyRun_ne_nil letter _ hkey
    have ht : text ≠ [] := by
      intro h0
      rw [h0] at hk
      simp at hk
    split at h
    · simp only [Option.some.injEq] at h
      rw [← h]
      exact ⟨by simp, hk, ht⟩
    · split at h
      · split at h
        · split at h
          · simp only [Option.some.injEq] at h
            rw [← h]
            refine ⟨by simp, ?_, ht⟩
            dsimp only
            intro h0
            have := congrArg List.length h0
            simp at this
          · exact absurd h (by simp)
        · exact absurd h (by simp)
      · exact absurd h (by simp)
    · exact absurd h (by simp)
  · exact absurd h (by simp)

theorem propertyMatch_facts (letter : Nat → Bool) (text : JSString) (m : PropertyMatch)
    (h : propertyMatch letter text = some m) :
    1 ≤ m.len ∧ m.len ≤ text.length ∧ m.prop ≠ [] := by
  simp only [propertyMatch, Option.map_eq_some'] at h
  obtain ⟨r, hr, hm⟩ := h
  obtain ⟨h1, h2, h3⟩ := propertyMatchCodePoints_facts letter _ r hr
  have ht : text ≠ [] := fun h0 => h3 (by rw [h0]; rfl)
  rw [← hm]
  exact ⟨unitLength_pos _ _ h1 ht, unitLength_le _ _, unitsOf_ne_nil _ h2⟩

/-! ### The passes of the main loop, branch by branch -/

theorem sectionSymbol_tokens (docUriPath tag rest : JSString) (range : Range) (gdasset : GDAsset) :
    (sectionSymbol docUriPath tag rest range gdasset).2.strings = gdasset.strings ∧
      (sectionSymbol docUriPath tag rest range gdasset).2.comments = gdasset.comments := by
  unfold sectionSymbol
  dsimp only
  by_cases h1 : tag = js "gd_scene"
  · rw [if_pos h1]; exact ⟨rfl, rfl⟩
  rw [if_neg h1]
  by_cases h2 : tag = js "gd_resource"
  · rw [if_pos h2]; exact ⟨rfl, rfl⟩
  rw [if_neg h2]
  by_cases h3 : tag = js "ext_resource"
  · rw [if_pos h3]
    by_cases ht : truthy (sectionAttributes rest).2 = true
    · rw [if_pos ht]; exact ⟨rfl, rfl⟩
    · rw [if_neg ht]; exact ⟨rfl, rfl⟩
  rw [if_neg h3]
  by_cases h4 : tag = js "sub_resource"
  · rw [if_pos h4]
    by_cases ht : truthy (sectionAttributes rest).2 = true
    · rw [if_pos ht]; exact ⟨rfl, rfl⟩
    · rw [if_neg ht]; exact ⟨rfl, rfl⟩
  rw [if_neg h4]
  by_cases h5 : tag = js "node"
  · rw [if_pos h5]
    cases (sectionAttributes rest).1.get "parent" with
    | none =>
      dsimp only
      by_cases ht : truthy ((sectionAttributes rest).1.get "name") = true
      · rw [if_pos ht]; exact ⟨rfl, rfl⟩
      · rw [if_neg ht]; exact ⟨rfl, rfl⟩
    | some parent => exact ⟨rfl, rfl⟩
  rw [if_neg h5]
  by_cases h6 : tag = js "connection"
  · rw [if_pos h6]
    split <;> exact ⟨rfl, rfl⟩
  rw [if_neg h6]
  by_cases h7 : tag = js "editable"
  · rw [if_pos h7]; exact ⟨rfl, rfl⟩
  rw [if_neg h7]
  exact ⟨rfl, rfl⟩

theorem sectionSymbol_shape (docUriPath tag rest : JSString) (range : Range) (gdasset : GDAsset) :
    (sectionSymbol docUriPath tag rest range gdasset).1.range = range ∧
      (sectionSymbol docUriPath tag rest range gdasset).1.selectionRange = range ∧
      (sectionSymbol docUriPath tag rest range gdasset).1.children = [] := by
  unfold sectionSymbol
  dsimp only
  by_cases h1 : tag = js "gd_scene"
  · rw [if_pos h1]; exact ⟨rfl, rfl, rfl⟩
  rw [if_neg h1]
  by_cases h2 : tag = js "gd_resource"
  · rw [if_pos h2]; exact ⟨rfl, rfl, rfl⟩
  rw [if_neg h2]
  by_cases h3 : tag = js "ext_resource"
  · rw [if_pos h3]; exact ⟨rfl, rfl, rfl⟩
  rw [if_neg h3]
  by_cases h4 : tag = js "sub_resource"
  · rw [if_pos h4]
    by_cases ht : truthy (sectionAttributes rest).2 = true
    · rw [if_pos ht]; exact ⟨rfl, rfl, rfl⟩
    · rw [if_neg ht]; exact ⟨rfl, rfl, rfl⟩
  rw [if_neg h4]
  by_cases h5 : tag = js "node"
  · rw [if_pos h5]; exact ⟨rfl, rfl, rfl⟩
  rw [if_neg h5]
  by_cases h6 : tag = js "connection"
  · rw [if_pos h6]
    split <;> exact ⟨rfl, rfl, rfl⟩
  rw [if_neg h6]
  by_cases h7 : tag = js "editable"
  · rw [if_pos h7]; exact ⟨rfl, rfl, rfl⟩
  rw [if_neg h7]
  exact ⟨rfl, rfl, rfl⟩

theorem sectionBranch_eq (document : TextDocument) (state : ScanState) (tag rest : JSString)
    (h : tag ≠ []) :
    sectionBranch document state tag rest =
      .next { state with
        i := state.i + 1
        gdasset := state.gdasset.map
          (fun g => (sectionSymbol document.uriPath tag rest
            (document.restOfLine state.i state.j) g).2)
        previousEnd := some (document.restOfLine state.i state.j).end_
        currentSection := some (match state.gdasset with
          | some g => (sectionSymbol document.uriPath tag rest
              (document.restOfLine state.i state.j) g).1
          | none => { name := tag, detail := rest,
                      kind := if rest ≠ [] then SymbolKind.Object else SymbolKind.Namespace,
                      range := document.restOfLine state.i state.j,
                      selectionRange := document.restOfLine state.i state.j, children := [] })
        currentProperty := none
        symbols := state.closedRoots } := by
  unfold sectionBranch
  dsimp only
  rw [if_pos (validSymbol_restOfLine document state.i state.j tag h)]
  cases state.gdasset <;> rfl

theorem takeWhile_length_le (p : Nat → Bool) (xs : List Nat) :
    (xs.takeWhile p).length ≤ xs.length := by
  induction xs with
  | nil => simp
  | cons x t ih =>
    simp only [List.takeWhile]
    split
    · simp only [List.length_cons]; omega
    · simp

theorem takeWhile_cons_pos (p : Nat → Bool) (x : Nat) (t : List Nat) (h : p x = true) :
    (x :: t).takeWhile p = x :: t.takeWhile p := by
  simp [List.takeWhile, h]

theorem commentMatch_nil : commentMatch [] = some (0, none) := rfl

theorem commentMatch_spaces (text : JSString) (spaces : Nat) (comment : Option JSString)
    (h : commentMatch text = some (spaces, comment)) : spaces ≤ text.length := by
  unfold commentMatch at h
  split at h
  · simp only [Option.some.injEq, Prod.mk.injEq] at h
    rw [← h.1]
    exact takeWhile_length_le _ _
  · split at h
    · simp only [Option.some.injEq, Prod.mk.injEq] at h
      rw [← h.1]
      exact takeWhile_length_le _ _
    · exact absurd h (by simp)

theorem scanStep_cases (letter : Nat → Bool) (document : TextDocument) (state : ScanState) :
    (∃ tag rest, state.j = 0 ∧
        headerMatch letter ((document.lineAt state.i).drop state.j) = some (tag, rest) ∧
        scanStep letter document state = sectionBranch document state tag rest) ∨
    (∃ m, state.j = 0 ∧
        propertyMatch letter ((document.lineAt state.i).drop state.j) = some m ∧
        scanStep letter document state = propertyBranch document state m) ∨
    (∃ spaces comment,
        commentMatch ((document.lineAt state.i).drop state.j) = some (spaces, comment) ∧
        scanStep letter document state = commentBranch document state spaces comment) ∨
    (∃ t, (document.lineAt state.i).drop state.j = QUOTE :: t ∧
        commentMatch ((document.lineAt state.i).drop state.j) = none ∧
        scanStep letter document state =
          stringBranch document state ((document.lineAt state.i).drop state.j)) ∨
    (∃ k, 1 ≤ k ∧ k ≤ ((document.lineAt state.i).drop state.j).length ∧
        commentMatch ((document.lineAt state.i).drop state.j) = none ∧
        ((document.lineAt state.i).drop state.j).head? ≠ some QUOTE ∧
        scanStep letter document state =
          .next (afterFragment document state state.i (state.j + k) state.gdasset)) := by
  unfold scanStep
  dsimp only
  split
  · rename_i tag rest hh
    left
    by_cases hj : state.j = 0
    · rw [if_pos hj] at hh
      exact ⟨tag, rest, hj, hh, rfl⟩
    · rw [if_neg hj] at hh
      exact absurd hh (by simp)
  · right
    split
    · rename_i m hp
      left
      by_cases hj : state.j = 0
      · rw [if_pos hj] at hp
        exact ⟨m, hj, hp, rfl⟩
      · rw [if_neg hj] at hp
        exact absurd hp (by simp)
    · right
      split
      · rename_i spaces comment hc
        left
        exact ⟨spaces, comment, hc, rfl⟩
      · rename_i hc
        right
        cases htext : (document.lineAt state.i).drop state.j with
        | nil =>
          rw [htext] at hc
          exact absurd hc (by simp [commentMatch_nil])
        | cons c t =>
          rw [htext] at hc
          by_cases hq : c = QUOTE
          · left
            subst hq
            refine ⟨t, rfl, hc, ?_⟩
            simp
          · right
            have hhead : (c :: t).head? ≠ some QUOTE := by simpa using hq
            rw [if_neg hhead]
            by_cases hs : isSpace c = true
            · have hlen : 1 ≤ ((c :: t).takeWhile isSpace).length := by
                simp [List.takeWhile, hs]
              rw [if_pos (by omega)]
              exact ⟨_, hlen, takeWhile_length_le _ _, hc, hhead, rfl⟩
            · have hlen0 : ((c :: t).takeWhile isSpace).length = 0 := by
                simp [List.takeWhile, hs]
              rw [if_neg (by omega)]
              have hb : (c != QUOTE && !isSpace c) = true := by simp [hq, hs]
              have hlen : 1 ≤ ((c :: t).takeWhile
                  (fun c => c != QUOTE && !isSpace c)).length := by
                rw [takeWhile_cons_pos (fun c => c != QUOTE && !isSpace c) c t hb]
                simp
              rw [if_pos (by omega)]
              exact ⟨_, hlen, takeWhile_length_le _ _, hc, hhead, rfl⟩

/-! ### What the passes do to the cursor -/

theorem setContainer_fields (state : ScanState) (s : List DocumentSymbol) :
    (state.setContainer s).i = state.i ∧ (state.setContainer s).j = state.j ∧
      (state.setContainer s).gdasset = state.gdasset ∧
      (state.setContainer s).previousEnd = state.previousEnd ∧
      (state.setContainer s).currentProperty = state.currentProperty := by
  unfold ScanState.setContainer
  split <;> exact ⟨rfl, rfl, rfl, rfl, rfl⟩

theorem extendSection_fields (state : ScanState) (e : Position) :
    (state.extendSection e).i = state.i ∧ (state.extendSection e).j = state.j ∧
      (state.extendSection e).gdasset = state.gdasset ∧
      (state.extendSection e).previousEnd = state.previousEnd ∧
      (state.extendSection e).currentProperty = state.currentProperty ∧
      (state.extendSection e).symbols = state.symbols := by
  unfold ScanState.extendSection
  split <;> exact ⟨rfl, rfl, rfl, rfl, rfl, rfl⟩

theorem propertyBranch_shape (document : TextDocument) (state : ScanState) (m : PropertyMatch)
    (h : m.prop ≠ []) :
    ∃ (s : List DocumentSymbol) (ref : PropertyRef),
      propertyBranch document state m =
        .next (((state.setContainer s).extendSection
          (document.restOfLine state.i state.j).end_).afterKey m.len ref) := by
  unfold propertyBranch
  dsimp only
  rw [if_pos (validSymbol_restOfLine document state.i state.j m.prop h)]
  split
  · split
    · exact ⟨_, _, rfl⟩
    · have hp : m.key ++ js "[]" ≠ [] := by
        intro h0
        have := congrArg List.length h0
        simp only [List.length_append, List.length_nil] at this
        have h2 : (js "[]").length = 2 := by decide
        omega
      rw [if_pos (validSymbol_restOfLine document state.i state.j _ hp)]
      exact ⟨_, _, rfl⟩
  · exact ⟨_, _, rfl⟩

theorem propertyBranch_next (document : TextDocument) (state : ScanState) (m : PropertyMatch)
    (h : m.prop ≠ []) :
    ∃ state', propertyBranch document state m = .next state' ∧ state'.i = state.i ∧
      state'.j = m.len ∧ state'.gdasset = state.gdasset ∧
      state'.previousEnd = some ⟨state.i, m.len⟩ := by
  obtain ⟨s, ref, hs⟩ := propertyBranch_shape document state m h
  refine ⟨_, hs, ?_, rfl, ?_, ?_⟩
  · show ((state.setContainer s).extendSection _).i = state.i
    rw [(extendSection_fields _ _).1, (setContainer_fields _ _).1]
  · show ((state.setContainer s).extendSection _).gdasset = state.gdasset
    rw [(extendSection_fields _ _).2.2.1, (setContainer_fields _ _).2.2.1]
  · show some (Position.mk ((state.setContainer s).extendSection _).i m.len) = _
    rw [(extendSection_fields _ _).1, (setContainer_fields _ _).1]

theorem afterFragment_fields (document : TextDocument) (state : ScanState) (i j : Nat)
    (gdasset : Option GDAsset) :
    (afterFragment document state i j gdasset).i = i ∧
      (afterFragment document state i j gdasset).j = j ∧
      (afterFragment document state i j gdasset).gdasset = gdasset ∧
      (afterFragment document state i j gdasset).previousEnd = some ⟨i, j⟩ ∧
      (afterFragment document state i j gdasset).currentProperty = state.currentProperty := by
  unfold afterFragment
  dsimp only
  refine ⟨rfl, rfl, rfl, rfl, ?_⟩
  split
  · rename_i ref href
    rw [(setContainer_fields _ _).2.2.2.2, href]
  · rename_i href
    rw [href]

theorem stringChunkLen_le (s : JSString) : ∀ skip, stringChunkLen skip s ≤ s.length := by
  induction s with
  | nil => intro skip; cases skip <;> simp [stringChunkLen]
  | cons c t ih =>
    intro skip
    cases skip with
    | zero =>
      simp only [stringChunkLen]
      split
      · omega
      · have := ih (stringPieceLen (c :: t) - 1)
        simp only [List.length_cons]
        omega
    | succ k =>
      simp only [stringChunkLen, List.length_cons]
      have := ih k
      omega

theorem scanStringLine_advance_le (s : JSString) :
    ∀ skip, (scanStringLine skip s).advance ≤ s.length - skip := by
  induction s with
  | nil => intro skip; cases skip <;> simp [scanStringLine]
  | cons c t ih =>
    intro skip
    cases skip with
    | succ k =>
      simp only [scanStringLine, List.length_cons]
      have := ih k
      omega
    | zero =>
      simp only [scanStringLine]
      split
      · simp
      · split
        · have := ih 0
          simp only [List.length_cons]
          omega
        · rename_i hq hn
          have h1 := ih (stringChunkLen 0 (c :: t) - 1)
          have h2 := stringChunkLen_le (c :: t) 0
          simp only [List.length_cons] at h2 ⊢
          omega

theorem scanStringLine_closed_pos (s : JSString) :
    ∀ skip, (scanStringLine skip s).closed = true → 1 ≤ (scanStringLine skip s).advance := by
  induction s with
  | nil => intro skip h; cases skip <;> simp [scanStringLine] at h
  | cons c t ih =>
    intro skip
    cases skip with
    | succ k =>
      simp only [scanStringLine]
      exact ih k
    | zero =>
      simp only [scanStringLine]
      split
      · intro _; simp
      · split
        · exact ih 0
        · intro h
          have := ih _ h
          dsimp only
          omega

theorem scanString_bounds (later : List JSString) :
    ∀ (first : JSString) (found : StringScan), scanString first later = some found →
      1 ≤ found.advance ∧
        ((found.lines = 0 ∧ found.advance ≤ first.length) ∨
          (∃ l, 1 ≤ found.lines ∧ later.get? (found.lines - 1) = some l ∧
            found.advance ≤ l.length)) := by
  induction later with
  | nil =>
    intro first found h
    unfold scanString at h
    split at h
    · rename_i hc
      simp only [Option.some.injEq] at h
      rw [← h]
      have := scanStringLine_advance_le first 0
      exact ⟨scanStringLine_closed_pos first 0 hc, Or.inl ⟨rfl, by simpa using this⟩⟩
    · exact absurd h (by simp)
  | cons l ls ih =>
    intro first found h
    unfold scanString at h
    split at h
    · rename_i hc
      simp only [Option.some.injEq] at h
      rw [← h]
      have := scanStringLine_advance_le first 0
      exact ⟨scanStringLine_closed_pos first 0 hc, Or.inl ⟨rfl, by simpa using this⟩⟩
    · simp only [Option.map_eq_some'] at h
      obtain ⟨r, hr, hf⟩ := h
      obtain ⟨h1, h2⟩ := ih l r hr
      rw [← hf]
      refine ⟨h1, Or.inr ?_⟩
      rcases h2 with ⟨h0, hle⟩ | ⟨l2, hl1, hl2, hle⟩
      · refine ⟨l, by simp, ?_, hle⟩
        simp [h0]
      · refine ⟨l2, by simp, ?_, hle⟩
        dsimp only
        obtain ⟨k, hk⟩ : ∃ k, r.lines = k + 1 := ⟨r.lines - 1, by omega⟩
        rw [hk] at hl2 ⊢
        simpa using hl2

theorem lineAt_of_get (document : TextDocument) (i : Nat) (l : JSString)
    (h : document.lines.get? i = some l) : document.lineAt i = l ∧ i < document.lines.length := by
  unfold TextDocument.lineAt
  have hi : i < document.lines.length := by
    by_contra hc
    rw [List.get?_eq_none.mpr (by omega)] at h
    exact absurd h (by simp)
  refine ⟨?_, hi⟩
  rw [List.getD_eq_getElem?_getD, ← List.get?_eq_getElem?, h]
  rfl

theorem stringBranch_cases (document : TextDocument) (state : ScanState) (t : JSString)
    (hj : state.j ≤ (document.lineAt state.i).length)
    (htext : (document.lineAt state.i).drop state.j = QUOTE :: t) :
    stringBranch document state (QUOTE :: t) = .stop state ∨
    ∃ (i j : Nat) (value : JSString),
      stringBranch document state (QUOTE :: t) =
        .next (afterFragment document state i j
          (state.gdasset.map (fun g => { g with strings := g.strings ++
            [{ range := Range.new ⟨state.i, state.j⟩ ⟨i, j⟩, value := value }] }))) ∧
      j ≤ (document.lineAt i).length ∧
      ((i = state.i ∧ state.j + 2 ≤ j) ∨ (state.i < i ∧ i < document.lines.length ∧ 1 ≤ j)) := by
  unfold stringBranch
  dsimp only
  cases hs : scanString ((QUOTE :: t).drop 1) (document.lines.drop (state.i + 1)) with
  | none => left; rfl
  | some found =>
    right
    obtain ⟨h1, h2⟩ := scanString_bounds _ _ found hs
    have hlen : ((document.lineAt state.i).drop state.j).length = t.length + 1 := by
      rw [htext]; rfl
    rw [List.length_drop] at hlen
    refine ⟨state.i + found.lines,
      (if found.lines = 0 then state.j + 1 + found.advance else found.advance),
      found.value, ?_, ?_, ?_⟩
    · dsimp only
      rw [restOfLine_of_le document state.i state.j hj]
      cases state.gdasset <;> rfl
    · rcases h2 with ⟨h0, hle⟩ | ⟨l, hl1, hl2, hle⟩
      · rw [if_pos h0, h0]
        simp only [List.drop_one, List.tail_cons] at hle
        simp only [Nat.add_zero]
        omega
      · rw [if_neg (by omega)]
        rw [List.get?_drop] at hl2
        have := lineAt_of_get document _ l hl2
        have he : state.i + 1 + (found.lines - 1) = state.i + found.lines := by omega
        rw [he] at this
        rw [this.1]
        exact hle
    · rcases h2 with ⟨h0, hle⟩ | ⟨l, hl1, hl2, hle⟩
      · left
        rw [if_pos h0, h0]
        exact ⟨rfl, by omega⟩
      · right
        rw [if_neg (by omega)]
        rw [List.get?_drop] at hl2
        have := lineAt_of_get document _ l hl2
        have he : state.i + 1 + (found.lines - 1) = state.i + found.lines := by omega
        rw [he] at this
        exact ⟨by omega, this.2, h1⟩

theorem commentBranch_eq (document : TextDocument) (state : ScanState) (spaces : Nat)
    (comment : Option JSString) :
    ∃ gdasset, commentBranch document state spaces comment =
      .next { state with i := state.i + 1, j := 0, gdasset := gdasset,
                         previousEnd := some (document.restOfLine state.i state.j).end_ } :=
  ⟨_, rfl⟩

theorem scanStep_not_thrown (letter : Nat → Bool) (document : TextDocument) (state : ScanState)
    (hj : state.j ≤ (document.lineAt state.i).length) :
    scanStep letter document state ≠ .thrown := by
  rcases scanStep_cases letter document state with
    ⟨tag, rest, _, hh, he⟩ | ⟨m, _, hp, he⟩ | ⟨sp, c, _, he⟩ | ⟨t, ht, _, he⟩ | ⟨k, _, _, _, _, he⟩
  · rw [he, sectionBranch_eq document state tag rest (headerMatch_tag letter _ tag rest hh)]
    simp
  · obtain ⟨st, hs, _⟩ := propertyBranch_next document state m
      (propertyMatch_facts letter _ m hp).2.2
    rw [he, hs]
    simp
  · rw [he]
    simp [commentBranch]
  · rw [he, ht]
    rcases stringBranch_cases document state t hj ht with h | ⟨i, j, v, h, _⟩
    · rw [h]; simp
    · rw [h]; simp
  · rw [he]
    simp

theorem scanStep_stop (letter : Nat → Bool) (document : TextDocument) (state state' : ScanState)
    (hj : state.j ≤ (document.lineAt state.i).length)
    (h : scanStep letter document state = .stop state') : state' = state := by
  rcases scanStep_cases letter document state with
    ⟨tag, rest, _, hh, he⟩ | ⟨m, _, hp, he⟩ | ⟨sp, c, _, he⟩ | ⟨t, ht, _, he⟩ | ⟨k, _, _, _, _, he⟩
  · rw [he, sectionBranch_eq document state tag rest (headerMatch_tag letter _ tag rest hh)] at h
    exact absurd h (by simp)
  · obtain ⟨st, hs, _⟩ := propertyBranch_next document state m
      (propertyMatch_facts letter _ m hp).2.2
    rw [he, hs] at h
    exact absurd h (by simp)
  · rw [he] at h
    simp [commentBranch] at h
  · rw [he, ht] at h
    rcases stringBranch_cases document state t hj ht with h2 | ⟨i, j, v, h2, _⟩
    · rw [h2] at h
      simp only [StepResult.stop.injEq] at h
      exact h.symm
    · rw [h2] at h
      exact absurd h (by simp)
  · rw [he] at h
    exact absurd h (by simp)

theorem scanStep_cursor (letter : Nat → Bool) (document : TextDocument)
    (state state' : ScanState) (hj : state.j ≤ (document.lineAt state.i).length)
    (h : scanStep letter document state = .next state') :
    state'.j ≤ (document.lineAt state'.i).length ∧
      ((state'.i = state.i ∧ state.j < state'.j) ∨
        (state.i < state'.i ∧ (state'.j = 0 ∨ state'.i < document.lines.length))) := by
  rcases scanStep_cases letter document state with
    ⟨tag, rest, hj0, hh, he⟩ | ⟨m, hj0, hp, he⟩ | ⟨sp, c, _, he⟩ | ⟨t, ht, _, he⟩ |
    ⟨k, hk1, hk2, _, _, he⟩
  · rw [he, sectionBranch_eq document state tag rest (headerMatch_tag letter _ tag rest hh)] at h
    simp only [StepResult.next.injEq] at h
    rw [← h]
    dsimp only
    rw [hj0]
    exact ⟨Nat.zero_le _, Or.inr ⟨by omega, Or.inl rfl⟩⟩
  · obtain ⟨hm1, hm2, hm3⟩ := propertyMatch_facts letter _ m hp
    obtain ⟨st, hs, hi, hjm, _⟩ := propertyBranch_next document state m hm3
    rw [he, hs] at h
    simp only [StepResult.next.injEq] at h
    rw [← h, hi, hjm]
    rw [hj0, List.drop_zero] at hm2
    exact ⟨hm2, Or.inl ⟨rfl, by omega⟩⟩
  · obtain ⟨g, hg⟩ := commentBranch_eq document state sp c
    rw [he, hg] at h
    simp only [StepResult.next.injEq] at h
    rw [← h]
    dsimp only
    exact ⟨Nat.zero_le _, Or.inr ⟨by omega, Or.inl rfl⟩⟩
  · rw [he, ht] at h
    rcases stringBranch_cases document state t hj ht with h2 | ⟨i, j, v, h2, hle, hpos⟩
    · rw [h2] at h
      exact absurd h (by simp)
    · rw [h2] at h
      simp only [StepResult.next.injEq] at h
      obtain ⟨f1, f2, _⟩ := afterFragment_fields document state i j
        (state.gdasset.map (fun g => { g with strings := g.strings ++
            [{ range := Range.new ⟨state.i, state.j⟩ ⟨i, j⟩, value := v }] }))
      rw [← h, f1, f2]
      refine ⟨hle, ?_⟩
      rcases hpos with ⟨h1, h3⟩ | ⟨h1, h3, _⟩
      · exact Or.inl ⟨h1, by omega⟩
      · exact Or.inr ⟨h1, Or.inr h3⟩
  · rw [he] at h
    simp only [StepResult.next.injEq] at h
    obtain ⟨f1, f2, _⟩ := afterFragment_fields document state state.i (state.j + k) state.gdasset
    rw [← h, f1, f2]
    rw [List.length_drop] at hk2
    exact ⟨by omega, Or.inl ⟨rfl, by omega⟩⟩

theorem remaining_succ (document : TextDocument) (i : Nat) (h : i < document.lines.length) :
    document.remaining i 0 = (document.lineAt i).length + 1 + document.remaining (i + 1) 0 := by
  unfold TextDocument.remaining TextDocument.lineAt
  rw [List.drop_eq_getElem_cons h]
  simp only [List.map_cons, List.sum_cons, Nat.sub_zero]
  rw [List.getD_eq_getElem?_getD, List.getElem?_eq_getElem h]
  rfl

theorem remaining_mono (document : TextDocument) (i k : Nat) :
    document.remaining (i + k) 0 ≤ document.remaining i 0 := by
  induction k with
  | zero => exact le_refl _
  | succ k ih =>
    by_cases h : i + k < document.lines.length
    · have := remaining_succ document (i + k) h
      have e : i + (k + 1) = i + k + 1 := by omega
      rw [e]
      omega
    · have e : document.remaining (i + (k + 1)) 0 = 0 := by
        unfold TextDocument.remaining
        rw [List.drop_of_length_le (by omega)]
        rfl
      omega

theorem remaining_sub (document : TextDocument) (i j : Nat) :
    document.remaining i j = document.remaining i 0 - j := by
  simp [TextDocument.remaining]

theorem scanStep_remaining (letter : Nat → Bool) (document : TextDocument)
    (state state' : ScanState) (hi : state.i < document.lines.length)
    (hj : state.j ≤ (document.lineAt state.i).length)
    (h : scanStep letter document state = .next state') :
    document.remaining state'.i state'.j < document.remaining state.i state.j := by
  obtain ⟨h1, h2⟩ := scanStep_cursor letter document state state' hj h
  have hs := remaining_succ document state.i hi
  rw [remaining_sub document state'.i, remaining_sub document state.i]
  rcases h2 with ⟨e, hlt⟩ | ⟨hlt, _⟩
  · rw [e] at h1 ⊢
    omega
  · have := remaining_mono document (state.i + 1) (state'.i - (state.i + 1))
    have e : state.i + 1 + (state'.i - (state.i + 1)) = state'.i := by omega
    rw [e] at this
    omega

/-- The main loop keeps every property of the state that each pass keeps, and ends by
returning the roots and the asset of a state that has the property. -/
theorem scanLoop_invariant (letter : Nat → Bool) (document : TextDocument)
    (P : ScanState → Prop)
    (hpres : ∀ state state', state.i < document.lines.length →
      state.j ≤ (document.lineAt state.i).length → P state →
      scanStep letter document state = .next state' → P state') :
    ∀ (fuel : Nat) (state : ScanState), state.j ≤ (document.lineAt state.i).length → P state →
      document.remaining state.i state.j < fuel →
      ∃ state', P state' ∧ state'.j ≤ (document.lineAt state'.i).length ∧
        scanLoop letter document fuel state =
          .returned ⟨state'.closedRoots, state'.gdasset⟩ := by
  intro fuel
  induction fuel with
  | zero => intro state _ _ h; omega
  | succ fuel ih =>
    intro state hj hP hfuel
    unfold scanLoop
    by_cases hi : state.i < document.lines.length
    · rw [if_pos hi]
      cases hs : scanStep letter document state with
      | next state' =>
        have hc := scanStep_cursor letter document state state' hj hs
        have hr := scanStep_remaining letter document state state' hi hj hs
        exact ih state' hc.1 (hpres state state' hi hj hP hs) (by omega)
      | stop state' =>
        have := scanStep_stop letter document state state' hj hs
        subst this
        exact ⟨state', hP, hj, rfl⟩
      | thrown => exact absurd hs (scanStep_not_thrown letter document state hj)
    · rw [if_neg hi]
      exact ⟨state, hP, hj, rfl⟩

theorem initial_remaining (document : TextDocument) :
    document.remaining (ScanState.initial document).i (ScanState.initial document).j <
      document.passes := by
  simp [TextDocument.remaining, TextDocument.passes, ScanState.initial]

/-- Every property that holds at the start and that each pass keeps holds in the state whose
roots and asset `provideDocumentSymbols` returns. -/
theorem provideDocumentSymbols_invariant (letter : Nat → Bool) (document : TextDocument)
    (P : ScanState → Prop) (h0 : P (ScanState.initial document))
    (hpres : ∀ state state', state.i < document.lines.length →
      state.j ≤ (document.lineAt state.i).length → P state →
      scanStep letter document state = .next state' → P state') :
    ∃ state, P state ∧
      provideDocumentSymbols letter document =
        .returned ⟨state.closedRoots, state.gdasset⟩ := by
  obtain ⟨st, h1, _, h3⟩ := scanLoop_invariant letter document P hpres document.passes
    (ScanState.initial document) (Nat.zero_le _) h0 (initial_remaining document)
  exact ⟨st, h1, h3⟩

theorem scanStep_header (letter : Nat → Bool) (document : TextDocument) (state : ScanState)
    (tag rest : JSString) (hj : state.j = 0)
    (hh : headerMatch letter (document.lineAt state.i) = some (tag, rest)) :
    scanStep letter document state = sectionBranch document state tag rest := by
  unfold scanStep
  simp only [hj, List.drop_zero, if_true, hh]

theorem scanStep_property (letter : Nat → Bool) (document : TextDocument) (state : ScanState)
    (m : PropertyMatch) (hj : state.j = 0)
    (hh : headerMatch letter (document.lineAt state.i) = none)
    (hp : propertyMatch letter (document.lineAt state.i) = some m) :
    scanStep letter document state = propertyBranch document state m := by
  unfold scanStep
  simp only [hj, List.drop_zero, if_true, hh, hp]

theorem stringBranch_not_thrown (document : TextDocument) (state : ScanState) (text : JSString) :
    stringBranch document state text ≠ .thrown := by
  unfold stringBranch
  dsimp only
  split <;> simp

theorem scanStep_never_thrown (letter : Nat → Bool) (document : TextDocument)
    (state : ScanState) : scanStep letter document state ≠ .thrown := by
  rcases scanStep_cases letter document state with
    ⟨tag, rest, _, hh, he⟩ | ⟨m, _, hp, he⟩ | ⟨sp, c, _, he⟩ | ⟨t, ht, _, he⟩ | ⟨k, _, _, _, _, he⟩
  · rw [he, sectionBranch_eq document state tag rest (headerMatch_tag letter _ tag rest hh)]
    simp
  · obtain ⟨st, hs, _⟩ := propertyBranch_next document state m
      (propertyMatch_facts letter _ m hp).2.2
    rw [he, hs]
    simp
  · rw [he]
    simp [commentBranch]
  · rw [he]
    exact stringBranch_not_thrown _ _ _
  · rw [he]
    simp

theorem sectionSymbol_unknown (docUriPath tag rest : JSString) (range : Range)
    (gdasset : GDAsset) (h : tag ∉ knownTags) :
    sectionSymbol docUriPath tag rest range gdasset =
      ({ name := tag, detail := rest, kind := .Namespace, range := range,
         selectionRange := range, children := [] }, gdasset) := by
  simp only [knownTags, List.mem_cons, List.mem_singleton, not_or, List.mem_nil_iff,
    or_false] at h
  obtain ⟨h1, h2, h3, h4, h5, h6, h7⟩ := h
  unfold sectionSymbol
  dsimp only
  rw [if_neg h1, if_neg h2, if_neg h3, if_neg h4, if_neg h5, if_neg h6, if_neg h7]

theorem closedRoots_section (state : ScanState) (section_ : DocumentSymbol)
    (previousEnd : Position) (h1 : state.currentSection = some section_)
    (h2 : state.previousEnd = some previousEnd) :
    state.closedRoots = state.symbols ++
      [{ section_ with range := Range.new section_.range.start previousEnd }] := by
  unfold ScanState.closedRoots
  rw [h1, h2]

/-! ### Claims C18, C19, C24, C25: headers of unknown tags, one-line documents, exceptions,
termination -/

/-- C18, counterexample: the resource document whose one line is `[foo bar=1]` has an unknown
tag with the attribute text `bar=1`, and the root symbol it gets is of kind Namespace, not
Object. -/
theorem unknown_tag_with_attributes_is_namespace :
    headerMatch latin1Letter (js "[foo bar=1]") = some (js "foo", js "bar=1") ∧
    (provideDocumentSymbols latin1Letter sampleUnknownTag).rows =
      some [(0, js "foo", js "bar=1", SymbolKind.Namespace,
        ⟨⟨0, 0⟩, ⟨0, 11⟩⟩, ⟨⟨0, 0⟩, ⟨0, 11⟩⟩)] :=
  ⟨by rfl, by rfl⟩

/-- C18, amended: when the scanner stands at the start of a line that is a section header whose
tag is none of gd_scene, gd_resource, ext_resource, sub_resource, node, connection, editable,
the pass makes a new root symbol (the roots before it are closed, the new symbol becomes the
current section) named after the tag, with the attribute text as detail, the line as range and
no children.  In an asset document (the scanner holds a `GDAsset`) its kind is always
Namespace and the asset is left as it was; in a `config-definition` document (no `GDAsset`) its
kind is Object when the attribute text is non-empty and Namespace otherwise. -/
theorem unknown_tag_symbol (letter : Nat → Bool) (document : TextDocument) (state : ScanState)
    (tag rest : JSString) (hj : state.j = 0)
    (hh : headerMatch letter (document.lineAt state.i) = some (tag, rest))
    (htag : tag ∉ knownTags) :
    ∃ state', scanStep letter document state = .next state' ∧
      state'.symbols = state.closedRoots ∧
      state'.gdasset = state.gdasset ∧
      state'.currentSection = some
        { name := tag, detail := rest,
          kind := if state.gdasset.isSome then SymbolKind.Namespace
                  else if rest ≠ [] then SymbolKind.Object else SymbolKind.Namespace,
          range := ⟨⟨state.i, 0⟩, ⟨state.i, (document.lineAt state.i).length⟩⟩,
          selectionRange := ⟨⟨state.i, 0⟩, ⟨state.i, (document.lineAt state.i).length⟩⟩,
          children := [] } := by
  rw [scanStep_header letter document state tag rest hj hh,
    sectionBranch_eq document state tag rest (headerMatch_tag letter _ tag rest hh)]
  refine ⟨_, rfl, rfl, ?_, ?_⟩
  · cases hg : state.gdasset with
    | none => rfl
    | some g =>
      show some (sectionSymbol _ _ _ _ g).2 = some g
      rw [sectionSymbol_unknown _ _ _ _ _ htag]
  · have hr : document.restOfLine state.i state.j =
        ⟨⟨state.i, 0⟩, ⟨state.i, (document.lineAt state.i).length⟩⟩ := by
      rw [hj]; exact restOfLine_of_le document state.i 0 (Nat.zero_le _)
    cases hg : state.gdasset with
    | none =>
      dsimp only
      rw [hr]
      rfl
    | some g =>
      dsimp only
      rw [sectionSymbol_unknown _ _ _ _ _ htag, hr]
      rfl

/-- C18, amended, at an instance: the first pass on the one-line document `[foo bar=1]`. -/
theorem unknown_tag_symbol_witness :
    ∃ state', scanStep latin1Letter sampleUnknownTag (ScanState.initial sampleUnknownTag) =
        .next state' ∧
      state'.symbols = (ScanState.initial sampleUnknownTag).closedRoots ∧
      state'.gdasset = (ScanState.initial sampleUnknownTag).gdasset ∧
      state'.currentSection = some
        { name := js "foo", detail := js "bar=1",
          kind := if (ScanState.initial sampleUnknownTag).gdasset.isSome then SymbolKind.Namespace
                  else if js "bar=1" ≠ [] then SymbolKind.Object else SymbolKind.Namespace,
          range := ⟨⟨0, 0⟩, ⟨0, (sampleUnknownTag.lineAt 0).length⟩⟩,
          selectionRange := ⟨⟨0, 0⟩, ⟨0, (sampleUnknownTag.lineAt 0).length⟩⟩,
          children := [] } :=
  unknown_tag_symbol latin1Letter sampleUnknownTag (ScanState.initial sampleUnknownTag)
    (js "foo") (js "bar=1") (by rfl) (by rfl) (by decide)

/-- The one-header document: for every one-line document whose only line is accepted by the
header expression, `provideDocumentSymbols` returns exactly one root symbol, which has no
children and whose range runs from line 0, column 0 to line 0, column L, the length of the
line. -/
theorem one_header_document (letter : Nat → Bool) (languageId uri uriPath text tag rest : JSString)
    (hh : headerMatch letter text = some (tag, rest)) :
    ∃ (symbol : DocumentSymbol) (gdasset : Option GDAsset),
      provideDocumentSymbols letter ⟨languageId, uri, uriPath, [text]⟩ =
        .returned ⟨[symbol], gdasset⟩ ∧
      symbol.children = [] ∧ symbol.range = ⟨⟨0, 0⟩, ⟨0, text.length⟩⟩ := by
  have hfuel : (TextDocument.mk languageId uri uriPath [text]).passes = text.length + 1 + 1 := by
    simp [TextDocument.passes]
  have hr : (TextDocument.mk languageId uri uriPath [text]).restOfLine 0 0 =
      ⟨⟨0, 0⟩, ⟨0, text.length⟩⟩ :=
    restOfLine_of_le (TextDocument.mk languageId uri uriPath [text]) 0 0 (Nat.zero_le _)
  have hnew : Range.new ⟨0, 0⟩ ⟨0, text.length⟩ = ⟨⟨0, 0⟩, ⟨0, text.length⟩⟩ :=
    Range.new_of_le _ _ (by simp [Position.isBeforeOrEqual_iff])
  unfold provideDocumentSymbols
  rw [hfuel]
  unfold scanLoop
  rw [if_pos (by simp [ScanState.initial])]
  rw [scanStep_header letter _ _ tag rest rfl (by simpa [TextDocument.lineAt, ScanState.initial] using hh),
    sectionBranch_eq _ _ tag rest (headerMatch_tag letter _ tag rest hh)]
  dsimp only
  unfold scanLoop
  rw [if_neg (by simp [ScanState.initial])]
  rw [closedRoots_section _ _ _ rfl rfl]
  refine ⟨_, _, rfl, ?_, ?_⟩
  · dsimp only
    cases (ScanState.initial (TextDocument.mk languageId uri uriPath [text])).gdasset with
    | none => rfl
    | some g => exact (sectionSymbol_shape _ _ _ _ _).2.2
  · dsimp only
    cases (ScanState.initial (TextDocument.mk languageId uri uriPath [text])).gdasset with
    | none =>
      dsimp only
      show Range.new (TextDocument.restOfLine _ 0 0).start (TextDocument.restOfLine _ 0 0).end_ = _
      rw [hr]
      exact hnew
    | some g =>
      dsimp only
      rw [(sectionSymbol_shape _ _ _ _ _).1]
      show Range.new (TextDocument.restOfLine _ 0 0).start (TextDocument.restOfLine _ 0 0).end_ = _
      rw [hr]
      exact hnew

/-- The one-header document at the example `[node name="Root"]`. -/
theorem one_header_document_witness :
    headerMatch latin1Letter (js "[node name=\"Root\"]") = some (js "node", js "name=\"Root\"") ∧
    ∃ (symbol : DocumentSymbol) (gdasset : Option GDAsset),
      provideDocumentSymbols latin1Letter
          ⟨js "godot-scene", js "file:///proj/main.tscn", js "/proj/main.tscn",
            [js "[node name=\"Root\"]"]⟩ =
        .returned ⟨[symbol], gdasset⟩ ∧
      symbol.children = [] ∧
      symbol.range = ⟨⟨0, 0⟩, ⟨0, (js "[node name=\"Root\"]").length⟩⟩ :=
  ⟨by rfl, one_header_document latin1Letter _ _ _ _ (js "node") (js "name=\"Root\"") (by rfl)⟩

/-- C24: `provideDocumentSymbols` raises no exception on any document, and no pass of its loop
does in any state: where the comment expression does not match, the remaining text of the line
is not empty, so it starts with a double quote, with white space or with a code unit that is
neither, and one of the three value branches is taken instead of `throw Error()`. -/
theorem no_exception (letter : Nat → Bool) (document : TextDocument) :
    provideDocumentSymbols letter document ≠ .thrown ∧
    ∀ state : ScanState,
      scanStep letter document state ≠ .thrown ∧
      (commentMatch ((document.lineAt state.i).drop state.j) = none →
        ∃ c t, (document.lineAt state.i).drop state.j = c :: t ∧
          (c = QUOTE ∨ isSpace c = true ∨ (c ≠ QUOTE ∧ isSpace c = false))) := by
  constructor
  · obtain ⟨st, _, h⟩ := provideDocumentSymbols_invariant letter document (fun _ => True)
      trivial (fun _ _ _ _ _ _ => trivial)
    rw [h]
    simp
  · intro state
    refine ⟨scanStep_never_thrown letter document state, ?_⟩
    intro hc
    cases htext : (document.lineAt state.i).drop state.j with
    | nil =>
      rw [htext] at hc
      exact absurd hc (by simp [commentMatch_nil])
    | cons c t =>
      refine ⟨c, t, rfl, ?_⟩
      by_cases hq : c = QUOTE
      · exact Or.inl hq
      · cases hs : isSpace c with
        | true => exact Or.inr (Or.inl rfl)
        | false => exact Or.inr (Or.inr ⟨hq, rfl⟩)

/-- C25: the loop of `provideDocumentSymbols` terminates on every document.  Each pass from a
cursor inside the text (`i` below the line count, `j` at most the length of line `i`) that
goes on to a further pass moves the cursor strictly forward in the order of (line, column) and
leaves `j` at most the length of the new line; `provideDocumentSymbols` returns within the
passes it is given; and the loop returns at once when `i` has reached the line count. -/
theorem loop_terminates (letter : Nat → Bool) (document : TextDocument)
    (state state' : ScanState) (hj : state.j ≤ (document.lineAt state.i).length)
    (hstep : scanStep letter document state = .next state') :
    (state.i < state'.i ∨ (state.i = state'.i ∧ state.j < state'.j)) ∧
    state'.j ≤ (document.lineAt state'.i).length ∧
    (∃ result, provideDocumentSymbols letter document = .returned result) ∧
    (∀ (fuel : Nat) (last : ScanState), document.lines.length ≤ last.i →
      scanLoop letter document (fuel + 1) last =
        .returned ⟨last.closedRoots, last.gdasset⟩) := by
  obtain ⟨h1, h2⟩ := scanStep_cursor letter document state state' hj hstep
  refine ⟨?_, h1, ?_, ?_⟩
  · rcases h2 with ⟨e, hlt⟩ | ⟨hlt, _⟩
    · exact Or.inr ⟨e.symm, hlt⟩
    · exact Or.inl hlt
  · obtain ⟨st, _, h⟩ := provideDocumentSymbols_invariant letter document (fun _ => True)
      trivial (fun _ _ _ _ _ _ => trivial)
    exact ⟨_, h⟩
  · intro fuel last hlast
    unfold scanLoop
    rw [if_neg (by omega)]

/-- C25 at an instance: the first pass on the one-line document `[node name="Root"]`. -/
theorem loop_terminates_witness :
    (ScanState.initial sampleOneHeader).j ≤
      (sampleOneHeader.lineAt (ScanState.initial sampleOneHeader).i).length ∧
    scanStep latin1Letter sampleOneHeader (ScanState.initial sampleOneHeader) =
      .next sampleAfterOneHeader ∧
    ((ScanState.initial sampleOneHeader).i < sampleAfterOneHeader.i ∨
      ((ScanState.initial sampleOneHeader).i = sampleAfterOneHeader.i ∧
        (ScanState.initial sampleOneHeader).j < sampleAfterOneHeader.j)) ∧
    sampleAfterOneHeader.j ≤ (sampleOneHeader.lineAt sampleAfterOneHeader.i).length ∧
    (∃ result, provideDocumentSymbols latin1Letter sampleOneHeader = .returned result) ∧
    (∀ (fuel : Nat) (last : ScanState), sampleOneHeader.lines.length ≤ last.i →
      scanLoop latin1Letter sampleOneHeader (fuel + 1) last =
        .returned ⟨last.closedRoots, last.gdasset⟩) :=
  ⟨by decide, by rfl,
    loop_terminates latin1Letter sampleOneHeader (ScanState.initial sampleOneHeader)
      sampleAfterOneHeader (by decide) (by rfl)⟩

/-! ### The tokens stay behind the cursor -/

theorem Position.le_trans (a b c : Position) (h1 : a.isBeforeOrEqual b = true)
    (h2 : b.isBeforeOrEqual c = true) : a.isBeforeOrEqual c = true := by
  rw [Position.isBeforeOrEqual_iff] at *
  omega

theorem Position.le_refl (a : Position) : a.isBeforeOrEqual a = true := by
  rw [Position.isBeforeOrEqual_iff]
  omega

theorem tokensBehind_same (state state' : ScanState) (h : state.tokensBehind)
    (hg : ∀ g', state'.gdasset = some g' →
      ∃ g, state.gdasset = some g ∧ g'.strings = g.strings ∧ g'.comments = g.comments)
    (hc : state.cursor.isBeforeOrEqual state'.cursor = true) : state'.tokensBehind := by
  intro g' hg'
  obtain ⟨g, h1, h2, h3⟩ := hg g' hg'
  obtain ⟨a, b, c⟩ := h g h1
  rw [h2, h3]
  exact ⟨fun t ht => ⟨(a t ht).1, Position.le_trans _ _ _ (a t ht).2 hc⟩, b, c⟩

theorem tokensBehind_string (state state' : ScanState) (h : state.tokensBehind) (tok : Token)
    (hg : ∀ g', state'.gdasset = some g' →
      ∃ g, state.gdasset = some g ∧ g'.strings = g.strings ++ [tok] ∧
        g'.comments = g.comments)
    (h1 : state.cursor.isBeforeOrEqual tok.range.start = true)
    (h2 : tok.range.start.isBeforeOrEqual tok.range.end_ = true)
    (h3 : tok.range.end_.isBeforeOrEqual state'.cursor = true) : state'.tokensBehind := by
  intro g' hg'
  obtain ⟨g, e1, e2, e3⟩ := hg g' hg'
  obtain ⟨a, b, c⟩ := h g e1
  have hc : state.cursor.isBeforeOrEqual state'.cursor = true :=
    Position.le_trans _ _ _ h1 (Position.le_trans _ _ _ h2 h3)
  rw [e2, e3]
  refine ⟨?_, ?_, ?_⟩
  · intro t ht
    simp only [List.mem_append, List.mem_singleton] at ht
    rcases ht with (ht | ht) | ht
    · have := a t (List.mem_append.mpr (Or.inl ht))
      exact ⟨this.1, Position.le_trans _ _ _ this.2 hc⟩
    · rw [ht]; exact ⟨h2, h3⟩
    · have := a t (List.mem_append.mpr (Or.inr ht))
      exact ⟨this.1, Position.le_trans _ _ _ this.2 hc⟩
  · rw [List.pairwise_append]
    refine ⟨b, List.pairwise_singleton _ _, ?_⟩
    intro x hx y hy
    rw [List.mem_singleton] at hy
    rw [hy]
    exact Position.le_trans _ _ _ (a x (List.mem_append.mpr (Or.inl hx))).2 h1
  · intro s hs cm hcm
    rw [List.mem_append, List.mem_singleton] at hs
    rcases hs with hs | hs
    · exact c s hs cm hcm
    · rw [hs]
      exact Or.inr (Position.le_trans _ _ _ (a cm (List.mem_append.mpr (Or.inr hcm))).2 h1)

theorem tokensBehind_comment (state state' : ScanState) (h : state.tokensBehind) (tok : Token)
    (hg : ∀ g', state'.gdasset = some g' →
      ∃ g, state.gdasset = some g ∧ g'.strings = g.strings ∧
        g'.comments = g.comments ++ [tok])
    (h1 : state.cursor.isBeforeOrEqual tok.range.start = true)
    (h2 : tok.range.start.isBeforeOrEqual tok.range.end_ = true)
    (h3 : tok.range.end_.isBeforeOrEqual state'.cursor = true) : state'.tokensBehind := by
  intro g' hg'
  obtain ⟨g, e1, e2, e3⟩ := hg g' hg'
  obtain ⟨a, b, c⟩ := h g e1
  have hc : state.cursor.isBeforeOrEqual state'.cursor = true :=
    Position.le_trans _ _ _ h1 (Position.le_trans _ _ _ h2 h3)
  rw [e2, e3]
  refine ⟨?_, b, ?_⟩
  · intro t ht
    simp only [List.mem_append, List.mem_singleton] at ht
    rcases ht with ht | ht | ht
    · have := a t (List.mem_append.mpr (Or.inl ht))
      exact ⟨this.1, Position.le_trans _ _ _ this.2 hc⟩
    · have := a t (List.mem_append.mpr (Or.inr ht))
      exact ⟨this.1, Position.le_trans _ _ _ this.2 hc⟩
    · rw [ht]; exact ⟨h2, h3⟩
  · intro s hs cm hcm
    rw [List.mem_append, List.mem_singleton] at hcm
    rcases hcm with hcm | hcm
    · exact c s hs cm hcm
    · rw [hcm]
      exact Or.inl (Position.le_trans _ _ _ (a s (List.mem_append.mpr (Or.inl hs))).2 h1)

theorem cursor_le_of_step (state state' : ScanState)
    (h : (state'.i = state.i ∧ state.j < state'.j) ∨ state.i < state'.i) :
    state.cursor.isBeforeOrEqual state'.cursor = true := by
  rw [Position.isBeforeOrEqual_iff]
  show state.i < state'.i ∨ (state.i = state'.i ∧ state.j ≤ state'.j)
  omega

theorem scanStep_tokensBehind (letter : Nat → Bool) (document : TextDocument)
    (state state' : ScanState) (hj : state.j ≤ (document.lineAt state.i).length)
    (hP : state.tokensBehind) (h : scanStep letter document state = .next state') :
    state'.tokensBehind := by
  have hcur := scanStep_cursor letter document state state' hj h
  have hle : state.cursor.isBeforeOrEqual state'.cursor = true :=
    cursor_le_of_step state state' (by rcases hcur.2 with ⟨a, b⟩ | ⟨a, _⟩ <;> omega)
  rcases scanStep_cases letter document state with
    ⟨tag, rest, hj0, hh, he⟩ | ⟨m, hj0, hp, he⟩ | ⟨sp, c, hcm, he⟩ | ⟨t, ht, _, he⟩ |
    ⟨k, hk1, hk2, _, _, he⟩
  · rw [he, sectionBranch_eq document state tag rest (headerMatch_tag letter _ tag rest hh)] at h
    simp only [StepResult.next.injEq] at h
    refine tokensBehind_same state state' hP ?_ hle
    intro g' hg'
    rw [← h] at hg'
    simp only [Option.map_eq_some'] at hg'
    obtain ⟨g, hg, e⟩ := hg'
    refine ⟨g, hg, ?_, ?_⟩
    · rw [← e]; exact (sectionSymbol_tokens _ _ _ _ _).1
    · rw [← e]; exact (sectionSymbol_tokens _ _ _ _ _).2
  · obtain ⟨st, hs, _, _, hg, _⟩ := propertyBranch_next document state m
      (propertyMatch_facts letter _ m hp).2.2
    rw [he, hs] at h
    simp only [StepResult.next.injEq] at h
    refine tokensBehind_same state state' hP ?_ hle
    intro g' hg'
    rw [← h, hg] at hg'
    exact ⟨g', hg', rfl, rfl⟩
  · rw [he] at h
    unfold commentBranch at h
    simp only [StepResult.next.injEq] at h
    have hsp := commentMatch_spaces _ sp c hcm
    rw [List.length_drop] at hsp
    have hr := restOfLine_of_le document state.i state.j hj
    have hnew : Range.new ⟨state.i, state.j + sp⟩ ⟨state.i, (document.lineAt state.i).length⟩ =
        ⟨⟨state.i, state.j + sp⟩, ⟨state.i, (document.lineAt state.i).length⟩⟩ :=
      Range.new_of_le _ _ (by rw [Position.isBeforeOrEqual_iff]; dsimp only; omega)
    have hi' : state'.i = state.i + 1 := by rw [← h]
    have hj' : state'.j = 0 := by rw [← h]
    cases hg : state.gdasset with
    | none =>
      refine tokensBehind_same state state' hP ?_ hle
      intro g' hg'
      rw [← h, hg] at hg'
      exact absurd hg' (by simp)
    | some g =>
      rw [hg] at h
      cases c with
      | none =>
        refine tokensBehind_same state state' hP ?_ hle
        intro g' hg'
        rw [← h] at hg'
        simp only [Option.some.injEq] at hg'
        exact ⟨g, hg, by rw [← hg'], by rw [← hg']⟩
      | some text =>
        cases text with
        | nil =>
          refine tokensBehind_same state state' hP ?_ hle
          intro g' hg'
          rw [← h] at hg'
          simp only [Option.some.injEq] at hg'
          exact ⟨g, hg, by rw [← hg'], by rw [← hg']⟩
        | cons c0 text =>
          refine tokensBehind_comment state state' hP
            ⟨⟨⟨state.i, state.j + sp⟩, ⟨state.i, (document.lineAt state.i).length⟩⟩,
              c0 :: text⟩ ?_ ?_ ?_ ?_
          · intro g' hg'
            rw [← h] at hg'
            simp only [Option.some.injEq] at hg'
            refine ⟨g, hg, by rw [← hg'], ?_⟩
            rw [← hg']
            dsimp only
            rw [hr, hnew]
          · rw [Position.isBeforeOrEqual_iff]
            show state.i < state.i ∨ (state.i = state.i ∧ state.j ≤ state.j + sp)
            omega
          · rw [Position.isBeforeOrEqual_iff]
            dsimp only
            omega
          · rw [Position.isBeforeOrEqual_iff]
            show state.i < state'.i ∨ _
            omega
  · rw [he, ht] at h
    rcases stringBranch_cases document state t hj ht with h2 | ⟨i, j, v, h2, hle2, hpos⟩
    · rw [h2] at h
      exact absurd h (by simp)
    · rw [h2] at h
      simp only [StepResult.next.injEq] at h
      obtain ⟨f1, f2, f3, _⟩ := afterFragment_fields document state i j
        (state.gdasset.map (fun g => { g with strings := g.strings ++
            [{ range := Range.new ⟨state.i, state.j⟩ ⟨i, j⟩, value := v }] }))
      have hnew : Range.new ⟨state.i, state.j⟩ ⟨i, j⟩ = ⟨⟨state.i, state.j⟩, ⟨i, j⟩⟩ :=
        Range.new_of_le _ _ (by rw [Position.isBeforeOrEqual_iff]; dsimp only; omega)
      refine tokensBehind_string state state' hP ⟨⟨⟨state.i, state.j⟩, ⟨i, j⟩⟩, v⟩ ?_ ?_ ?_ ?_
      · intro g' hg'
        rw [← h, f3] at hg'
        simp only [Option.map_eq_some'] at hg'
        obtain ⟨g, hg, e⟩ := hg'
        refine ⟨g, hg, ?_, by rw [← e]⟩
        rw [← e]
        dsimp only
        rw [hnew]
      · exact Position.le_refl _
      · rw [Position.isBeforeOrEqual_iff]; dsimp only; omega
      · rw [← h]
        show Position.isBeforeOrEqual ⟨i, j⟩ ⟨(afterFragment _ _ _ _ _).i, (afterFragment _ _ _ _ _).j⟩ = true
        rw [f1, f2]
        exact Position.le_refl _
  · rw [he] at h
    simp only [StepResult.next.injEq] at h
    obtain ⟨_, _, f3, _⟩ := afterFragment_fields document state state.i (state.j + k) state.gdasset
    refine tokensBehind_same state state' hP ?_ hle
    intro g' hg'
    rw [← h, f3] at hg'
    exact ⟨g', hg', rfl, rfl⟩

theorem initial_tokensBehind (document : TextDocument) :
    (ScanState.initial document).tokensBehind := by
  intro g hg
  simp only [ScanState.initial] at hg
  split at hg
  · exact absurd hg (by simp)
  · simp only [Option.some.injEq] at hg
    rw [← hg]
    simp [GDAsset.new]

/-- In the asset that `provideDocumentSymbols` returns the tokens are in order and apart. -/
theorem provideDocumentSymbols_tokens (letter : Nat → Bool) (document : TextDocument) :
    ∃ state : ScanState, state.tokensBehind ∧
      provideDocumentSymbols letter document =
        .returned ⟨state.closedRoots, state.gdasset⟩ :=
  provideDocumentSymbols_invariant letter document (fun st => st.tokensBehind)
    (initial_tokensBehind document)
    (fun state state' _ hj hP h => scanStep_tokensBehind letter document state state' hj hP h)

/-! ### Claims C28, C29: the order of the tokens -/

/-- C28: for every document, `provideDocumentSymbols` returns, and the string tokens it has
recorded are in source order and never overlap: each token ends at or before the start of every
token recorded after it (so also of the next one), and each token starts at or before its
end. -/
theorem string_tokens_ordered (letter : Nat → Bool) (document : TextDocument) :
    ∃ result, provideDocumentSymbols letter document = .returned result ∧
      ∀ g, result.gdasset = some g →
        g.strings.Pairwise (fun a b => a.range.end_.isBeforeOrEqual b.range.start = true) ∧
        ∀ t ∈ g.strings, t.range.start.isBeforeOrEqual t.range.end_ = true := by
  obtain ⟨st, hP, h⟩ := provideDocumentSymbols_tokens letter document
  refine ⟨_, h, ?_⟩
  intro g hg
  obtain ⟨a, b, _⟩ := hP g hg
  exact ⟨b, fun t ht => (a t (List.mem_append.mpr (Or.inl ht))).1⟩

/-- C29: for every document, `provideDocumentSymbols` returns, and no comment token it has
recorded overlaps a string token: of a comment range and a string range one ends at or before
the start of the other; hence `isInString` is false at every position strictly inside a
comment. -/
theorem comments_apart_from_strings (letter : Nat → Bool) (document : TextDocument) :
    ∃ result, provideDocumentSymbols letter document = .returned result ∧
      ∀ g, result.gdasset = some g →
        (∀ s ∈ g.strings, ∀ c ∈ g.comments,
          s.range.end_.isBeforeOrEqual c.range.start = true ∨
            c.range.end_.isBeforeOrEqual s.range.start = true) ∧
        ∀ c ∈ g.comments, ∀ p : Position,
          c.range.start.isBefore p = true → p.isBefore c.range.end_ = true →
            g.isInString p = false := by
  obtain ⟨st, hP, h⟩ := provideDocumentSymbols_tokens letter document
  refine ⟨_, h, ?_⟩
  intro g hg
  obtain ⟨_, _, c⟩ := hP g hg
  refine ⟨c, ?_⟩
  intro cm hcm p h1 h2
  rw [← Bool.not_eq_true]
  intro hin
  simp only [GDAsset.isInString, List.any_eq_true] at hin
  obtain ⟨s, hs, hc⟩ := hin
  rw [Range.contains_iff] at hc
  rw [Position.isBefore_iff] at h1 h2
  rcases c s hs cm hcm with hd | hd
  · have h3 := hc.2
    rw [Position.isBeforeOrEqual_iff] at h3 hd
    omega
  · have h3 := hc.1
    rw [Position.isBeforeOrEqual_iff] at h3 hd
    omega

/-! ### The ranges of the symbols -/

theorem allRanges_eq (p : Range → Bool) (s : DocumentSymbol) :
    DocumentSymbol.allRanges p s = (p s.range && DocumentSymbol.allRangesOfList p s.children) := by
  cases s
  simp [DocumentSymbol.allRanges]

theorem allRangesOfList_cons (p : Range → Bool) (s : DocumentSymbol) (t : List DocumentSymbol) :
    DocumentSymbol.allRangesOfList p (s :: t) =
      (DocumentSymbol.allRanges p s && DocumentSymbol.allRangesOfList p t) := by
  simp [DocumentSymbol.allRangesOfList]

theorem allRangesOfList_nil (p : Range → Bool) :
    DocumentSymbol.allRangesOfList p [] = true := by
  simp [DocumentSymbol.allRangesOfList]

theorem allRangesOfList_iff (p : Range → Bool) (l : List DocumentSymbol) :
    DocumentSymbol.allRangesOfList p l = true ↔
      ∀ s ∈ l, DocumentSymbol.allRanges p s = true := by
  induction l with
  | nil => simp [allRangesOfList_nil]
  | cons a t ih => simp [allRangesOfList_cons, ih]

theorem mem_modifyLast {α : Type} (f : α → α) (l : List α) (x : α) (h : x ∈ modifyLast f l) :
    x ∈ l ∨ ∃ y ∈ l, x = f y := by
  induction l using modifyLast.induct f with
  | case1 => simp [modifyLast] at h
  | case2 a =>
    simp only [modifyLast, List.mem_singleton] at h
    exact Or.inr ⟨a, by simp, h⟩
  | case3 a b t ih =>
    simp only [modifyLast, List.mem_cons] at h
    rcases h with h | h
    · exact Or.inl (by simp [h])
    · rcases ih (by simpa using h) with h2 | ⟨y, hy, e⟩
      · exact Or.inl (List.mem_cons_of_mem _ h2)
      · exact Or.inr ⟨y, List.mem_cons_of_mem _ hy, e⟩

theorem mem_modifyAt {α : Type} (f : α → α) (l : List α) :
    ∀ (k : Nat) (x : α), x ∈ modifyAt f k l → x ∈ l ∨ ∃ y ∈ l, x = f y := by
  induction l with
  | nil => intro k x h; cases k <;> simp [modifyAt] at h
  | cons a t ih =>
    intro k x h
    cases k with
    | zero =>
      simp only [modifyAt, List.mem_cons] at h
      rcases h with h | h
      · exact Or.inr ⟨a, by simp, h⟩
      · exact Or.inl (List.mem_cons_of_mem _ h)
    | succ k =>
      simp only [modifyAt, List.mem_cons] at h
      rcases h with h | h
      · exact Or.inl (by simp [h])
      · rcases ih k x h with h2 | ⟨y, hy, e⟩
        · exact Or.inl (List.mem_cons_of_mem _ h2)
        · exact Or.inr ⟨y, List.mem_cons_of_mem _ hy, e⟩

theorem allRangesOfList_modifyLast (p : Range → Bool) (f : DocumentSymbol → DocumentSymbol)
    (l : List DocumentSymbol)
    (hf : ∀ s, DocumentSymbol.allRanges p s = true → DocumentSymbol.allRanges p (f s) = true)
    (h : DocumentSymbol.allRangesOfList p l = true) :
    DocumentSymbol.allRangesOfList p (modifyLast f l) = true := by
  rw [allRangesOfList_iff] at h ⊢
  intro s hs
  rcases mem_modifyLast f l s hs with h2 | ⟨y, hy, e⟩
  · exact h s h2
  · rw [e]; exact hf y (h y hy)

theorem allRangesOfList_modifyAt (p : Range → Bool) (f : DocumentSymbol → DocumentSymbol)
    (k : Nat) (l : List DocumentSymbol)
    (hf : ∀ s, DocumentSymbol.allRanges p s = true → DocumentSymbol.allRanges p (f s) = true)
    (h : DocumentSymbol.allRangesOfList p l = true) :
    DocumentSymbol.allRangesOfList p (modifyAt f k l) = true := by
  rw [allRangesOfList_iff] at h ⊢
  intro s hs
  rcases mem_modifyAt f l k s hs with h2 | ⟨y, hy, e⟩
  · exact h s h2
  · rw [e]; exact hf y (h y hy)

theorem allRangesOfList_append (p : Range → Bool) (l1 l2 : List DocumentSymbol) :
    DocumentSymbol.allRangesOfList p (l1 ++ l2) =
      (DocumentSymbol.allRangesOfList p l1 && DocumentSymbol.allRangesOfList p l2) := by
  induction l1 with
  | nil => simp [allRangesOfList_nil]
  | cons a t ih => simp [allRangesOfList_cons, ih, Bool.and_assoc]

theorem rangesOrdered_container (state : ScanState) (h : state.rangesOrdered) :
    DocumentSymbol.allRangesOfList Range.ordered state.container = true := by
  unfold ScanState.container
  cases hs : state.currentSection with
  | none => exact h.1
  | some s =>
    have := h.2 s hs
    rw [allRanges_eq, Bool.and_eq_true] at this
    exact this.2

theorem rangesOrdered_setContainer (state : ScanState) (s : List DocumentSymbol)
    (h : state.rangesOrdered) (hs : DocumentSymbol.allRangesOfList Range.ordered s = true) :
    (state.setContainer s).rangesOrdered := by
  cases hc : state.currentSection with
  | none =>
    have e : state.setContainer s = { state with symbols := s } := by
      unfold ScanState.setContainer; rw [hc]
    rw [e]
    refine ⟨hs, ?_⟩
    intro x hx
    have hx2 : state.currentSection = some x := hx
    rw [hc] at hx2
    exact absurd hx2 (by simp)
  | some sec =>
    have e : state.setContainer s =
        { state with currentSection := some { sec with children := s } } := by
      unfold ScanState.setContainer; rw [hc]
    rw [e]
    refine ⟨h.1, ?_⟩
    intro x hx
    have hx2 : some { sec with children := s } = some x := hx
    simp only [Option.some.injEq] at hx2
    have := h.2 sec hc
    rw [allRanges_eq, Bool.and_eq_true] at this
    rw [← hx2, allRanges_eq, Bool.and_eq_true]
    exact ⟨this.1, hs⟩

theorem rangesOrdered_extendSection (state : ScanState) (e : Position)
    (h : state.rangesOrdered) : (state.extendSection e).rangesOrdered := by
  cases hc : state.currentSection with
  | none =>
    have e2 : state.extendSection e = state := by
      unfold ScanState.extendSection; rw [hc]
    rw [e2]
    exact h
  | some sec =>
    have e2 : state.extendSection e =
        { state with
          currentSection := some { sec with range := Range.new sec.range.start e } } := by
      unfold ScanState.extendSection; rw [hc]
    rw [e2]
    refine ⟨h.1, ?_⟩
    intro x hx
    have hx2 : some { sec with range := Range.new sec.range.start e } = some x := hx
    simp only [Option.some.injEq] at hx2
    have := h.2 sec hc
    rw [allRanges_eq, Bool.and_eq_true] at this
    rw [← hx2, allRanges_eq, Bool.and_eq_true]
    exact ⟨Range.new_ordered _ _, this.2⟩

theorem rangesOrdered_closedRoots (state : ScanState) (h : state.rangesOrdered) :
    DocumentSymbol.allRangesOfList Range.ordered state.closedRoots = true := by
  unfold ScanState.closedRoots
  cases hc : state.currentSection with
  | none => exact h.1
  | some sec =>
    have := h.2 sec hc
    cases state.previousEnd with
    | none =>
      dsimp only
      rw [allRangesOfList_append, Bool.and_eq_true, allRangesOfList_cons, allRangesOfList_nil]
      exact ⟨h.1, by simp [this]⟩
    | some pe =>
      dsimp only
      rw [allRangesOfList_append, Bool.and_eq_true, allRangesOfList_cons, allRangesOfList_nil,
        allRanges_eq]
      rw [allRanges_eq, Bool.and_eq_true] at this
      exact ⟨h.1, by simp [Range.new_ordered, this.2]⟩

theorem rangesOrdered_of_fields (state state' : ScanState) (h : state.rangesOrdered)
    (h1 : state'.symbols = state.symbols) (h2 : state'.currentSection = state.currentSection) :
    state'.rangesOrdered := by
  unfold ScanState.rangesOrdered
  rw [h1, h2]
  exact h

theorem allRanges_property (range : Range) (name : JSString) (h : range.ordered = true) :
    DocumentSymbol.allRanges Range.ordered
      { name := name, detail := [], kind := .Property, range := range, selectionRange := range,
        children := [] } = true := by
  rw [allRanges_eq, Bool.and_eq_true]
  exact ⟨h, allRangesOfList_nil _⟩

theorem propertyBranch_rangesOrdered (document : TextDocument) (state state' : ScanState)
    (m : PropertyMatch) (hP : state.rangesOrdered)
    (h : propertyBranch document state m = .next state') : state'.rangesOrdered := by
  have hc := rangesOrdered_container state hP
  have hr := restOfLine_ordered document state.i state.j
  have hprop := allRanges_property (document.restOfLine state.i state.j) m.prop hr
  have key : ∀ (s : List DocumentSymbol) (ref : PropertyRef),
      DocumentSymbol.allRangesOfList Range.ordered s = true →
      (((state.setContainer s).extendSection
        (document.restOfLine state.i state.j).end_).afterKey m.len ref).rangesOrdered := by
    intro s ref hs
    exact rangesOrdered_of_fields _ _
      (rangesOrdered_extendSection _ _ (rangesOrdered_setContainer state s hP hs)) rfl rfl
  unfold propertyBranch at h
  dsimp only at h
  split at h
  · split at h
    · split at h
      · simp only [StepResult.next.injEq] at h
        rw [← h]
        apply key
        apply allRangesOfList_modifyAt _ _ _ _ _ hc
        intro s hs
        rw [allRanges_eq, Bool.and_eq_true] at hs
        rw [allRanges_eq, Bool.and_eq_true]
        refine ⟨Range.new_ordered _ _, ?_⟩
        dsimp only
        rw [allRangesOfList_append, Bool.and_eq_true, allRangesOfList_cons, allRangesOfList_nil]
        exact ⟨hs.2, by simp [hprop]⟩
      · split at h
        · simp only [StepResult.next.injEq] at h
          rw [← h]
          apply key
          rw [allRangesOfList_append, Bool.and_eq_true, allRangesOfList_cons, allRangesOfList_nil,
            allRanges_eq]
          refine ⟨hc, ?_⟩
          simp [Range.new_ordered, allRangesOfList_cons, allRangesOfList_nil, hprop]
        · exact absurd h (by simp)
    · simp only [StepResult.next.injEq] at h
      rw [← h]
      apply key
      rw [allRangesOfList_append, Bool.and_eq_true, allRangesOfList_cons, allRangesOfList_nil]
      exact ⟨hc, by simp [hprop]⟩
  · exact absurd h (by simp)

theorem afterFragment_rangesOrdered (document : TextDocument) (state : ScanState) (i j : Nat)
    (gdasset : Option GDAsset) (hP : state.rangesOrdered) :
    (afterFragment document state i j gdasset).rangesOrdered := by
  have hc := rangesOrdered_container state hP
  have hstretch : ∀ (e : Position) (s : DocumentSymbol),
      DocumentSymbol.allRanges Range.ordered s = true →
      DocumentSymbol.allRanges Range.ordered
        { s with range := Range.new s.range.start e } = true := by
    intro e s hs
    rw [allRanges_eq, Bool.and_eq_true] at hs
    rw [allRanges_eq, Bool.and_eq_true]
    exact ⟨Range.new_ordered _ _, hs.2⟩
  unfold afterFragment
  dsimp only
  split
  · rename_i ref _
    refine rangesOrdered_of_fields _ _ (rangesOrdered_setContainer state _ hP ?_) rfl rfl
    cases ref with
    | direct =>
      exact allRangesOfList_modifyLast _ _ _ (hstretch _) hc
    | inGroup k =>
      apply allRangesOfList_modifyAt _ _ _ _ _ hc
      intro s hs
      rw [allRanges_eq, Bool.and_eq_true] at hs
      rw [allRanges_eq, Bool.and_eq_true]
      exact ⟨hs.1, allRangesOfList_modifyLast _ _ _ (hstretch _) hs.2⟩
  · exact rangesOrdered_of_fields _ _ hP rfl rfl

theorem scanStep_rangesOrdered (letter : Nat → Bool) (document : TextDocument)
    (state state' : ScanState) (hj : state.j ≤ (document.lineAt state.i).length)
    (hP : state.rangesOrdered) (h : scanStep letter document state = .next state') :
    state'.rangesOrdered := by
  rcases scanStep_cases letter document state with
    ⟨tag, rest, hj0, hh, he⟩ | ⟨m, hj0, hp, he⟩ | ⟨sp, c, hcm, he⟩ | ⟨t, ht, _, he⟩ |
    ⟨k, hk1, hk2, _, _, he⟩
  · rw [he, sectionBranch_eq document state tag rest (headerMatch_tag letter _ tag rest hh)] at h
    simp only [StepResult.next.injEq] at h
    rw [← h]
    refine ⟨rangesOrdered_closedRoots state hP, ?_⟩
    intro s hs
    simp only [Option.some.injEq] at hs
    rw [← hs, allRanges_eq, Bool.and_eq_true]
    cases state.gdasset with
    | none =>
      exact ⟨restOfLine_ordered _ _ _, allRangesOfList_nil _⟩
    | some g =>
      dsimp only
      obtain ⟨s1, _, s3⟩ := sectionSymbol_shape document.uriPath tag rest
        (document.restOfLine state.i state.j) g
      rw [s1, s3]
      exact ⟨restOfLine_ordered _ _ _, allRangesOfList_nil _⟩
  · rw [he] at h
    exact propertyBranch_rangesOrdered document state state' m hP h
  · obtain ⟨g, hg⟩ := commentBranch_eq document state sp c
    rw [he, hg] at h
    simp only [StepResult.next.injEq] at h
    rw [← h]
    exact rangesOrdered_of_fields _ _ hP rfl rfl
  · rw [he, ht] at h
    rcases stringBranch_cases document state t hj ht with h2 | ⟨i, j, v, h2, _, _⟩
    · rw [h2] at h
      exact absurd h (by simp)
    · rw [h2] at h
      simp only [StepResult.next.injEq] at h
      rw [← h]
      exact afterFragment_rangesOrdered _ _ _ _ _ hP
  · rw [he] at h
    simp only [StepResult.next.injEq] at h
    rw [← h]
    exact afterFragment_rangesOrdered _ _ _ _ _ hP

theorem initial_rangesOrdered (document : TextDocument) :
    (ScanState.initial document).rangesOrdered :=
  ⟨allRangesOfList_nil _, fun s hs => by simp [ScanState.initial] at hs⟩

/-! ### Claim C30: every range has its start at or before its end -/

/-- C30: for every document, `provideDocumentSymbols` returns (also when the parse stops at an
unterminated string), and every range of the result has its start at or before its end in the
order of (line, column): the range of every symbol at every level of the tree, the range of
every string token and the range of every comment token. -/
theorem ranges_ordered (letter : Nat → Bool) (document : TextDocument) :
    ∃ result, provideDocumentSymbols letter document = .returned result ∧
      DocumentSymbol.allRangesOfList
        (fun r => r.start.isBeforeOrEqual r.end_) result.symbols = true ∧
      ∀ g, result.gdasset = some g →
        (∀ t ∈ g.strings, t.range.start.isBeforeOrEqual t.range.end_ = true) ∧
        ∀ t ∈ g.comments, t.range.start.isBeforeOrEqual t.range.end_ = true := by
  obtain ⟨st, ⟨hT, hR⟩, h⟩ := provideDocumentSymbols_invariant letter document
    (fun st => st.tokensBehind ∧ st.rangesOrdered)
    ⟨initial_tokensBehind document, initial_rangesOrdered document⟩
    (fun state state' _ hj hP h =>
      ⟨scanStep_tokensBehind letter document state state' hj hP.1 h,
        scanStep_rangesOrdered letter document state state' hj hP.2 h⟩)
  refine ⟨_, h, rangesOrdered_closedRoots st hR, ?_⟩
  intro g hg
  obtain ⟨a, _, _⟩ := hT g hg
  exact ⟨fun t ht => (a t (List.mem_append.mpr (Or.inl ht))).1,
    fun t ht => (a t (List.mem_append.mpr (Or.inr ht))).1⟩

/-! ### The string expression finds the first unescaped double quote -/

theorem stringChunkLen_skip (s : JSString) :
    ∀ k, k ≤ s.length → stringChunkLen k s = k + stringChunkLen 0 (s.drop k) := by
  induction s with
  | nil => intro k hk; simp at hk; subst hk; simp [stringChunkLen]
  | cons c t ih =>
    intro k hk
    cases k with
    | zero => simp
    | succ k =>
      simp only [stringChunkLen, List.drop_succ_cons]
      rw [ih k (by simpa using hk)]
      omega

theorem scanStringLine_skip (s : JSString) :
    ∀ k, scanStringLine k s = scanStringLine 0 (s.drop k) := by
  induction s with
  | nil => intro k; cases k <;> simp [scanStringLine]
  | cons c t ih =>
    intro k
    cases k with
    | zero => simp
    | succ k =>
      simp only [scanStringLine, List.drop_succ_cons]
      exact ih k

theorem closingQuoteIndex_plain (c : Nat) (t : JSString) (h1 : c ≠ QUOTE) (h2 : c ≠ BACKSLASH) :
    closingQuoteIndex (c :: t) = (closingQuoteIndex t).map (fun k => k + 1) := by
  rw [closingQuoteIndex.eq_def]
  simp [h1, h2]

theorem closingQuoteIndex_escaped (e : Nat) (t : JSString) :
    closingQuoteIndex (BACKSLASH :: e :: t) = (closingQuoteIndex t).map (fun k => k + 2) := by
  rw [closingQuoteIndex.eq_def]
  simp

theorem closingQuoteIndex_quote (t : JSString) : closingQuoteIndex (QUOTE :: t) = some 0 := by
  rw [closingQuoteIndex.eq_def]
  simp

theorem closingQuoteIndex_dangling : closingQuoteIndex [BACKSLASH] = none := by
  rw [closingQuoteIndex.eq_def]
  simp

theorem closingQuoteIndex_nil : closingQuoteIndex [] = none := by
  rw [closingQuoteIndex.eq_def]

theorem closingQuoteIndex_plain_run (t : JSString) :
    ∀ k, k ≤ t.length → (∀ x ∈ t.take k, x ≠ QUOTE ∧ x ≠ BACKSLASH) →
      closingQuoteIndex t = (closingQuoteIndex (t.drop k)).map (fun n => n + k) := by
  induction t with
  | nil => intro k hk _; simp at hk; subst hk; simp
  | cons c t ih =>
    intro k hk hp
    cases k with
    | zero => simp
    | succ k =>
      have hc := hp c (by simp)
      rw [closingQuoteIndex_plain c t hc.1 hc.2, List.drop_succ_cons,
        ih k (by simpa using hk) (fun x hx => hp x (by simp [hx]))]
      simp only [Option.map_map]
      congr 1

theorem isHex_plain (x : Nat) (h : isHex x = true) : x ≠ QUOTE ∧ x ≠ BACKSLASH := by
  constructor <;> (intro h0; rw [h0] at h; revert h; decide)

theorem isLowSurrogate_plain (x : Nat) (h : isLowSurrogate x = true) :
    x ≠ QUOTE ∧ x ≠ BACKSLASH := by
  constructor <;> (intro h0; rw [h0] at h; revert h; decide)

theorem isLineTerminator_plain (x : Nat) (h : isLineTerminator x = true) :
    x ≠ QUOTE ∧ x ≠ BACKSLASH := by
  constructor <;> (intro h0; rw [h0] at h; revert h; decide)

theorem codePointAt_cases (c : Nat) (t : JSString) :
    codePointAt (c :: t) = [c] ∨
      ∃ d t2, t = d :: t2 ∧ isLowSurrogate d = true ∧ codePointAt (c :: t) = [c, d] := by
  cases t with
  | nil => left; rfl
  | cons d t2 =>
    simp only [codePointAt]
    by_cases h : (isHighSurrogate c && isLowSurrogate d) = true
    · right
      rw [if_pos h]
      rw [Bool.and_eq_true] at h
      exact ⟨d, t2, rfl, h.2, rfl⟩
    · left
      rw [if_neg h]

/-- One repetition of the group of the string expression passes no unescaped double quote. -/
theorem stringPieceLen_step (c : Nat) (t : JSString) (h1 : c ≠ QUOTE) (h2 : c ≠ 13)
    (h3 : c ≠ 10) :
    1 ≤ stringPieceLen (c :: t) ∧ stringPieceLen (c :: t) ≤ (c :: t).length ∧
      closingQuoteIndex (c :: t) =
        (closingQuoteIndex ((c :: t).drop (stringPieceLen (c :: t)))).map
          (fun n => n + stringPieceLen (c :: t)) := by
  by_cases hb : c = BACKSLASH
  · subst hb
    cases t with
    | nil => simp [stringPieceLen, closingQuoteIndex_dangling, closingQuoteIndex_nil]
    | cons e t1 =>
      rw [closingQuoteIndex_escaped]
      simp only [stringPieceLen, if_true]
      split
      · simp
      · split
        · rename_i hu
          refine ⟨by omega, by simp only [List.length_cons]; omega, ?_⟩
          simp only [List.drop_succ_cons]
          rw [closingQuoteIndex_plain_run t1 4 hu.2.1
            (fun x hx => isHex_plain x (by
              have := hu.2.2
              rw [List.all_eq_true] at this
              exact this x hx))]
          simp only [Option.map_map]
          congr 1
        · split
          · rename_i hu
            refine ⟨by omega, by simp only [List.length_cons]; omega, ?_⟩
            simp only [List.drop_succ_cons]
            rw [closingQuoteIndex_plain_run t1 6 hu.2.1
              (fun x hx => isHex_plain x (by
                have := hu.2.2
                rw [List.all_eq_true] at this
                exact this x hx))]
            simp only [Option.map_map]
            congr 1
          · split
            · rename_i hl
              refine ⟨by omega, by simp, ?_⟩
              simp only [List.drop_succ_cons, List.drop_zero]
              have hp := isLineTerminator_plain e hl
              rw [closingQuoteIndex_plain e t1 hp.1 hp.2]
              simp only [Option.map_map]
              congr 1
            · rcases codePointAt_cases e t1 with h | ⟨d, t2, ht, hd, h⟩
              · rw [h]
                simp
              · rw [h, ht]
                refine ⟨by simp, by simp, ?_⟩
                simp only [List.length_cons, List.length_nil, List.drop_succ_cons,
                  List.drop_zero]
                have hp := isLowSurrogate_plain d hd
                rw [closingQuoteIndex_plain d t2 hp.1 hp.2]
                simp only [Option.map_map]
                congr 1
  · rw [closingQuoteIndex_plain c t h1 hb]
    simp only [stringPieceLen, if_neg hb]
    rw [if_neg (by simp [h1, h2, h3])]
    rcases codePointAt_cases c t with h | ⟨d, t2, ht, hd, h⟩
    · rw [h]
      simp
    · rw [h, ht]
      refine ⟨by simp, by simp, ?_⟩
      simp only [List.length_cons, List.length_nil, List.drop_succ_cons, List.drop_zero]
      have hp := isLowSurrogate_plain d hd
      rw [closingQuoteIndex_plain d t2 hp.1 hp.2]
      simp only [Option.map_map]
      congr 1

/-- On a text without CR and LF, a longest run of repetitions ends at the first unescaped
double quote, or at the end of the text when there is none. -/
theorem stringChunkLen_eq (n : Nat) :
    ∀ s : JSString, s.length ≤ n → (∀ x ∈ s, x ≠ 10 ∧ x ≠ 13) →
      stringChunkLen 0 s = (closingQuoteIndex s).getD s.length := by
  induction n with
  | zero =>
    intro s hs _
    have : s = [] := List.length_eq_zero.mp (by omega)
    subst this
    rfl
  | succ n ih =>
    intro s hs hcr
    cases s with
    | nil => rfl
    | cons c t =>
      by_cases hq : c = QUOTE
      · subst hq
        simp [stringChunkLen, stringPieceLen, closingQuoteIndex_quote]
      · have hc := hcr c (by simp)
        obtain ⟨p1, p2, p3⟩ := stringPieceLen_step c t hq hc.2 hc.1
        simp only [stringChunkLen]
        rw [if_neg (by omega)]
        rw [stringChunkLen_skip t _ (by simp only [List.length_cons] at p2; omega)]
        have hd : List.drop (stringPieceLen (c :: t) - 1) t =
            List.drop (stringPieceLen (c :: t)) (c :: t) := by
          obtain ⟨k, hk⟩ : ∃ k, stringPieceLen (c :: t) = k + 1 := ⟨_, (Nat.sub_add_cancel p1).symm⟩
          rw [hk]
          simp
        rw [hd, ih _ (by simp only [List.length_drop, List.length_cons] at hs ⊢; omega)
          (fun x hx => hcr x (List.mem_of_mem_drop hx)), p3]
        cases closingQuoteIndex (List.drop (stringPieceLen (c :: t)) (c :: t)) with
        | none =>
          simp only [Option.map_none', Option.getD_none, List.length_drop, List.length_cons]
          simp only [List.length_cons] at p2
          omega
        | some k =>
          simp only [Option.map_some', Option.getD_some]
          omega

theorem closingQuoteIndex_lt (n : Nat) :
    ∀ (s : JSString), s.length ≤ n → ∀ k, closingQuoteIndex s = some k →
      k < s.length ∧ s.drop k = QUOTE :: s.drop (k + 1) := by
  induction n with
  | zero =>
    intro s hs k h
    have : s = [] := List.length_eq_zero.mp (by omega)
    subst this
    rw [closingQuoteIndex_nil] at h
    exact absurd h (by simp)
  | succ n ih =>
    intro s hs k h
    cases s with
    | nil =>
      rw [closingQuoteIndex_nil] at h
      exact absurd h (by simp)
    | cons c t =>
      by_cases hq : c = QUOTE
      · subst hq
        rw [closingQuoteIndex_quote] at h
        simp only [Option.some.injEq] at h
        subst h
        simp
      · by_cases hb : c = BACKSLASH
        · subst hb
          cases t with
          | nil =>
            rw [closingQuoteIndex_dangling] at h
            exact absurd h (by simp)
          | cons e t1 =>
            rw [closingQuoteIndex_escaped, Option.map_eq_some'] at h
            obtain ⟨a, ha, e2⟩ := h
            obtain ⟨i1, i2⟩ := ih t1 (by simp only [List.length_cons] at hs; omega) a ha
            rw [← e2]
            simp only [List.length_cons, List.drop_succ_cons]
            exact ⟨by omega, i2⟩
        · rw [closingQuoteIndex_plain c t hq hb, Option.map_eq_some'] at h
          obtain ⟨a, ha, e2⟩ := h
          obtain ⟨i1, i2⟩ := ih t (by simp only [List.length_cons] at hs; omega) a ha
          rw [← e2]
          simp only [List.length_cons, List.drop_succ_cons]
          exact ⟨by omega, i2⟩

/-- On a line without CR and LF the inner loop of the string branch stops at the first
unescaped double quote, having counted the code units up to and including it. -/
theorem scanStringLine_closed (s : JSString) (hcr : ∀ x ∈ s, x ≠ 10 ∧ x ≠ 13) (k : Nat)
    (h : closingQuoteIndex s = some k) :
    ∃ value, scanStringLine 0 s = ⟨true, k + 1, value⟩ := by
  obtain ⟨hk, hdrop⟩ := closingQuoteIndex_lt _ s (le_refl _) k h
  cases s with
  | nil => simp at hk
  | cons c t =>
    have hchunk := stringChunkLen_eq _ (c :: t) (le_refl _) hcr
    rw [h, Option.getD_some] at hchunk
    by_cases hq : c = QUOTE
    · subst hq
      rw [closingQuoteIndex_quote] at h
      simp only [Option.some.injEq] at h
      subst h
      exact ⟨[], by simp [scanStringLine]⟩
    · have hk0 : k ≠ 0 := by
        intro h0
        subst h0
        simp only [List.drop_zero, List.cons.injEq] at hdrop
        exact hq hdrop.1
      simp only [scanStringLine, if_neg hq]
      rw [if_neg (by omega)]
      rw [scanStringLine_skip, hchunk]
      have hd : List.drop (k - 1) t = List.drop k (c :: t) := by
        obtain ⟨m, hm⟩ : ∃ m, k = m + 1 := ⟨k - 1, by omega⟩
        rw [hm]; simp
      rw [hd, hdrop]
      refine ⟨unescapeString ((c :: t).take k) ++ [], ?_⟩
      simp [scanStringLine]

/-- On a line without CR and LF and without an unescaped double quote the inner loop of the
string branch ends open. -/
theorem scanStringLine_open (s : JSString) (hcr : ∀ x ∈ s, x ≠ 10 ∧ x ≠ 13)
    (h : closingQuoteIndex s = none) : (scanStringLine 0 s).closed = false := by
  cases s with
  | nil => rfl
  | cons c t =>
    have hchunk := stringChunkLen_eq _ (c :: t) (le_refl _) hcr
    rw [h, Option.getD_none] at hchunk
    have hq : c ≠ QUOTE := by
      intro h0
      subst h0
      simp [closingQuoteIndex_quote] at h
    simp only [scanStringLine, if_neg hq]
    rw [if_neg (by rw [hchunk]; simp)]
    rw [scanStringLine_skip, hchunk]
    simp [scanStringLine]

/-- On lines without CR and LF the loop of the string branch ends at the first unescaped
double quote, or runs out of the document when there is none. -/
theorem scanString_eq (later : List JSString) :
    ∀ first : JSString, (∀ x ∈ first, x ≠ 10 ∧ x ≠ 13) →
      (∀ l ∈ later, ∀ x ∈ l, x ≠ 10 ∧ x ≠ 13) →
      (closingQuoteBelow first later = none → scanString first later = none) ∧
      (∀ r, closingQuoteBelow first later = some r →
        ∃ value, scanString first later = some ⟨r.1, r.2 + 1, value⟩) := by
  induction later with
  | nil =>
    intro first hf _
    unfold scanString closingQuoteBelow
    cases hq : closingQuoteIndex first with
    | none =>
      rw [scanStringLine_open first hf hq]
      simp
    | some k =>
      obtain ⟨v, hv⟩ := scanStringLine_closed first hf k hq
      rw [hv]
      simp
  | cons l ls ih =>
    intro first hf hl
    obtain ⟨ih1, ih2⟩ := ih l (hl l (by simp)) (fun l2 h2 => hl l2 (by simp [h2]))
    unfold scanString closingQuoteBelow
    cases hq : closingQuoteIndex first with
    | none =>
      rw [scanStringLine_open first hf hq]
      simp only [Bool.false_eq_true, if_false]
      constructor
      · intro h
        simp only [Option.map_eq_none'] at h
        rw [ih1 h]
        rfl
      · intro r h
        simp only [Option.map_eq_some'] at h
        obtain ⟨a, ha, e⟩ := h
        obtain ⟨v, hv⟩ := ih2 a ha
        rw [hv, ← e]
        exact ⟨_, rfl⟩
    | some k =>
      obtain ⟨v, hv⟩ := scanStringLine_closed first hf k hq
      rw [hv]
      simp

/-! ### States that the scanner reaches -/

theorem codePoints_cons_low (c : Nat) (t : JSString) (h : isHighSurrogate c = false) :
    codePoints (c :: t) = c :: codePoints t := by
  cases t with
  | nil => simp [codePoints]
  | cons d t2 => simp [codePoints, h]

theorem headerMatch_quote (letter : Nat → Bool) (t : JSString) :
    headerMatch letter (QUOTE :: t) = none := by
  unfold headerMatch headerMatchCodePoints
  rw [codePoints_cons_low QUOTE t (by decide)]
  rw [dropWhile_cons_stop isSpace QUOTE _ (by decide)]
  rfl

theorem propertyMatch_quote (letter : Nat → Bool) (t : JSString) :
    propertyMatch letter (QUOTE :: t) = none := by
  unfold propertyMatch propertyMatchCodePoints
  rw [codePoints_cons_low QUOTE t (by decide)]
  dsimp only
  rw [dropWhile_cons_stop isSpace QUOTE _ (by decide)]
  have hw : isWord QUOTE = false := by decide
  have h : isTagChar letter QUOTE = false := by
    have h128 : decide (128 ≤ QUOTE) = false := by decide
    have h45 : (QUOTE == 45) = false := by decide
    simp only [isTagChar, hw, h128, h45, Bool.false_and, Bool.or_self]
  rw [takeWhile_cons_stop _ QUOTE _ (by simp [h])]
  simp [isKeyRun]

theorem commentMatch_quote (t : JSString) : commentMatch (QUOTE :: t) = none := by
  unfold commentMatch
  rw [dropWhile_cons_stop isSpace QUOTE _ (by decide)]
  simp

theorem scanStep_quote (letter : Nat → Bool) (document : TextDocument) (state : ScanState)
    (t : JSString) (h : (document.lineAt state.i).drop state.j = QUOTE :: t) :
    scanStep letter document state = stringBranch document state (QUOTE :: t) := by
  rcases scanStep_cases letter document state with
    ⟨tag, rest, _, hh, _⟩ | ⟨m, _, hp, _⟩ | ⟨sp, c, hc, _⟩ | ⟨t2, _, _, he⟩ | ⟨k, _, _, _, hq, _⟩
  · rw [h, headerMatch_quote] at hh
    exact absurd hh (by simp)
  · rw [h, propertyMatch_quote] at hp
    exact absurd hp (by simp)
  · rw [h, commentMatch_quote] at hc
    exact absurd hc (by simp)
  · rw [he, h]
  · rw [h] at hq
    exact absurd rfl hq

theorem passes_invariant (letter : Nat → Bool) (document : TextDocument)
    (P : ScanState → Prop)
    (hpres : ∀ state state', state.i < document.lines.length →
      state.j ≤ (document.lineAt state.i).length → P state →
      scanStep letter document state = .next state' → P state') :
    ∀ (k : Nat) (state state' : ScanState), state.j ≤ (document.lineAt state.i).length →
      P state → passes letter document k state = some state' →
      P state' ∧ state'.j ≤ (document.lineAt state'.i).length ∧
        k + document.remaining state'.i state'.j ≤ document.remaining state.i state.j ∧
        ∀ fuel, scanLoop letter document (k + fuel) state = scanLoop letter document fuel state' := by
  intro k
  induction k with
  | zero =>
    intro state state' hj hP h
    simp only [passes, Option.some.injEq] at h
    subst h
    exact ⟨hP, hj, by omega, fun fuel => by rw [Nat.zero_add]⟩
  | succ k ih =>
    intro state state' hj hP h
    simp only [passes] at h
    split at h
    · rename_i hi
      split at h
      · rename_i st1 hs
        have hc := scanStep_cursor letter document state st1 hj hs
        have hr := scanStep_remaining letter document state st1 hi hj hs
        obtain ⟨a, b, c, d⟩ := ih st1 state' hc.1 (hpres state st1 hi hj hP hs) h
        refine ⟨a, b, by omega, ?_⟩
        intro fuel
        have e : k + 1 + fuel = (k + fuel) + 1 := by omega
        rw [e]
        conv => lhs; unfold scanLoop
        rw [if_pos hi, hs]
        exact d fuel
      · exact absurd h (by simp)
    · exact absurd h (by simp)

/-- What holds at the start and is kept by every pass holds in every state that the scanner
reaches; from such a state `provideDocumentSymbols` goes on with enough passes left. -/
theorem reached_invariant (letter : Nat → Bool) (document : TextDocument)
    (P : ScanState → Prop) (h0 : P (ScanState.initial document))
    (hpres : ∀ state state', state.i < document.lines.length →
      state.j ≤ (document.lineAt state.i).length → P state →
      scanStep letter document state = .next state' → P state')
    (k : Nat) (state : ScanState) (h : reached letter document k = some state) :
    P state ∧ state.j ≤ (document.lineAt state.i).length ∧
      ∃ fuel, document.remaining state.i state.j < fuel ∧
        provideDocumentSymbols letter document = scanLoop letter document fuel state := by
  obtain ⟨a, b, c, d⟩ := passes_invariant letter document P hpres k
    (ScanState.initial document) state (Nat.zero_le _) h0 h
  refine ⟨a, b, document.passes - k, ?_, ?_⟩
  · have := initial_remaining document
    omega
  · have hk : k ≤ document.passes := by
      have := initial_remaining document
      omega
    unfold provideDocumentSymbols
    rw [← d (document.passes - k)]
    congr 1
    omega

theorem scanStep_strings (letter : Nat → Bool) (document : TextDocument)
    (state state' : ScanState) (hj : state.j ≤ (document.lineAt state.i).length)
    (h : scanStep letter document state = .next state') (g : GDAsset)
    (hg : state.gdasset = some g) :
    ∃ g' more, state'.gdasset = some g' ∧ g'.strings = g.strings ++ more := by
  rcases scanStep_cases letter document state with
    ⟨tag, rest, hj0, hh, he⟩ | ⟨m, hj0, hp, he⟩ | ⟨sp, c, hcm, he⟩ | ⟨t, ht, _, he⟩ |
    ⟨k, hk1, hk2, _, _, he⟩
  · rw [he, sectionBranch_eq document state tag rest (headerMatch_tag letter _ tag rest hh)] at h
    simp only [StepResult.next.injEq] at h
    rw [← h]
    dsimp only
    rw [hg]
    exact ⟨_, [], rfl, by rw [(sectionSymbol_tokens _ _ _ _ _).1, List.append_nil]⟩
  · obtain ⟨st, hs, _, _, hg2, _⟩ := propertyBranch_next document state m
      (propertyMatch_facts letter _ m hp).2.2
    rw [he, hs] at h
    simp only [StepResult.next.injEq] at h
    rw [← h, hg2, hg]
    exact ⟨g, [], rfl, by rw [List.append_nil]⟩
  · rw [he] at h
    unfold commentBranch at h
    simp only [StepResult.next.injEq] at h
    rw [← h]
    dsimp only
    rw [hg]
    cases c with
    | none => exact ⟨g, [], rfl, by rw [List.append_nil]⟩
    | some text =>
      cases text with
      | nil => exact ⟨g, [], rfl, by rw [List.append_nil]⟩
      | cons c0 text => exact ⟨_, [], rfl, by rw [List.append_nil]⟩
  · rw [he, ht] at h
    rcases stringBranch_cases document state t hj ht with h2 | ⟨i, j, v, h2, _, _⟩
    · rw [h2] at h
      exact absurd h (by simp)
    · rw [h2] at h
      simp only [StepResult.next.injEq] at h
      rw [← h, (afterFragment_fields _ _ _ _ _).2.2.1, hg]
      exact ⟨_, _, rfl, rfl⟩
  · rw [he] at h
    simp only [StepResult.next.injEq] at h
    rw [← h, (afterFragment_fields _ _ _ _ _).2.2.1, hg]
    exact ⟨g, [], rfl, by rw [List.append_nil]⟩

/-- The string tokens of a state stay in the asset up to the end of the parse. -/
theorem scanLoop_strings (letter : Nat → Bool) (document : TextDocument) (fuel : Nat)
    (state : ScanState) (g : GDAsset) (hj : state.j ≤ (document.lineAt state.i).length)
    (hg : state.gdasset = some g) (hfuel : document.remaining state.i state.j < fuel) :
    ∃ result g' more, scanLoop letter document fuel state = .returned result ∧
      result.gdasset = some g' ∧ g'.strings = g.strings ++ more := by
  obtain ⟨st, ⟨g', more, h1, h2⟩, _, h3⟩ := scanLoop_invariant letter document
    (fun st => ∃ g' more, st.gdasset = some g' ∧ g'.strings = g.strings ++ more)
    (fun state state' _ hj hP h => by
      obtain ⟨g1, more1, a, b⟩ := hP
      obtain ⟨g2, more2, c, d⟩ := scanStep_strings letter document state state' hj h g1 a
      exact ⟨g2, more1 ++ more2, c, by rw [d, b, List.append_assoc]⟩)
    fuel state hj ⟨g, [], hg, by rw [List.append_nil]⟩ hfuel
  exact ⟨_, g', more, h3, h1, h2⟩

/-! ### Claims C20 to C23: string tokens -/

theorem wellFormed_lineAt (document : TextDocument) (h : document.wellFormed = true) (i : Nat) :
    ∀ x ∈ document.lineAt i, x ≠ 10 ∧ x ≠ 13 := by
  intro x hx
  unfold TextDocument.lineAt at hx
  by_cases hi : i < document.lines.length
  · rw [List.getD_eq_getElem?_getD, List.getElem?_eq_getElem hi] at hx
    simp only [Option.getD_some] at hx
    simp only [TextDocument.wellFormed, List.all_eq_true, Bool.and_eq_true, bne_iff_ne,
      ne_eq] at h
    exact h _ (List.getElem_mem hi) x hx
  · rw [List.getD_eq_getElem?_getD, List.getElem?_eq_none (by omega)] at hx
    simp at hx

theorem wellFormed_later (document : TextDocument) (h : document.wellFormed = true) (i : Nat) :
    ∀ l ∈ document.lines.drop i, ∀ x ∈ l, x ≠ 10 ∧ x ≠ 13 := by
  intro l hl x hx
  simp only [TextDocument.wellFormed, List.all_eq_true, Bool.and_eq_true, bne_iff_ne,
    ne_eq] at h
  exact h l (List.mem_of_mem_drop hl) x hx

/-- The pass at an opening quote whose closing quote is at `close`. -/
theorem stringBranch_closed (document : TextDocument) (state : ScanState) (t : JSString)
    (close : Position) (hwf : document.wellFormed = true)
    (hj : state.j ≤ (document.lineAt state.i).length)
    (hopen : (document.lineAt state.i).drop state.j = QUOTE :: t)
    (hclose : document.closingQuote state.i state.j = some close) :
    ∃ value, stringBranch document state (QUOTE :: t) =
      .next (afterFragment document state close.line (close.character + 1)
        (state.gdasset.map (fun g => { g with strings := g.strings ++
          [{ range := ⟨⟨state.i, state.j⟩, ⟨close.line, close.character + 1⟩⟩,
             value := value }] }))) ∧
      (Position.mk state.i state.j).isBefore close = true := by
  have ht : t = (document.lineAt state.i).drop (state.j + 1) := by
    have := congrArg (List.drop 1) hopen
    rw [List.drop_drop] at this
    simp only [List.drop_succ_cons, List.drop_zero] at this
    rw [← this, Nat.add_comm]
  unfold TextDocument.closingQuote at hclose
  rw [Option.map_eq_some'] at hclose
  obtain ⟨r, hr, hpos⟩ := hclose
  rw [← ht] at hr
  have hft : ∀ x ∈ t, x ≠ 10 ∧ x ≠ 13 := by
    intro x hx
    rw [ht] at hx
    exact wellFormed_lineAt document hwf state.i x (List.mem_of_mem_drop hx)
  obtain ⟨v, hv⟩ := (scanString_eq (document.lines.drop (state.i + 1)) t hft
    (wellFormed_later document hwf _)).2 r hr
  have hnew : ∀ (i j : Nat), (state.i < i ∨ (state.i = i ∧ state.j ≤ j)) →
      Range.new ⟨state.i, state.j⟩ ⟨i, j⟩ = ⟨⟨state.i, state.j⟩, ⟨i, j⟩⟩ := by
    intro i j h
    exact Range.new_of_le _ _ (by rw [Position.isBeforeOrEqual_iff]; exact h)
  refine ⟨v, ?_, ?_⟩
  · unfold stringBranch
    dsimp only
    simp only [List.drop_succ_cons, List.drop_zero]
    rw [hv]
    dsimp only
    rw [restOfLine_of_le document state.i state.j hj]
    by_cases h0 : r.1 = 0
    · rw [if_pos h0] at hpos
      rw [if_pos h0, ← hpos, h0]
      dsimp only
      rw [Nat.add_zero, show state.j + 1 + (r.2 + 1) = state.j + 1 + r.2 + 1 from by omega]
      rw [hnew state.i (state.j + 1 + r.2 + 1) (by omega)]
      cases state.gdasset <;> rfl
    · rw [if_neg h0] at hpos
      rw [if_neg h0, ← hpos]
      dsimp only
      rw [hnew (state.i + r.1) (r.2 + 1) (by omega)]
      cases state.gdasset <;> rfl
  · rw [Position.isBefore_iff, ← hpos]
    by_cases h0 : r.1 = 0
    · rw [if_pos h0]
      dsimp only
      omega
    · rw [if_neg h0]
      dsimp only
      omega

/-- The pass at an opening quote whose string is closed records the token of the string and
moves the cursor just after the closing quote. -/
theorem string_token_range_aux (letter : Nat → Bool) (document : TextDocument)
    (state : ScanState) (g : GDAsset) (t : JSString) (close : Position)
    (hwf : document.wellFormed = true)
    (hj : state.j ≤ (document.lineAt state.i).length)
    (hg : state.gdasset = some g)
    (hopen : (document.lineAt state.i).drop state.j = QUOTE :: t)
    (hclose : document.closingQuote state.i state.j = some close) :
    ∃ state' value, scanStep letter document state = .next state' ∧
      state'.gdasset = some { g with strings := g.strings ++
        [{ range := ⟨⟨state.i, state.j⟩, ⟨close.line, close.character + 1⟩⟩,
           value := value }] } ∧
      state'.cursor = ⟨close.line, close.character + 1⟩ ∧
      (Position.mk state.i state.j).isBefore close = true := by
  obtain ⟨v, hv, hb⟩ := stringBranch_closed document state t close hwf hj hopen hclose
  rw [scanStep_quote letter document state t hopen, hv]
  refine ⟨_, v, rfl, ?_, ?_, hb⟩
  · rw [(afterFragment_fields _ _ _ _ _).2.2.1, hg]
    rfl
  · unfold ScanState.cursor
    rw [(afterFragment_fields _ _ _ _ _).1, (afterFragment_fields _ _ _ _ _).2.1]

/-- C20, counterexample: in the document `a = "x"` the closing quote of the string is at
(0, 6), and the recorded token ends at (0, 7). -/
theorem string_token_end_after_quote :
    sampleQuoted.closingQuote 0 4 = some ⟨0, 6⟩ ∧
    (provideDocumentSymbols latin1Letter sampleQuoted).gdasset.map (fun g => g.strings) =
      some [⟨⟨⟨0, 4⟩, ⟨0, 7⟩⟩, js "x"⟩] :=
  ⟨by rfl, by rfl⟩

/-- C20, amended: when the scanner stands at an opening quote at (l0, c0) and the string is
closed by the first unescaped double quote at (l1, c1), the pass records exactly one string
token; its range starts at (l0, c0) and ends at (l1, c1 + 1), the position just after the
closing quote, which is also where the cursor goes; and (l0, c0) is before (l1, c1). -/
theorem string_token_range (letter : Nat → Bool) (document : TextDocument) (state : ScanState)
    (g : GDAsset) (t : JSString) (close : Position)
    (hwf : document.wellFormed = true)
    (hj : state.j ≤ (document.lineAt state.i).length)
    (hg : state.gdasset = some g)
    (hopen : (document.lineAt state.i).drop state.j = QUOTE :: t)
    (hclose : document.closingQuote state.i state.j = some close) :
    ∃ state' value, scanStep letter document state = .next state' ∧
      state'.gdasset = some { g with strings := g.strings ++
        [{ range := ⟨⟨state.i, state.j⟩, ⟨close.line, close.character + 1⟩⟩,
           value := value }] } ∧
      state'.cursor = ⟨close.line, close.character + 1⟩ ∧
      (Position.mk state.i state.j).isBefore close = true :=
  string_token_range_aux letter document state g t close hwf hj hg hopen hclose

/-- C20, amended, at an instance: the string opened at (0, 4) of the two-line document
`a = "x` / `y" ; c`, whose closing quote is at (1, 1). -/
theorem string_token_range_witness :
    reached latin1Letter sampleMultiLine 2 = some sampleAtQuote ∧
    sampleMultiLine.closingQuote 0 4 = some ⟨1, 1⟩ ∧
    ∃ state' value, scanStep latin1Letter sampleMultiLine sampleAtQuote = .next state' ∧
      state'.gdasset = some { GDAsset.new with strings := GDAsset.new.strings ++
        [{ range := ⟨⟨0, 4⟩, ⟨1, 1 + 1⟩⟩, value := value }] } ∧
      state'.cursor = ⟨1, 1 + 1⟩ ∧
      (Position.mk 0 4).isBefore ⟨1, 1⟩ = true :=
  ⟨by rfl, by rfl,
    string_token_range latin1Letter sampleMultiLine sampleAtQuote GDAsset.new (js "x") ⟨1, 1⟩
      (by decide) (by decide) (by rfl) (by rfl) (by rfl)⟩

/-- From a state that the scanner reaches at an opening quote whose string is closed, the
parse goes on to return an asset that holds the token of the string, after the tokens recorded
before it. -/
theorem token_in_result (letter : Nat → Bool) (document : TextDocument) (k : Nat)
    (state : ScanState) (g : GDAsset) (t : JSString) (close : Position)
    (hwf : document.wellFormed = true)
    (hreach : reached letter document k = some state)
    (hg : state.gdasset = some g)
    (hopen : (document.lineAt state.i).drop state.j = QUOTE :: t)
    (hclose : document.closingQuote state.i state.j = some close) :
    ∃ result g' value more, provideDocumentSymbols letter document = .returned result ∧
      result.gdasset = some g' ∧
      g'.strings = g.strings ++
        [{ range := ⟨⟨state.i, state.j⟩, ⟨close.line, close.character + 1⟩⟩,
           value := value }] ++ more ∧
      (Position.mk state.i state.j).isBefore close = true := by
  obtain ⟨_, hj, fuel, hfuel, hrun⟩ := reached_invariant letter document (fun _ => True)
    trivial (fun _ _ _ _ _ _ => trivial) k state hreach
  obtain ⟨st', v, hs, hg', _, hb⟩ := string_token_range_aux letter document state g t close
    hwf hj hg hopen hclose
  have hi : state.i < document.lines.length := by
    by_contra hc
    have : document.lineAt state.i = [] := by
      unfold TextDocument.lineAt
      rw [List.getD_eq_getElem?_getD, List.getElem?_eq_none (by omega)]
      rfl
    rw [this] at hopen
    simp at hopen
  have hc := scanStep_cursor letter document state st' hj hs
  have hr := scanStep_remaining letter document state st' hi hj hs
  obtain ⟨f, hf⟩ : ∃ f, fuel = f + 1 := ⟨fuel - 1, by omega⟩
  obtain ⟨result, g2, more, h1, h2, h3⟩ := scanLoop_strings letter document f st' _ hc.1 hg'
    (by omega)
  refine ⟨result, g2, v, more, ?_, h2, h3, hb⟩
  rw [hrun, hf]
  unfold scanLoop
  rw [if_pos hi, hs]
  exact h1

/-- C21: when the scanner reaches an opening quote at (l0, c0) in an asset document and the
string is closed by the first unescaped double quote at (l1, c1), on the same or on a later
line, then the parse returns an asset for which `isInString` is true at every position that
is after (l0, c0) and before (l1, c1) in the order of (line, column), whatever its line. -/
theorem in_string_between (letter : Nat → Bool) (document : TextDocument) (k : Nat)
    (state : ScanState) (g : GDAsset) (t : JSString) (close : Position)
    (hwf : document.wellFormed = true)
    (hreach : reached letter document k = some state)
    (hg : state.gdasset = some g)
    (hopen : (document.lineAt state.i).drop state.j = QUOTE :: t)
    (hclose : document.closingQuote state.i state.j = some close) :
    ∃ result g', provideDocumentSymbols letter document = .returned result ∧
      result.gdasset = some g' ∧
      ∀ p : Position, (Position.mk state.i state.j).isBefore p = true →
        p.isBefore close = true → g'.isInString p = true := by
  obtain ⟨result, g', v, more, h1, h2, h3, _⟩ := token_in_result letter document k state g t
    close hwf hreach hg hopen hclose
  refine ⟨result, g', h1, h2, ?_⟩
  intro p hp1 hp2
  simp only [GDAsset.isInString, List.any_eq_true]
  refine ⟨⟨⟨⟨state.i, state.j⟩, ⟨close.line, close.character + 1⟩⟩, v⟩, ?_, ?_⟩
  · rw [h3]
    simp
  · rw [Range.contains_iff]
    rw [Position.isBefore_iff] at hp1 hp2
    simp only [Position.isBeforeOrEqual_iff]
    dsimp only at hp1 ⊢
    omega

/-- C21 at an instance: the string opened at (0, 4) of the two-line document `a = "x` /
`y" ; c`, whose closing quote is at (1, 1). -/
theorem in_string_between_witness :
    reached latin1Letter sampleMultiLine 2 = some sampleAtQuote ∧
    sampleMultiLine.closingQuote 0 4 = some ⟨1, 1⟩ ∧
    ∃ result g', provideDocumentSymbols latin1Letter sampleMultiLine = .returned result ∧
      result.gdasset = some g' ∧
      ∀ p : Position, (Position.mk 0 4).isBefore p = true →
        p.isBefore ⟨1, 1⟩ = true → g'.isInString p = true :=
  ⟨by rfl, by rfl,
    in_string_between latin1Letter sampleMultiLine 2 sampleAtQuote GDAsset.new (js "x") ⟨1, 1⟩
      (by decide) (by rfl) (by rfl) (by rfl) (by rfl)⟩

/-- C22, counterexample: the document `a = "x"` has one string, with its opening quote at
(0, 4) and its closing quote at (0, 6); the parse records one string token, and `isInString`
is true both at (0, 4), just before the opening quote, and at (0, 7), just after the closing
quote. -/
theorem in_string_at_both_ends :
    sampleQuoted.closingQuote 0 4 = some ⟨0, 6⟩ ∧
    (provideDocumentSymbols latin1Letter sampleQuoted).gdasset.map
        (fun g => (g.strings.length, g.isInString ⟨0, 4⟩, g.isInString ⟨0, 7⟩)) =
      some (1, true, true) :=
  ⟨by rfl, by rfl⟩

/-- C22, amended: when the scanner reaches an opening quote at (l0, c0) in an asset document
and the string is closed by the first unescaped double quote at (l1, c1), then the parse
returns an asset for which `isInString` is true at (l0, c0), the position just before the
opening quote, and at (l1, c1 + 1), the position just after the closing quote, because
`Range.contains` includes both ends of the token's range; and when this token is the only
string token, `isInString` is false at every position before (l0, c0) and at every position
after (l1, c1 + 1). -/
theorem in_string_ends (letter : Nat → Bool) (document : TextDocument) (k : Nat)
    (state : ScanState) (g : GDAsset) (t : JSString) (close : Position)
    (hwf : document.wellFormed = true)
    (hreach : reached letter document k = some state)
    (hg : state.gdasset = some g)
    (hopen : (document.lineAt state.i).drop state.j = QUOTE :: t)
    (hclose : document.closingQuote state.i state.j = some close) :
    ∃ result g', provideDocumentSymbols letter document = .returned result ∧
      result.gdasset = some g' ∧
      g'.isInString ⟨state.i, state.j⟩ = true ∧
      g'.isInString ⟨close.line, close.character + 1⟩ = true ∧
      (g'.strings.length = 1 → ∀ p : Position,
        (p.isBefore ⟨state.i, state.j⟩ = true ∨
          (Position.mk close.line (close.character + 1)).isBefore p = true) →
        g'.isInString p = false) := by
  obtain ⟨result, g', v, more, h1, h2, h3, hb⟩ := token_in_result letter document k state g t
    close hwf hreach hg hopen hclose
  rw [Position.isBefore_iff] at hb
  dsimp only at hb
  have hmem : (⟨⟨⟨state.i, state.j⟩, ⟨close.line, close.character + 1⟩⟩, v⟩ : Token) ∈
      g'.strings := by
    rw [h3]; simp
  refine ⟨result, g', h1, h2, ?_, ?_, ?_⟩
  · simp only [GDAsset.isInString, List.any_eq_true]
    refine ⟨_, hmem, ?_⟩
    rw [Range.contains_iff]
    simp only [Position.isBeforeOrEqual_iff]
    constructor <;> first | omega | simp
  · simp only [GDAsset.isInString, List.any_eq_true]
    refine ⟨_, hmem, ?_⟩
    rw [Range.contains_iff]
    simp only [Position.isBeforeOrEqual_iff]
    constructor <;> first | omega | simp
  · intro hlen p hp
    have hone : g'.strings =
        [⟨⟨⟨state.i, state.j⟩, ⟨close.line, close.character + 1⟩⟩, v⟩] := by
      rw [h3] at hlen ⊢
      simp only [List.length_append, List.length_singleton] at hlen
      have e1 : g.strings = [] := List.length_eq_zero.mp (by omega)
      have e2 : more = [] := List.length_eq_zero.mp (by omega)
      rw [e1, e2]
      rfl
    rw [← Bool.not_eq_true]
    intro hin
    simp only [GDAsset.isInString, hone, List.any_cons, List.any_nil, Bool.or_false] at hin
    rw [Range.contains_iff] at hin
    simp only [Position.isBefore_iff, Position.isBeforeOrEqual_iff] at hp hin
    omega

/-- C22, amended, at an instance: the string opened at (0, 4) of the two-line document
`a = "x` / `y" ; c`, whose closing quote is at (1, 1). -/
theorem in_string_ends_witness :
    reached latin1Letter sampleMultiLine 2 = some sampleAtQuote ∧
    sampleMultiLine.closingQuote 0 4 = some ⟨1, 1⟩ ∧
    ∃ result g', provideDocumentSymbols latin1Letter sampleMultiLine = .returned result ∧
      result.gdasset = some g' ∧
      g'.isInString ⟨0, 4⟩ = true ∧
      g'.isInString ⟨1, 1 + 1⟩ = true ∧
      (g'.strings.length = 1 → ∀ p : Position,
        (p.isBefore ⟨0, 4⟩ = true ∨ (Position.mk 1 (1 + 1)).isBefore p = true) →
        g'.isInString p = false) :=
  ⟨by rfl, by rfl,
    in_string_ends latin1Letter sampleMultiLine 2 sampleAtQuote GDAsset.new (js "x") ⟨1, 1⟩
      (by decide) (by rfl) (by rfl) (by rfl) (by rfl)⟩

/-- C23: when the scanner reaches an opening quote and no unescaped double quote follows up to
the end of the document, the pass at the quote breaks out of the loop and
`provideDocumentSymbols` returns normally: the result is made of the roots and of the asset of
the state reached before the quote, as the passes over the text before the quote have built
them (with the last section closed at `previousEnd`); the asset gets no string token for the
open string, and no line after the quote adds to the result. -/
theorem unterminated_string (letter : Nat → Bool) (document : TextDocument) (k : Nat)
    (state : ScanState) (t : JSString)
    (hwf : document.wellFormed = true)
    (hreach : reached letter document k = some state)
    (hopen : (document.lineAt state.i).drop state.j = QUOTE :: t)
    (hclose : document.closingQuote state.i state.j = none) :
    scanStep letter document state = .stop state ∧
    provideDocumentSymbols letter document =
      .returned ⟨state.closedRoots, state.gdasset⟩ := by
  obtain ⟨_, hj, fuel, hfuel, hrun⟩ := reached_invariant letter document (fun _ => True)
    trivial (fun _ _ _ _ _ _ => trivial) k state hreach
  have ht : t = (document.lineAt state.i).drop (state.j + 1) := by
    have := congrArg (List.drop 1) hopen
    rw [List.drop_drop] at this
    simp only [List.drop_succ_cons, List.drop_zero] at this
    rw [← this, Nat.add_comm]
  have hft : ∀ x ∈ t, x ≠ 10 ∧ x ≠ 13 := by
    intro x hx
    rw [ht] at hx
    exact wellFormed_lineAt document hwf state.i x (List.mem_of_mem_drop hx)
  unfold TextDocument.closingQuote at hclose
  rw [Option.map_eq_none', ← ht] at hclose
  have hnone := (scanString_eq (document.lines.drop (state.i + 1)) t hft
    (wellFormed_later document hwf _)).1 hclose
  have hstop : scanStep letter document state = .stop state := by
    rw [scanStep_quote letter document state t hopen]
    unfold stringBranch
    simp only [List.drop_succ_cons, List.drop_zero]
    rw [hnone]
  have hi : state.i < document.lines.length := by
    by_contra hc
    have : document.lineAt state.i = [] := by
      unfold TextDocument.lineAt
      rw [List.getD_eq_getElem?_getD, List.getElem?_eq_none (by omega)]
      rfl
    rw [this] at hopen
    simp at hopen
  refine ⟨hstop, ?_⟩
  obtain ⟨f, hf⟩ : ∃ f, fuel = f + 1 := ⟨fuel - 1, by omega⟩
  rw [hrun, hf]
  unfold scanLoop
  rw [if_pos hi, hstop]

/-- C23 at an instance: the scene document `[node name="Root"]` / `k = "open` / `[resource]` /
`n = 1`, whose string opened at (1, 4) is never closed. -/
theorem unterminated_string_witness :
    reached latin1Letter sampleUnterminated 3 = some sampleAtOpenQuote ∧
    sampleUnterminated.closingQuote 1 4 = none ∧
    scanStep latin1Letter sampleUnterminated sampleAtOpenQuote = .stop sampleAtOpenQuote ∧
    provideDocumentSymbols latin1Letter sampleUnterminated =
      .returned ⟨sampleAtOpenQuote.closedRoots, sampleAtOpenQuote.gdasset⟩ :=
  ⟨by rfl, by rfl,
    unterminated_string latin1Letter sampleUnterminated 3 sampleAtOpenQuote (js "open")
      (by decide) (by rfl) (by rfl) (by rfl)⟩

/-! ### The list that holds the properties -/

theorem container_setContainer (state : ScanState) (s : List DocumentSymbol) :
    (state.setContainer s).container = s := by
  cases hc : state.currentSection with
  | none => simp only [ScanState.setContainer, ScanState.container, hc]
  | some sec => simp only [ScanState.setContainer, ScanState.container, hc]

theorem container_extendSection (state : ScanState) (e : Position) :
    (state.extendSection e).container = state.container := by
  cases hc : state.currentSection with
  | none => simp only [ScanState.extendSection, ScanState.container, hc]
  | some sec => simp only [ScanState.extendSection, ScanState.container, hc]

theorem modifyLast_concat {α : Type} (f : α → α) (l : List α) (a : α) :
    modifyLast f (l ++ [a]) = l ++ [f a] := by
  induction l with
  | nil => rfl
  | cons b t ih =>
    cases t with
    | nil => rfl
    | cons c t2 =>
      show b :: modifyLast f ((c :: t2) ++ [a]) = _
      rw [ih]
      rfl

theorem modifyAt_length {α : Type} (f : α → α) (l : List α) (a : α) :
    modifyAt f l.length (l ++ [a]) = l ++ [f a] := by
  induction l with
  | nil => rfl
  | cons b t ih =>
    show b :: modifyAt f t.length (t ++ [a]) = _
    rw [ih]
    rfl

theorem findSymbol_append_new (name : JSString) (l : List DocumentSymbol) (s : DocumentSymbol)
    (h : findSymbol name l = none) (hs : s.name = name) :
    findSymbol name (l ++ [s]) = some l.length := by
  induction l with
  | nil => simp [findSymbol, hs]
  | cons b t ih =>
    simp only [findSymbol] at h
    split at h
    · exact absurd h (by simp)
    · rename_i hb
      simp only [Option.map_eq_none'] at h
      show findSymbol name (b :: (t ++ [s])) = _
      simp only [findSymbol, if_neg hb, ih h, Option.map_some', List.length_cons]

theorem findSymbol_none_iff (name : JSString) (l : List DocumentSymbol) :
    findSymbol name l = none ↔ ∀ s ∈ l, s.name ≠ name := by
  induction l with
  | nil => simp [findSymbol]
  | cons b t ih =>
    simp only [findSymbol]
    by_cases hb : b.name = name
    · simp [hb]
    · simp [hb, ih]

theorem findSymbol_some (name : JSString) (l : List DocumentSymbol) :
    ∀ k, findSymbol name l = some k → ∃ s, l.get? k = some s ∧ s.name = name := by
  induction l with
  | nil => intro k h; simp [findSymbol] at h
  | cons b t ih =>
    intro k h
    simp only [findSymbol] at h
    split at h
    · rename_i hb
      simp only [Option.some.injEq] at h
      subst h
      exact ⟨b, rfl, hb⟩
    · simp only [Option.map_eq_some'] at h
      obtain ⟨a, ha, e⟩ := h
      obtain ⟨s, hs1, hs2⟩ := ih a ha
      subst e
      exact ⟨s, by simpa using hs1, hs2⟩

theorem getLast_modifyLast {α : Type} (f : α → α) (l : List α) :
    (modifyLast f l).getLast? = l.getLast?.map f := by
  induction l with
  | nil => rfl
  | cons b t ih =>
    cases t with
    | nil => rfl
    | cons c t2 =>
      cases t2 with
      | nil => rfl
      | cons d t3 =>
        show (b :: c :: modifyLast f (d :: t3)).getLast? = _
        rw [List.getLast?_cons_cons, List.getLast?_cons_cons]
        exact ih

theorem get_modifyAt {α : Type} (f : α → α) (l : List α) :
    ∀ k, (modifyAt f k l).get? k = (l.get? k).map f := by
  induction l with
  | nil => intro k; cases k <;> rfl
  | cons b t ih =>
    intro k
    cases k with
    | zero => rfl
    | succ k =>
      show (b :: modifyAt f k t).get? (k + 1) = _
      simpa using ih k

/-! ### The property that is open -/

theorem container_afterKey (state : ScanState) (len : Nat) (ref : PropertyRef) :
    (state.afterKey len ref).container = state.container := rfl

theorem propertyAt_modifyProperty (f : DocumentSymbol → DocumentSymbol)
    (s : List DocumentSymbol) (ref : PropertyRef) :
    propertyAt (modifyProperty f s ref) ref = (propertyAt s ref).map f := by
  cases ref with
  | direct => exact getLast_modifyLast f s
  | inGroup k =>
    simp only [propertyAt, modifyProperty, get_modifyAt]
    cases s.get? k with
    | none => rfl
    | some grp =>
      simp only [Option.map_some', Option.some_bind]
      exact getLast_modifyLast f grp.children

theorem afterFragment_container (document : TextDocument) (state : ScanState) (i j : Nat)
    (gdasset : Option GDAsset) :
    (afterFragment document state i j gdasset).container =
      match state.currentProperty with
      | some ref =>
        modifyProperty (fun p => p.stretchTo
          ⟨i, if i > state.i then j else (document.lineAt state.i).length⟩)
          state.container ref
      | none => state.container := by
  unfold afterFragment
  dsimp only
  cases hc : state.currentProperty with
  | none => rfl
  | some ref =>
    dsimp only
    have h := container_setContainer state (modifyProperty (fun p => p.stretchTo
      ⟨i, if i > state.i then j else (document.lineAt state.i).length⟩)
      state.container ref)
    rw [← h]
    rfl

theorem propertyBranch_plain (document : TextDocument) (state : ScanState) (m : PropertyMatch)
    (h : m.prop ≠ []) (hidx : m.index = none ∨ m.index = some []) :
    propertyBranch document state m =
      .next (((state.setContainer (state.container ++
        [{ name := m.prop, detail := [], kind := .Property,
           range := document.restOfLine state.i state.j,
           selectionRange := document.restOfLine state.i state.j, children := [] }])).extendSection
        (document.restOfLine state.i state.j).end_).afterKey m.len .direct) := by
  unfold propertyBranch
  dsimp only
  rw [if_pos (validSymbol_restOfLine document state.i state.j m.prop h)]
  rcases hidx with h1 | h1 <;> rw [h1]

theorem propertyBranch_new_group (document : TextDocument) (state : ScanState)
    (m : PropertyMatch) (x : Nat) (xs : JSString) (h : m.prop ≠ [])
    (hidx : m.index = some (x :: xs))
    (hfind : findSymbol (m.key ++ js "[]") state.container = none) :
    propertyBranch document state m =
      .next (((state.setContainer (state.container ++
        [{ name := m.key ++ js "[]", detail := [], kind := .Array,
           range := Range.new (document.restOfLine state.i state.j).start
             (document.restOfLine state.i state.j).end_,
           selectionRange := document.restOfLine state.i state.j,
           children :=
             [{ name := m.prop, detail := [], kind := .Property,
                range := document.restOfLine state.i state.j,
                selectionRange := document.restOfLine state.i state.j,
                children := [] }] }])).extendSection
        (document.restOfLine state.i state.j).end_).afterKey m.len
          (.inGroup state.container.length)) := by
  unfold propertyBranch
  dsimp only
  rw [if_pos (validSymbol_restOfLine document state.i state.j m.prop h), hidx]
  dsimp only
  rw [hfind]
  dsimp only
  have hp : m.key ++ js "[]" ≠ [] := by
    intro h0
    have := congrArg List.length h0
    simp only [List.length_append, List.length_nil] at this
    have h2 : (js "[]").length = 2 := by decide
    omega
  rw [if_pos (validSymbol_restOfLine document state.i state.j _ hp)]

theorem propertyBranch_old_group (document : TextDocument) (state : ScanState)
    (m : PropertyMatch) (x : Nat) (xs : JSString) (k : Nat) (h : m.prop ≠ [])
    (hidx : m.index = some (x :: xs))
    (hfind : findSymbol (m.key ++ js "[]") state.container = some k) :
    propertyBranch document state m =
      .next (((state.setContainer (modifyAt (fun parentProp =>
          { parentProp with
              range := Range.new parentProp.range.start
                (document.restOfLine state.i state.j).end_
              children := parentProp.children ++
                [{ name := m.prop, detail := [], kind := .Property,
                   range := document.restOfLine state.i state.j,
                   selectionRange := document.restOfLine state.i state.j,
                   children := [] }] }) k state.container)).extendSection
        (document.restOfLine state.i state.j).end_).afterKey m.len (.inGroup k)) := by
  unfold propertyBranch
  dsimp only
  rw [if_pos (validSymbol_restOfLine document state.i state.j m.prop h), hidx]
  dsimp only
  rw [hfind]

/-- After the property branch the new property symbol is the open one. -/
theorem propertyBranch_open (document : TextDocument) (state : ScanState) (m : PropertyMatch)
    (h : m.prop ≠ []) :
    ∃ state' ref, propertyBranch document state m = .next state' ∧
      state'.i = state.i ∧ state'.j = m.len ∧
      state'.currentProperty = some ref ∧
      propertyAt state'.container ref = some
        { name := m.prop, detail := [], kind := .Property,
          range := document.restOfLine state.i state.j,
          selectionRange := document.restOfLine state.i state.j, children := [] } := by
  have hi : ∀ (s : List DocumentSymbol) (ref : PropertyRef),
      (((state.setContainer s).extendSection
        (document.restOfLine state.i state.j).end_).afterKey m.len ref).i = state.i := by
    intro s ref
    show ((state.setContainer s).extendSection _).i = state.i
    rw [(extendSection_fields _ _).1, (setContainer_fields _ _).1]
  have hc : ∀ (s : List DocumentSymbol) (ref : PropertyRef),
      (((state.setContainer s).extendSection
        (document.restOfLine state.i state.j).end_).afterKey m.len ref).container = s := by
    intro s ref
    rw [container_afterKey, container_extendSection, container_setContainer]
  cases hidx : m.index with
  | none =>
    refine ⟨_, _, propertyBranch_plain document state m h (Or.inl hidx), hi _ _, rfl, rfl, ?_⟩
    rw [hc]
    simp [propertyAt]
  | some idx =>
    cases idx with
    | nil =>
      refine ⟨_, _, propertyBranch_plain document state m h (Or.inr hidx), hi _ _, rfl, rfl, ?_⟩
      rw [hc]
      simp [propertyAt]
    | cons x xs =>
      cases hfind : findSymbol (m.key ++ js "[]") state.container with
      | none =>
        refine ⟨_, _, propertyBranch_new_group document state m x xs h hidx hfind, hi _ _, rfl,
          rfl, ?_⟩
        rw [hc]
        simp [propertyAt]
      | some k =>
        refine ⟨_, _, propertyBranch_old_group document state m x xs k h hidx hfind, hi _ _,
          rfl, rfl, ?_⟩
        rw [hc]
        obtain ⟨s, hs1, _⟩ := findSymbol_some _ _ k hfind
        simp only [propertyAt, get_modifyAt, hs1, Option.map_some', Option.some_bind]
        simp

/-- A pass that takes neither the section branch nor the property branch ends the line after a
blank rest or a comment, or consumes one fragment of a value. -/
theorem scanStep_value (letter : Nat → Bool) (document : TextDocument)
    (state state' : ScanState) (hj : state.j ≤ (document.lineAt state.i).length)
    (hv : state.j = 0 → headerMatch letter (document.lineAt state.i) = none ∧
      propertyMatch letter (document.lineAt state.i) = none)
    (h : scanStep letter document state = .next state') :
    (∃ g, commentMatch ((document.lineAt state.i).drop state.j) ≠ none ∧
      state' =
        { state with
          i := state.i + 1, j := 0, gdasset := g,
          previousEnd := some (document.restOfLine state.i state.j).end_ }) ∨
    (∃ i j g, commentMatch ((document.lineAt state.i).drop state.j) = none ∧
      state' = afterFragment document state i j g ∧
      j ≤ (document.lineAt i).length ∧
      ((i = state.i ∧ state.j < j) ∨ (state.i < i ∧ 1 ≤ j))) := by
  rcases scanStep_cases letter document state with
    ⟨tag, rest, hj0, hh, he⟩ | ⟨m, hj0, hp, he⟩ | ⟨sp, c, hcm, he⟩ | ⟨t, ht, hcm, he⟩ |
    ⟨k, hk1, hk2, hcm, _, he⟩
  · rw [hj0, List.drop_zero, (hv hj0).1] at hh
    exact absurd hh (by simp)
  · rw [hj0, List.drop_zero, (hv hj0).2] at hp
    exact absurd hp (by simp)
  · left
    obtain ⟨g, hg⟩ := commentBranch_eq document state sp c
    rw [he, hg] at h
    simp only [StepResult.next.injEq] at h
    exact ⟨g, by rw [hcm]; simp, h.symm⟩
  · right
    rw [he, ht] at h
    rcases stringBranch_cases document state t hj ht with h2 | ⟨i, j, v, h2, hle, hpos⟩
    · rw [h2] at h
      exact absurd h (by simp)
    · rw [h2] at h
      simp only [StepResult.next.injEq] at h
      refine ⟨i, j, _, hcm, h.symm, hle, ?_⟩
      rcases hpos with ⟨a, b⟩ | ⟨a, _, b⟩
      · exact Or.inl ⟨a, by omega⟩
      · exact Or.inr ⟨a, b⟩
  · right
    rw [he] at h
    simp only [StepResult.next.injEq] at h
    rw [List.length_drop] at hk2
    exact ⟨state.i, state.j + k, _, hcm, h.symm, by omega, Or.inl ⟨rfl, by omega⟩⟩

/-- What the end of a fragment pass does to the open property: its start stays, its end moves
to the end of the line of the fragment, or to the end of the fragment when that is on a later
line. -/
theorem afterFragment_open (document : TextDocument) (state : ScanState) (i j : Nat)
    (g : Option GDAsset) (ref : PropertyRef) (p : DocumentSymbol)
    (hcur : state.currentProperty = some ref)
    (hp : propertyAt state.container ref = some p)
    (hstart : p.range.start.isBeforeOrEqual state.cursor = true)
    (hend : p.range.end_.isBeforeOrEqual ⟨state.i, (document.lineAt state.i).length⟩ = true)
    (hj : state.j ≤ (document.lineAt state.i).length)
    (hle : j ≤ (document.lineAt i).length)
    (hpos : (i = state.i ∧ state.j < j) ∨ (state.i < i ∧ 1 ≤ j)) :
    (afterFragment document state i j g).currentProperty = some ref ∧
    ∃ e : Position,
      propertyAt (afterFragment document state i j g).container ref =
        some { p with range := ⟨p.range.start, e⟩ } ∧
      p.range.end_.isBeforeOrEqual e = true ∧
      (Position.mk i j).isBeforeOrEqual e = true ∧
      e.isBeforeOrEqual ⟨i, (document.lineAt i).length⟩ = true := by
  refine ⟨by rw [(afterFragment_fields _ _ _ _ _).2.2.2.2, hcur], ?_⟩
  refine ⟨⟨i, if i > state.i then j else (document.lineAt state.i).length⟩, ?_, ?_, ?_, ?_⟩
  · rw [afterFragment_container, hcur]
    dsimp only
    rw [propertyAt_modifyProperty, hp]
    simp only [Option.map_some', DocumentSymbol.stretchTo]
    rw [Range.new_of_le]
    rw [Position.isBeforeOrEqual_iff] at hstart ⊢
    simp only [ScanState.cursor] at hstart
    rcases hpos with ⟨a, b⟩ | ⟨a, b⟩
    · rw [if_neg (by omega)]
      dsimp only
      omega
    · rw [if_pos (by omega)]
      dsimp only
      omega
  · rw [Position.isBeforeOrEqual_iff] at hend ⊢
    rcases hpos with ⟨a, b⟩ | ⟨a, b⟩
    · rw [if_neg (by omega)]
      dsimp only at hend ⊢
      omega
    · rw [if_pos (by omega)]
      dsimp only at hend ⊢
      omega
  · rw [Position.isBeforeOrEqual_iff]
    rcases hpos with ⟨a, b⟩ | ⟨a, b⟩
    · rw [if_neg (by omega)]
      dsimp only
      rw [a] at hle
      omega
    · rw [if_pos (by omega)]
      dsimp only
      omega
  · rw [Position.isBeforeOrEqual_iff]
    rcases hpos with ⟨a, b⟩ | ⟨a, b⟩
    · rw [if_neg (by omega)]
      dsimp only
      rw [a]
      omega
    · rw [if_pos (by omega)]
      dsimp only
      omega

theorem scanStep_openPropertyOk (letter : Nat → Bool) (document : TextDocument)
    (state state' : ScanState) (hj : state.j ≤ (document.lineAt state.i).length)
    (hP : state.openPropertyOk document) (h : scanStep letter document state = .next state') :
    state'.openPropertyOk document := by
  rcases scanStep_cases letter document state with
    ⟨tag, rest, hj0, hh, he⟩ | ⟨m, hj0, hp, he⟩ | ⟨sp, c, hcm, he⟩ | ⟨t, ht, hcm, he⟩ |
    ⟨k, hk1, hk2, hcm, _, he⟩
  · rw [he, sectionBranch_eq document state tag rest (headerMatch_tag letter _ tag rest hh)] at h
    simp only [StepResult.next.injEq] at h
    intro ref href
    rw [← h] at href
    exact absurd href (by simp)
  · obtain ⟨hm1, hm2, hm3⟩ := propertyMatch_facts letter _ m hp
    obtain ⟨st, ref, hs, hi, hjm, hcur, hat⟩ := propertyBranch_open document state m hm3
    rw [he, hs] at h
    simp only [StepResult.next.injEq] at h
    subst h
    intro ref2 href2
    rw [hcur] at href2
    simp only [Option.some.injEq] at href2
    subst href2
    refine ⟨_, hat, ?_, ?_⟩
    · rw [restOfLine_of_le document state.i state.j hj, Position.isBeforeOrEqual_iff]
      simp only [ScanState.cursor, hi, hjm]
      exact Or.inr ⟨trivial, by omega⟩
    · rw [restOfLine_of_le document state.i state.j hj, Position.isBeforeOrEqual_iff, hi]
      try dsimp only
      omega
  · obtain ⟨g, hg⟩ := commentBranch_eq document state sp c
    rw [he, hg] at h
    simp only [StepResult.next.injEq] at h
    subst h
    intro ref href
    obtain ⟨p, h1, h2, h3⟩ := hP ref href
    refine ⟨p, h1, ?_, ?_⟩
    · rw [Position.isBeforeOrEqual_iff] at h2 ⊢
      simp only [ScanState.cursor] at h2 ⊢
      omega
    · rw [Position.isBeforeOrEqual_iff] at h3 ⊢
      try dsimp only at h3 ⊢
      omega
  · rw [he, ht] at h
    rcases stringBranch_cases document state t hj ht with h2 | ⟨i, j, v, h2, hle, hpos⟩
    · rw [h2] at h
      exact absurd h (by simp)
    · rw [h2] at h
      simp only [StepResult.next.injEq] at h
      subst h
      intro ref href
      rw [(afterFragment_fields _ _ _ _ _).2.2.2.2] at href
      obtain ⟨p, h1, h2, h3⟩ := hP ref href
      have hpos2 : (i = state.i ∧ state.j < j) ∨ (state.i < i ∧ 1 ≤ j) := by
        rcases hpos with ⟨a, b⟩ | ⟨a, _, b⟩
        · exact Or.inl ⟨a, by omega⟩
        · exact Or.inr ⟨a, b⟩
      obtain ⟨_, e, q1, q2, q3, q4⟩ := afterFragment_open document state i j _ ref p href h1 h2
        h3 hj hle hpos2
      refine ⟨_, q1, ?_, ?_⟩
      · rw [Position.isBeforeOrEqual_iff] at h2 ⊢
        simp only [ScanState.cursor, (afterFragment_fields _ _ _ _ _).1,
          (afterFragment_fields _ _ _ _ _).2.1] at h2 ⊢
        try dsimp only
        omega
      · rw [(afterFragment_fields _ _ _ _ _).1]
        exact q4
  · rw [he] at h
    simp only [StepResult.next.injEq] at h
    subst h
    rw [List.length_drop] at hk2
    intro ref href
    rw [(afterFragment_fields _ _ _ _ _).2.2.2.2] at href
    obtain ⟨p, h1, h2, h3⟩ := hP ref href
    obtain ⟨_, e, q1, q2, q3, q4⟩ := afterFragment_open document state state.i (state.j + k)
      state.gdasset ref p href h1 h2 h3 hj (by omega) (Or.inl ⟨rfl, by omega⟩)
    refine ⟨_, q1, ?_, ?_⟩
    · rw [Position.isBeforeOrEqual_iff] at h2 ⊢
      simp only [ScanState.cursor, (afterFragment_fields _ _ _ _ _).1,
        (afterFragment_fields _ _ _ _ _).2.1] at h2 ⊢
      try dsimp only
      omega
    · rw [(afterFragment_fields _ _ _ _ _).1]
      exact q4

theorem initial_openPropertyOk (document : TextDocument) :
    (ScanState.initial document).openPropertyOk document := by
  intro ref href
  simp [ScanState.initial] at href

theorem openProperty_eq_some (state : ScanState) (p : DocumentSymbol)
    (h : state.openProperty = some p) :
    ∃ ref, state.currentProperty = some ref ∧ propertyAt state.container ref = some p := by
  unfold ScanState.openProperty at h
  cases hc : state.currentProperty with
  | none => rw [hc] at h; exact absurd h (by simp)
  | some ref => rw [hc] at h; exact ⟨ref, rfl, h⟩

/-! ### Claim C27: the range of a property covers its value -/

/-- C27: in every state that the scanner reaches, a pass that goes on does the following to
the property symbol that is open.  When the pass takes the property branch on line `i`, the
new open property has the name of the match and the range from (i, 0) to the end of line `i`:
it starts on the line of its key.  When the pass takes neither the section nor the property
branch, the open property keeps its name and the start of its range and its end does not move
back; and when such a pass consumes a fragment of the value (the comment expression does not
match), the new end of the range is at or after the end of the fragment, which is the new
cursor, and at or after the end of every string token recorded so far, so also of the token of
a string that closes on a later line.  Since later passes never move the end back, the final
range ends at or after the end of every fragment. -/
theorem property_range_covers (letter : Nat → Bool) (document : TextDocument) (k : Nat)
    (state state' : ScanState)
    (hreach : reached letter document k = some state)
    (hstep : scanStep letter document state = .next state') :
    (∀ m, state.j = 0 → headerMatch letter (document.lineAt state.i) = none →
      propertyMatch letter (document.lineAt state.i) = some m →
      ∃ p', state'.openProperty = some p' ∧ p'.name = m.prop ∧
        p'.range = ⟨⟨state.i, 0⟩, ⟨state.i, (document.lineAt state.i).length⟩⟩) ∧
    (∀ p, state.openProperty = some p →
      (state.j = 0 → headerMatch letter (document.lineAt state.i) = none ∧
        propertyMatch letter (document.lineAt state.i) = none) →
      ∃ p', state'.openProperty = some p' ∧ p'.name = p.name ∧
        p'.range.start = p.range.start ∧
        p.range.end_.isBeforeOrEqual p'.range.end_ = true ∧
        (commentMatch ((document.lineAt state.i).drop state.j) = none →
          state'.cursor.isBeforeOrEqual p'.range.end_ = true ∧
          ∀ g', state'.gdasset = some g' → ∀ tok ∈ g'.strings,
            tok.range.end_.isBeforeOrEqual p'.range.end_ = true)) := by
  obtain ⟨⟨hT, hO⟩, hj, _⟩ := reached_invariant letter document
    (fun st => st.tokensBehind ∧ st.openPropertyOk document)
    ⟨initial_tokensBehind document, initial_openPropertyOk document⟩
    (fun s s' _ hj hP h =>
      ⟨scanStep_tokensBehind letter document s s' hj hP.1 h,
        scanStep_openPropertyOk letter document s s' hj hP.2 h⟩) k state hreach
  have hT' := scanStep_tokensBehind letter document state state' hj hT hstep
  constructor
  · intro m hj0 hh hp
    obtain ⟨st, ref, hs, _, _, hcur, hat⟩ := propertyBranch_open document state m
      (propertyMatch_facts letter _ m hp).2.2
    rw [scanStep_property letter document state m hj0 hh hp, hs] at hstep
    simp only [StepResult.next.injEq] at hstep
    subst hstep
    refine ⟨_, by unfold ScanState.openProperty; rw [hcur]; exact hat, rfl, ?_⟩
    dsimp only
    rw [hj0]
    exact restOfLine_of_le document state.i 0 (Nat.zero_le _)
  · intro p hp hv
    obtain ⟨ref, hcur, hat⟩ := openProperty_eq_some state p hp
    obtain ⟨p0, h1, h2, h3⟩ := hO ref hcur
    rw [hat] at h1
    simp only [Option.some.injEq] at h1
    subst h1
    rcases scanStep_value letter document state state' hj hv hstep with
      ⟨g, hcm, e⟩ | ⟨i, j, g, hcm, e, hle, hpos⟩
    · subst e
      refine ⟨p, hp, rfl, rfl, Position.le_refl _, ?_⟩
      intro h
      exact absurd h hcm
    · subst e
      obtain ⟨q0, e, q1, q2, q3, q4⟩ := afterFragment_open document state i j g ref p hcur hat
        h2 h3 hj hle hpos
      refine ⟨{ p with range := ⟨p.range.start, e⟩ },
        by unfold ScanState.openProperty; rw [q0]; exact q1, rfl, rfl, q2, ?_⟩
      intro _
      have hc : (afterFragment document state i j g).cursor = ⟨i, j⟩ := by
        unfold ScanState.cursor
        rw [(afterFragment_fields _ _ _ _ _).1, (afterFragment_fields _ _ _ _ _).2.1]
      refine ⟨by rw [hc]; exact q3, ?_⟩
      intro g' hg' tok htok
      have := ((hT' g' hg').1 tok (List.mem_append.mpr (Or.inl htok))).2
      rw [hc] at this
      exact Position.le_trans _ _ _ this q3

/-- C27 at an instance: the pass over the string `"x` / `y"` of the two-line document
`a = "x` / `y" ; c`, which closes on the second line. -/
theorem property_range_covers_witness :
    reached latin1Letter sampleMultiLine 2 = some sampleAtQuote ∧
    scanStep latin1Letter sampleMultiLine sampleAtQuote = .next sampleAfterString ∧
    (∀ m, sampleAtQuote.j = 0 →
      headerMatch latin1Letter (sampleMultiLine.lineAt sampleAtQuote.i) = none →
      propertyMatch latin1Letter (sampleMultiLine.lineAt sampleAtQuote.i) = some m →
      ∃ p', sampleAfterString.openProperty = some p' ∧ p'.name = m.prop ∧
        p'.range = ⟨⟨sampleAtQuote.i, 0⟩,
          ⟨sampleAtQuote.i, (sampleMultiLine.lineAt sampleAtQuote.i).length⟩⟩) ∧
    (∀ p, sampleAtQuote.openProperty = some p →
      (sampleAtQuote.j = 0 →
        headerMatch latin1Letter (sampleMultiLine.lineAt sampleAtQuote.i) = none ∧
        propertyMatch latin1Letter (sampleMultiLine.lineAt sampleAtQuote.i) = none) →
      ∃ p', sampleAfterString.openProperty = some p' ∧ p'.name = p.name ∧
        p'.range.start = p.range.start ∧
        p.range.end_.isBeforeOrEqual p'.range.end_ = true ∧
        (commentMatch ((sampleMultiLine.lineAt sampleAtQuote.i).drop sampleAtQuote.j) = none →
          sampleAfterString.cursor.isBeforeOrEqual p'.range.end_ = true ∧
          ∀ g', sampleAfterString.gdasset = some g' → ∀ tok ∈ g'.strings,
            tok.range.end_.isBeforeOrEqual p'.range.end_ = true)) :=
  ⟨by rfl, by rfl,
    property_range_covers latin1Letter sampleMultiLine 2 sampleAtQuote sampleAfterString
      (by rfl) (by rfl)⟩

/-! ### Indexed properties -/

theorem passes_forward (letter : Nat → Bool) (document : TextDocument) :
    ∀ (k : Nat) (state state' : ScanState), state.j ≤ (document.lineAt state.i).length →
      passes letter document k state = some state' →
      (k = 0 ∧ state' = state) ∨
        (1 ≤ k ∧ (state.i < state'.i ∨ (state.i = state'.i ∧ state.j < state'.j))) := by
  intro k
  induction k with
  | zero =>
    intro state state' _ h
    simp only [passes, Option.some.injEq] at h
    exact Or.inl ⟨rfl, h.symm⟩
  | succ k ih =>
    intro state state' hj h
    simp only [passes] at h
    split at h
    · split at h
      · rename_i st1 hs
        have hc := scanStep_cursor letter document state st1 hj hs
        right
        refine ⟨by omega, ?_⟩
        rcases ih st1 state' hc.1 h with ⟨_, e⟩ | ⟨_, e⟩
        · subst e
          rcases hc.2 with ⟨a, b⟩ | ⟨a, _⟩
          · exact Or.inr ⟨a.symm, b⟩
          · exact Or.inl a
        · rcases hc.2 with ⟨a, b⟩ | ⟨a, _⟩ <;> omega
      · exact absurd h (by simp)
    · exact absurd h (by simp)

theorem passes_succ (letter : Nat → Bool) (document : TextDocument) (k : Nat)
    (state state' : ScanState) (h : passes letter document (k + 1) state = some state') :
    ∃ st1, scanStep letter document state = .next st1 ∧
      passes letter document k st1 = some state' := by
  simp only [passes] at h
  split at h
  · split at h
    · rename_i st1 hs
      exact ⟨st1, hs, h⟩
    · exact absurd h (by simp)
  · exact absurd h (by simp)

theorem map_modifyLast {α β : Type} (f : α → α) (g : α → β) (hg : ∀ a, g (f a) = g a)
    (l : List α) : (modifyLast f l).map g = l.map g := by
  induction l with
  | nil => rfl
  | cons b t ih =>
    cases t with
    | nil => simp [modifyLast, hg]
    | cons c t2 =>
      show g b :: (modifyLast f (c :: t2)).map g = _
      rw [ih]
      rfl

theorem holdsGroup_afterFragment (document : TextDocument) (state : ScanState) (i j : Nat)
    (g : Option GDAsset) (before : List DocumentSymbol) (name : JSString) (range : Range)
    (names : List JSString)
    (hcur : state.currentProperty = some (.inGroup before.length))
    (h : state.holdsGroup before name range names) :
    (afterFragment document state i j g).holdsGroup before name range names := by
  obtain ⟨group, h1, h2, h3, h4, h5, h6⟩ := h
  unfold ScanState.holdsGroup
  rw [afterFragment_container, hcur]
  dsimp only
  rw [h1]
  simp only [modifyProperty]
  rw [modifyAt_length]
  refine ⟨_, rfl, h2, h3, h4, ?_, ?_⟩
  · dsimp only
    rw [map_modifyLast
      (fun p : DocumentSymbol => p.stretchTo
        ⟨i, if i > state.i then j else (document.lineAt state.i).length⟩)
      (fun child : DocumentSymbol => child.name) (fun a => rfl), h5]
  · intro child hchild
    dsimp only at hchild
    rcases mem_modifyLast _ _ _ hchild with hm | ⟨y, hy, e⟩
    · exact h6 child hm
    · rw [e]
      exact h6 y hy

/-- The passes over the rest of a line, after the key of an indexed property and up to the
start of the next line, leave the array symbol of the property as it is, but for the range of
its last child. -/
theorem line_scan (letter : Nat → Bool) (document : TextDocument)
    (before : List DocumentSymbol) (name : JSString) (range : Range) (names : List JSString) :
    ∀ (n : Nat) (state state1 : ScanState), state.j ≤ (document.lineAt state.i).length →
      1 ≤ state.j → state.currentProperty = some (.inGroup before.length) →
      state.holdsGroup before name range names →
      passes letter document n state = some state1 →
      state1.i = state.i + 1 → state1.j = 0 →
      state1.holdsGroup before name range names := by
  intro n
  induction n with
  | zero =>
    intro state state1 _ _ _ _ hp hi _
    simp only [passes, Option.some.injEq] at hp
    rw [← hp] at hi
    omega
  | succ n ih =>
    intro state state1 hj hj1 hcur hG hp hi hj0
    obtain ⟨st2, hs, hp2⟩ := passes_succ letter document n state state1 hp
    have hc := scanStep_cursor letter document state st2 hj hs
    rcases scanStep_value letter document state st2 hj (fun h0 => by omega) hs with
      ⟨g, _, e⟩ | ⟨i, j, g, _, e, hle, hpos⟩
    · have hi2 : st2.i = state.i + 1 := by rw [e]
      have hj2 : st2.j = 0 := by rw [e]
      have hG2 : st2.holdsGroup before name range names := by
        rw [e]
        exact hG
      rcases passes_forward letter document n st2 state1 hc.1 hp2 with ⟨_, e2⟩ | ⟨_, e2⟩
      · rw [e2]
        exact hG2
      · omega
    · have hi2 : st2.i = i := by rw [e]; exact (afterFragment_fields _ _ _ _ _).1
      have hj2 : st2.j = j := by rw [e]; exact (afterFragment_fields _ _ _ _ _).2.1
      rcases hpos with ⟨a, b⟩ | ⟨a, b⟩
      · refine ih st2 state1 hc.1 (by omega) ?_ ?_ hp2 (by omega) hj0
        · rw [e, (afterFragment_fields _ _ _ _ _).2.2.2.2]
          exact hcur
        · rw [e]
          exact holdsGroup_afterFragment document state i j g before name range names hcur hG
      · rcases passes_forward letter document n st2 state1 hc.1 hp2 with ⟨_, e2⟩ | ⟨_, e2⟩
        · rw [e2] at hi hj0
          omega
        · omega

theorem isTagChar_bracket (letter : Nat → Bool) : isTagChar letter 91 = false := by
  have hw : isWord 91 = false := by decide
  have h128 : decide (128 ≤ 91) = false := by decide
  have h45 : ((91 : Nat) == 45) = false := by decide
  simp only [isTagChar, hw, h128, h45, Bool.false_and, Bool.or_self]

theorem takeWhile_ne_nil_head (p : Nat → Bool) (l : List Nat) (h : l.takeWhile p ≠ []) :
    ∃ c t, l = c :: t ∧ p c = true := by
  cases l with
  | nil => exact absurd rfl h
  | cons c t =>
    refine ⟨c, t, rfl, ?_⟩
    by_contra hc
    apply h
    simp [List.takeWhile, hc]

theorem propertyMatchCodePoints_head (letter : Nat → Bool) (text : List Nat)
    (m : Nat × List Nat × List Nat × Option (List Nat))
    (h : propertyMatchCodePoints letter text = some m) :
    (∃ c t, text.dropWhile isSpace = c :: t ∧ c ≠ 91) ∧ ∀ idx, m.2.2.2 = some idx → idx ≠ [] := by
  unfold propertyMatchCodePoints at h
  dsimp only at h
  split at h
  · rename_i hkey
    have hk := isKeyRun_ne_nil letter _ hkey
    obtain ⟨c, t, e, hc⟩ := takeWhile_ne_nil_head _ _ hk
    have hne : c ≠ 91 := by
      intro h0
      subst h0
      simp [isTagChar_bracket] at hc
    refine ⟨⟨c, t, e, hne⟩, ?_⟩
    split at h
    · simp only [Option.some.injEq] at h
      rw [← h]
      intro idx hidx
      exact absurd hidx (by simp)
    · split at h
      · split at h
        · rename_i hidx
          split at h
          · simp only [Option.some.injEq] at h
            rw [← h]
            intro idx e2
            simp only [Option.some.injEq] at e2
            rw [← e2]
            exact hidx
          · exact absurd h (by simp)
        · exact absurd h (by simp)
      · exact absurd h (by simp)
    · exact absurd h (by simp)
  · exact absurd h (by simp)

theorem propertyMatch_not_header (letter : Nat → Bool) (text : JSString) (m : PropertyMatch)
    (h : propertyMatch letter text = some m) :
    headerMatch letter text = none ∧ ∀ idx, m.index = some idx → idx ≠ [] := by
  simp only [propertyMatch, Option.map_eq_some'] at h
  obtain ⟨r, hr, hm⟩ := h
  obtain ⟨⟨c, t, e, hne⟩, hidx⟩ := propertyMatchCodePoints_head letter _ r hr
  constructor
  · unfold headerMatch headerMatchCodePoints
    rw [e]
    split
    · rename_i h91
      simp only [List.cons.injEq] at h91
      exact absurd h91.1 hne
    · rfl
  · intro idx hi
    rw [← hm] at hi
    simp only [Option.map_eq_some'] at hi
    obtain ⟨a, ha, e2⟩ := hi
    rw [← e2]
    exact unitsOf_ne_nil _ (hidx a ha)

/-! ### Claim C26: indexed properties of one key share one array symbol -/

/-- C26: let the scanner stand at the start of a line `i` that the property expression matches
with key `k` and an index, followed by a line that it matches with the same key and an index,
let the list that holds the properties (the children of the current section, or the roots) have
no symbol named `k[]` yet, and let both values be single-line: the scan of line `i` arrives at
the start of line `i + 1` and the scan of line `i + 1` at the start of line `i + 2`.  Then the
list has grown by exactly one symbol; it is named `k[]` and of kind Array, its children are
exactly the two property symbols named by the two matches (`k[a]` and `k[b]`), in that order,
and its range runs from the start of line `i` to the end of line `i + 1`; no other symbol of
the list is named `k[]`. -/
theorem indexed_properties_grouped (letter : Nat → Bool) (document : TextDocument)
    (state state1 state2 : ScanState) (m1 m2 : PropertyMatch) (a b : JSString) (n1 n2 : Nat)
    (hj : state.j = 0)
    (hm1 : propertyMatch letter (document.lineAt state.i) = some m1)
    (ha : m1.index = some a)
    (hm2 : propertyMatch letter (document.lineAt (state.i + 1)) = some m2)
    (hb : m2.index = some b)
    (hkey : m2.key = m1.key)
    (hnew : findSymbol (m1.key ++ js "[]") state.container = none)
    (hline1 : passes letter document n1 state = some state1)
    (hat1 : state1.i = state.i + 1 ∧ state1.j = 0)
    (hline2 : passes letter document n2 state1 = some state2)
    (hat2 : state2.i = state.i + 2 ∧ state2.j = 0) :
    ∃ group first second : DocumentSymbol,
      state2.container = state.container ++ [group] ∧
      group.name = m1.key ++ js "[]" ∧ group.kind = .Array ∧
      group.range = ⟨⟨state.i, 0⟩, ⟨state.i + 1, (document.lineAt (state.i + 1)).length⟩⟩ ∧
      group.children = [first, second] ∧
      first.name = m1.prop ∧ first.kind = .Property ∧ first.children = [] ∧
      second.name = m2.prop ∧ second.kind = .Property ∧ second.children = [] ∧
      ∀ s ∈ state.container, s.name ≠ m1.key ++ js "[]" := by
  obtain ⟨hh1, hi1⟩ := propertyMatch_not_header letter _ m1 hm1
  obtain ⟨hh2, hi2⟩ := propertyMatch_not_header letter _ m2 hm2
  obtain ⟨x1, xs1, ea⟩ : ∃ x xs, a = x :: xs := by
    cases a with
    | nil => exact absurd rfl (hi1 [] ha)
    | cons x xs => exact ⟨x, xs, rfl⟩
  obtain ⟨x2, xs2, eb⟩ : ∃ x xs, b = x :: xs := by
    cases b with
    | nil => exact absurd rfl (hi2 [] hb)
    | cons x xs => exact ⟨x, xs, rfl⟩
  rw [ea] at ha
  rw [eb] at hb
  have hf1 := propertyMatch_facts letter _ m1 hm1
  have hf2 := propertyMatch_facts letter _ m2 hm2
  have hbase : state.j ≤ (document.lineAt state.i).length := by omega
  have hbase1 : state1.j ≤ (document.lineAt state1.i).length := by omega
  -- the first line
  obtain ⟨k1, ek1⟩ : ∃ k, n1 = k + 1 := by
    rcases passes_forward letter document n1 state state1 hbase hline1 with ⟨_, e⟩ | ⟨h1, _⟩
    · rw [e] at hat1; omega
    · exact ⟨n1 - 1, by omega⟩
  rw [ek1] at hline1
  obtain ⟨s1, hs1, hp1⟩ := passes_succ letter document k1 state state1 hline1
  have hc1 := scanStep_cursor letter document state s1 hbase hs1
  rw [scanStep_property letter document state m1 hj hh1 hm1,
    propertyBranch_new_group document state m1 x1 xs1 hf1.2.2 ha hnew] at hs1
  simp only [StepResult.next.injEq] at hs1
  have hr1 : document.restOfLine state.i state.j =
      ⟨⟨state.i, 0⟩, ⟨state.i, (document.lineAt state.i).length⟩⟩ := by
    rw [hj]; exact restOfLine_of_le document state.i 0 (Nat.zero_le _)
  have hs1i : s1.i = state.i := by
    rw [← hs1]
    show ((state.setContainer _).extendSection _).i = state.i
    rw [(extendSection_fields _ _).1, (setContainer_fields _ _).1]
  have hs1j : s1.j = m1.len := by rw [← hs1]; rfl
  have hG1 : s1.holdsGroup state.container (m1.key ++ js "[]")
      ⟨⟨state.i, 0⟩, ⟨state.i, (document.lineAt state.i).length⟩⟩ [m1.prop] := by
    rw [← hs1]
    unfold ScanState.holdsGroup
    rw [container_afterKey, container_extendSection, container_setContainer]
    refine ⟨_, rfl, rfl, rfl, ?_, rfl, ?_⟩
    · dsimp only
      rw [hr1]
      exact Range.new_of_le _ _ (by rw [Position.isBeforeOrEqual_iff]; dsimp only; omega)
    · intro child hchild
      simp only [List.mem_singleton] at hchild
      rw [hchild]
      exact ⟨rfl, rfl⟩
  have hG1' := line_scan letter document state.container (m1.key ++ js "[]") _ [m1.prop] k1 s1
    state1 hc1.1 (by omega) (by rw [← hs1]; rfl) hG1 hp1 (by omega) hat1.2
  -- the second line
  obtain ⟨k2, ek2⟩ : ∃ k, n2 = k + 1 := by
    rcases passes_forward letter document n2 state1 state2 hbase1 hline2 with ⟨_, e⟩ | ⟨h1, _⟩
    · rw [e] at hat2; omega
    · exact ⟨n2 - 1, by omega⟩
  rw [ek2] at hline2
  obtain ⟨s2, hs2, hp2⟩ := passes_succ letter document k2 state1 state2 hline2
  have hc2 := scanStep_cursor letter document state1 s2 hbase1 hs2
  obtain ⟨group1, g1, g2, g3, g4, g5, g6⟩ := hG1'
  have hfind : findSymbol (m2.key ++ js "[]") state1.container = some state.container.length := by
    rw [g1, hkey]
    exact findSymbol_append_new _ _ _ hnew g2
  have hlm2 : document.lineAt state1.i = document.lineAt (state.i + 1) := by rw [hat1.1]
  rw [scanStep_property letter document state1 m2 hat1.2 (by rw [hlm2]; exact hh2)
      (by rw [hlm2]; exact hm2),
    propertyBranch_old_group document state1 m2 x2 xs2 _ hf2.2.2 hb hfind] at hs2
  simp only [StepResult.next.injEq] at hs2
  have hr2 : document.restOfLine state1.i state1.j =
      ⟨⟨state.i + 1, 0⟩, ⟨state.i + 1, (document.lineAt (state.i + 1)).length⟩⟩ := by
    rw [hat1.2, hat1.1]; exact restOfLine_of_le document (state.i + 1) 0 (Nat.zero_le _)
  have hs2i : s2.i = state1.i := by
    rw [← hs2]
    show ((state1.setContainer _).extendSection _).i = state1.i
    rw [(extendSection_fields _ _).1, (setContainer_fields _ _).1]
  have hs2j : s2.j = m2.len := by rw [← hs2]; rfl
  have hG2 : s2.holdsGroup state.container (m1.key ++ js "[]")
      ⟨⟨state.i, 0⟩, ⟨state.i + 1, (document.lineAt (state.i + 1)).length⟩⟩
      [m1.prop, m2.prop] := by
    rw [← hs2]
    unfold ScanState.holdsGroup
    rw [container_afterKey, container_extendSection, container_setContainer, g1,
      modifyAt_length]
    refine ⟨_, rfl, g2, g3, ?_, ?_, ?_⟩
    · dsimp only
      rw [hr2, g4]
      exact Range.new_of_le _ _ (by rw [Position.isBeforeOrEqual_iff]; dsimp only; omega)
    · dsimp only
      rw [List.map_append, g5]
      rfl
    · intro child hchild
      dsimp only at hchild
      rw [List.mem_append, List.mem_singleton] at hchild
      rcases hchild with hc | hc
      · exact g6 child hc
      · rw [hc]
        exact ⟨rfl, rfl⟩
  have hG2' := line_scan letter document state.container (m1.key ++ js "[]") _
    [m1.prop, m2.prop] k2 s2 state2 hc2.1 (by omega) (by rw [← hs2]; rfl) hG2 hp2 (by omega)
    hat2.2
  obtain ⟨group, q1, q2, q3, q4, q5, q6⟩ := hG2'
  obtain ⟨first, second, ech⟩ : ∃ f s, group.children = [f, s] := by
    have hlen := congrArg List.length q5
    simp only [List.length_map, List.length_cons, List.length_nil] at hlen
    match hch : group.children, hlen with
    | [f, s], _ => exact ⟨f, s, rfl⟩
  rw [ech] at q5 q6
  simp only [List.map_cons, List.map_nil, List.cons.injEq, and_true] at q5
  have c1 := q6 first (by simp)
  have c2 := q6 second (by simp)
  exact ⟨group, first, second, q1, q2, q3, q4, ech, q5.1, c1.1, c1.2, q5.2, c2.1, c2.2,
    (findSymbol_none_iff _ _).mp hnew⟩

/-- C26 at the example of the claim: the document `tags[0] = "a"` / `tags[1] = "b"`, from the
start of the document to its end. -/
theorem indexed_properties_grouped_witness :
    propertyMatch latin1Letter (js "tags[0] = \"a\"") =
      some ⟨9, js "tags[0]", js "tags", some (js "0")⟩ ∧
    propertyMatch latin1Letter (js "tags[1] = \"b\"") =
      some ⟨9, js "tags[1]", js "tags", some (js "1")⟩ ∧
    passes latin1Letter sampleIndexed 4 (ScanState.initial sampleIndexed) =
      some sampleIndexedSecondLine ∧
    passes latin1Letter sampleIndexed 4 sampleIndexedSecondLine = some sampleIndexedEnd ∧
    ∃ group first second : DocumentSymbol,
      sampleIndexedEnd.container = (ScanState.initial sampleIndexed).container ++ [group] ∧
      group.name = js "tags" ++ js "[]" ∧ group.kind = .Array ∧
      group.range = ⟨⟨0, 0⟩, ⟨0 + 1, (sampleIndexed.lineAt (0 + 1)).length⟩⟩ ∧
      group.children = [first, second] ∧
      first.name = js "tags[0]" ∧ first.kind = .Property ∧ first.children = [] ∧
      second.name = js "tags[1]" ∧ second.kind = .Property ∧ second.children = [] ∧
      ∀ s ∈ (ScanState.initial sampleIndexed).container, s.name ≠ js "tags" ++ js "[]" :=
  ⟨by rfl, by rfl, by rfl, by rfl,
    indexed_properties_grouped latin1Letter sampleIndexed (ScanState.initial sampleIndexed)
      sampleIndexedSecondLine sampleIndexedEnd ⟨9, js "tags[0]", js "tags", some (js "0")⟩
      ⟨9, js "tags[1]", js "tags", some (js "1")⟩ (js "0") (js "1") 4 4
      (by rfl) (by rfl) (by rfl) (by rfl) (by rfl) (by rfl) (by rfl) (by rfl)
      ⟨by rfl, by rfl⟩ (by rfl) ⟨by rfl, by rfl⟩⟩

/-! ### Header lines that the header expression accepts contribute no tokens -/

theorem lineAt_mem (document : TextDocument) (i : Nat) (h : i < document.lines.length) :
    document.lineAt i ∈ document.lines := by
  unfold TextDocument.lineAt
  rw [List.getD_eq_getElem?_getD, List.getElem?_eq_getElem h]
  exact List.getElem_mem h

/-- Accepted headers: for every document all of whose lines the header expression matches, the
parse returns with an empty list of string tokens and an empty list of comment tokens, so
`isInString`, `isInComment` and `isNonCode` are false at every position. -/
theorem header_lines_no_tokens (letter : Nat → Bool) (document : TextDocument)
    (hall : ∀ line ∈ document.lines, (headerMatch letter line).isSome = true) :
    ∃ result, provideDocumentSymbols letter document = .returned result ∧
      ∀ g, result.gdasset = some g →
        g.strings = [] ∧ g.comments = [] ∧
        ∀ p : Position, g.isInString p = false ∧ g.isInComment p = false ∧
          g.isNonCode p = false := by
  obtain ⟨st, ⟨_, hP⟩, h⟩ := provideDocumentSymbols_invariant letter document
    (fun st => st.j = 0 ∧ ∀ g, st.gdasset = some g → g.strings = [] ∧ g.comments = [])
    ⟨rfl, by
      intro g hg
      simp only [ScanState.initial] at hg
      split at hg
      · exact absurd hg (by simp)
      · simp only [Option.some.injEq] at hg
        rw [← hg]
        exact ⟨rfl, rfl⟩⟩
    (by
      intro state state' hi _ hP hs
      obtain ⟨hj0, hg⟩ := hP
      have hline := hall _ (lineAt_mem document state.i hi)
      obtain ⟨⟨tag, rest⟩, hh⟩ := Option.isSome_iff_exists.mp hline
      rw [scanStep_header letter document state tag rest hj0 hh,
        sectionBranch_eq document state tag rest (headerMatch_tag letter _ tag rest hh)] at hs
      simp only [StepResult.next.injEq] at hs
      rw [← hs]
      refine ⟨hj0, ?_⟩
      intro g' hg'
      simp only [Option.map_eq_some'] at hg'
      obtain ⟨g, h1, h2⟩ := hg'
      rw [← h2, (sectionSymbol_tokens _ _ _ _ _).1, (sectionSymbol_tokens _ _ _ _ _).2]
      exact hg g h1)
  refine ⟨_, h, ?_⟩
  intro g hg
  obtain ⟨h1, h2⟩ := hP g hg
  refine ⟨h1, h2, ?_⟩
  intro p
  simp [GDAsset.isNonCode, GDAsset.isInString, GDAsset.isInComment, h1, h2]

/-- Accepted headers at an instance: a scene document of three header lines, with quoted
attribute values and trailing comments. -/
theorem header_lines_no_tokens_witness :
    (∀ line ∈ sampleHeaders.lines, (headerMatch latin1Letter line).isSome = true) ∧
    ∃ result, provideDocumentSymbols latin1Letter sampleHeaders = .returned result ∧
      ∀ g, result.gdasset = some g →
        g.strings = [] ∧ g.comments = [] ∧
        ∀ p : Position, g.isInString p = false ∧ g.isInComment p = false ∧
          g.isNonCode p = false :=
  ⟨by decide, header_lines_no_tokens latin1Letter sampleHeaders (by decide)⟩

/-! ### Claim C35: the value of a string token -/

theorem scanStringLine_closed_value (s : JSString) (hcr : ∀ x ∈ s, x ≠ 10 ∧ x ≠ 13) (k : Nat)
    (h : closingQuoteIndex s = some k) :
    scanStringLine 0 s = ⟨true, k + 1, unescapeString (s.take k)⟩ := by
  obtain ⟨hk, hdrop⟩ := closingQuoteIndex_lt _ s (le_refl _) k h
  cases s with
  | nil => simp at hk
  | cons c t =>
    have hchunk := stringChunkLen_eq _ (c :: t) (le_refl _) hcr
    rw [h, Option.getD_some] at hchunk
    by_cases hq : c = QUOTE
    · subst hq
      rw [closingQuoteIndex_quote] at h
      simp only [Option.some.injEq] at h
      subst h
      simp [scanStringLine, unescapeString_nil]
    · have hk0 : k ≠ 0 := by
        intro h0
        subst h0
        simp only [List.drop_zero, List.cons.injEq] at hdrop
        exact hq hdrop.1
      simp only [scanStringLine, if_neg hq]
      rw [if_neg (by omega)]
      rw [scanStringLine_skip, hchunk]
      have hd : List.drop (k - 1) t = List.drop k (c :: t) := by
        obtain ⟨m, hm⟩ : ∃ m, k = m + 1 := ⟨k - 1, by omega⟩
        rw [hm]; simp
      rw [hd, hdrop]
      simp [scanStringLine]

theorem scanStringLine_open_value (s : JSString) (hcr : ∀ x ∈ s, x ≠ 10 ∧ x ≠ 13)
    (h : closingQuoteIndex s = none) :
    scanStringLine 0 s = ⟨false, s.length, unescapeString s⟩ := by
  cases s with
  | nil => simp [scanStringLine, unescapeString_nil]
  | cons c t =>
    have hchunk := stringChunkLen_eq _ (c :: t) (le_refl _) hcr
    rw [h, Option.getD_none] at hchunk
    have hq : c ≠ QUOTE := by
      intro h0
      subst h0
      simp [closingQuoteIndex_quote] at h
    simp only [scanStringLine, if_neg hq]
    rw [if_neg (by rw [hchunk]; simp)]
    rw [scanStringLine_skip, hchunk]
    simp [scanStringLine]

theorem rawPieces_ne_nil (later : List JSString) :
    ∀ (first : JSString) (pieces : List JSString),
      rawPieces first later = some pieces → pieces ≠ [] := by
  induction later with
  | nil =>
    intro first pieces h
    simp only [rawPieces, Option.map_eq_some'] at h
    obtain ⟨c, _, e⟩ := h
    rw [← e]; simp
  | cons l ls ih =>
    intro first pieces h
    simp only [rawPieces] at h
    split at h
    · simp only [Option.some.injEq] at h
      rw [← h]; simp
    · simp only [Option.map_eq_some'] at h
      obtain ⟨ps, _, e⟩ := h
      rw [← e]; simp

/-- On lines without CR and LF the loop of the string branch decodes the raw pieces one by one
and joins them with LF. -/
theorem scanString_value (later : List JSString) :
    ∀ (first : JSString) (pieces : List JSString), (∀ x ∈ first, x ≠ 10 ∧ x ≠ 13) →
      (∀ l ∈ later, ∀ x ∈ l, x ≠ 10 ∧ x ≠ 13) →
      rawPieces first later = some pieces →
      ∃ lines advance, scanString first later =
        some ⟨lines, advance, joinLines (pieces.map unescapeString)⟩ := by
  induction later with
  | nil =>
    intro first pieces hf _ h
    simp only [rawPieces, Option.map_eq_some'] at h
    obtain ⟨c, hc, e⟩ := h
    unfold scanString
    rw [scanStringLine_closed_value first hf c hc, ← e]
    exact ⟨_, _, rfl⟩
  | cons l ls ih =>
    intro first pieces hf hl h
    simp only [rawPieces] at h
    unfold scanString
    split at h
    · rename_i c hc
      simp only [Option.some.injEq] at h
      rw [scanStringLine_closed_value first hf c hc, ← h]
      exact ⟨_, _, rfl⟩
    · rename_i hc
      simp only [Option.map_eq_some'] at h
      obtain ⟨ps, hps, e⟩ := h
      obtain ⟨n, adv, hs⟩ := ih l ps (hl l (by simp)) (fun l2 h2 => hl l2 (by simp [h2])) hps
      rw [scanStringLine_open_value first hf hc]
      dsimp only
      rw [if_neg (by simp), hs, ← e]
      have hne := rawPieces_ne_nil ls l ps hps
      refine ⟨n + 1, adv, ?_⟩
      simp only [Option.map_some', Option.some.injEq, StringScan.mk.injEq, true_and,
        List.map_cons]
      cases ps with
      | nil => exact absurd rfl hne
      | cons q t => rfl

/-- C35: when the scanner stands at an opening quote of a string that is closed, and the
content between the quotes has the raw pieces r0, ..., rk (the rest of the line after the
opening quote, the whole lines in between, and the text before the closing quote, which is the
first double quote not escaped by a backslash), the pass records one string token whose value
is the decoded pieces joined by LF: unescapeString(r0) + LF + ... + unescapeString(rk).  Each
line break inside the quotes gives exactly one LF, and a quote after a backslash is part of
its piece. -/
theorem string_token_value (letter : Nat → Bool) (document : TextDocument) (state : ScanState)
    (g : GDAsset) (t : JSString) (pieces : List JSString)
    (hwf : document.wellFormed = true)
    (hg : state.gdasset = some g)
    (hopen : (document.lineAt state.i).drop state.j = QUOTE :: t)
    (hpieces : document.rawPieces state.i state.j = some pieces) :
    ∃ state' range, scanStep letter document state = .next state' ∧
      state'.gdasset = some { g with strings := g.strings ++
        [{ range := range, value := joinLines (pieces.map unescapeString) }] } := by
  have ht : t = (document.lineAt state.i).drop (state.j + 1) := by
    have := congrArg (List.drop 1) hopen
    rw [List.drop_drop] at this
    simp only [List.drop_succ_cons, List.drop_zero] at this
    rw [← this, Nat.add_comm]
  have hft : ∀ x ∈ t, x ≠ 10 ∧ x ≠ 13 := by
    intro x hx
    rw [ht] at hx
    exact wellFormed_lineAt document hwf state.i x (List.mem_of_mem_drop hx)
  unfold TextDocument.rawPieces at hpieces
  rw [← ht] at hpieces
  obtain ⟨n, adv, hs⟩ := scanString_value (document.lines.drop (state.i + 1)) t pieces hft
    (wellFormed_later document hwf _) hpieces
  rw [scanStep_quote letter document state t hopen]
  unfold stringBranch
  simp only [List.drop_succ_cons, List.drop_zero]
  rw [hs]
  dsimp only
  refine ⟨_, Range.new (document.restOfLine state.i state.j).start
    ⟨state.i + n, if n = 0 then state.j + 1 + adv else adv⟩, rfl, ?_⟩
  rw [(afterFragment_fields _ _ _ _ _).2.2.1, hg]

/-- C35 at an instance: the string of the document `a = "x\"y` / `z"`, whose raw pieces are
`x\"y` and `z` and whose value is `x"y`, LF, `z`. -/
theorem string_token_value_witness :
    reached latin1Letter sampleEscaped 2 = some sampleEscapedAtQuote ∧
    sampleEscaped.rawPieces 0 4 = some [js "x\\\"y", js "z"] ∧
    joinLines ([js "x\\\"y", js "z"].map unescapeString) = js "x\"y\nz" ∧
    ∃ state' range, scanStep latin1Letter sampleEscaped sampleEscapedAtQuote = .next state' ∧
      state'.gdasset = some { GDAsset.new with strings := GDAsset.new.strings ++
        [{ range := range,
           value := joinLines ([js "x\\\"y", js "z"].map unescapeString) }] } :=
  ⟨by rfl, by rfl, by rfl,
    string_token_value latin1Letter sampleEscaped sampleEscapedAtQuote GDAsset.new
      (js "x\\\"y") [js "x\\\"y", js "z"] (by decide) (by rfl) (by rfl) (by rfl)⟩

/-! ### Claim C36: the range of an array symbol and the ranges of its children -/

/-- C36: in the document `tags[0] = "a` / `b"`, whose only string is terminated (it closes at
(1, 1)), the array symbol `tags[]` has the range (0, 0) to (0, 12), the end of the first line,
while its child `tags[0]` has the range (0, 0) to (1, 2): the end of the child is not contained
in the range of its parent. -/
theorem group_range_misses_multiline_child :
    sampleIndexedMultiLine.closingQuote 0 10 = some ⟨1, 1⟩ ∧
    (provideDocumentSymbols latin1Letter sampleIndexedMultiLine).rows =
      some [(0, js "tags[]", [], SymbolKind.Array, ⟨⟨0, 0⟩, ⟨0, 12⟩⟩, ⟨⟨0, 0⟩, ⟨0, 12⟩⟩),
        (1, js "tags[0]", [], SymbolKind.Property, ⟨⟨0, 0⟩, ⟨1, 2⟩⟩, ⟨⟨0, 0⟩, ⟨0, 12⟩⟩)] ∧
    (Range.mk ⟨0, 0⟩ ⟨0, 12⟩).contains ⟨1, 2⟩ = false :=
  ⟨by rfl, by rfl, by rfl⟩

/-! ### Claim C37: integer ids and quoted ids -/

theorem isDigit_plain (x : Nat) (h : isDigit x = true) : isPlainChar x = true := by
  simp only [isDigit, Bool.and_eq_true, decide_eq_true_eq] at h
  simp only [isPlainChar, Bool.and_eq_true, bne_iff_ne, ne_eq]
  constructor
  · intro h0
    have hx : x = 34 := h0
    omega
  · intro h0
    have hx : x = 92 := h0
    omega

theorem isDigit_not_space (x : Nat) (h : isDigit x = true) : isSpace x = false := by
  simp only [isDigit, Bool.and_eq_true, decide_eq_true_eq] at h
  have : x = 48 ∨ x = 49 ∨ x = 50 ∨ x = 51 ∨ x = 52 ∨ x = 53 ∨ x = 54 ∨ x = 55 ∨ x = 56 ∨
      x = 57 := by omega
  rcases this with h | h | h | h | h | h | h | h | h | h <;> subst h <;> decide

/-- The resource call expression on `keyword(digits)`. -/
theorem resCallMatch_digits (keyword : JSString) (d : Nat) (digits : JSString)
    (hk : keyword = js "ExtResource" ∨ keyword = js "SubResource")
    (hd : ∀ x ∈ d :: digits, isDigit x = true) :
    resCallMatch (keyword ++ 40 :: (d :: digits ++ [41])) =
      some ⟨keyword, some (d :: digits), none⟩ := by
  have hlen : keyword.length = 11 := by rcases hk with h | h <;> subst h <;> decide
  have e1 : (keyword ++ 40 :: (d :: digits ++ [41])).take 11 = keyword :=
    List.take_left' hlen
  have e2 : (keyword ++ 40 :: (d :: digits ++ [41])).drop 11 = 40 :: (d :: digits ++ [41]) :=
    List.drop_left' hlen
  have e3 : (40 :: (d :: digits ++ [41])).dropWhile isSpace = 40 :: (d :: digits ++ [41]) :=
    dropWhile_cons_stop isSpace 40 _ (by decide)
  have hd0 := hd d (by simp)
  have e4 : (d :: digits ++ [41]).dropWhile isSpace = d :: (digits ++ [41]) :=
    dropWhile_cons_stop isSpace d _ (isDigit_not_space d hd0)
  have e5 : (d :: (digits ++ [41])).dropWhile isDigit = [41] :=
    dropWhile_append_stop isDigit (d :: digits) 41 [] hd (by decide)
  have e6 : (d :: (digits ++ [41])).takeWhile isDigit = d :: digits :=
    takeWhile_append_stop isDigit (d :: digits) 41 [] hd (by decide)
  have e8 : resCallCloses [41] = true := by decide
  simp only [resCallMatch, e1, e2, e3, e4, e5, e6, e8, hk, hd0, if_true]

theorem resCall_digits (gdasset : GDAsset) (keyword : JSString) (d : Nat) (digits : JSString)
    (hk : keyword = js "ExtResource" ∨ keyword = js "SubResource")
    (hd : ∀ x ∈ d :: digits, isDigit x = true) :
    gdasset.resCall (keyword ++ js "(" ++ d :: digits ++ js ")") =
      some ⟨keyword, d :: digits, (gdasset.refs.table keyword).get (d :: digits)⟩ := by
  have e : keyword ++ js "(" ++ d :: digits ++ js ")" =
      keyword ++ 40 :: (d :: digits ++ [41]) := by
    rw [show js "(" = [40] from by decide, show js ")" = [41] from by decide]
    simp
  rw [e]
  simp only [GDAsset.resCall, resCallMatch_digits keyword d digits hk hd]

/-! ### Claim C37, the statement -/

/-- C37: integer ids and quoted ids share one key space per table.  For every non-empty digit
string `d`: the headers `id=d` and `id="d"` declare the same id `d`; after an `ext_resource`
header that declares the id `d`, `resCall` finds the descriptor of that header both on
`ExtResource(d)` and on `ExtResource("d")`, and likewise after a `sub_resource` header on
`SubResource(d)` and `SubResource("d")`, whatever the tables held before; so when two headers
of one kind declare the same id, the lookup returns the descriptor of the later header. -/
theorem ids_share_key_space (docUriPath : JSString) (d : Nat) (digits : JSString)
    (hd : ∀ x ∈ d :: digits, isDigit x = true) :
    (∀ T P : JSString, (QUOTE ∉ T ∧ BACKSLASH ∉ T) → (QUOTE ∉ P ∧ BACKSLASH ∉ P) →
      (sectionAttributes
        (js "type=\"" ++ T ++ js "\" path=\"" ++ P ++ js "\" id=" ++ d :: digits)).2 =
          some (d :: digits) ∧
      (sectionAttributes
        (js "type=\"" ++ T ++ js "\" path=\"" ++ P ++ js "\" id=\"" ++ d :: digits ++
          js "\"")).2 = some (d :: digits)) ∧
    (∀ (rest : JSString) (range : Range) (gdasset : GDAsset),
      (sectionAttributes rest).2 = some (d :: digits) →
      (sectionSymbol docUriPath (js "ext_resource") rest range gdasset).2.resCall
          (js "ExtResource" ++ js "(" ++ d :: digits ++ js ")") =
        some { keyword := js "ExtResource", id := d :: digits,
               resource := .resource
                 { path := ((sectionAttributes rest).1.get "path").getD (js "?"),
                   type := ((sectionAttributes rest).1.get "type").getD [],
                   symbol := range } } ∧
      (sectionSymbol docUriPath (js "ext_resource") rest range gdasset).2.resCall
          (js "ExtResource" ++ js "(\"" ++ d :: digits ++ js "\")") =
        some { keyword := js "ExtResource", id := d :: digits,
               resource := .resource
                 { path := ((sectionAttributes rest).1.get "path").getD (js "?"),
                   type := ((sectionAttributes rest).1.get "type").getD [],
                   symbol := range } }) ∧
    (∀ (rest : JSString) (range : Range) (gdasset : GDAsset),
      (sectionAttributes rest).2 = some (d :: digits) →
      (sectionSymbol docUriPath (js "sub_resource") rest range gdasset).2.resCall
          (js "SubResource" ++ js "(" ++ d :: digits ++ js ")") =
        some { keyword := js "SubResource", id := d :: digits,
               resource := .resource
                 { path := (gdasset.resource.map (fun r => r.path)).getD [] ++
                     (js "::" ++ d :: digits),
                   type := ((sectionAttributes rest).1.get "type").getD [],
                   symbol := range } } ∧
      (sectionSymbol docUriPath (js "sub_resource") rest range gdasset).2.resCall
          (js "SubResource" ++ js "(\"" ++ d :: digits ++ js "\")") =
        some { keyword := js "SubResource", id := d :: digits,
               resource := .resource
                 { path := (gdasset.resource.map (fun r => r.path)).getD [] ++
                     (js "::" ++ d :: digits),
                   type := ((sectionAttributes rest).1.get "type").getD [],
                   symbol := range } }) ∧
    (∀ (rest1 rest2 : JSString) (range1 range2 : Range) (gdasset : GDAsset),
      (sectionAttributes rest1).2 = some (d :: digits) →
      (sectionAttributes rest2).2 = some (d :: digits) →
      (sectionSymbol docUriPath (js "ext_resource") rest2 range2
          (sectionSymbol docUriPath (js "ext_resource") rest1 range1 gdasset).2).2.resCall
          (js "ExtResource" ++ js "(" ++ d :: digits ++ js ")") =
        some { keyword := js "ExtResource", id := d :: digits,
               resource := .resource
                 { path := ((sectionAttributes rest2).1.get "path").getD (js "?"),
                   type := ((sectionAttributes rest2).1.get "type").getD [],
                   symbol := range2 } }) := by
  have hplain : ∀ x ∈ d :: digits, isPlainChar x = true :=
    fun x hx => isDigit_plain x (hd x hx)
  have hne : d :: digits ≠ [] := by simp
  have hext : ∀ (rest : JSString) (range : Range) (gdasset : GDAsset),
      (sectionAttributes rest).2 = some (d :: digits) →
      (sectionSymbol docUriPath (js "ext_resource") rest range gdasset).2.resCall
          (js "ExtResource" ++ js "(" ++ d :: digits ++ js ")") =
        some { keyword := js "ExtResource", id := d :: digits,
               resource := .resource
                 { path := ((sectionAttributes rest).1.get "path").getD (js "?"),
                   type := ((sectionAttributes rest).1.get "type").getD [],
                   symbol := range } } ∧
      (sectionSymbol docUriPath (js "ext_resource") rest range gdasset).2.resCall
          (js "ExtResource" ++ js "(\"" ++ d :: digits ++ js "\")") =
        some { keyword := js "ExtResource", id := d :: digits,
               resource := .resource
                 { path := ((sectionAttributes rest).1.get "path").getD (js "?"),
                   type := ((sectionAttributes rest).1.get "type").getD [],
                   symbol := range } } := by
    intro rest range gdasset hid
    have htab : ((sectionSymbol docUriPath (js "ext_resource") rest range
        gdasset).2.refs.table (js "ExtResource")).get (d :: digits) = .resource
          { path := ((sectionAttributes rest).1.get "path").getD (js "?"),
            type := ((sectionAttributes rest).1.get "type").getD [],
            symbol := range } := by
      rw [sectionSymbol_ext_resource]
      simp only [hid, truthy_some _ hne, if_true, Option.getD_some, Refs.table]
      exact ResourceTable.get_set_same _ _ _
    constructor
    · rw [resCall_digits _ _ d digits (Or.inl rfl) hd, htab]
    · rw [resCall_text, resCall_quoted _ _ _ (Or.inl rfl) hplain, htab]
  refine ⟨?_, hext, ?_, ?_⟩
  · intro T P hT hP
    constructor
    · rw [sectionAttributes_type_path_number T P d digits (isPlainChar_of_not_mem T hT)
        (isPlainChar_of_not_mem P hP) hd]
    · have := sectionAttributes_type_path_id T P (d :: digits) (isPlainChar_of_not_mem T hT)
        (isPlainChar_of_not_mem P hP) hplain
      rw [List.append_assoc] at this ⊢
      rw [this]
  · intro rest range gdasset hid
    have htab : ((sectionSymbol docUriPath (js "sub_resource") rest range
        gdasset).2.refs.table (js "SubResource")).get (d :: digits) = .resource
          { path := (gdasset.resource.map (fun r => r.path)).getD [] ++
              (js "::" ++ d :: digits),
            type := ((sectionAttributes rest).1.get "type").getD [],
            symbol := range } := by
      rw [sectionSymbol_sub_resource]
      simp only [hid, truthy_some _ hne, if_true, Option.getD_some, Refs.table]
      rw [if_neg (by decide)]
      exact ResourceTable.get_set_same _ _ _
    constructor
    · rw [resCall_digits _ _ d digits (Or.inr rfl) hd, htab]
    · rw [resCall_text, resCall_quoted _ _ _ (Or.inr rfl) hplain, htab]
  · intro rest1 rest2 range1 range2 gdasset _ h2
    exact (hext rest2 range2 _ h2).1

/-- C37 at an instance: the id `5`. -/
theorem ids_share_key_space_witness :
    (∀ x ∈ (53 :: [] : JSString), isDigit x = true) ∧
    (sectionSymbol (js "/proj/a.tscn") (js "ext_resource")
        (js "type=\"Texture2D\" path=\"res://b.png\" id=\"5\"") ⟨⟨2, 0⟩, ⟨2, 50⟩⟩
        (sectionSymbol (js "/proj/a.tscn") (js "ext_resource")
          (js "type=\"Texture2D\" path=\"res://a.png\" id=5") ⟨⟨1, 0⟩, ⟨1, 48⟩⟩
          GDAsset.new).2).2.resCall (js "ExtResource" ++ js "(" ++ 53 :: [] ++ js ")") =
      some { keyword := js "ExtResource", id := [53],
             resource := .resource
               { path := ((sectionAttributes
                    (js "type=\"Texture2D\" path=\"res://b.png\" id=\"5\"")).1.get
                    "path").getD (js "?"),
                 type := ((sectionAttributes
                    (js "type=\"Texture2D\" path=\"res://b.png\" id=\"5\"")).1.get
                    "type").getD [],
                 symbol := ⟨⟨2, 0⟩, ⟨2, 50⟩⟩ } } :=
  ⟨by decide,
    (ids_share_key_space (js "/proj/a.tscn") 53 [] (by decide)).2.2.2
      (js "type=\"Texture2D\" path=\"res://a.png\" id=5")
      (js "type=\"Texture2D\" path=\"res://b.png\" id=\"5\"") ⟨⟨1, 0⟩, ⟨1, 48⟩⟩ ⟨⟨2, 0⟩, ⟨2, 50⟩⟩
      GDAsset.new (by decide) (by decide)⟩

/-! ### The language mode of a document -/

/-- One pass of the loop does not read the language of the document. -/
theorem scanStep_language (letter : Nat → Bool) (l1 l2 uri uriPath : JSString)
    (lines : List JSString) (state : ScanState) :
    scanStep letter ⟨l1, uri, uriPath, lines⟩ state =
      scanStep letter ⟨l2, uri, uriPath, lines⟩ state := rfl

/-- The loop does not read the language of the document. -/
theorem scanLoop_language (letter : Nat → Bool) (l1 l2 uri uriPath : JSString)
    (lines : List JSString) (fuel : Nat) (state : ScanState) :
    scanLoop letter ⟨l1, uri, uriPath, lines⟩ fuel state =
      scanLoop letter ⟨l2, uri, uriPath, lines⟩ fuel state := by
  induction fuel generalizing state with
  | zero => rfl
  | succ n ih =>
    simp only [scanLoop]
    rw [scanStep_language letter l1 l2]
    split
    · cases scanStep letter ⟨l2, uri, uriPath, lines⟩ state with
      | next s => exact ih s
      | stop s => rfl
      | thrown => rfl
    · rfl

/-- The result depends on the language mode: the document with the one line `[foo bar=1]`
under the URI `file:///proj/a.tres`, once in the language mode `godot-resource` and once in
the mode `config-definition`.  The lines and the URI are the same; the first run gives a symbol of the
kind Namespace and a state with (empty) tables and lists, the second a symbol of the kind
Object and no state. -/
theorem same_text_other_language :
    sampleUnknownTag.lines = sampleUnknownTagAsConfig.lines ∧
    sampleUnknownTag.uri = sampleUnknownTagAsConfig.uri ∧
    sampleUnknownTag.uriPath = sampleUnknownTagAsConfig.uriPath ∧
    (provideDocumentSymbols latin1Letter sampleUnknownTag).rows =
      some [(0, js "foo", js "bar=1", SymbolKind.Namespace,
        ⟨⟨0, 0⟩, ⟨0, 11⟩⟩, ⟨⟨0, 0⟩, ⟨0, 11⟩⟩)] ∧
    (provideDocumentSymbols latin1Letter sampleUnknownTagAsConfig).rows =
      some [(0, js "foo", js "bar=1", SymbolKind.Object,
        ⟨⟨0, 0⟩, ⟨0, 11⟩⟩, ⟨⟨0, 0⟩, ⟨0, 11⟩⟩)] ∧
    (provideDocumentSymbols latin1Letter sampleUnknownTag).gdasset = some GDAsset.new ∧
    (provideDocumentSymbols latin1Letter sampleUnknownTagAsConfig).gdasset = none :=
  ⟨by rfl, by rfl, by rfl, by rfl, by rfl, by rfl, by rfl⟩

/-- Two runs of `provideDocumentSymbols` on documents with the same lines and the
same URI that agree on whether their language is `config-definition` end in the same way, with
equal symbol trees and equal states (string and comment lists, resource tables, root node). -/
theorem parse_deterministic (letter : Nat → Bool) (doc1 doc2 : TextDocument)
    (hlines : doc1.lines = doc2.lines) (huri : doc1.uri = doc2.uri)
    (hpath : doc1.uriPath = doc2.uriPath)
    (hlang : doc1.languageId = js "config-definition" ↔
      doc2.languageId = js "config-definition") :
    provideDocumentSymbols letter doc1 = provideDocumentSymbols letter doc2 := by
  cases doc1 with
  | mk l1 u1 p1 L1 =>
    cases doc2 with
    | mk l2 u2 p2 L2 =>
      simp only at hlines huri hpath hlang
      subst hlines huri hpath
      have hinit : ScanState.initial ⟨l1, u1, p1, L1⟩ = ScanState.initial ⟨l2, u1, p1, L1⟩ := by
        unfold ScanState.initial
        by_cases h : l1 = js "config-definition"
        · simp only [h, hlang.mp h, if_true]
        · have h2 : ¬ l2 = js "config-definition" := fun e => h (hlang.mpr e)
          simp only [h, h2, if_false]
      unfold provideDocumentSymbols
      rw [hinit, scanLoop_language letter l1 l2]
      rfl

/-- The two runs at an instance: the line `a = "x"` as a resource and as a scene. -/
theorem parse_deterministic_witness :
    sampleQuoted.lines = sampleQuotedAsScene.lines ∧
    sampleQuoted.languageId ≠ sampleQuotedAsScene.languageId ∧
    provideDocumentSymbols latin1Letter sampleQuoted =
      provideDocumentSymbols latin1Letter sampleQuotedAsScene :=
  ⟨by rfl, by decide,
    parse_deterministic latin1Letter sampleQuoted sampleQuotedAsScene (by rfl) (by rfl) (by rfl)
      (by decide)⟩

/-! ### Claim C32: a query through `parsedGDAsset` -/

theorem Defs.get_after_set (defs : Defs) (key : JSString) (gdasset : GDAsset) :
    (defs.set key gdasset).get key = some gdasset := by
  simp [Defs.get, Defs.set]

/-- A scan of a document that is not a `config-definition` returns with a state. -/
theorem provideDocumentSymbols_state (letter : Nat → Bool) (document : TextDocument)
    (hlang : document.languageId ≠ js "config-definition") :
    ∃ result gdasset, provideDocumentSymbols letter document = .returned result ∧
      result.gdasset = some gdasset := by
  have h0 : (ScanState.initial document).gdasset = some GDAsset.new := by
    simp only [ScanState.initial, if_neg hlang]
  obtain ⟨result, g, _, h1, h2, _⟩ := scanLoop_strings letter document document.passes
    (ScanState.initial document) GDAsset.new (Nat.zero_le _) h0 (initial_remaining document)
  exact ⟨result, g, h1, h2⟩

/-- C32, the instance against it: a provider that has answered a query on the document
`a = "x"` is asked about the document of the same URI after an edit to `a = "xyz"`.  It scans
nothing and returns the state built from the old text, whose one string token is `x` at
(0,4)-(0,7); a scan of the current text gives the token `xyz` at (0,4)-(0,9). -/
theorem cached_state_survives_edit :
    sampleQuotedEdited.uri = sampleQuoted.uri ∧
    sampleQuotedEdited.lines ≠ sampleQuoted.lines ∧
    sampleProvider.defs.get sampleQuoted.uri =
      (provideDocumentSymbols latin1Letter sampleQuoted).gdasset ∧
    (sampleProvider.parsedGDAsset latin1Letter sampleQuotedEdited).2 =
      (provideDocumentSymbols latin1Letter sampleQuoted).gdasset ∧
    (sampleProvider.parsedGDAsset latin1Letter sampleQuotedEdited).2 ≠
      (provideDocumentSymbols latin1Letter sampleQuotedEdited).gdasset ∧
    ((sampleProvider.parsedGDAsset latin1Letter sampleQuotedEdited).2.map
      (fun gdasset => gdasset.strings)) = some [⟨⟨⟨0, 4⟩, ⟨0, 7⟩⟩, js "x"⟩] ∧
    ((provideDocumentSymbols latin1Letter sampleQuotedEdited).gdasset.map
      (fun gdasset => gdasset.strings)) = some [⟨⟨⟨0, 4⟩, ⟨0, 9⟩⟩, js "xyz"⟩] ∧
    (sampleProvider.parsedGDAsset latin1Letter sampleQuotedEdited).1.defs =
      sampleProvider.defs :=
  ⟨by rfl, by decide, by rfl, by rfl, by decide, by rfl, by rfl, by rfl⟩

/-- C32, amended: a query through `parsedGDAsset` returns `undefined` for a `config-definition`
document; otherwise, when a state is cached under the document's URI, it returns that state
and leaves the table as it is, whatever text the state was built from; and only when no state
is cached under the URI it performs a scan of the document's current text, which returns a
state, stores that state under the URI and returns it. -/
theorem parsedGDAsset_returns_cached (letter : Nat → Bool) (provider : GDAssetProvider)
    (document : TextDocument) :
    (document.languageId = js "config-definition" →
      provider.parsedGDAsset letter document = (provider, none)) ∧
    (document.languageId ≠ js "config-definition" →
      ∀ gdasset, provider.defs.get document.uri = some gdasset →
        provider.parsedGDAsset letter document = (provider, some gdasset)) ∧
    (document.languageId ≠ js "config-definition" →
      provider.defs.get document.uri = none →
        ∃ result gdasset, provideDocumentSymbols letter document = .returned result ∧
          result.gdasset = some gdasset ∧
          (provider.parsedGDAsset letter document).2 = some gdasset ∧
          (provider.parsedGDAsset letter document).1.defs.get document.uri =
            some gdasset) := by
  refine ⟨?_, ?_, ?_⟩
  · intro h
    simp only [GDAssetProvider.parsedGDAsset, if_pos h]
  · intro h gdasset hg
    simp only [GDAssetProvider.parsedGDAsset, if_neg h, hg]
  · intro h hg
    obtain ⟨result, gdasset, h1, h2⟩ := provideDocumentSymbols_state letter document h
    have h3 : (provideDocumentSymbols letter document).gdasset = some gdasset := by
      rw [h1]; exact h2
    have h4 : (provider.provideDocumentSymbols letter document).defs.get document.uri =
        some gdasset := by
      simp only [GDAssetProvider.provideDocumentSymbols, h3]
      exact Defs.get_after_set _ _ _
    refine ⟨result, gdasset, h1, h2, ?_, ?_⟩
    · simp only [GDAssetProvider.parsedGDAsset, if_neg h, hg, h4]
    · simp only [GDAssetProvider.parsedGDAsset, if_neg h, hg, h4]

/-- C32, amended, at an instance: the first query on `a = "x"` scans it; the query after the
edit returns the cached state. -/
theorem parsedGDAsset_returns_cached_witness :
    sampleQuoted.languageId ≠ js "config-definition" ∧
    (GDAssetProvider.mk []).defs.get sampleQuoted.uri = none ∧
    (∃ result gdasset, provideDocumentSymbols latin1Letter sampleQuoted = .returned result ∧
      result.gdasset = some gdasset ∧
      ((GDAssetProvider.mk []).parsedGDAsset latin1Letter sampleQuoted).2 = some gdasset ∧
      ((GDAssetProvider.mk []).parsedGDAsset latin1Letter sampleQuoted).1.defs.get
        sampleQuoted.uri = some gdasset) ∧
    sampleQuotedEdited.languageId ≠ js "config-definition" ∧
    sampleProvider.defs.get sampleQuotedEdited.uri =
      some ⟨none, none, ⟨⟨[], none⟩, ⟨[], none⟩⟩, [⟨⟨⟨0, 4⟩, ⟨0, 7⟩⟩, js "x"⟩], []⟩ ∧
    sampleProvider.parsedGDAsset latin1Letter sampleQuotedEdited =
      (sampleProvider,
        some ⟨none, none, ⟨⟨[], none⟩, ⟨[], none⟩⟩, [⟨⟨⟨0, 4⟩, ⟨0, 7⟩⟩, js "x"⟩], []⟩) :=
  ⟨by decide, by rfl,
    (parsedGDAsset_returns_cached latin1Letter (GDAssetProvider.mk []) sampleQuoted).2.2
      (by decide) (by rfl),
    by decide, by rfl,
    (parsedGDAsset_returns_cached latin1Letter sampleProvider sampleQuotedEdited).2.1
      (by decide) _ (by rfl)⟩

/-! ### Claim C34: `boardEqual` -/

/-- C34: `boardEqual(a, b)` is true if and only if either both boards are absent, or both are
present and their keys are equal; so `boardEqual` is reflexive, symmetric and transitive on
boards that may be absent. -/
theorem boardEqual_iff (a b : Option Board) :
    (boardEqual a b = true ↔
      (a = none ∧ b = none) ∨ ∃ x y, a = some x ∧ b = some y ∧ x.key = y.key) ∧
    boardEqual a a = true ∧
    (boardEqual a b = true → boardEqual b a = true) ∧
    (∀ c : Option Board, boardEqual a b = true → boardEqual b c = true →
      boardEqual a c = true) := by
  refine ⟨?_, ?_, ?_, ?_⟩
  · cases a <;> cases b <;> simp [boardEqual]
  · cases a <;> simp [boardEqual]
  · cases a <;> cases b <;> simp [boardEqual]
    intro h
    exact h.symm
  · intro c
    cases a <;> cases b <;> cases c <;> simp [boardEqual]
    intro h1 h2
    exact h1.trans h2

/-- C34 at an instance: two boards of one package, architecture and name with different menu
maps are equal to `boardEqual`, in both orders. -/
theorem boardEqual_iff_witness :
    boardEqual (some (Board.new (js "uno") ⟨none, js "avr", js "arduino"⟩ []))
      (some (Board.new (js "uno") ⟨some (js "arduino"), js "avr", js "other"⟩
        [(js "cpu", js "Processor")])) = true ∧
    boardEqual (some (Board.new (js "uno") ⟨some (js "arduino"), js "avr", js "other"⟩
        [(js "cpu", js "Processor")]))
      (some (Board.new (js "uno") ⟨none, js "avr", js "arduino"⟩ [])) = true ∧
    boardEqual (some (Board.new (js "uno") ⟨none, js "avr", js "arduino"⟩ [])) none = false :=
  ⟨by decide,
    (boardEqual_iff (some (Board.new (js "uno") ⟨none, js "avr", js "arduino"⟩ []))
      (some (Board.new (js "uno") ⟨some (js "arduino"), js "avr", js "other"⟩
        [(js "cpu", js "Processor")]))).2.2.1 (by decide),
    by decide⟩

/-! ### Claim C33: the result of `updateConfig` -/

theorem select_absent (target : ConfigItem) (optionId : JSString) (options : List ConfigOption)
    (h : ∀ o ∈ options, o.id ≠ optionId) :
    target.select optionId options = (target, .InvalidOptionID) := by
  induction options with
  | nil => rfl
  | cons o rest ih =>
    rw [ConfigItem.select, if_neg (h o (List.mem_cons_self _ _))]
    exact ih (fun x hx => h x (List.mem_cons_of_mem _ hx))

theorem select_present (target : ConfigItem) (optionId : JSString) (options : List ConfigOption)
    (h : ∃ o ∈ options, o.id = optionId) :
    target.select optionId options =
      if target.selectedOption ≠ optionId then
        ({ target with selectedOption := optionId }, .Success)
      else (target, .SuccessNoChange) := by
  induction options with
  | nil => simp at h
  | cons o rest ih =>
    rw [ConfigItem.select]
    by_cases ho : o.id = optionId
    · rw [if_pos ho]
    · rw [if_neg ho]
      apply ih
      obtain ⟨x, hx, e⟩ := h
      rcases List.mem_cons.mp hx with rfl | hx
      · exact absurd e ho
      · exact ⟨x, hx, e⟩

theorem updateItems_absent (configId optionId : JSString) (items : List ConfigItem)
    (h : ∀ item ∈ items, item.id ≠ configId) :
    updateItems configId optionId items = (items, .InvalidConfigID) := by
  induction items with
  | nil => rfl
  | cons item rest ih =>
    rw [updateItems, if_neg (h item (List.mem_cons_self _ _)),
      ih (fun x hx => h x (List.mem_cons_of_mem _ hx))]

theorem updateItems_target (configId optionId : JSString) (before : List ConfigItem)
    (target : ConfigItem) (after : List ConfigItem)
    (hb : ∀ item ∈ before, item.id ≠ configId) (ht : target.id = configId) :
    updateItems configId optionId (before ++ target :: after) =
      (before ++ (target.select optionId target.options).1 :: after,
        (target.select optionId target.options).2) := by
  induction before with
  | nil => simp only [List.nil_append, updateItems, if_pos ht]
  | cons item rest ih =>
    rw [List.cons_append, updateItems, if_neg (hb item (List.mem_cons_self _ _)),
      ih (fun x hx => hb x (List.mem_cons_of_mem _ hx))]
    rfl

/-- The first item of an id, when there is one. -/
theorem first_of_id (configId : JSString) (items : List ConfigItem)
    (h : ∃ item ∈ items, item.id = configId) :
    ∃ before target after, items = before ++ target :: after ∧
      (∀ item ∈ before, item.id ≠ configId) ∧ target.id = configId := by
  induction items with
  | nil => simp at h
  | cons item rest ih =>
    by_cases hi : item.id = configId
    · exact ⟨[], item, rest, rfl, by simp, hi⟩
    · obtain ⟨x, hx, e⟩ := h
      rcases List.mem_cons.mp hx with rfl | hx
      · exact absurd e hi
      · obtain ⟨before, target, after, h1, h2, h3⟩ := ih ⟨x, hx, e⟩
        refine ⟨item :: before, target, after, by rw [h1]; rfl, ?_, h3⟩
        intro y hy
        rcases List.mem_cons.mp hy with rfl | hy
        · exact hi
        · exact h2 y hy

theorem select_result (target : ConfigItem) (optionId : JSString) :
    ((∀ o ∈ target.options, o.id ≠ optionId) ∧
      target.select optionId target.options = (target, .InvalidOptionID)) ∨
    ((∃ o ∈ target.options, o.id = optionId) ∧ target.selectedOption = optionId ∧
      target.select optionId target.options = (target, .SuccessNoChange)) ∨
    ((∃ o ∈ target.options, o.id = optionId) ∧ target.selectedOption ≠ optionId ∧
      target.select optionId target.options =
        ({ target with selectedOption := optionId }, .Success)) := by
  by_cases h : ∃ o ∈ target.options, o.id = optionId
  · have e := select_present target optionId target.options h
    by_cases hs : target.selectedOption = optionId
    · rw [if_neg (not_not.mpr hs)] at e
      exact Or.inr (Or.inl ⟨h, hs, e⟩)
    · rw [if_pos hs] at e
      exact Or.inr (Or.inr ⟨h, hs, e⟩)
  · have h2 : ∀ o ∈ target.options, o.id ≠ optionId := fun o ho e => h ⟨o, ho, e⟩
    exact Or.inl ⟨h2, select_absent target optionId target.options h2⟩

/-- C33: `updateConfig(configId, optionId)` returns `InvalidConfigID` exactly when no config
item has the id `configId`.  Otherwise, for the first item of that id (the target): it returns
`InvalidOptionID` exactly when `optionId` is the id of none of the target's options; when it is
the id of one of them, it returns `SuccessNoChange` exactly when the target's `selectedOption`
is `optionId` already, and else `Success`, and then the board is the board before with the
target's `selectedOption` set to `optionId` and every other item as it was.  Whenever the
result is not `Success` the board is unchanged. -/
theorem updateConfig_result (board : Board) (configId optionId : JSString) :
    ((board.updateConfig configId optionId).2 = .InvalidConfigID ↔
      ∀ item ∈ board._configItems, item.id ≠ configId) ∧
    (∀ (before : List ConfigItem) (target : ConfigItem) (after : List ConfigItem),
      board._configItems = before ++ target :: after →
      (∀ item ∈ before, item.id ≠ configId) → target.id = configId →
      ((board.updateConfig configId optionId).2 = .InvalidOptionID ↔
        ∀ o ∈ target.options, o.id ≠ optionId) ∧
      ((∃ o ∈ target.options, o.id = optionId) →
        ((board.updateConfig configId optionId).2 = .SuccessNoChange ↔
          target.selectedOption = optionId) ∧
        (target.selectedOption ≠ optionId →
          board.updateConfig configId optionId =
            ({ board with
               _configItems :=
                 before ++ { target with selectedOption := optionId } :: after },
              .Success)))) ∧
    ((board.updateConfig configId optionId).2 ≠ .Success →
      (board.updateConfig configId optionId).1 = board) := by
  have key : ∀ (before : List ConfigItem) (target : ConfigItem) (after : List ConfigItem),
      board._configItems = before ++ target :: after →
      (∀ item ∈ before, item.id ≠ configId) → target.id = configId →
      board.updateConfig configId optionId =
        ({ board with
           _configItems := before ++ (target.select optionId target.options).1 :: after },
          (target.select optionId target.options).2) := by
    intro before target after h hb ht
    unfold Board.updateConfig
    rw [h, updateItems_target configId optionId before target after hb ht]
  refine ⟨?_, ?_, ?_⟩
  · constructor
    · intro h item hi e
      obtain ⟨before, target, after, h1, h2, h3⟩ := first_of_id configId board._configItems
        ⟨item, hi, e⟩
      rw [key before target after h1 h2 h3] at h
      rcases select_result target optionId with ⟨_, r⟩ | ⟨_, _, r⟩ | ⟨_, _, r⟩ <;>
        rw [r] at h <;> simp at h
    · intro h
      unfold Board.updateConfig
      rw [updateItems_absent configId optionId _ h]
  · intro before target after h hb ht
    rw [key before target after h hb ht]
    rcases select_result target optionId with ⟨a, r⟩ | ⟨a, b, r⟩ | ⟨a, b, r⟩
    · rw [r]
      refine ⟨⟨fun _ => a, fun _ => rfl⟩, ?_⟩
      intro ⟨o, ho, e⟩
      exact absurd e (a o ho)
    · rw [r]
      refine ⟨⟨fun e => by simp at e, ?_⟩, ?_⟩
      · intro hall
        obtain ⟨o, ho, e⟩ := a
        exact absurd e (hall o ho)
      · intro _
        exact ⟨⟨fun _ => b, fun _ => rfl⟩, fun hne => absurd b hne⟩
    · rw [r]
      refine ⟨⟨fun e => by simp at e, ?_⟩, ?_⟩
      · intro hall
        obtain ⟨o, ho, e⟩ := a
        exact absurd e (hall o ho)
      · intro _
        exact ⟨⟨fun e => by simp at e, fun e => absurd e b⟩, fun _ => rfl⟩
  · intro hne
    by_cases hex : ∃ item ∈ board._configItems, item.id = configId
    · obtain ⟨before, target, after, h1, h2, h3⟩ := first_of_id configId board._configItems hex
      rw [key before target after h1 h2 h3] at hne ⊢
      rcases select_result target optionId with ⟨_, r⟩ | ⟨_, _, r⟩ | ⟨_, _, r⟩
      · rw [r]
        dsimp only
        rw [← h1]
      · rw [r]
        dsimp only
        rw [← h1]
      · rw [r] at hne
        exact absurd rfl hne
    · have hall : ∀ item ∈ board._configItems, item.id ≠ configId :=
        fun item hi e => hex ⟨item, hi, e⟩
      unfold Board.updateConfig
      rw [updateItems_absent configId optionId _ hall]

/-- C33 at an instance: on the board `nano` with the one item `cpu`, selected to `atmega328`,
`updateConfig("cpu", "atmega168")` returns `Success` and selects `atmega168`. -/
theorem updateConfig_result_witness :
    sampleBoard._configItems = [] ++ sampleCpu :: [] ∧
    sampleBoard.updateConfig (js "cpu") (js "atmega168") =
      ({ sampleBoard with
         _configItems := [] ++ { sampleCpu with selectedOption := js "atmega168" } :: [] },
        .Success) ∧
    (sampleBoard.updateConfig (js "cpu") (js "atmega328")).2 = .SuccessNoChange ∧
    (sampleBoard.updateConfig (js "cpu") (js "atmega8")).2 = .InvalidOptionID ∧
    (sampleBoard.updateConfig (js "clock") (js "atmega168")).2 = .InvalidConfigID :=
  ⟨by decide,
    (((updateConfig_result sampleBoard (js "cpu") (js "atmega168")).2.1 [] sampleCpu []
      (by decide) (by simp) (by decide)).2
        ⟨⟨js "atmega168", js "ATmega168"⟩, by decide, by decide⟩).2 (by decide),
    by decide, by decide, by decide⟩

/-! ### Claim C39: the options of every config item stay in order -/

theorem find_option_some (options : List ConfigOption) (optionId : JSString) (o : ConfigOption)
    (h : options.find? (fun opt => opt.id == optionId) = some o) :
    optionId ∈ options.map (fun o => o.id) := by
  have h1 := List.find?_some h
  have h2 := List.mem_of_find?_eq_some h
  simp only [beq_iff_eq] at h1
  exact List.mem_map.mpr ⟨o, h2, h1⟩

theorem find_option_none (options : List ConfigOption) (optionId : JSString)
    (h : options.find? (fun opt => opt.id == optionId) = none) :
    optionId ∉ options.map (fun o => o.id) := by
  intro hm
  obtain ⟨o, ho, e⟩ := List.mem_map.mp hm
  have := List.find?_eq_none.mp h o ho
  simp [e] at this

theorem addOption_valid (item : ConfigItem) (optionId value : JSString) (h : item.valid) :
    (item.addOption optionId value).valid := by
  obtain ⟨h1, h2, h3⟩ := h
  unfold ConfigItem.addOption
  cases hf : item.options.find? (fun opt => opt.id == optionId) with
  | some o =>
    have hm := find_option_some item.options optionId o hf
    refine ⟨h1, h2, ?_⟩
    dsimp only
    split
    · exact hm
    · exact h3
  | none =>
    have hm := find_option_none item.options optionId hf
    refine ⟨by simp, ?_, ?_⟩
    · dsimp only
      rw [List.map_append, List.nodup_append]
      refine ⟨h2, by simp, ?_⟩
      intro a ha hb
      simp only [List.map_cons, List.map_nil, List.mem_singleton] at hb
      exact hm (hb ▸ ha)
    · dsimp only
      rw [List.map_append]
      split
      · simp
      · exact List.mem_append_left _ h3

theorem addToItems_valid (displayName : Option JSString) (configId optionId value : JSString)
    (items : List ConfigItem) (h : ∀ item ∈ items, item.valid) :
    ∀ item ∈ addToItems displayName configId optionId value items, item.valid := by
  induction items with
  | nil =>
    intro item hi
    simp only [addToItems, List.mem_singleton] at hi
    subst hi
    exact ⟨by simp, by simp, by simp⟩
  | cons c rest ih =>
    intro item hi
    rw [addToItems] at hi
    split at hi
    · rcases List.mem_cons.mp hi with rfl | hi
      · exact addOption_valid c optionId value (h c (List.mem_cons_self _ _))
      · exact h item (List.mem_cons_of_mem _ hi)
    · rcases List.mem_cons.mp hi with rfl | hi
      · exact h _ (List.mem_cons_self _ _)
      · exact ih (fun x hx => h x (List.mem_cons_of_mem _ hx)) item hi

theorem addParameter_valid (board : Board) (key value : JSString) (h : board.valid) :
    (board.addParameter key value).valid := by
  unfold Board.addParameter
  cases menuMatch key with
  | none => exact h
  | some groups =>
    obtain ⟨configId, optionId⟩ := groups
    exact addToItems_valid _ configId optionId value board._configItems h

theorem select_valid (target : ConfigItem) (optionId : JSString) (h : target.valid) :
    ∀ options : List ConfigOption, (∀ o ∈ options, o ∈ target.options) →
      (target.select optionId options).1.valid := by
  intro options
  induction options with
  | nil => intro _; exact h
  | cons o rest ih =>
    intro hsub
    rw [ConfigItem.select]
    split
    · rename_i ho
      split
      · refine ⟨h.1, h.2.1, ?_⟩
        dsimp only
        exact List.mem_map.mpr ⟨o, hsub o (List.mem_cons_self _ _), ho⟩
      · exact h
    · exact ih (fun x hx => hsub x (List.mem_cons_of_mem _ hx))

theorem updateItems_valid (configId optionId : JSString) (items : List ConfigItem)
    (h : ∀ item ∈ items, item.valid) :
    ∀ item ∈ (updateItems configId optionId items).1, item.valid := by
  induction items with
  | nil => intro item hi; simp [updateItems] at hi
  | cons c rest ih =>
    intro item hi
    rw [updateItems] at hi
    split at hi
    · rcases List.mem_cons.mp hi with rfl | hi
      · exact select_valid c optionId (h c (List.mem_cons_self _ _)) c.options (fun _ ho => ho)
      · exact h item (List.mem_cons_of_mem _ hi)
    · rcases List.mem_cons.mp hi with rfl | hi
      · exact h _ (List.mem_cons_self _ _)
      · exact ih (fun x hx => h x (List.mem_cons_of_mem _ hx)) item hi

theorem updateConfig_valid (board : Board) (configId optionId : JSString) (h : board.valid) :
    (board.updateConfig configId optionId).1.valid :=
  updateItems_valid configId optionId board._configItems h

theorem resetItems_valid (items : List ConfigItem) (h : ∀ item ∈ items, item.valid) :
    ∃ reset, resetItems items = some reset ∧ ∀ item ∈ reset, item.valid := by
  induction items with
  | nil => exact ⟨[], rfl, by simp⟩
  | cons c rest ih =>
    obtain ⟨reset, h1, h2⟩ := ih (fun x hx => h x (List.mem_cons_of_mem _ hx))
    obtain ⟨hc1, hc2, hc3⟩ := h c (List.mem_cons_self _ _)
    cases ho : c.options with
    | nil => exact absurd ho hc1
    | cons o os =>
      refine ⟨{ c with selectedOption := o.id } :: reset, ?_, ?_⟩
      · simp only [resetItems, ho, h1, Option.map_some']
      · intro item hi
        rcases List.mem_cons.mp hi with rfl | hi
        · refine ⟨hc1, hc2, ?_⟩
          dsimp only
          rw [ho]
          simp
        · exact h2 item hi

theorem resetConfig_valid (board : Board) (h : board.valid) :
    ∃ reset, board.resetConfig = some reset ∧ reset.valid := by
  obtain ⟨items, h1, h2⟩ := resetItems_valid board._configItems h
  exact ⟨{ board with _configItems := items }, by simp only [Board.resetConfig, h1, Option.map_some'],
    h2⟩

theorem loadSections_valid (sections : List JSString) :
    ∀ (board : Board) (result : BoardConfigResult), board.valid →
      (board.loadSections result sections).1.valid := by
  induction sections with
  | nil => intro board result h; exact h
  | cons sect rest ih =>
    intro board result h
    rw [Board.loadSections]
    cases keyValueMatch sect with
    | none => exact h
    | some groups =>
      obtain ⟨configId, optionId⟩ := groups
      have hv := updateConfig_valid board configId optionId h
      dsimp only
      cases (board.updateConfig configId optionId).2 with
      | Success => exact ih _ _ hv
      | SuccessNoChange => exact ih _ _ hv
      | InvalidConfigID => exact hv
      | InvalidOptionID => exact hv
      | InvalidFormat => exact hv

theorem loadConfig_valid (board : Board) (configString : Option JSString) (h : board.valid) :
    ∃ after result, board.loadConfig configString = some (after, result) ∧ after.valid := by
  obtain ⟨reset, h1, h2⟩ := resetConfig_valid board h
  unfold Board.loadConfig
  cases configString with
  | none => exact ⟨reset, .Success, by simp only [h1, Option.map_some'], h2⟩
  | some text =>
    dsimp only
    split
    · exact ⟨reset, .Success, by simp only [h1, Option.map_some'], h2⟩
    · exact ⟨_, _, rfl, loadSections_valid _ board .Success h⟩

theorem call_valid (board : Board) (call : BoardCall) (h : board.valid) :
    ∃ next, board.call call = some next ∧ next.valid := by
  cases call with
  | addParameter key value => exact ⟨_, rfl, addParameter_valid board key value h⟩
  | updateConfig configId optionId => exact ⟨_, rfl, updateConfig_valid board configId optionId h⟩
  | loadConfig configString =>
    obtain ⟨after, result, h1, h2⟩ := loadConfig_valid board configString h
    exact ⟨after, by simp only [Board.call, h1, Option.map_some'], h2⟩
  | resetConfig => exact resetConfig_valid board h

theorem run_valid (calls : List BoardCall) :
    ∀ board : Board, board.valid → ∃ last, board.run calls = some last ∧ last.valid := by
  induction calls with
  | nil => intro board h; exact ⟨board, rfl, h⟩
  | cons call rest ih =>
    intro board h
    obtain ⟨next, h1, h2⟩ := call_valid board call h
    obtain ⟨last, h3, h4⟩ := ih next h2
    exact ⟨last, by simp only [Board.run, h1, h3], h4⟩

/-- C39: every sequence of calls of `addParameter`, `updateConfig`, `loadConfig` and
`resetConfig` on a newly constructed board runs through without a throw, and in the board it
reaches every config item has an option, no two options of an item have the same id, and the
item's `selectedOption` is the id of one of its options; so a further `resetConfig` finds
`options[0]` on every item, and a further `updateConfig` or `loadConfig` selects an option of
the item again. -/
theorem config_items_in_order (_board : JSString) (_platform : Platform)
    (_menuMap : List (JSString × JSString)) (calls : List BoardCall) :
    ∃ board, (Board.new _board _platform _menuMap).run calls = some board ∧
      (∀ item ∈ board._configItems,
        item.options ≠ [] ∧ (item.options.map (fun o => o.id)).Nodup ∧
          item.selectedOption ∈ item.options.map (fun o => o.id)) ∧
      (∃ reset, board.resetConfig = some reset) ∧
      (∀ configString, ∃ after result, board.loadConfig configString = some (after, result)) := by
  obtain ⟨board, h1, h2⟩ := run_valid calls (Board.new _board _platform _menuMap)
    (by intro item hi; simp [Board.new] at hi)
  obtain ⟨reset, h3, _⟩ := resetConfig_valid board h2
  refine ⟨board, h1, h2, ⟨reset, h3⟩, ?_⟩
  intro configString
  obtain ⟨after, result, h4, _⟩ := loadConfig_valid board configString h2
  exact ⟨after, result, h4⟩

/-! ### Claim C16 on the parse of a document: the last header that declares the root -/

theorem passes_snoc (letter : Nat → Bool) (document : TextDocument) :
    ∀ (k : Nat) (state state1 state2 : ScanState),
      passes letter document k state = some state1 → state1.i < document.lines.length →
      scanStep letter document state1 = .next state2 →
      passes letter document (k + 1) state = some state2 := by
  intro k
  induction k with
  | zero =>
    intro state state1 state2 h hi hs
    simp only [passes, Option.some.injEq] at h
    subst h
    simp only [passes, if_pos hi, hs]
  | succ k ih =>
    intro state state1 state2 h hi hs
    obtain ⟨st, h1, h2⟩ := passes_succ letter document k state state1 h
    have h3 := ih st state1 state2 h2 hi hs
    have hlt : state.i < document.lines.length := by
      by_contra hc
      simp only [passes, if_neg hc] at h
      exact absurd h (by simp)
    rw [passes, if_pos hlt, h1]
    exact h3

theorem passes_none_later (letter : Nat → Bool) (document : TextDocument) :
    ∀ (k m : Nat) (state : ScanState), passes letter document k state = none →
      passes letter document (k + m) state = none := by
  intro k
  induction k with
  | zero => intro m state h; simp [passes] at h
  | succ k ih =>
    intro m state h
    rw [show k + 1 + m = (k + m) + 1 by omega]
    rw [passes] at h ⊢
    split
    · rename_i hi
      rw [if_pos hi] at h
      cases hs : scanStep letter document state with
      | next st =>
        rw [hs] at h
        exact ih m st h
      | stop st => rfl
      | thrown => rfl
    · rfl

theorem declaredRoot_some (letter : Nat → Bool) (document : TextDocument) (state : ScanState)
    (name : JSString) (h : state.declaredRoot letter document = some name) :
    state.j = 0 ∧ ∃ tag rest, headerMatch letter (document.lineAt state.i) = some (tag, rest) ∧
      declaresRoot ⟨tag, rest, document.restOfLine state.i state.j⟩ = true ∧
      (sectionAttributes rest).1.get "name" = some name := by
  unfold ScanState.declaredRoot at h
  split at h
  · rename_i hj
    refine ⟨hj, ?_⟩
    split at h
    · rename_i tag rest hh
      split at h
      · rename_i hd
        exact ⟨tag, rest, hh, hd, h⟩
      · exact absurd h (by simp)
    · exact absurd h (by simp)
  · exact absurd h (by simp)

/-- A pass that declares a root node name sets `rootNode` to it. -/
theorem scanStep_rootNode_set (letter : Nat → Bool) (document : TextDocument)
    (state : ScanState) (g : GDAsset) (name : JSString) (hg : state.gdasset = some g)
    (hroot : state.declaredRoot letter document = some name) :
    ∃ state' g', scanStep letter document state = .next state' ∧ state'.gdasset = some g' ∧
      g'.rootNode = some name ∧ name ≠ [] := by
  obtain ⟨hj, tag, rest, hh, hd, hn⟩ := declaredRoot_some letter document state name hroot
  rw [scanStep_header letter document state tag rest hj hh,
    sectionBranch_eq document state tag rest (headerMatch_tag letter _ tag rest hh)]
  refine ⟨_, _, rfl, by dsimp only; rw [hg]; rfl, ?_, ?_⟩
  · have := sectionSymbol_rootNode document.uriPath
      ⟨tag, rest, document.restOfLine state.i state.j⟩ g
    dsimp only at this
    rw [this, if_pos hd, hn]
  · simp only [declaresRoot, Bool.and_eq_true] at hd
    have ht := hd.2
    rw [hn] at ht
    obtain ⟨s, hs, hne⟩ := (truthy_iff _).mp ht
    simp only [Option.some.injEq] at hs
    rw [hs]
    exact hne

/-- A pass that declares no root node name leaves `rootNode` as it is. -/
theorem scanStep_rootNode_kept (letter : Nat → Bool) (document : TextDocument)
    (state state' : ScanState) (g : GDAsset)
    (hj : state.j ≤ (document.lineAt state.i).length) (hg : state.gdasset = some g)
    (hroot : state.declaredRoot letter document = none)
    (h : scanStep letter document state = .next state') :
    ∃ g', state'.gdasset = some g' ∧ g'.rootNode = g.rootNode := by
  rcases scanStep_cases letter document state with
    ⟨tag, rest, hj0, hh, he⟩ | ⟨m, hj0, hp, he⟩ | ⟨sp, c, hcm, he⟩ | ⟨t, ht, _, he⟩ |
    ⟨k, hk1, hk2, _, _, he⟩
  · rw [he, sectionBranch_eq document state tag rest (headerMatch_tag letter _ tag rest hh)] at h
    simp only [StepResult.next.injEq] at h
    rw [← h]
    dsimp only
    rw [hg]
    refine ⟨_, rfl, ?_⟩
    have hd : declaresRoot ⟨tag, rest, document.restOfLine state.i state.j⟩ = false := by
      rw [hj0, List.drop_zero] at hh
      unfold ScanState.declaredRoot at hroot
      simp only [hj0, if_true, hh] at hroot
      by_contra hc
      have hc2 : declaresRoot ⟨tag, rest, document.restOfLine state.i state.j⟩ = true := by
        simpa using hc
      rw [hj0] at hc2
      rw [if_pos hc2] at hroot
      simp only [declaresRoot, Bool.and_eq_true] at hc2
      have ht := hc2.2
      rw [hroot] at ht
      simp [truthy] at ht
    have := sectionSymbol_rootNode document.uriPath
      ⟨tag, rest, document.restOfLine state.i state.j⟩ g
    dsimp only at this
    rw [this, hd]
    simp
  · obtain ⟨st, hs, _, _, hg2, _⟩ := propertyBranch_next document state m
      (propertyMatch_facts letter _ m hp).2.2
    rw [he, hs] at h
    simp only [StepResult.next.injEq] at h
    rw [← h, hg2, hg]
    exact ⟨g, rfl, rfl⟩
  · rw [he] at h
    unfold commentBranch at h
    simp only [StepResult.next.injEq] at h
    rw [← h]
    dsimp only
    rw [hg]
    cases c with
    | none => exact ⟨g, rfl, rfl⟩
    | some text =>
      cases text with
      | nil => exact ⟨g, rfl, rfl⟩
      | cons c0 text => exact ⟨_, rfl, rfl⟩
  · rw [he, ht] at h
    rcases stringBranch_cases document state t hj ht with h2 | ⟨i, j, v, h2, _, _⟩
    · rw [h2] at h
      exact absurd h (by simp)
    · rw [h2] at h
      simp only [StepResult.next.injEq] at h
      rw [← h, (afterFragment_fields _ _ _ _ _).2.2.1, hg]
      exact ⟨_, rfl, rfl⟩
  · rw [he] at h
    simp only [StepResult.next.injEq] at h
    rw [← h, (afterFragment_fields _ _ _ _ _).2.2.1, hg]
    exact ⟨g, rfl, rfl⟩

theorem lineAt_beyond (document : TextDocument) (i : Nat) (h : document.lines.length ≤ i) :
    document.lineAt i = [] := by
  unfold TextDocument.lineAt
  rw [List.getD_eq_getElem?_getD, List.getElem?_eq_none (by omega)]
  rfl

theorem headerMatch_nil (letter : Nat → Bool) : headerMatch letter [] = none := by
  cases h : headerMatch letter [] with
  | none => rfl
  | some m =>
    exfalso
    revert h
    simp [headerMatch, headerMatchCodePoints, codePoints]

/-- C16, amended: in the parse of an asset document, when a pass of the scanner declares the
root node name `name` (it starts at column 0 of a line that the header expression accepts as a
`node` header without a `parent` attribute and with a non-empty `name`) and no later pass
declares one, `provideDocumentSymbols` returns a state whose `rootNode` is `name`: the name of
the last header taken that declares the root, whatever earlier headers declared. -/
theorem rootNode_last_taken (letter : Nat → Bool) (document : TextDocument) (k : Nat)
    (state : ScanState) (name : JSString)
    (hlang : document.languageId ≠ js "config-definition")
    (hreach : reached letter document k = some state)
    (hroot : state.declaredRoot letter document = some name)
    (hlast : ∀ (k' : Nat) (state' : ScanState), k < k' →
      reached letter document k' = some state' →
      state'.declaredRoot letter document = none) :
    ∃ result gdasset, provideDocumentSymbols letter document = .returned result ∧
      result.gdasset = some gdasset ∧ gdasset.rootNode = some name ∧ name ≠ [] := by
  obtain ⟨⟨g, hg⟩, hj, fuel, hfuel, hrun⟩ := reached_invariant letter document
    (fun st => ∃ g, st.gdasset = some g)
    ⟨GDAsset.new, by simp only [ScanState.initial, if_neg hlang]⟩
    (fun st st' _ hj hP h => by
      obtain ⟨g, hg⟩ := hP
      obtain ⟨g', _, hg', _⟩ := scanStep_strings letter document st st' hj h g hg
      exact ⟨g', hg'⟩) k state hreach
  obtain ⟨state1, g1, hs, hg1, hr1, hne⟩ := scanStep_rootNode_set letter document state g name
    hg hroot
  have hi : state.i < document.lines.length := by
    by_contra hc
    obtain ⟨_, tag, rest, hh, _⟩ := declaredRoot_some letter document state name hroot
    rw [lineAt_beyond document state.i (by omega), headerMatch_nil] at hh
    exact absurd hh (by simp)
  have hc := scanStep_cursor letter document state state1 hj hs
  have hr := scanStep_remaining letter document state state1 hi hj hs
  have hreach1 : reached letter document (k + 1) = some state1 :=
    passes_snoc letter document k _ state state1 hreach hi hs
  obtain ⟨f, hf⟩ : ∃ f, fuel = f + 1 := ⟨fuel - 1, by omega⟩
  obtain ⟨last, ⟨_, g2, hg2, hr2⟩, _, hret⟩ := scanLoop_invariant letter document
    (fun st => (∃ k', k < k' ∧ reached letter document k' = some st) ∧
      ∃ g', st.gdasset = some g' ∧ g'.rootNode = some name)
    (fun st st' hi' hj' hP h => by
      obtain ⟨⟨k', hk', hreach'⟩, g', hg', hr'⟩ := hP
      refine ⟨⟨k' + 1, by omega, passes_snoc letter document k' _ st st' hreach' hi' h⟩, ?_⟩
      obtain ⟨g'', hg'', hr''⟩ := scanStep_rootNode_kept letter document st st' g' hj' hg'
        (hlast k' st hk' hreach') h
      exact ⟨g'', hg'', by rw [hr'', hr']⟩)
    f state1 hc.1 ⟨⟨k + 1, by omega, hreach1⟩, g1, hg1, hr1⟩ (by omega)
  refine ⟨⟨last.closedRoots, last.gdasset⟩, g2, ?_, hg2, hr2, hne⟩
  rw [hrun, hf]
  unfold scanLoop
  rw [if_pos hi, hs]
  exact hret

/-- C16, amended, at an instance: in the document `[node name="A"]` / `[node name="B"]` the
second pass declares `B` and no later pass declares a root, so `rootNode` is `B`. -/
theorem rootNode_last_taken_witness :
    reached latin1Letter sampleTwoRoots 1 = some sampleAfterFirstRoot ∧
    sampleAfterFirstRoot.declaredRoot latin1Letter sampleTwoRoots = some (js "B") ∧
    (ScanState.initial sampleTwoRoots).declaredRoot latin1Letter sampleTwoRoots =
      some (js "A") ∧
    ∃ result gdasset, provideDocumentSymbols latin1Letter sampleTwoRoots = .returned result ∧
      result.gdasset = some gdasset ∧ gdasset.rootNode = some (js "B") ∧ js "B" ≠ [] :=
  ⟨by rfl, by rfl, by rfl,
    rootNode_last_taken latin1Letter sampleTwoRoots 1 sampleAfterFirstRoot (js "B")
      (by decide) (by rfl) (by rfl)
      (fun k' state' hk hreach => by
        have h3 : reached latin1Letter sampleTwoRoots 3 = none := by rfl
        by_cases h2 : k' = 2
        · subst h2
          have e : reached latin1Letter sampleTwoRoots 2 =
              some ((reached latin1Letter sampleTwoRoots 2).getD sampleAfterFirstRoot) := by rfl
          rw [e] at hreach
          simp only [Option.some.injEq] at hreach
          rw [← hreach]
          rfl
        · have hn := passes_none_later latin1Letter sampleTwoRoots 3 (k' - 3)
            (ScanState.initial sampleTwoRoots) h3
          rw [show 3 + (k' - 3) = k' by omega] at hn
          unfold reached at hreach
          rw [hn] at hreach
          exact absurd hreach (by simp))⟩

/-! ### Claims C19 and C38 on a header whose quoted attribute value holds a `#` -/

/-- C19 fails on the one-line document `[node name="A#"]`: the header expression does not
accept the line, whose attribute text it cuts at the `#` inside the quoted name, and
`provideDocumentSymbols` returns no symbol at all.  With `_` in the place of `#` the same
header gives the one root symbol, without children, over (0,0)-(0,16); and in a tag, as in
`[foo "a#b"]`, the same expression takes a `#` between quotes as text, and the header gives its
root symbol. -/
theorem header_with_hash_no_symbol :
    headerMatch latin1Letter (sampleHashHeader.lineAt 0) = none ∧
    (provideDocumentSymbols latin1Letter sampleHashHeader).rows = some [] ∧
    (sampleHashHeader.lineAt 0).length = 16 ∧ (samplePlainHeader.lineAt 0).length = 16 ∧
    (provideDocumentSymbols latin1Letter samplePlainHeader).rows =
      some [(0, js "$/root/A_", [], SymbolKind.Object,
        ⟨⟨0, 0⟩, ⟨0, 16⟩⟩, ⟨⟨0, 0⟩, ⟨0, 16⟩⟩)] ∧
    (provideDocumentSymbols latin1Letter sampleQuotedTag).rows =
      some [(0, js "foo \"a#b\"", [], SymbolKind.Namespace,
        ⟨⟨0, 0⟩, ⟨0, 11⟩⟩, ⟨⟨0, 0⟩, ⟨0, 11⟩⟩)] :=
  ⟨by decide, by rfl, by rfl, by rfl, by rfl, by rfl⟩

/-- C38 fails on the document whose one line is the section header `[node name="A#"]`: the
parse records the quoted attribute value as a string token over (0,11)-(0,15), and
`isInString` and `isNonCode` are true at (0,13), inside the quoted name.  With `_` in the place
of `#` the same header records no token, and both are false there. -/
theorem header_with_hash_string_token :
    (provideDocumentSymbols latin1Letter sampleHashHeader).gdasset =
      some ⟨none, none, ⟨⟨[], none⟩, ⟨[], none⟩⟩, [⟨⟨⟨0, 11⟩, ⟨0, 15⟩⟩, js "A#"⟩], []⟩ ∧
    GDAsset.isInString ⟨none, none, ⟨⟨[], none⟩, ⟨[], none⟩⟩,
      [⟨⟨⟨0, 11⟩, ⟨0, 15⟩⟩, js "A#"⟩], []⟩ ⟨0, 13⟩ = true ∧
    GDAsset.isNonCode ⟨none, none, ⟨⟨[], none⟩, ⟨[], none⟩⟩,
      [⟨⟨⟨0, 11⟩, ⟨0, 15⟩⟩, js "A#"⟩], []⟩ ⟨0, 13⟩ = true ∧
    (provideDocumentSymbols latin1Letter samplePlainHeader).gdasset =
      some ⟨some (js "A_"), none, ⟨⟨[], none⟩, ⟨[], none⟩⟩, [], []⟩ ∧
    GDAsset.isInString ⟨some (js "A_"), none, ⟨⟨[], none⟩, ⟨[], none⟩⟩, [], []⟩ ⟨0, 13⟩ =
      false ∧
    GDAsset.isNonCode ⟨some (js "A_"), none, ⟨⟨[], none⟩, ⟨[], none⟩⟩, [], []⟩ ⟨0, 13⟩ =
      false :=
  ⟨by rfl, by rfl, by rfl, by rfl, by rfl, by rfl⟩

/-- The header `[node name="B#"]` is not taken as a header: in the document
`[node name="A"]` / `[node name="B#"]` `rootNode` is `A` after the parse; and the `#` of a
quoted property value, as in `a = "x#y"`, is part of its string token. -/
theorem header_with_hash_not_taken :
    headerMatch latin1Letter (sampleHashRoot.lineAt 1) = none ∧
    (provideDocumentSymbols latin1Letter sampleHashRoot).gdasset.map (fun g => g.rootNode) =
      some (some (js "A")) ∧
    (provideDocumentSymbols latin1Letter sampleHashValue).gdasset.map
      (fun g => (g.strings, g.comments)) = some ([⟨⟨⟨0, 4⟩, ⟨0, 9⟩⟩, js "x#y"⟩], []) :=
  ⟨by decide, by rfl, by rfl⟩

/-! ### Claim C31: re-parsing an unedited document -/

theorem Defs.set_set (defs : Defs) (key : JSString) (gdasset : GDAsset) :
    (defs.set key gdasset).set key gdasset = defs.set key gdasset := by
  simp [Defs.set, List.filter_filter]

theorem Defs.find_filter_other (key other : JSString) (h : other ≠ key) (defs : Defs) :
    List.find? (fun entry => entry.1 == other)
        (List.filter (fun entry => !(entry.1 == key)) defs) =
      List.find? (fun entry => entry.1 == other) defs := by
  induction defs with
  | nil => rfl
  | cons entry rest ih =>
    by_cases he : entry.1 = key
    · have hne : ¬ entry.1 = other := fun e => h (e.symm.trans he)
      have hb1 : (entry.1 == key) = true := by simp [he]
      have hb2 : (entry.1 == other) = false := by simp [hne]
      rw [List.filter_cons, List.find?_cons, hb1, hb2]
      exact ih
    · have hb1 : (entry.1 == key) = false := by simp [he]
      rw [List.filter_cons, hb1]
      simp only [Bool.not_false, if_true, List.find?_cons]
      rw [ih]

theorem Defs.get_set_other (defs : Defs) (key other : JSString) (gdasset : GDAsset)
    (h : other ≠ key) : (defs.set key gdasset).get other = defs.get other := by
  have hb : (key == other) = false := by
    simp only [beq_eq_false_iff_ne, ne_eq]
    exact fun e => h e.symm
  unfold Defs.get Defs.set
  rw [List.find?_cons]
  dsimp only
  rw [hb]
  dsimp only
  rw [Defs.find_filter_other key other h defs]

/-- C31: re-parsing an unedited document.  For every provider, whatever states it holds (also a
state stored earlier under the URI of the document), and for every document: a second call of
`provideDocumentSymbols` on the document, made on the provider as the first call has left it,
ends as the first call did, with the same symbol trees; it leaves the provider as it was; for
an asset document the state then stored under the document's URI is the state that the first
call returned and stored (the second run starts from a new state and appends nothing to the
cached one); and the states stored under other URIs are as before the two calls. -/
theorem reparse_idempotent (letter : Nat → Bool) (provider : GDAssetProvider)
    (document : TextDocument) :
    ((provider.parse letter document).1.parse letter document).2 =
      (provider.parse letter document).2 ∧
    ((provider.parse letter document).1.parse letter document).1 =
      (provider.parse letter document).1 ∧
    (document.languageId ≠ js "config-definition" →
      ∃ result gdasset, (provider.parse letter document).2 = .returned result ∧
        result.gdasset = some gdasset ∧
        (provider.parse letter document).1.defs.get document.uri = some gdasset ∧
        ((provider.parse letter document).1.parse letter document).1.defs.get document.uri =
          some gdasset) ∧
    (∀ uri : JSString, uri ≠ document.uri →
      ((provider.parse letter document).1.parse letter document).1.defs.get uri =
        provider.defs.get uri) := by
  have hsame : ((provider.parse letter document).1.parse letter document).1 =
      (provider.parse letter document).1 := by
    simp only [GDAssetProvider.parse, GDAssetProvider.provideDocumentSymbols]
    cases (provideDocumentSymbols letter document).gdasset with
    | none => rfl
    | some g =>
      dsimp only
      rw [Defs.set_set]
  refine ⟨rfl, hsame, ?_, ?_⟩
  · intro hlang
    obtain ⟨result, gdasset, h1, h2⟩ := provideDocumentSymbols_state letter document hlang
    have h3 : (provideDocumentSymbols letter document).gdasset = some gdasset := by
      rw [h1]; exact h2
    have h4 : (provider.parse letter document).1.defs.get document.uri = some gdasset := by
      simp only [GDAssetProvider.parse, GDAssetProvider.provideDocumentSymbols, h3]
      exact Defs.get_after_set _ _ _
    refine ⟨result, gdasset, h1, h2, h4, ?_⟩
    rw [hsame]
    exact h4
  · intro uri huri
    rw [hsame]
    simp only [GDAssetProvider.parse, GDAssetProvider.provideDocumentSymbols]
    cases (provideDocumentSymbols letter document).gdasset with
    | none => rfl
    | some g => exact Defs.get_set_other _ _ _ _ huri

/-- C31 at an instance: the provider holds a state for the text `a = "x"`; the document of the
same URI with the text `a = "xyz"` is parsed twice.  After the first and after the second
call the stored state has the one string token `xyz`. -/
theorem reparse_idempotent_witness :
    sampleQuotedEdited.languageId ≠ js "config-definition" ∧
    (sampleProvider.defs.get sampleQuotedEdited.uri).map (fun g => g.strings) =
      some [⟨⟨⟨0, 4⟩, ⟨0, 7⟩⟩, js "x"⟩] ∧
    ((sampleProvider.parse latin1Letter sampleQuotedEdited).1.defs.get
      sampleQuotedEdited.uri).map (fun g => g.strings) =
        some [⟨⟨⟨0, 4⟩, ⟨0, 9⟩⟩, js "xyz"⟩] ∧
    (((sampleProvider.parse latin1Letter sampleQuotedEdited).1.parse latin1Letter
      sampleQuotedEdited).1.defs.get sampleQuotedEdited.uri).map (fun g => g.strings) =
        some [⟨⟨⟨0, 4⟩, ⟨0, 9⟩⟩, js "xyz"⟩] ∧
    ∃ result gdasset,
      (sampleProvider.parse latin1Letter sampleQuotedEdited).2 = .returned result ∧
      result.gdasset = some gdasset ∧
      (sampleProvider.parse latin1Letter sampleQuotedEdited).1.defs.get
        sampleQuotedEdited.uri = some gdasset ∧
      ((sampleProvider.parse latin1Letter sampleQuotedEdited).1.parse latin1Letter
        sampleQuotedEdited).1.defs.get sampleQuotedEdited.uri = some gdasset :=
  ⟨by decide, by rfl, by rfl, by rfl,
    (reparse_idempotent latin1Letter sampleProvider sampleQuotedEdited).2.2.1 (by decide)⟩

end GodotFiles
